import Mathlib

/-!
# zenjson: in-situ JSON parser and serializer

A shallow embedding of `src/zenjson/deserialize.h`, `src/zenjson/serialize.h`,
`src/zenjson/value.h` and the number-to-text routines of
`src/singleheader/zenjson.h`.

Conventions of the embedding

* a byte is a `Nat` below 256; a buffer is a `List Nat`; a `char*` is an index
  into the buffer;
* every memory access is checked: reading or writing at an index that is not
  inside the buffer yields `Res.fault (Fault.outOfBounds i)`;
* loops are written with a fuel argument; every loop advances the cursor by at
  least one byte per round, so the entry points pass the buffer length;
* the arena is represented by the number of node allocations it can serve.
-/

namespace zjson

/-! ## Outcomes of a computation over the buffer -/

/-- Undefined behaviour that the embedding detects instead of performing. -/
inductive Fault where
  /-- an access at index `i`, which is not inside the buffer -/
  | outOfBounds (i : Nat)
  /-- a store through a null node pointer -/
  | nullDeref
  /-- an access of `tails[top]` or `endchars[top]` with `top == -1` -/
  | stackIndex
  /-- a loop ran out of fuel -/
  | outOfFuel
  deriving DecidableEq, Repr

/-- Result of a computation that may hit undefined behaviour. -/
inductive Res (α : Type) where
  | ok (a : α)
  | fault (f : Fault)
  deriving DecidableEq, Repr

/-- Sequencing of checked computations. -/
def Res.bind {α β : Type} : Res α → (α → Res β) → Res β
  | .ok a, f => f a
  | .fault e, _ => .fault e

instance : Monad Res where
  pure := Res.ok
  bind := Res.bind

@[simp] theorem Res.ok_bind {α β : Type} (a : α) (f : α → Res β) :
    (Res.ok a >>= f) = f a := rfl

@[simp] theorem Res.fault_bind {α β : Type} (e : Fault) (f : α → Res β) :
    ((Res.fault e : Res α) >>= f) = Res.fault e := rfl

@[simp] theorem Res.pure_eq {α : Type} (a : α) : (pure a : Res α) = Res.ok a := rfl

/-- Checked read of `buf[i]`. -/
def rd (buf : List Nat) (i : Nat) : Res Nat :=
  match buf[i]? with
  | some c => .ok c
  | none => .fault (.outOfBounds i)

/-- Checked store `buf[i] = v`. -/
def wr (buf : List Nat) (i : Nat) (v : Nat) : Res (List Nat) :=
  if i < buf.length then .ok (buf.set i v) else .fault (.outOfBounds i)

/-- Bytes of a text. -/
def bytes (t : String) : List Nat := t.toList.map Char.toNat

/-- Bytes of a text followed by the terminating NUL. -/
def cstr (t : String) : List Nat := bytes t ++ [0]

/-! ## base.h -/

/-- The enum `Error` of base.h. -/
inductive Error where
  | ERROR_NO_ERROR
  | ERROR_BAD_NUMBER
  | ERROR_BAD_STRING
  | ERROR_BAD_IDENTIFIER
  | ERROR_BAD_ROOT
  | ERROR_STACK_OVERFLOW
  | ERROR_STACK_UNDERFLOW
  | ERROR_MISMATCH_BRACKET
  | ERROR_UNEXPECTED_CHARACTER
  | ERROR_BREAKING_BAD
  | ERROR_OUT_OF_MEMORY
  deriving DecidableEq, Repr

/-- The enum `Type` of base.h. -/
inductive JType where
  | JSON_NUMBER
  | JSON_INT
  | JSON_STRING
  | JSON_ARRAY
  | JSON_OBJECT
  | JSON_TRUE
  | JSON_FALSE
  | JSON_NULL
  deriving DecidableEq, Repr

/-! ## value.h: values and node chains

`S` is the representation of a `char*` payload: an index into the parse buffer
(`Nat`) for the trees the parser builds, or the bytes of the C string
(`List Nat`) for the trees the serializer reads. -/

mutual
/-- A `Value`: the tag and its payload. A double is kept as its 64-bit pattern. -/
inductive Value (S : Type) where
  | number (bits : Nat)
  | int (n : Int)
  | string (s : S)
  | array (head : Nodes S)
  | object (head : Nodes S)
  | jtrue
  | jfalse
  | null
/-- A null-terminated chain of `Node`s: `nil` is the null pointer. An array
node has no `name` field. -/
inductive Nodes (S : Type) where
  | nil
  | cons (value : Value S) (name : Option S) (next : Nodes S)
end

/-- The result of `Value::getType`. -/
def Value.getType {S : Type} : Value S → JType
  | .number _ => .JSON_NUMBER
  | .int _ => .JSON_INT
  | .string _ => .JSON_STRING
  | .array _ => .JSON_ARRAY
  | .object _ => .JSON_OBJECT
  | .jtrue => .JSON_TRUE
  | .jfalse => .JSON_FALSE
  | .null => .JSON_NULL

/-- The result of `Value::toInt` (0 stands for the failed assertion on another type). -/
def Value.toInt {S : Type} : Value S → Int
  | .int n => n
  | _ => 0

/-! ## deserialize.h: byte classes -/

/-- Flag `FLAG_TEXT_BREAK`. -/
def FLAG_TEXT_BREAK : Nat := 1
/-- Flag `FLAG_WHITESPACE`. -/
def FLAG_WHITESPACE : Nat := 2
/-- Flag `FLAG_DIGIT`. -/
def FLAG_DIGIT : Nat := 4
/-- Flag `FLAG_NUMBER`. -/
def FLAG_NUMBER : Nat := 8

/-- The table `flags[256]` of `matchFlag`, row by row as in the source. -/
def flags : List Nat :=
  [ 3,   2,   2,   2,   2,   2,   2,   2,   2,   2,   3,   2,   2,   3,   2,   2,
    2,   2,   2,   2,   2,   2,   2,   2,   2,   2,   2,   2,   2,   2,   2,   2,
    2,   0,   1,   0,   0,   0,   0,   0,   0,   0,   0,   0,   0,   0,   8,   0,
    12,  12,  12,  12,  12,  12,  12,  12,  12,  12,  0,   0,   0,   0,   0,   0,
    0,   0,   0,   0,   0,   8,   0,   0,   0,   0,   0,   0,   0,   0,   0,   0,
    0,   0,   0,   0,   0,   0,   0,   0,   0,   0,   0,   0,   1,   0,   0,   0,
    0,   0,   0,   0,   0,   8,   0,   0,   0,   0,   0,   0,   0,   0,   0,   0,
    0,   0,   0,   0,   0,   0,   0,   0,   0,   0,   0,   0,   0,   0,   0,   0,
    0,0,0,0,0,0,0,0,  0,0,0,0,0,0,0,0,  0,0,0,0,0,0,0,0,  0,0,0,0,0,0,0,0,
    0,0,0,0,0,0,0,0,  0,0,0,0,0,0,0,0,  0,0,0,0,0,0,0,0,  0,0,0,0,0,0,0,0,
    0,0,0,0,0,0,0,0,  0,0,0,0,0,0,0,0,  0,0,0,0,0,0,0,0,  0,0,0,0,0,0,0,0,
    0,0,0,0,0,0,0,0,  0,0,0,0,0,0,0,0,  0,0,0,0,0,0,0,0,  0,0,0,0,0,0,0,0 ]

/-- The function `matchFlag(c, flag)`: `flags[c] & flag`, as a truth value. -/
def matchFlag (c : Nat) (flag : Nat) : Bool :=
  (flags.getD c 0) &&& flag != 0

/-! ## deserialize.h: ZJSON_SKIP_WHITESPACE -/

/-- The inner `do ... while (matchFlag(*s, FLAG_WHITESPACE))` of the macro,
entered with `*s` a whitespace byte. Returns the new cursor. -/
def skipRun : Nat → List Nat → Nat → Res Nat
  | 0, _, _ => .fault .outOfFuel
  | fuel + 1, buf, s => do
    let c1 ← rd buf (s + 1)
    if !matchFlag c1 FLAG_WHITESPACE then pure (s + 1) else
    let c2 ← rd buf (s + 2)
    if !matchFlag c2 FLAG_WHITESPACE then pure (s + 2) else
    let c3 ← rd buf (s + 3)
    if !matchFlag c3 FLAG_WHITESPACE then pure (s + 3) else
    let c4 ← rd buf (s + 4)
    if matchFlag c4 FLAG_WHITESPACE then skipRun fuel buf (s + 4) else pure (s + 4)

/-- The loop `while (*s && *s != '\n' && *s != '\r') ++s;` of the macro. -/
def skipLine : Nat → List Nat → Nat → Res Nat
  | 0, _, _ => .fault .outOfFuel
  | fuel + 1, buf, s => do
    let c ← rd buf s
    if c ≠ 0 ∧ c ≠ 10 ∧ c ≠ 13 then skipLine fuel buf (s + 1) else pure s

/-- The outer `while (matchFlag(*s, FLAG_WHITESPACE))` of the macro. -/
def skipLoop : Nat → List Nat → Nat → Res Nat
  | 0, _, _ => .fault .outOfFuel
  | fuel + 1, buf, s => do
    let c ← rd buf s
    if !matchFlag c FLAG_WHITESPACE then pure s else
    let s1 ← skipRun buf.length buf s
    let c0 ← rd buf s1
    -- if (s[0] != '/' || s[1] != '/') break;
    if c0 ≠ 47 then pure s1 else
    let c1 ← rd buf (s1 + 1)
    if c1 ≠ 47 then pure s1 else
    let s2 ← skipLine buf.length buf (s1 + 2)
    skipLoop fuel buf s2

/-- The macro `ZJSON_SKIP_WHITESPACE` applied to the cursor `s`. -/
def skipWhitespace (buf : List Nat) (s : Nat) : Res Nat :=
  skipLoop buf.length buf s

/-! ## deserialize.h: parseStringInternal -/

/-- The first loop of `parseStringInternal`: the scan to the first
`FLAG_TEXT_BREAK` byte, four bytes per round. `scanText` is the
`do ... while`, entered with `*s` not a break byte. -/
def scanText : Nat → List Nat → Nat → Res Nat
  | 0, _, _ => .fault .outOfFuel
  | fuel + 1, buf, s => do
    let c1 ← rd buf (s + 1)
    if matchFlag c1 FLAG_TEXT_BREAK then pure (s + 1) else
    let c2 ← rd buf (s + 2)
    if matchFlag c2 FLAG_TEXT_BREAK then pure (s + 2) else
    let c3 ← rd buf (s + 3)
    if matchFlag c3 FLAG_TEXT_BREAK then pure (s + 3) else
    let c4 ← rd buf (s + 4)
    if !matchFlag c4 FLAG_TEXT_BREAK then scanText fuel buf (s + 4) else pure (s + 4)

/-- The registers of `parseStringInternal` between two escapes: the buffer,
the write cursor `pend`, the read cursor `s` and the byte `ch`. -/
structure StrState where
  buf : List Nat
  pend : Nat
  s : Nat
  ch : Nat
  deriving DecidableEq, Repr

/-- The copy loop `while (!matchFlag(ch, FLAG_TEXT_BREAK))` that moves the
bytes between two escapes down to the write cursor, four bytes per round. -/
def copyText : Nat → StrState → Res StrState
  | 0, _ => .fault .outOfFuel
  | fuel + 1, st =>
    if matchFlag st.ch FLAG_TEXT_BREAK then pure st else do
    let b1 ← wr st.buf st.pend st.ch
    let c1 ← rd b1 st.s
    if matchFlag c1 FLAG_TEXT_BREAK then
      pure { buf := b1, pend := st.pend + 1, s := st.s + 1, ch := c1 } else
    let b2 ← wr b1 (st.pend + 1) c1
    let c2 ← rd b2 (st.s + 1)
    if matchFlag c2 FLAG_TEXT_BREAK then
      pure { buf := b2, pend := st.pend + 2, s := st.s + 2, ch := c2 } else
    let b3 ← wr b2 (st.pend + 2) c2
    let c3 ← rd b3 (st.s + 2)
    if matchFlag c3 FLAG_TEXT_BREAK then
      pure { buf := b3, pend := st.pend + 3, s := st.s + 3, ch := c3 } else
    let b4 ← wr b3 (st.pend + 3) c3
    let c4 ← rd b4 (st.s + 3)
    copyText fuel { buf := b4, pend := st.pend + 4, s := st.s + 4, ch := c4 }

/-- One hexadecimal digit of a `\u` escape; `none` is the `return false`. -/
def hexDigit (c : Nat) : Option Nat :=
  if 65 ≤ c ∧ c ≤ 70 then some (c - 65 + 10)
  else if 97 ≤ c ∧ c ≤ 102 then some (c - 97 + 10)
  else if 48 ≤ c ∧ c ≤ 57 then some (c - 48)
  else none

/-- The loop `for (i = 0; i < 4; i++)` of a `\u` escape: reads `n` more hex
digits into `u`. Returns `none` for `return false`, otherwise `u`, and the cursor. -/
def parseHex4 : Nat → List Nat → Nat → Nat → Res (Option Nat × Nat)
  | 0, _, s, u => pure (some u, s)
  | n + 1, buf, s, u => do
    let c ← rd buf s
    match hexDigit c with
    | some d => parseHex4 n buf (s + 1) ((u <<< 4) % 2 ^ 32 + d)
    | none => pure (none, s + 1)

/-- The stores of a `\u` escape: the code unit `u` as 1 to 3 bytes at `pend`.
Returns the buffer and the new `pend`. -/
def writeUtf8 (buf : List Nat) (pend : Nat) (u : Nat) : Res (List Nat × Nat) :=
  if u ≠ 0 ∧ u < 0x80 then do
    let b1 ← wr buf pend u
    pure (b1, pend + 1)
  else if u < 0x800 then do
    let b1 ← wr buf pend (0xC0 ||| (u >>> 6))
    let b2 ← wr b1 (pend + 1) (0x80 ||| (u &&& 0x3F))
    pure (b2, pend + 2)
  else do
    let b1 ← wr buf pend (0xE0 ||| (u >>> 12))
    let b2 ← wr b1 (pend + 1) (0x80 ||| ((u >>> 6) &&& 0x3F))
    let b3 ← wr b2 (pend + 2) (0x80 ||| (u &&& 0x3F))
    pure (b3, pend + 3)

/-- What `parseStringInternal` leaves behind: its return value, the buffer,
the cursor `s` (passed by reference) and the final write cursor. -/
structure StrResult where
  ok : Bool
  buf : List Nat
  s : Nat
  pend : Nat
  deriving DecidableEq, Repr

/-- The loop `while (ch != '"')` of `parseStringInternal`, one escape per
round, followed by the store of the terminating NUL. -/
def unescape : Nat → StrState → Res StrResult
  | 0, _ => .fault .outOfFuel
  | fuel + 1, st =>
    if st.ch = 34 then do
      -- *pend++ = '\0'; return true;
      let b ← wr st.buf st.pend 0
      pure { ok := true, buf := b, s := st.s, pend := st.pend + 1 }
    else if st.ch ≠ 92 then
      pure { ok := false, buf := st.buf, s := st.s, pend := st.pend }
    else do
      let ch ← rd st.buf st.s
      let s := st.s + 1
      if ch = 117 then do
        match ← parseHex4 4 st.buf s 0 with
        | (none, s1) => pure { ok := false, buf := st.buf, s := s1, pend := st.pend }
        | (some u, s1) =>
          let (b, pend) ← writeUtf8 st.buf st.pend u
          let ch1 ← rd b s1
          let st1 ← copyText b.length { buf := b, pend := pend, s := s1 + 1, ch := ch1 }
          unescape fuel st1
      else if ch = 0 then
        pure { ok := false, buf := st.buf, s := s, pend := st.pend }
      else do
        -- the switch: the decoded byte, and whether the backslash is kept
        let dec : Nat := if ch = 98 then 8 else if ch = 102 then 12 else if ch = 110 then 10
          else if ch = 114 then 13 else if ch = 116 then 9 else ch
        let known : Bool := ch = 98 ∨ ch = 102 ∨ ch = 110 ∨ ch = 114 ∨ ch = 116 ∨ ch = 92 ∨ ch = 34
        let (b0, pend0) ← (if known then pure (st.buf, st.pend) else do
          let b ← wr st.buf st.pend 92
          pure (b, st.pend + 1) : Res (List Nat × Nat))
        let b ← wr b0 pend0 dec
        let ch1 ← rd b s
        let st1 ← copyText b.length { buf := b, pend := pend0 + 1, s := s + 1, ch := ch1 }
        unescape fuel st1

/-- The function `parseStringInternal(char*& s)`. -/
def parseStringInternal (buf : List Nat) (s : Nat) : Res StrResult := do
  let c0 ← rd buf s
  let s1 ← (if !matchFlag c0 FLAG_TEXT_BREAK then scanText buf.length buf s else pure s : Res Nat)
  -- uint8_t* pend = (uint8_t*)s; uint8_t ch = *s++;
  let ch ← rd buf s1
  unescape buf.length { buf := buf, pend := s1, s := s1 + 1, ch := ch }

/-! ## deserialize.h: jsonParse -/

/-- The operations on doubles that the library performs: the arithmetic of
the number case of `jsonParse` and the formatting of `writeNumber`. A double
is its 64-bit pattern. Parser and serializer are parametric in them. -/
structure FloatOps where
  /-- the conversion `static_cast<double>(n32)` -/
  ofInt : Int → Nat
  /-- the step `d * 10.0f + (ch - '0')` -/
  mulAdd10 : Nat → Nat → Nat
  /-- the step `d * pow10(exponent)` -/
  scale : Nat → Int → Nat
  /-- the negation `-d` -/
  neg : Nat → Nat
  /-- the text that `Grisu2(value, buffer, &length, &K)` followed by
  `Prettify(buffer, length, K)` leaves in the buffer for a positive `value`,
  without its NUL, or the fault of a read outside a table -/
  grisuText : Nat → Res (List Nat)

/-- A node that `jsonParse` has allocated: its `value` and, for an object
node, its `name`, a pointer into the buffer. Fresh storage is represented by
the value `null` and no name. -/
structure PNode where
  value : Value Nat
  name : Option Nat

/-- One level of the two stacks of `jsonParse`: `tails[i]` and `endchars[i]`.
The circular list that `tails[i]` points into is represented by the list of
its nodes, the last inserted one (the node `tails[i]` points to) first; the
empty list is the null pointer. -/
structure Frame where
  tail : List PNode
  endchar : Nat

/-- The function `insertAfter(tail, node)`: the new tail pointer. -/
def insertAfter (tail : List PNode) (node : PNode) : List PNode :=
  node :: tail

/-- The chain that starts at the head of a circular list, once the tail's
`next` has been set to null. -/
def toChain (tail : List PNode) : Nodes Nat :=
  tail.foldl (fun acc n => Nodes.cons n.value n.name acc) Nodes.nil

/-- The function `listToValue(type, tail)`. -/
def listToValue (type : JType) (tail : List PNode) : Value Nat :=
  if type = JType.JSON_OBJECT then Value.object (toChain tail) else Value.array (toChain tail)

/-- The store `tails[top]->value = v`. -/
def setTailValue (f : Frame) (v : Value Nat) : Res Frame :=
  match f.tail with
  | [] => .fault .nullDeref
  | n :: ns => pure { f with tail := { n with value := v } :: ns }

/-- The store `tails[top]->name = p`. -/
def setTailName (f : Frame) (p : Nat) : Res Frame :=
  match f.tail with
  | [] => .fault .nullDeref
  | n :: ns => pure { f with tail := { n with name := some p } :: ns }

/-- The variables of `jsonParse` at the head of its main loop: the buffer, the
cursor `s`, the stacks (the frame of index `top` first) and the number of
nodes taken from the allocator so far. -/
structure PState where
  buf : List Nat
  s : Nat
  stack : List Frame
  allocs : Nat

/-- What a call of `jsonParse` leaves behind: the returned code, the value
stored through the `value` pointer (`none` when nothing was stored), the
buffer and the number of nodes allocated. -/
structure ParseResult where
  code : Error
  value : Option (Value Nat)
  buf : List Nat
  allocs : Nat

/-- Either `jsonParse` has returned, or it goes on with the byte `ch`. -/
inductive Step where
  | ret (r : ParseResult)
  | cont (st : PState) (ch : Nat)

/-- The `return code;` of `jsonParse` on an error path. -/
def PState.fail (st : PState) (code : Error) : Step :=
  .ret { code := code, value := none, buf := st.buf, allocs := st.allocs }

/-- The body of `while (ch == endchars[top])`, entered after its `++s`: the
loop `for (;;)` that closes frames, together with the re-evaluation of the
`while` condition after its `break`. The fuel is the number of frames. -/
def closeLoop : Nat → PState → Res Step
  | 0, _ => .fault .outOfFuel
  | n + 1, st =>
    match st.stack with
    | [] => pure (st.fail .ERROR_STACK_UNDERFLOW)
    | f :: rest =>
      let t := if f.endchar = 125 then JType.JSON_OBJECT else JType.JSON_ARRAY
      let v := listToValue t f.tail
      match rest with
      | [] => pure (.ret { code := .ERROR_NO_ERROR, value := some v, buf := st.buf,
                           allocs := st.allocs })
      | p :: rest1 => do
        let p1 ← setTailValue p v
        let s1 ← skipWhitespace st.buf st.s
        let c ← rd st.buf s1
        if c = 44 then do
          let s2 ← skipWhitespace st.buf (s1 + 1)
          let ch ← rd st.buf s2
          -- break; then the test of `while (ch == endchars[top])`
          if ch = p1.endchar then
            closeLoop n { st with s := s2 + 1, stack := p1 :: rest1 }
          else
            pure (.cont { st with s := s2, stack := p1 :: rest1 } ch)
        else if c ≠ p1.endchar then
          pure (PState.fail { st with s := s1 + 1, stack := p1 :: rest1 } .ERROR_MISMATCH_BRACKET)
        else
          closeLoop n { st with s := s1 + 1, stack := p1 :: rest1 }

/-- The head of the main loop up to the end of `while (ch == endchars[top])`:
whitespace, the comma, the bracket check and the closing of frames. -/
def separator (st : PState) : Res Step :=
  match st.stack with
  | [] => .fault .stackIndex
  | f :: _ => do
    let s1 ← skipWhitespace st.buf st.s
    let ch ← rd st.buf s1
    if ch = 44 then
      if f.tail.isEmpty then pure (PState.fail { st with s := s1 } .ERROR_MISMATCH_BRACKET)
      else do
        let s2 ← skipWhitespace st.buf (s1 + 1)
        let ch2 ← rd st.buf s2
        if ch2 = f.endchar then closeLoop st.stack.length { st with s := s2 + 1 }
        else pure (.cont { st with s := s2 } ch2)
    else if !f.tail.isEmpty ∧ ch ≠ f.endchar then
      pure (PState.fail { st with s := s1 } .ERROR_MISMATCH_BRACKET)
    else if ch = f.endchar then closeLoop st.stack.length { st with s := s1 + 1 }
    else pure (.cont { st with s := s1 } ch)

/-- The allocation of the node of the next element and, in an object, the
parsing of its key and of the colon. `avail` is the number of nodes the
allocator can serve. -/
def newNode (avail : Nat) (st : PState) (ch : Nat) : Res Step :=
  match st.stack with
  | [] => .fault .stackIndex
  | f :: rest =>
    if avail ≤ st.allocs then pure (st.fail .ERROR_OUT_OF_MEMORY) else
    let f1 : Frame := { f with tail := insertAfter f.tail { value := Value.null, name := none } }
    let st1 : PState := { st with stack := f1 :: rest, allocs := st.allocs + 1 }
    if f.endchar = 93 then pure (.cont st1 ch) else
    if ch ≠ 34 then pure (st1.fail .ERROR_UNEXPECTED_CHARACTER) else do
    let f2 ← setTailName f1 (st.s + 1)
    let r ← parseStringInternal st.buf (st.s + 1)
    let st2 : PState := { st1 with buf := r.buf, s := r.s, stack := f2 :: rest }
    if !r.ok then pure (st2.fail .ERROR_BAD_STRING) else do
    let s3 ← skipWhitespace r.buf r.s
    let c ← rd r.buf s3
    if c ≠ 58 then pure (PState.fail { st2 with s := s3 } .ERROR_UNEXPECTED_CHARACTER) else do
    let s4 ← skipWhitespace r.buf (s3 + 1)
    let ch4 ← rd r.buf s4
    pure (.cont { st2 with s := s4 } ch4)

/-- The test `s[1] == c1 && s[2] == c2 && ...` of a literal: the bytes after
the cursor are compared one by one, and a byte is read only when all the
bytes before it matched. -/
def matchLit (buf : List Nat) (s : Nat) : List Nat → Res Bool
  | [] => pure true
  | c :: cs => do
    let b ← rd buf (s + 1)
    if b = c then matchLit buf (s + 1) cs else pure false

/-- The nine nested `if (matchFlag(ch, FLAG_DIGIT))` of `PARSE_INT_9`:
returns `n32`, the cursor and `ch`. -/
def parseInt9 : Nat → List Nat → Nat → Nat → Nat → Res (Nat × Nat × Nat)
  | 0, _, s, n32, ch => pure (n32, s, ch)
  | k + 1, buf, s, n32, ch =>
    if matchFlag ch FLAG_DIGIT then do
      let c ← rd buf (s + 1)
      parseInt9 k buf (s + 1) (n32 * 10 + (ch - 48)) c
    else pure (n32, s, ch)

/-- The loops `while (matchFlag(ch, FLAG_DIGIT))` of the double path, two
digits per round; `dec` is what a digit subtracts from `exponent` (0 before
the dot, 1 after it). Returns `d`, `exponent`, the cursor and `ch`. -/
def floatDigits (F : FloatOps) (dec : Int) :
    Nat → List Nat → Nat → Nat → Int → Nat → Res (Nat × Int × Nat × Nat)
  | 0, _, _, _, _, _ => .fault .outOfFuel
  | fuel + 1, buf, s, d, e, ch =>
    if !matchFlag ch FLAG_DIGIT then pure (d, e, s, ch) else do
    let d1 := F.mulAdd10 d (ch - 48)
    let c1 ← rd buf (s + 1)
    if !matchFlag c1 FLAG_DIGIT then pure (d1, e - dec, s + 1, c1) else do
    let d2 := F.mulAdd10 d1 (c1 - 48)
    let c2 ← rd buf (s + 2)
    floatDigits F dec fuel buf (s + 2) d2 (e - dec - dec) c2

/-- The loop over the digits of the exponent: `none` is
`return ERROR_BAD_NUMBER`, otherwise `exp`, the cursor and `ch`. -/
def expDigits : Nat → List Nat → Nat → Nat → Nat → Res (Option (Nat × Nat × Nat))
  | 0, _, _, _, _ => .fault .outOfFuel
  | fuel + 1, buf, s, exp, ch =>
    if !matchFlag ch FLAG_DIGIT then pure (some (exp, s, ch)) else
    if exp ≥ 214748364 then pure none else do
    let c ← rd buf (s + 1)
    expDigits fuel buf (s + 1) (exp * 10 + (ch - 48)) c

/-- The number case of the switch: `none` is `return ERROR_BAD_NUMBER`,
otherwise the value stored in the node and the cursor. -/
def parseNumber (F : FloatOps) (buf : List Nat) (s0 : Nat) (ch0 : Nat) :
    Res (Option (Value Nat × Nat)) := do
  let negative : Bool := ch0 = 45
  -- ch = *(s += negative);
  let s := if negative then s0 + 1 else s0
  let ch ← rd buf s
  let (n32, s, ch) ← parseInt9 9 buf s 0 ch
  if !matchFlag ch FLAG_NUMBER then
    pure (some (Value.int (if negative then -(n32 : Int) else (n32 : Int)), s))
  else do
    let (d, e, s, ch) ← floatDigits F 0 buf.length buf s (F.ofInt n32) 0 ch
    let (d, e, s, ch) ← (if ch = 46 then do
        let c ← rd buf (s + 1)
        floatDigits F 1 buf.length buf (s + 1) d e c
      else pure (d, e, s, ch) : Res (Nat × Int × Nat × Nat))
    let r ← (if ch = 101 ∨ ch = 69 then do
        let c ← rd buf (s + 1)
        let (negE, s1, c1) ← (if c = 45 then do
            let c1 ← rd buf (s + 2)
            pure (true, s + 2, c1)
          else if c = 43 then do
            let c1 ← rd buf (s + 2)
            pure (false, s + 2, c1)
          else pure (false, s + 1, c) : Res (Bool × Nat × Nat))
        match ← expDigits buf.length buf s1 0 c1 with
        | none => pure none
        | some (exp, s2, _) => pure (some ((if negE then -(exp : Int) else (exp : Int)), s2))
      else pure (some (0, s)) : Res (Option (Int × Nat)))
    match r with
    | none => pure none
    | some (x, s) =>
      let e := e + x
      let d := if e ≠ 0 then F.scale d e else d
      let d := if negative then F.neg d else d
      pure (some (Value.number d, s))

/-- The `switch (ch)` of the main loop: parses a value into the node
`tails[top]`, or opens a frame. -/
def parseValue (F : FloatOps) (st : PState) (ch : Nat) : Res Step :=
  match st.stack with
  | [] => .fault .stackIndex
  | f :: rest =>
    if ch = 123 ∨ ch = 91 then
      -- ++s; if (++top == ZJSON_STACK_SIZE) return ERROR_STACK_OVERFLOW;
      if st.stack.length = 32 then pure (PState.fail { st with s := st.s + 1 } .ERROR_STACK_OVERFLOW)
      else pure (.cont { st with s := st.s + 1,
                                 stack := { tail := [], endchar := ch + 2 } :: st.stack } ch)
    else if ch = 34 then do
      let f1 ← setTailValue f (Value.string (st.s + 1))
      let r ← parseStringInternal st.buf (st.s + 1)
      let st1 : PState := { st with buf := r.buf, s := r.s, stack := f1 :: rest }
      if !r.ok then pure (st1.fail .ERROR_BAD_STRING) else pure (.cont st1 ch)
    else if ch = 110 then do
      if ← matchLit st.buf st.s [117, 108, 108] then do
        let f1 ← setTailValue f Value.null
        pure (.cont { st with s := st.s + 4, stack := f1 :: rest } ch)
      else pure (st.fail .ERROR_BAD_IDENTIFIER)
    else if ch = 116 then do
      if ← matchLit st.buf st.s [114, 117, 101] then do
        let f1 ← setTailValue f Value.jtrue
        pure (.cont { st with s := st.s + 4, stack := f1 :: rest } ch)
      else pure (st.fail .ERROR_BAD_IDENTIFIER)
    else if ch = 102 then do
      if ← matchLit st.buf st.s [97, 108, 115, 101] then do
        let f1 ← setTailValue f Value.jfalse
        pure (.cont { st with s := st.s + 5, stack := f1 :: rest } ch)
      else pure (st.fail .ERROR_BAD_IDENTIFIER)
    else if (48 ≤ ch ∧ ch ≤ 57) ∨ ch = 45 ∨ ch = 46 then do
      match ← parseNumber F st.buf st.s ch with
      | none => pure (st.fail .ERROR_BAD_NUMBER)
      | some (v, s1) =>
        let f1 ← setTailValue f v
        pure (.cont { st with s := s1, stack := f1 :: rest } ch)
    else pure (st.fail .ERROR_BREAKING_BAD)

/-- One round of the main loop `for (;;)`. -/
def parseRound (F : FloatOps) (avail : Nat) (st : PState) : Res Step := do
  match ← separator st with
  | .ret r => pure (.ret r)
  | .cont st1 ch =>
    match ← newNode avail st1 ch with
    | .ret r => pure (.ret r)
    | .cont st2 ch2 => parseValue F st2 ch2

/-- The main loop `for (;;)` of `jsonParse`. -/
def parseLoop (F : FloatOps) (avail : Nat) : Nat → PState → Res ParseResult
  | 0, _ => .fault .outOfFuel
  | fuel + 1, st => do
    match ← parseRound F avail st with
    | .ret r => pure r
    | .cont st1 _ => parseLoop F avail fuel st1

/-- The function `jsonParse(s, value, allocator)` on the buffer `buf`, with
`s` pointing to its first byte and an allocator that can serve `avail` nodes. -/
def jsonParse (F : FloatOps) (avail : Nat) (buf : List Nat) : Res ParseResult := do
  let s ← skipWhitespace buf 0
  let ch ← rd buf s
  if ch = 123 ∨ ch = 91 then
    parseLoop F avail buf.length
      { buf := buf, s := s + 1, stack := [{ tail := [], endchar := ch + 2 }], allocs := 0 }
  else
    pure { code := .ERROR_BAD_ROOT, value := none, buf := buf, allocs := 0 }

/-- The C string at `p` in the buffer: the bytes from `p` up to the first NUL. -/
def cstrAt (buf : List Nat) (p : Nat) : List Nat :=
  (buf.drop p).takeWhile (fun c => c ≠ 0)

mutual
/-- The tree a parsed value denotes: every string pointer replaced by the C
string it points to in `buf`. -/
def Value.resolve (buf : List Nat) : Value Nat → Value (List Nat)
  | .number d => .number d
  | .int n => .int n
  | .string p => .string (cstrAt buf p)
  | .array h => .array (h.resolve buf)
  | .object h => .object (h.resolve buf)
  | .jtrue => .jtrue
  | .jfalse => .jfalse
  | .null => .null
/-- The chain a parsed chain denotes. -/
def Nodes.resolve (buf : List Nat) : Nodes Nat → Nodes (List Nat)
  | .nil => .nil
  | .cons v name next => .cons (v.resolve buf) (name.map (cstrAt buf)) (next.resolve buf)
end

/-! ## itoa: i32toa -/

/-- The table `cDigitsLut[200]`: the two digits of 00..99. -/
def cDigitsLut : List Nat :=
  [ 48,48,48,49,48,50,48,51,48,52,48,53,48,54,48,55,48,56,48,57,
    49,48,49,49,49,50,49,51,49,52,49,53,49,54,49,55,49,56,49,57,
    50,48,50,49,50,50,50,51,50,52,50,53,50,54,50,55,50,56,50,57,
    51,48,51,49,51,50,51,51,51,52,51,53,51,54,51,55,51,56,51,57,
    52,48,52,49,52,50,52,51,52,52,52,53,52,54,52,55,52,56,52,57,
    53,48,53,49,53,50,53,51,53,52,53,53,53,54,53,55,53,56,53,57,
    54,48,54,49,54,50,54,51,54,52,54,53,54,54,54,55,54,56,54,57,
    55,48,55,49,55,50,55,51,55,52,55,53,55,54,55,55,55,56,55,57,
    56,48,56,49,56,50,56,51,56,52,56,53,56,54,56,55,56,56,56,57,
    57,48,57,49,57,50,57,51,57,52,57,53,57,54,57,55,57,56,57,57 ]

/-- The read `cDigitsLut[i]`. -/
def lut (i : Nat) : Nat := cDigitsLut.getD i 0

/-- The three branches of `i32toa` on the magnitude `u`: the digits written
after the sign. -/
def u32digits (u : Nat) : List Nat :=
  if u < 10000 then
    let d1 := (u / 100) <<< 1
    let d2 := (u % 100) <<< 1
    (if u ≥ 1000 then [lut d1] else []) ++ (if u ≥ 100 then [lut (d1 + 1)] else [])
      ++ (if u ≥ 10 then [lut d2] else []) ++ [lut (d2 + 1)]
  else if u < 100000000 then
    let b := u / 10000
    let c := u % 10000
    let d1 := (b / 100) <<< 1
    let d2 := (b % 100) <<< 1
    let d3 := (c / 100) <<< 1
    let d4 := (c % 100) <<< 1
    (if u ≥ 10000000 then [lut d1] else []) ++ (if u ≥ 1000000 then [lut (d1 + 1)] else [])
      ++ (if u ≥ 100000 then [lut d2] else [])
      ++ [lut (d2 + 1), lut d3, lut (d3 + 1), lut d4, lut (d4 + 1)]
  else
    let a := u / 100000000
    let u1 := u % 100000000
    let b := u1 / 10000
    let c := u1 % 10000
    let d1 := (b / 100) <<< 1
    let d2 := (b % 100) <<< 1
    let d3 := (c / 100) <<< 1
    let d4 := (c % 100) <<< 1
    (if a ≥ 10 then [lut (a <<< 1), lut ((a <<< 1) + 1)] else [48 + a])
      ++ [lut d1, lut (d1 + 1), lut d2, lut (d2 + 1), lut d3, lut (d3 + 1), lut d4, lut (d4 + 1)]

/-- The function `i32toa(value, buffer)`: the bytes it writes, in order. -/
def i32toa (value : Int) : List Nat :=
  -- uint32_t u = static_cast<uint32_t>(value);
  let u0 : Nat := (value % 2 ^ 32).toNat
  -- if (value < 0) { *buffer++ = '-'; u = ~u + 1; }
  if value < 0 then 45 :: u32digits (((2 ^ 32 - 1 - u0) + 1) % 2 ^ 32) else u32digits u0

/-! ## serialize.h -/

/-- The string `s_to_hex`. -/
def s_to_hex : List Nat :=
  [48, 49, 50, 51, 52, 53, 54, 55, 56, 57, 97, 98, 99, 100, 101, 102]

/-- What `writeEscaped` writes for one byte `c` of the string. -/
def escapeByte (c : Nat) : List Nat :=
  if c ≥ 32 ∧ c ≠ 34 ∧ c ≠ 92 then [c]
  else 92 :: (
    if c = 8 then [98]
    else if c = 13 then [114]
    else if c = 9 then [116]
    else if c = 12 then [102]
    else if c = 10 then [110]
    else if c = 92 then [92]
    else if c = 34 then [34]
    else [117, 48, 48, s_to_hex.getD (c >>> 4) 0, s_to_hex.getD (c &&& 0xF) 0])

/-- The loop `while (*s)` of `writeEscaped` over the bytes at `str`. -/
def escapeLoop : List Nat → List Nat
  | [] => []
  | c :: rest => if c = 0 then [] else escapeByte c ++ escapeLoop rest

/-- The function `Writer::writeEscaped(str)`: the bytes it writes. -/
def writeEscaped (str : List Nat) : List Nat :=
  34 :: escapeLoop str ++ [34]

/-- The function `writeTabs(n)`. -/
def writeTabs (n : Nat) : List Nat := List.replicate n 9

/-- The stores `*buffer++ = c` for the bytes `cs` in order: the memory and the
pointer after them. -/
def stores (mem : List Nat) (buffer : Nat) : List Nat → Res (List Nat × Nat)
  | [] => .ok (mem, buffer)
  | c :: cs => do
    let m ← wr mem buffer c
    stores m (buffer + 1) cs

/-- The function `i32toa(value, buffer)` on a memory: every byte is stored
with `*buffer++ = c`, and the final `buffer` is returned. -/
def i32toaAt (value : Int) (mem : List Nat) (buffer : Nat) : Res (List Nat × Nat) :=
  stores mem buffer (i32toa value)

/-- The function `dtoa_milo(value, buffer)` on the bit pattern of a double
that is neither NaN nor infinite: the text it writes, without its NUL. The
test `value == 0` holds for both zeros, and `value < 0` for a set sign bit. -/
def dtoa_milo (F : FloatOps) (value : Nat) : Res (List Nat) :=
  if value % 2 ^ 63 = 0 then pure [48]
  else if value ≥ 2 ^ 63 then do
    let t ← F.grisuText (value - 2 ^ 63)
    pure (45 :: t)
  else F.grisuText value

/-- The function `writeNumber(d)`: `dtoa_milo(d, buffer)` stores its text and
the terminating NUL in `static char buffer[25]`, and
`puts(buffer, strlen(buffer))` passes on the bytes before the first NUL. A
store behind the 25 bytes is a fault. What the buffer held before does not
matter: the text and its NUL are stored from `buffer[0]` on. -/
def writeNumber (F : FloatOps) (d : Nat) : Res (List Nat) := do
  let text ← dtoa_milo F d
  let m ← stores (List.replicate 25 0) 0 (text ++ [0])
  pure (cstrAt m.1 0)

/-- The function `writeInt(n)`: `i32toa(n, buffer)` stores its bytes in
`static char buffer[10]`, and `puts(buffer, end - buffer)` passes them on. A
store behind the 10 bytes is a fault. -/
def writeInt (n : Int) : Res (List Nat) := do
  let m ← i32toaAt n (List.replicate 10 0) 0
  pure (m.1.take m.2)

mutual
/-- The function `Value::dump(out, formatted, indent)`: the bytes it writes
to a growing sink, or the fault of a leaf writer that stores outside its
buffer. -/
def Value.dump (F : FloatOps) (formatted : Bool) : Value (List Nat) → Nat → Res (List Nat)
  | .number d, _ => writeNumber F d
  | .int n, _ => writeInt n
  | .string str, _ => pure (writeEscaped str)
  | .array .nil, _ => pure (if formatted then [91, 32, 93] else [91, 93])
  | .array (.cons v name next), indent => do
    let body ← Nodes.dump F formatted false (.cons v name next) (indent + 1)
    pure ([91] ++ (if formatted then [10] else []) ++ body
      ++ (if formatted then writeTabs indent else []) ++ [93])
  | .object .nil, _ => pure (if formatted then [123, 32, 125] else [123, 125])
  | .object (.cons v name next), indent => do
    let body ← Nodes.dump F formatted true (.cons v name next) (indent + 1)
    pure ([123] ++ (if formatted then [10] else []) ++ body
      ++ (if formatted then writeTabs indent else []) ++ [125])
  | .jtrue, _ => pure [116, 114, 117, 101]
  | .jfalse, _ => pure [102, 97, 108, 115, 101]
  | .null, _ => pure [110, 117, 108, 108]
/-- The loop `for (Node* n = toNode(); n; n = n->next)` of `Value::dump`, for
an array (`isObject = false`) or an object. -/
def Nodes.dump (F : FloatOps) (formatted : Bool) (isObject : Bool) :
    Nodes (List Nat) → Nat → Res (List Nat)
  | .nil, _ => pure []
  | .cons v name next, indent => do
    let child ← Value.dump F formatted v indent
    let rest ← Nodes.dump F formatted isObject next indent
    pure ((if formatted then writeTabs indent else [])
      ++ (if isObject then
            writeEscaped (name.getD []) ++ (if formatted then [32, 58, 32] else [58])
          else [])
      ++ child
      ++ (match next with
          | .nil => []
          | .cons _ _ _ => [44] ++ (if formatted then [32] else []))
      ++ (if formatted then [10] else [])
      ++ rest)
end

mutual
/-- The bytes of `Value::dump` with the leaf writers left out: `num d` stands
for the text that `writeNumber` passes on for the Number `d`, and the text of
an Int is the bytes of `i32toa`. `Value.dump` returns this text whenever its
leaf writers stay inside their buffers. -/
def Value.dumpText (num : Nat → List Nat) (formatted : Bool) :
    Value (List Nat) → Nat → List Nat
  | .number d, _ => num d
  | .int n, _ => i32toa n
  | .string str, _ => writeEscaped str
  | .array .nil, _ => if formatted then [91, 32, 93] else [91, 93]
  | .array (.cons v name next), indent =>
    [91] ++ (if formatted then [10] else [])
      ++ Nodes.dumpText num formatted false (.cons v name next) (indent + 1)
      ++ (if formatted then writeTabs indent else []) ++ [93]
  | .object .nil, _ => if formatted then [123, 32, 125] else [123, 125]
  | .object (.cons v name next), indent =>
    [123] ++ (if formatted then [10] else [])
      ++ Nodes.dumpText num formatted true (.cons v name next) (indent + 1)
      ++ (if formatted then writeTabs indent else []) ++ [125]
  | .jtrue, _ => [116, 114, 117, 101]
  | .jfalse, _ => [102, 97, 108, 115, 101]
  | .null, _ => [110, 117, 108, 108]
/-- The bytes of the loop over the children of a container, with the leaf
writers left out. -/
def Nodes.dumpText (num : Nat → List Nat) (formatted : Bool) (isObject : Bool) :
    Nodes (List Nat) → Nat → List Nat
  | .nil, _ => []
  | .cons v name next, indent =>
    (if formatted then writeTabs indent else [])
      ++ (if isObject then
            writeEscaped (name.getD []) ++ (if formatted then [32, 58, 32] else [58])
          else [])
      ++ Value.dumpText num formatted v indent
      ++ (match next with
          | .nil => []
          | .cons _ _ _ => [44] ++ (if formatted then [32] else []))
      ++ (if formatted then [10] else [])
      ++ Nodes.dumpText num formatted isObject next indent
end

mutual
/-- The trees whose leaf writers stay inside their buffers: `writeNumber`
returns the text `num d` for every Number leaf `d`, and every Int leaf is a
32-bit integer above -10^9, whose text has at most 10 bytes. -/
def Value.Fits (F : FloatOps) (num : Nat → List Nat) : Value (List Nat) → Prop
  | .number d => writeNumber F d = .ok (num d)
  | .int n => -1000000000 < n ∧ n ≤ 2147483647
  | .string _ => True
  | .array h => h.Fits F num
  | .object h => h.Fits F num
  | .jtrue => True
  | .jfalse => True
  | .null => True
/-- The chains whose leaf writers stay inside their buffers. -/
def Nodes.Fits (F : FloatOps) (num : Nat → List Nat) : Nodes (List Nat) → Prop
  | .nil => True
  | .cons v _ next => v.Fits F num ∧ next.Fits F num
end

/-! # Definitions for the proofs -/

/-- Whitespace bytes: every byte is at most 0x20. -/
def AllWs (w : List Nat) : Prop := ∀ c ∈ w, c ≤ 32

/-- A stretch of bytes that `ZJSON_SKIP_WHITESPACE` skips: nothing, or a
non-empty run of whitespace bytes, possibly followed by `//`, a comment body
and a further stretch that starts with the byte that ends the comment. -/
inductive Gap : List Nat → Prop where
  | nil : Gap []
  | ws (a : Nat) (w : List Nat) : a ≤ 32 → AllWs w → Gap (a :: w)
  | comment (a : Nat) (w body : List Nat) (t : Nat) (g : List Nat) :
      a ≤ 32 → AllWs w → (∀ x ∈ body, x ≠ 0 ∧ x ≠ 10 ∧ x ≠ 13) →
      (t = 0 ∨ t = 10 ∨ t = 13) → Gap (t :: g) →
      Gap (a :: (w ++ 47 :: 47 :: (body ++ t :: g)))

/-! ### Overwriting a stretch of the buffer -/

/-- The buffer `buf` with the bytes `xs` stored from index `p` on. -/
def patch (buf : List Nat) (p : Nat) (xs : List Nat) : List Nat :=
  buf.take p ++ xs ++ buf.drop (p + xs.length)

/-- A byte that is not a text break: not NUL, LF, CR, `"` or `\`. -/
def Ordinary (c : Nat) : Prop := c ≠ 0 ∧ c ≠ 10 ∧ c ≠ 13 ∧ c ≠ 34 ∧ c ≠ 92

/-- A text break byte. -/
def IsBreak (c : Nat) : Prop := c = 0 ∨ c = 10 ∨ c = 13 ∨ c = 34 ∨ c = 92

/-- A piece of a string body: an ordinary byte, a backslash followed by a
byte, or `\u` followed by four bytes. -/
inductive StrItem where
  | plain (c : Nat)
  | esc (c : Nat)
  | uni (h1 h2 h3 h4 : Nat)

/-- The bytes of a piece in the text. -/
def StrItem.text : StrItem → List Nat
  | .plain c => [c]
  | .esc c => [92, c]
  | .uni h1 h2 h3 h4 => [92, 117, h1, h2, h3, h4]

/-- The bytes a two-byte escape `\c` stands for. -/
def decodeEsc (c : Nat) : List Nat :=
  if c = 98 then [8] else if c = 102 then [12] else if c = 110 then [10]
  else if c = 114 then [13] else if c = 116 then [9]
  else if c = 92 ∨ c = 34 then [c] else [92, c]

/-- The bytes stored for the code unit `u` of a `\u` escape. -/
def utf8 (u : Nat) : List Nat :=
  if u ≠ 0 ∧ u < 0x80 then [u]
  else if u < 0x800 then [0xC0 ||| (u >>> 6), 0x80 ||| (u &&& 0x3F)]
  else [0xE0 ||| (u >>> 12), 0x80 ||| ((u >>> 6) &&& 0x3F), 0x80 ||| (u &&& 0x3F)]

/-- The value of a hexadecimal digit (0 for another byte). -/
def hexVal (c : Nat) : Nat := (hexDigit c).getD 0

/-- The code unit of the four hexadecimal digits of a `\u` escape. -/
def hex4 (h1 h2 h3 h4 : Nat) : Nat :=
  ((hexVal h1 * 16 + hexVal h2) * 16 + hexVal h3) * 16 + hexVal h4

/-- The bytes a piece stands for. -/
def StrItem.decoded : StrItem → List Nat
  | .plain c => [c]
  | .esc c => decodeEsc c
  | .uni h1 h2 h3 h4 => utf8 (hex4 h1 h2 h3 h4)

/-- The pieces that `parseStringInternal` accepts. -/
def StrItem.Valid : StrItem → Prop
  | .plain c => Ordinary c
  | .esc c => c ≠ 0 ∧ c ≠ 117
  | .uni h1 h2 h3 h4 =>
    (hexDigit h1).isSome ∧ (hexDigit h2).isSome ∧ (hexDigit h3).isSome ∧ (hexDigit h4).isSome

/-- The text of a string body. -/
def bodyText (its : List StrItem) : List Nat := its.flatMap StrItem.text

/-- The bytes a string body stands for. -/
def bodyDecoded (its : List StrItem) : List Nat := its.flatMap StrItem.decoded

/-- The body is empty or starts with an escape. -/
def NonPlainHead (its : List StrItem) : Prop :=
  its = [] ∨ ∃ i tl, its = i :: tl ∧ ∀ c, i ≠ StrItem.plain c

/-- The pieces that `writeEscaped` writes for one byte. -/
def escItem (c : Nat) : StrItem :=
  if c ≥ 32 ∧ c ≠ 34 ∧ c ≠ 92 then .plain c
  else if c = 8 then .esc 98
  else if c = 13 then .esc 114
  else if c = 9 then .esc 116
  else if c = 12 then .esc 102
  else if c = 10 then .esc 110
  else if c = 92 then .esc 92
  else if c = 34 then .esc 34
  else .uni 48 48 (s_to_hex.getD (c >>> 4) 0) (s_to_hex.getD (c &&& 0xF) 0)

instance (i : StrItem) : Decidable i.Valid := by
  cases i <;> unfold StrItem.Valid <;> try unfold Ordinary
  all_goals infer_instance

/-- The bytes are decimal digits. -/
def IsDigits (ds : List Nat) : Prop := ∀ d ∈ ds, 48 ≤ d ∧ d ≤ 57

/-- The number that the digits `ds` continue from the accumulator `n`. -/
def digitsAcc (n : Nat) (ds : List Nat) : Nat := ds.foldl (fun a d => a * 10 + (d - 48)) n

/-- The decimal value of the digits `ds`. -/
def digitsVal (ds : List Nat) : Nat := digitsAcc 0 ds

/-- The byte does not continue a number: it is not a digit, `.`, `e` or `E`. -/
def NotNumber (c : Nat) : Prop := ¬ ((48 ≤ c ∧ c ≤ 57) ∨ c = 46 ∨ c = 69 ∨ c = 101)

/-! ### Concrete syntax: a value together with its spelling and layout -/

/-- What stands between two tokens of a container: the bytes skipped before a
comma or the next token and, when a comma is there, the bytes skipped after it. -/
structure Lead where
  a : List Nat
  comma : Option (List Nat)

/-- The text of the comma part of a separator. -/
def commaText : Option (List Nat) → List Nat
  | none => []
  | some b => 44 :: b

/-- The text of a separator. -/
def Lead.text (l : Lead) : List Nat :=
  l.a ++ commaText l.comma

/-- The key of an object member: the pieces of the key string, the bytes
skipped before the colon and the bytes skipped after it. -/
structure CKey where
  its : List StrItem
  g1 : List Nat
  g2 : List Nat

/-- The text of a key, from its opening quote to the start of the value. -/
def CKey.text (k : CKey) : List Nat :=
  34 :: (bodyText k.its ++ 34 :: (k.g1 ++ 58 :: k.g2))

/-- The text of the key part of a member: nothing in an array. -/
def keyText : Option CKey → List Nat
  | none => []
  | some k => k.text

mutual
/-- A value as it is spelled in a text: an integer token (sign and digits), a
string (its pieces), a literal, or a container with its members. -/
inductive CValue where
  | int (neg : Bool) (ds : List Nat)
  | string (its : List StrItem)
  | jtrue
  | jfalse
  | null
  | array (elems : CNodes)
  | object (members : CNodes)
/-- The members of a container, each with the separator before it, and the
separator before the closing bracket. -/
inductive CNodes where
  | nil (lead : Lead)
  | cons (lead : Lead) (key : Option CKey) (v : CValue) (next : CNodes)
end

mutual
/-- The text of a spelled value. -/
def CValue.text : CValue → List Nat
  | .int neg ds => (if neg then [45] else []) ++ ds
  | .string its => 34 :: (bodyText its ++ [34])
  | .jtrue => [116, 114, 117, 101]
  | .jfalse => [102, 97, 108, 115, 101]
  | .null => [110, 117, 108, 108]
  | .array ns => 91 :: (ns.text ++ [93])
  | .object ns => 123 :: (ns.text ++ [125])
/-- The text between the brackets of a container. -/
def CNodes.text : CNodes → List Nat
  | .nil lead => lead.text
  | .cons lead key v next =>
    lead.text ++ (keyText key ++ (v.text ++ next.text))
end

mutual
/-- The value a spelled value stands for. -/
def CValue.value : CValue → Value (List Nat)
  | .int neg ds => .int (if neg then -(digitsVal ds : Int) else (digitsVal ds : Int))
  | .string its => .string (bodyDecoded its)
  | .jtrue => .jtrue
  | .jfalse => .jfalse
  | .null => .null
  | .array ns => .array ns.value
  | .object ns => .object ns.value
/-- The chain the members stand for. -/
def CNodes.value : CNodes → Nodes (List Nat)
  | .nil _ => .nil
  | .cons _ key v next => .cons v.value (key.map (fun k => bodyDecoded k.its)) next.value
end

mutual
/-- The number of values in a spelled value, itself included. -/
def CValue.size : CValue → Nat
  | .array ns => ns.size + 1
  | .object ns => ns.size + 1
  | _ => 1
/-- The number of values in the members. -/
def CNodes.size : CNodes → Nat
  | .nil _ => 0
  | .cons _ _ v next => v.size + next.size
end

mutual
/-- The nesting depth of a spelled value: 0 for a scalar, one more than its
deepest member for a container. -/
def CValue.depth : CValue → Nat
  | .array ns => ns.depth + 1
  | .object ns => ns.depth + 1
  | _ => 0
/-- The depth of the deepest member. -/
def CNodes.depth : CNodes → Nat
  | .nil _ => 0
  | .cons _ _ v next => max v.depth next.depth
end

mutual
/-- The spellings the parser accepts: integer tokens of 1 to 9 digits, string
bodies of valid pieces, separators made of skipped stretches, a comma before
every member but the first, and a key exactly for the members of an object. -/
def CValue.Valid : CValue → Prop
  | .int _ ds => 1 ≤ ds.length ∧ ds.length ≤ 9 ∧ IsDigits ds
  | .string its => ∀ i ∈ its, i.Valid
  | .jtrue => True
  | .jfalse => True
  | .null => True
  | .array ns => ns.Valid false true
  | .object ns => ns.Valid true true
/-- The valid members of an array (`isObj = false`) or object; `first` tells
whether no member precedes. -/
def CNodes.Valid : CNodes → Bool → Bool → Prop
  | .nil lead, _, first =>
    Gap lead.a ∧ (match lead.comma with
                  | none => True
                  | some b => first = false ∧ Gap b)
  | .cons lead key v next, isObj, first =>
    Gap lead.a ∧ (match lead.comma with
                  | none => first = true
                  | some b => first = false ∧ Gap b)
      ∧ (match key with
         | none => isObj = false
         | some k => isObj = true ∧ (∀ i ∈ k.its, i.Valid) ∧ Gap k.g1 ∧ Gap k.g2)
      ∧ v.Valid ∧ next.Valid isObj false
end

/-- The parsed nodes of a frame as the tree reads them in the buffer `B`: the
value and the name of each node, the last inserted node first. -/
def resolveTail (B : List Nat) (tail : List PNode) :
    List (Value (List Nat) × Option (List Nat)) :=
  tail.map (fun n => (n.value.resolve B, n.name.map (cstrAt B)))

/-- The chain of a list of values and names given last first. -/
def chainOf (l : List (Value (List Nat) × Option (List Nat))) (acc : Nodes (List Nat)) :
    Nodes (List Nat) :=
  l.foldl (fun acc p => Nodes.cons p.1 p.2 acc) acc

/-- The values and names of the members, in order. -/
def CNodes.items : CNodes → List (Value (List Nat) × Option (List Nat))
  | .nil _ => []
  | .cons _ key v next => (v.value, key.map (fun k => bodyDecoded k.its)) :: next.items

/-- A byte that starts a value. -/
def StartByte (c : Nat) : Prop :=
  (48 ≤ c ∧ c ≤ 57) ∨ c = 45 ∨ c = 34 ∨ c = 116 ∨ c = 102 ∨ c = 110 ∨ c = 91 ∨ c = 123

/-- A byte that can follow a value inside a container: a skipped byte, a
comma or a closing bracket. -/
def Delim (c : Nat) : Prop := c ≤ 32 ∨ c = 44 ∨ c = 93 ∨ c = 125

/-- The second half of a round of the main loop: the node of the member and
its value. -/
def memberSteps (F : FloatOps) (avail : Nat) (st : PState) (ch : Nat) : Res Step := do
  match ← newNode avail st ch with
  | .ret r => pure (.ret r)
  | .cont st2 ch2 => parseValue F st2 ch2

/-- The main loop entered after a step: the loop goes on unless `jsonParse`
has returned. -/
def roundFrom (F : FloatOps) (avail : Nat) (fuel : Nat) (x : Res Step) : Res ParseResult := do
  match ← x with
  | .ret r => pure r
  | .cont st _ => parseLoop F avail fuel st

/-- The main loop entered after the separator part of a round. -/
def roundRest (F : FloatOps) (avail : Nat) (fuel : Nat) (x : Res Step) : Res ParseResult := do
  match ← x with
  | .ret r => pure r
  | .cont st ch => roundFrom F avail fuel (memberSteps F avail st ch)

/-- The buffers `B` and `B'` hold the same first `k` bytes. -/
def Agree (k : Nat) (B B' : List Nat) : Prop := B.take k = B'.take k

/-- The closing bracket of an array or object. -/
def closerOf (isObj : Bool) : Nat := if isObj then 125 else 93

/-- Parsing the spelled value `v` into the last node of the top frame brings
the main loop to its head after the value, with the value stored in the node. -/
def ValueOk (F : FloatOps) (avail : Nat) (v : CValue) : Prop :=
  ∀ (st : PState) (f : Frame) (rest : List Frame) (n0 : PNode) (t : List PNode)
    (after : List Nat) (c0 k : Nat),
    st.stack = f :: rest → f.tail = n0 :: t →
    st.buf.drop st.s = v.text ++ after → (∃ c tl, after = c :: tl ∧ Delim c) →
    v.text.head? = some c0 → rest.length + 1 + v.depth ≤ 32 → v.size = k + 1 →
    st.allocs + k ≤ avail →
    ∃ (buf' : List Nat) (val : Value Nat),
      buf'.length = st.buf.length ∧ buf'.drop (st.s + v.text.length) = after ∧
      Agree st.s buf' st.buf ∧
      (∀ B, Agree (st.s + v.text.length) B buf' → val.resolve B = v.value) ∧
      ∀ fuel, roundFrom F avail (fuel + k + 1) (parseValue F st c0)
        = parseLoop F avail (fuel + 1)
            { buf := buf', s := st.s + v.text.length,
              stack := { f with tail := { n0 with value := val } :: t } :: rest,
              allocs := st.allocs + k }

/-- Parsing the spelled members `ns` of the top frame brings the main loop to
the closing of that frame, with the members appended to its nodes. -/
def NodesOk (F : FloatOps) (avail : Nat) (ns : CNodes) : Prop :=
  ∀ (st : PState) (f : Frame) (rest : List Frame) (after : List Nat) (isObj first : Bool),
    st.stack = f :: rest → f.endchar = closerOf isObj → ns.Valid isObj first →
    (f.tail = [] ↔ first = true) →
    st.buf.drop st.s = ns.text ++ f.endchar :: after → rest.length + 1 + ns.depth ≤ 32 →
    st.allocs + ns.size ≤ avail →
    ∃ (buf' : List Nat) (tail' : List PNode),
      buf'.length = st.buf.length ∧ buf'.drop (st.s + ns.text.length) = f.endchar :: after ∧
      Agree st.s buf' st.buf ∧
      (∀ B, Agree (st.s + ns.text.length) B buf' →
        resolveTail B tail' = ns.items.reverse ++ resolveTail B f.tail) ∧
      ∀ fuel, parseLoop F avail (fuel + ns.size + 1) st
        = roundRest F avail fuel (closeLoop (rest.length + 1)
            { buf := buf', s := st.s + ns.text.length + 1,
              stack := { f with tail := tail' } :: rest,
              allocs := st.allocs + ns.size })

/-- The opening bracket of an array or object. -/
def openerOf (isObj : Bool) : Nat := if isObj then 123 else 91

/-- The value of a container with the given members. -/
def containerValue (isObj : Bool) (ns : Nodes (List Nat)) : Value (List Nat) :=
  if isObj then .object ns else .array ns

/-! ### The text written by `dump`, as a spelling -/

mutual
/-- The nesting depth of a tree: 0 for a scalar, one more than its deepest
member for an array or object. -/
def Value.depth : Value (List Nat) → Nat
  | .array h => h.depth + 1
  | .object h => h.depth + 1
  | _ => 0
/-- The depth of the deepest node of a chain. -/
def Nodes.depth : Nodes (List Nat) → Nat
  | .nil => 0
  | .cons v _ next => max v.depth next.depth
end

mutual
/-- The number of values in a tree, itself included. -/
def Value.count : Value (List Nat) → Nat
  | .array h => h.count + 1
  | .object h => h.count + 1
  | _ => 1
/-- The number of values in a chain. -/
def Nodes.count : Nodes (List Nat) → Nat
  | .nil => 0
  | .cons v _ next => v.count + next.count
end

mutual
/-- The trees of the round trip: no Number leaf, Int leaves of at most 9
decimal digits, no NUL byte in a string or key, a key on every member of an
object and none on the elements of an array (whose nodes have no name field). -/
def Value.Plain : Value (List Nat) → Prop
  | .number _ => False
  | .int n => -1000000000 < n ∧ n < 1000000000
  | .string s => ∀ x ∈ s, x ≠ 0
  | .array h => h.Plain false
  | .object h => h.Plain true
  | .jtrue => True
  | .jfalse => True
  | .null => True
/-- The chains of the round trip, for an array (`isObj = false`) or object. -/
def Nodes.Plain : Nodes (List Nat) → Bool → Prop
  | .nil, _ => True
  | .cons v name next, isObj =>
    v.Plain ∧ (match name with
               | none => isObj = false
               | some k => isObj = true ∧ ∀ x ∈ k, x ≠ 0)
      ∧ next.Plain isObj
end

/-- The bytes `xs` when the layout is formatted, nothing otherwise. -/
def fmt (formatted : Bool) (xs : List Nat) : List Nat := if formatted then xs else []

/-- The separator that `dump` writes after a member at depth `indent + 1`:
before the closing bracket when no member follows, before the next member
otherwise. -/
def leadAfter (formatted : Bool) (indent : Nat) : Nodes (List Nat) → Lead
  | .nil => { a := fmt formatted (10 :: writeTabs indent), comma := none }
  | .cons _ _ _ =>
    { a := [], comma := some (fmt formatted (32 :: 10 :: writeTabs (indent + 1))) }

/-- The key that `dump` writes for the name of a member. -/
def keyOf (formatted : Bool) (isObj : Bool) (name : Option (List Nat)) : Option CKey :=
  if isObj then
    some { its := (name.getD []).map escItem, g1 := fmt formatted [32], g2 := fmt formatted [32] }
  else none

mutual
/-- The spelling that `dump` gives a tree at the given indentation. A Number
leaf has no spelling of this kind and is given that of `null`. -/
def Value.cst (formatted : Bool) : Value (List Nat) → Nat → CValue
  | .number _, _ => .null
  | .int n, _ => .int (decide (n < 0)) (u32digits n.natAbs)
  | .string s, _ => .string (s.map escItem)
  | .array .nil, _ => .array (.nil { a := fmt formatted [32], comma := none })
  | .array (.cons v name next), indent =>
    .array (Nodes.cst formatted false (.cons v name next) indent
      { a := fmt formatted (10 :: writeTabs (indent + 1)), comma := none })
  | .object .nil, _ => .object (.nil { a := fmt formatted [32], comma := none })
  | .object (.cons v name next), indent =>
    .object (Nodes.cst formatted true (.cons v name next) indent
      { a := fmt formatted (10 :: writeTabs (indent + 1)), comma := none })
  | .jtrue, _ => .jtrue
  | .jfalse, _ => .jfalse
  | .null, _ => .null
/-- The spelling of the members of a container written at `indent`, the
first of them after the separator `lead`. -/
def Nodes.cst (formatted : Bool) (isObj : Bool) : Nodes (List Nat) → Nat → Lead → CNodes
  | .nil, _, lead => .nil lead
  | .cons v name next, indent, lead =>
    .cons lead (keyOf formatted isObj name) (Value.cst formatted v (indent + 1))
      (Nodes.cst formatted isObj next indent (leadAfter formatted indent next))
end

/-! ### Nests of containers -/

/-- The array or object with the given members. -/
def container (b : Bool) (ns : CNodes) : CValue := if b then .object ns else .array ns

/-- The key of the member of a nest: the key `k` in an object, none in an array. -/
def nestKey (k : CKey) (b : Bool) : Option CKey := if b then some k else none

/-- The members of a container of kind `b` (object when `true`) that holds a
nest of containers of the kinds `ks`, outermost first: nothing when `ks` is
empty, otherwise the single member that holds the rest of the nest. -/
def nestNodes (k : CKey) : Bool → List Bool → CNodes
  | _, [] => .nil { a := [], comma := none }
  | b, c :: ks =>
    .cons { a := [], comma := none } (nestKey k b) (container c (nestNodes k c ks))
      (.nil { a := [], comma := none })

/-- A key whose pieces are valid and whose gaps are skipped stretches. -/
def CKey.Ok (k : CKey) : Prop := (∀ i ∈ k.its, i.Valid) ∧ Gap k.g1 ∧ Gap k.g2

/-- The text of a nest of containers: the outermost of kind `b`, then those
of the kinds `ks`, each the only member of the one before, with the key `k`
in front of a member of an object. -/
def nestText (k : CKey) (b : Bool) (ks : List Bool) : List Nat :=
  openerOf b :: ((nestNodes k b ks).text ++ [closerOf b])

/-- The tree of a nest of containers. -/
def nestTree (name : List Nat) : Bool → List Bool → Value (List Nat)
  | b, [] => containerValue b .nil
  | b, c :: ks =>
    containerValue b (.cons (nestTree name c ks) (if b then some name else none) .nil)

/-! ## Doubles

A `double` is its 64-bit pattern (IEEE 754 binary64); the arithmetic rounds to
nearest, ties to even. -/

/-- The bisection of `ilog2`: the exponent found so far and the step. -/
def ilog2Loop (n : Nat) : Nat → Nat → Nat → Nat
  | 0, lo, _ => lo
  | fuel + 1, lo, step =>
    ilog2Loop n fuel (if 2 ^ (lo + step) ≤ n then lo + step else lo) (step / 2)

/-- The integer part of the binary logarithm of `n`, for `1 ≤ n < 2^16384`. -/
def ilog2 (n : Nat) : Nat := ilog2Loop n 14 0 8192

/-- The pattern of the double nearest to the positive rational `n / d`
(`n > 0`, `d > 0`), ties to even; `+inf` on overflow. With `e` the exponent of
the last place, at least -1074, and `q` the rounded multiple of `2^e`, the
pattern is `(e + 1074) * 2^52 + q`. -/
def roundPos (n d : Nat) : Nat :=
  let l : Int := (ilog2 n : Int) - (ilog2 d : Int)
  -- the integer part of the binary logarithm of `n / d`
  let fl : Int := if (if l ≥ 0 then d * 2 ^ l.toNat ≤ n else d ≤ n * 2 ^ (-l).toNat) then l else l - 1
  let e : Int := max (fl - 52) (-1074)
  let num := if e ≥ 0 then n else n * 2 ^ (-e).toNat
  let den := if e ≥ 0 then d * 2 ^ e.toNat else d
  let q := num / den
  let r := num % den
  let q1 := if 2 * r > den ∨ (2 * r = den ∧ q % 2 = 1) then q + 1 else q
  let bits := (e + 1074).toNat * 2 ^ 52 + q1
  if bits ≥ 0x7FF0000000000000 then 0x7FF0000000000000 else bits

/-- The sign bit of a double. -/
def dSign (x : Nat) : Nat := x / 2 ^ 63

/-- The magnitude of a double: its pattern without the sign bit. -/
def dAbs (x : Nat) : Nat := x % 2 ^ 63

/-- The double is a NaN. -/
def dIsNaN (x : Nat) : Bool := dAbs x > 0x7FF0000000000000

/-- The double is an infinity. -/
def dIsInf (x : Nat) : Bool := dAbs x = 0x7FF0000000000000

/-- The magnitude of a finite double as a multiple of `2^-1074`. -/
def dNum (x : Nat) : Nat :=
  let eb := dAbs x / 2 ^ 52
  let frac := x % 2 ^ 52
  if eb = 0 then frac else (2 ^ 52 + frac) * 2 ^ (eb - 1)

/-- The quiet NaN that an invalid operation gives. -/
def dNaN : Nat := 0xFFF8000000000000

/-- The double of sign `s` nearest to `n / d`. -/
def dRound (s : Nat) (n d : Nat) : Nat :=
  s * 2 ^ 63 + (if n = 0 then 0 else roundPos n d)

/-- The product `x * y` of two doubles. -/
def dMul (x y : Nat) : Nat :=
  let s := (dSign x + dSign y) % 2
  if dIsNaN x ∨ dIsNaN y then dNaN
  else if dIsInf x ∨ dIsInf y then
    (if dAbs x = 0 ∨ dAbs y = 0 then dNaN else s * 2 ^ 63 + 0x7FF0000000000000)
  else dRound s (dNum x * dNum y) (2 ^ 1074 * 2 ^ 1074)

/-- The sum `x + y` of two doubles. -/
def dAdd (x y : Nat) : Nat :=
  if dIsNaN x ∨ dIsNaN y then dNaN
  else if dIsInf x then (if dIsInf y ∧ dSign x ≠ dSign y then dNaN else x)
  else if dIsInf y then y
  else
    let a := dNum x
    let b := dNum y
    if dSign x = dSign y then dRound (dSign x) (a + b) (2 ^ 1074)
    else if a = b then 0
    else if a > b then dRound (dSign x) (a - b) (2 ^ 1074)
    else dRound (dSign y) (b - a) (2 ^ 1074)

/-- The conversion of an integer to a double. -/
def dOfInt (n : Int) : Nat :=
  dRound (if n < 0 then 1 else 0) n.natAbs 1

/-- The double that the decimal literal `1e<e>` denotes. -/
def dLit10 (e : Int) : Nat :=
  if e ≥ 0 then roundPos (10 ^ e.toNat) 1 else roundPos 1 (10 ^ (-e).toNat)

/-- The function `pow10(exponent)`: infinity above 308, zero below -323,
otherwise the constant `1e<exponent>` of the table. -/
def pow10 (exponent : Int) : Nat :=
  if exponent > 308 then 0x7FF0000000000000
  else if exponent < -323 then 0
  else dLit10 exponent

/-! ## dtoa_milo: Grisu2

The branches taken are those of a 64-bit GCC build (`__int128` product,
`__builtin_clzll`). -/

/-- The struct `DiyFp`: the 64-bit significand `f` and the exponent `e`. -/
structure DiyFp where
  f : Nat
  e : Int
  deriving DecidableEq, Repr

/-- The constant `kDpHiddenBit`. -/
def kDpHiddenBit : Nat := 0x0010000000000000

/-- The constructor `DiyFp(double d)` on the pattern of `d`. -/
def DiyFp.ofDouble (u64 : Nat) : DiyFp :=
  let biased_e := (u64 &&& 0x7FF0000000000000) >>> 52
  let significand := u64 &&& 0x000FFFFFFFFFFFFF
  if biased_e ≠ 0 then { f := significand + kDpHiddenBit, e := (biased_e : Int) - 1075 }
  else { f := significand, e := -1075 + 1 }

/-- The operator `-` of `DiyFp`. -/
def DiyFp.sub (x rhs : DiyFp) : DiyFp :=
  { f := (x.f + 2 ^ 64 - rhs.f) % 2 ^ 64, e := x.e }

/-- The operator `*` of `DiyFp`: the high half of the 128-bit product,
rounded by the top bit of the low half. -/
def DiyFp.mul (x rhs : DiyFp) : DiyFp :=
  let p := x.f * rhs.f
  let h := p >>> 64
  let l := p % 2 ^ 64
  { f := if l &&& 2 ^ 63 ≠ 0 then (h + 1) % 2 ^ 64 else h, e := x.e + rhs.e + 64 }

/-- The function `DiyFp::Normalize` (`f` is not 0). -/
def DiyFp.Normalize (x : DiyFp) : DiyFp :=
  let s := 63 - ilog2 x.f
  { f := (x.f <<< s) % 2 ^ 64, e := x.e - s }

/-- The loop `while (!(res.f & (kDpHiddenBit << 1)))` of `NormalizeBoundary`. -/
def normalizeLoop : Nat → DiyFp → Res DiyFp
  | 0, _ => .fault .outOfFuel
  | fuel + 1, res =>
    if res.f &&& (kDpHiddenBit <<< 1) = 0 then
      normalizeLoop fuel { f := (res.f <<< 1) % 2 ^ 64, e := res.e - 1 }
    else pure res

/-- The function `DiyFp::NormalizeBoundary`. -/
def DiyFp.NormalizeBoundary (x : DiyFp) : Res DiyFp := do
  let res ← normalizeLoop 65 x
  pure { f := (res.f <<< (64 - 52 - 2)) % 2 ^ 64, e := res.e - (64 - 52 - 2) }

/-- The function `DiyFp::NormalizedBoundaries`: `minus` and `plus`. -/
def DiyFp.NormalizedBoundaries (x : DiyFp) : Res (DiyFp × DiyFp) := do
  let pl ← DiyFp.NormalizeBoundary { f := (x.f <<< 1) + 1, e := x.e - 1 }
  let mi : DiyFp :=
    if x.f = kDpHiddenBit then { f := (x.f <<< 2) - 1, e := x.e - 2 }
    else { f := (x.f <<< 1) - 1, e := x.e - 1 }
  pure ({ f := (mi.f <<< (mi.e - pl.e).toNat) % 2 ^ 64, e := pl.e }, pl)

/-- The table `kCachedPowers_F`. -/
def kCachedPowers_F : List Nat := [
    0xfa8fd5a0081c0288, 0xbaaee17fa23ebf76, 0x8b16fb203055ac76,
    0xcf42894a5dce35ea, 0x9a6bb0aa55653b2d, 0xe61acf033d1a45df,
    0xab70fe17c79ac6ca, 0xff77b1fcbebcdc4f, 0xbe5691ef416bd60c,
    0x8dd01fad907ffc3c, 0xd3515c2831559a83, 0x9d71ac8fada6c9b5,
    0xea9c227723ee8bcb, 0xaecc49914078536d, 0x823c12795db6ce57,
    0xc21094364dfb5637, 0x9096ea6f3848984f, 0xd77485cb25823ac7,
    0xa086cfcd97bf97f4, 0xef340a98172aace5, 0xb23867fb2a35b28e,
    0x84c8d4dfd2c63f3b, 0xc5dd44271ad3cdba, 0x936b9fcebb25c996,
    0xdbac6c247d62a584, 0xa3ab66580d5fdaf6, 0xf3e2f893dec3f126,
    0xb5b5ada8aaff80b8, 0x87625f056c7c4a8b, 0xc9bcff6034c13053,
    0x964e858c91ba2655, 0xdff9772470297ebd, 0xa6dfbd9fb8e5b88f,
    0xf8a95fcf88747d94, 0xb94470938fa89bcf, 0x8a08f0f8bf0f156b,
    0xcdb02555653131b6, 0x993fe2c6d07b7fac, 0xe45c10c42a2b3b06,
    0xaa242499697392d3, 0xfd87b5f28300ca0e, 0xbce5086492111aeb,
    0x8cbccc096f5088cc, 0xd1b71758e219652c, 0x9c40000000000000,
    0xe8d4a51000000000, 0xad78ebc5ac620000, 0x813f3978f8940984,
    0xc097ce7bc90715b3, 0x8f7e32ce7bea5c70, 0xd5d238a4abe98068,
    0x9f4f2726179a2245, 0xed63a231d4c4fb27, 0xb0de65388cc8ada8,
    0x83c7088e1aab65db, 0xc45d1df942711d9a, 0x924d692ca61be758,
    0xda01ee641a708dea, 0xa26da3999aef774a, 0xf209787bb47d6b85,
    0xb454e4a179dd1877, 0x865b86925b9bc5c2, 0xc83553c5c8965d3d,
    0x952ab45cfa97a0b3, 0xde469fbd99a05fe3, 0xa59bc234db398c25,
    0xf6c69a72a3989f5c, 0xb7dcbf5354e9bece, 0x88fcf317f22241e2,
    0xcc20ce9bd35c78a5, 0x98165af37b2153df, 0xe2a0b5dc971f303a,
    0xa8d9d1535ce3b396, 0xfb9b7cd9a4a7443c, 0xbb764c4ca7a44410,
    0x8bab8eefb6409c1a, 0xd01fef10a657842c, 0x9b10a4e5e9913129,
    0xe7109bfba19c0c9d, 0xac2820d9623bf429, 0x80444b5e7aa7cf85,
    0xbf21e44003acdd2d, 0x8e679c2f5e44ff8f, 0xd433179d9c8cb841,
    0x9e19db92b4e31ba9, 0xeb96bf6ebadf77d9, 0xaf87023b9bf0ee6b ]

/-- The table `kCachedPowers_E`. -/
def kCachedPowers_E : List Int := [
    -1220, -1193, -1166, -1140, -1113, -1087, -1060, -1034, -1007, -980,
    -954, -927, -901, -874, -847, -821, -794, -768, -741, -715,
    -688, -661, -635, -608, -582, -555, -529, -502, -475, -449,
    -422, -396, -369, -343, -316, -289, -263, -236, -210, -183,
    -157, -130, -103, -77, -50, -24, 3, 30, 56, 83,
    109, 136, 162, 189, 216, 242, 269, 295, 322, 348,
    375, 402, 428, 455, 481, 508, 534, 561, 588, 614,
    641, 667, 694, 720, 747, 774, 800, 827, 853, 880,
    907, 933, 960, 986, 1013, 1039, 1066 ]

/-- The function `GetCachedPower(e, K)`: the cached power and `K`. The index
comes from the double `dk = (-61 - e) * 0.30102999566398114 + 347`, truncated
and rounded up when it is not an integer. -/
def GetCachedPower (e : Int) : Res (DiyFp × Int) :=
  let dk := dAdd (dMul (dOfInt (-61 - e)) (roundPos 30102999566398114 100000000000000000))
    (dOfInt 347)
  let t : Int :=
    if dSign dk = 1 then -((dNum dk / 2 ^ 1074 : Nat) : Int) else ((dNum dk / 2 ^ 1074 : Nat) : Int)
  let k : Int := if dNum dk % 2 ^ 1074 ≠ 0 then t + 1 else t
  let index : Nat := (((k / 8) + 1) % 2 ^ 32).toNat
  let K : Int := -(-348 + ((index <<< 3 : Nat) : Int))
  match kCachedPowers_F.get? index, kCachedPowers_E.get? index with
  | some f, some ce => pure ({ f := f, e := ce }, K)
  | _, _ => .fault (.outOfBounds index)

/-- The loop of `GrisuRound(buffer, len, delta, rest, ten_kappa, wp_w)`: the
last digit written is decremented while the number gets closer to `w`. -/
def GrisuRound : Nat → List Nat → Nat → Nat → Nat → Nat → Res (List Nat)
  | 0, _, _, _, _, _ => .fault .outOfFuel
  | fuel + 1, buffer, delta, rest, ten_kappa, wp_w =>
    if rest < wp_w ∧ (delta + 2 ^ 64 - rest) % 2 ^ 64 ≥ ten_kappa ∧
        ((rest + ten_kappa) % 2 ^ 64 < wp_w ∨
          (wp_w + 2 ^ 64 - rest) % 2 ^ 64
            > ((rest + ten_kappa) % 2 ^ 64 + 2 ^ 64 - wp_w) % 2 ^ 64) then
      match buffer.reverse with
      | [] => .fault (.outOfBounds 0)
      | last :: front =>
        GrisuRound fuel ((((last + 255) % 256) :: front).reverse) delta
          ((rest + ten_kappa) % 2 ^ 64) ten_kappa wp_w
    else pure buffer

/-- The function `CountDecimalDigit32(n)`. -/
def CountDecimalDigit32 (n : Nat) : Nat :=
  if n < 10 then 1 else if n < 100 then 2 else if n < 1000 then 3 else if n < 10000 then 4
  else if n < 100000 then 5 else if n < 1000000 then 6 else if n < 10000000 then 7
  else if n < 100000000 then 8 else 9

/-- The table `kPow10` of `DigitGen`. -/
def kPow10 : List Nat :=
  [1, 10, 100, 1000, 10000, 100000, 1000000, 10000000, 100000000, 1000000000]

/-- The read `kPow10[i]`. -/
def kPow10At (i : Nat) : Res Nat :=
  match kPow10.get? i with
  | some x => pure x
  | none => .fault (.outOfBounds i)

/-- The digits and `K` that `DigitGen` leaves. -/
structure Digits where
  buffer : List Nat
  K : Int
  deriving DecidableEq, Repr

/-- The loop `while (kappa > 0)` of `DigitGen`: `none` when it ends with
`kappa = 0` without a return. `sh` is `-one.e`. -/
def digitLoop1 (sh delta wp_w : Nat) (K : Int) :
    Nat → Nat → Nat → List Nat → Res (Option Digits × Nat × List Nat)
  | 0, p1, _, buffer => pure (none, p1, buffer)
  | kappa + 1, p1, p2, buffer => do
    -- switch (kappa): d = p1 / 10^(kappa-1); p1 %= 10^(kappa-1)
    let pw ← kPow10At kappa
    let d := p1 / pw
    let p1 := p1 % pw
    let buffer := if d ≠ 0 ∨ buffer.length ≠ 0 then buffer ++ [(48 + d % 256) % 256] else buffer
    let tmp := ((p1 <<< sh) + p2) % 2 ^ 64
    if tmp ≤ delta then do
      let b ← GrisuRound 64 buffer delta tmp ((pw <<< sh) % 2 ^ 64) wp_w
      pure (some { buffer := b, K := K + kappa }, p1, b)
    else digitLoop1 sh delta wp_w K kappa p1 p2 buffer

/-- The read `kPow10[i]` on a machine that does not check it: the entry of
the table for `i < 10`, and behind the table the 32-bit word that the memory
`w` holds there. -/
def kPow10Word (w : Nat → Nat) (i : Nat) : Res Nat :=
  match kPow10.get? i with
  | some x => pure x
  | none => pure (w i % 2 ^ 32)

/-- The loop `for (;;)` of `DigitGen` after `kappa` has reached 0; `m` is
`-kappa`, and `pow` is the read `kPow10[-kappa]`. -/
def digitLoop2With (pow : Nat → Res Nat) (sh wp_w : Nat) (K : Int) :
    Nat → Nat → Nat → Nat → List Nat → Res Digits
  | 0, _, _, _, _ => .fault .outOfFuel
  | fuel + 1, m, p2, delta, buffer => do
    let p2 := (p2 * 10) % 2 ^ 64
    let delta := (delta * 10) % 2 ^ 64
    let d := (p2 >>> sh) % 256
    let buffer := if d ≠ 0 ∨ buffer.length ≠ 0 then buffer ++ [(48 + d) % 256] else buffer
    let p2 := p2 &&& (2 ^ sh - 1)
    let m := m + 1
    if p2 < delta then do
      let pw ← pow m
      let b ← GrisuRound 64 buffer delta p2 (2 ^ sh) ((wp_w * pw) % 2 ^ 64)
      pure { buffer := b, K := K - m }
    else digitLoop2With pow sh wp_w K fuel m p2 delta buffer

/-- The function `DigitGen(W, Mp, delta, buffer, len, K)`, with `pow` the read
`kPow10[-kappa]` of its second loop. -/
def DigitGenWith (pow : Nat → Res Nat) (W Mp : DiyFp) (delta : Nat) (K : Int) : Res Digits := do
  let sh := (-Mp.e).toNat
  let wp_w := DiyFp.sub Mp W
  let p1 := (Mp.f >>> sh) % 2 ^ 32
  let p2 := Mp.f &&& (2 ^ sh - 1)
  let kappa := CountDecimalDigit32 p1
  let (r, _, buffer) ← digitLoop1 sh delta wp_w.f K kappa p1 p2 []
  match r with
  | some ds => pure ds
  | none => digitLoop2With pow sh wp_w.f K 64 0 p2 delta buffer

/-- The function `Grisu2(value, buffer, length, K)` on the pattern of a
positive double, with `pow` the read `kPow10[-kappa]` of the second loop of
`DigitGen`. -/
def Grisu2With (pow : Nat → Res Nat) (value : Nat) : Res Digits := do
  let v := DiyFp.ofDouble value
  let (w_m, w_p) ← v.NormalizedBoundaries
  let (c_mk, K) ← GetCachedPower w_p.e
  let W := v.Normalize.mul c_mk
  let Wp := w_p.mul c_mk
  let Wm := w_m.mul c_mk
  let Wm := { Wm with f := (Wm.f + 1) % 2 ^ 64 }
  let Wp := { Wp with f := (Wp.f + 2 ^ 64 - 1) % 2 ^ 64 }
  DigitGenWith pow W Wp ((Wp.f + 2 ^ 64 - Wm.f) % 2 ^ 64) K

/-- The loop `for (;;)` of `DigitGen` with every read of `kPow10` checked. -/
def digitLoop2 (sh wp_w : Nat) (K : Int) : Nat → Nat → Nat → Nat → List Nat → Res Digits :=
  digitLoop2With kPow10At sh wp_w K

/-- The function `DigitGen` with every read of `kPow10` checked. -/
def DigitGen (W Mp : DiyFp) (delta : Nat) (K : Int) : Res Digits :=
  DigitGenWith kPow10At W Mp delta K

/-- The function `Grisu2(value, buffer, length, K)` on the pattern of a
positive double, with every read of `kPow10` checked: a read outside the table
is a fault. -/
def Grisu2 (value : Nat) : Res Digits :=
  Grisu2With kPow10At value

/-- The function `WriteExponent(K, buffer)`: the bytes it writes. -/
def WriteExponent (K : Int) : List Nat :=
  let sign := if K < 0 then [45] else []
  let K := K.natAbs
  sign ++
    (if K ≥ 100 then [(48 + K / 100) % 256, lut (K % 100 * 2), lut (K % 100 * 2 + 1)]
     else if K ≥ 10 then [lut (K * 2), lut (K * 2 + 1)]
     else [48 + K])

/-- The function `Prettify(buffer, length, k)`: the text it leaves. -/
def Prettify (buffer : List Nat) (k : Int) : List Nat :=
  let length : Int := buffer.length
  let kk : Int := length + k
  if length ≤ kk ∧ kk ≤ 21 then
    -- 1234e7 -> 12340000000
    buffer ++ List.replicate (kk - length).toNat 48
  else if 0 < kk ∧ kk ≤ 21 then
    -- 1234e-2 -> 12.34
    buffer.take kk.toNat ++ 46 :: buffer.drop kk.toNat
  else if -6 < kk ∧ kk ≤ 0 then
    -- 1234e-6 -> 0.001234
    48 :: 46 :: (List.replicate (-kk).toNat 48 ++ buffer)
  else if length = 1 then
    -- 1e30
    buffer ++ 101 :: WriteExponent (kk - 1)
  else
    -- 1234e30 -> 1.234e33
    buffer.take 1 ++ 46 :: (buffer.drop 1 ++ 101 :: WriteExponent (kk - 1))

/-- The text that `Grisu2` followed by `Prettify` leaves for a positive
double, or the fault of `Grisu2` where it reads outside a table. -/
def grisuPretty (value : Nat) : Res (List Nat) := do
  let ds ← Grisu2 value
  pure (Prettify ds.buffer ds.K)

/-- The operations on doubles of IEEE 754 binary64 arithmetic, rounding to
nearest with ties to even. -/
def ieee : FloatOps where
  ofInt := dOfInt
  mulAdd10 := fun d c => dAdd (dMul d (dOfInt 10)) (dOfInt c)
  scale := fun d e => dMul d (pow10 e)
  neg := fun d => if d ≥ 2 ^ 63 then d - 2 ^ 63 else d + 2 ^ 63
  grisuText := grisuPretty

/-- The plain decimal text of a natural number: its decimal digits, the most
significant first, as ASCII bytes; `0` for zero. -/
def natDecimal (u : Nat) : List Nat :=
  if u = 0 then [48] else (Nat.digits 10 u).reverse.map (fun d => 48 + d)

/-- The plain decimal text of an integer: `-` in front of the decimal text of
the magnitude of a negative one. -/
def decimalText (n : Int) : List Nat :=
  if n < 0 then 45 :: natDecimal n.natAbs else natDecimal n.natAbs

/-! ### A comma before the closing bracket -/

/-- The members with a comma, followed by the stretch `g`, put after the last
of them. -/
def CNodes.withTrailingComma (g : List Nat) : CNodes → CNodes
  | .nil lead => .nil { lead with comma := some g }
  | .cons lead key v next => .cons lead key v (next.withTrailingComma g)

/-- No comma stands between the last member and the closing bracket. -/
def CNodes.NoTrailingComma : CNodes → Prop
  | .nil lead => lead.comma = none
  | .cons _ _ _ next => next.NoTrailingComma

/-- The key `"a":` of the examples. -/
def keyA : CKey := { its := [.plain 97], g1 := [], g2 := [] }

/-- The text of a container whose only member has the value text `t`, with
the key `k` in front of it in an object. -/
def singleText (k : CKey) (isObj : Bool) (t : List Nat) : List Nat :=
  openerOf isObj :: (keyText (nestKey k isObj) ++ t ++ [closerOf isObj, 0])

/-- The tree of a container whose only member has the value `v`. -/
def singleTree (name : List Nat) (isObj : Bool) (v : Value (List Nat)) : Value (List Nat) :=
  containerValue isObj (.cons v (if isObj then some name else none) .nil)

/-- The tree of `{"k":[7,"hi"]}`. -/
def sampleTree : Value (List Nat) :=
  .object (.cons (.array (.cons (.int 7) none (.cons (.string [104, 105]) none .nil)))
    (some [107]) .nil)

/-- The text `emit(parse(T))`: `jsonParse` on the buffer `T`, then
`Value::dump` of the tree it produced; `none` when no tree is produced. -/
def emitParse (F : FloatOps) (formatted : Bool) (avail : Nat) (T : List Nat) :
    Res (Option (List Nat)) := do
  let r ← jsonParse F avail T
  match r.value with
  | some v => do
    let text ← Value.dump F formatted (v.resolve r.buf) 0
    pure (some text)
  | none => pure none

/-- The bit pattern of the double nearest to 0.00007. -/
def dSevenE5 : Nat := 4544793512730098642

/-- The members of `[1]`. -/
def sampleMembers : CNodes :=
  .cons { a := [], comma := none } none (.int false [49]) (.nil { a := [], comma := none })

/-- The parse state of the text `[-42]` after the node of the element has
been allocated, at the first byte of the number. -/
def sampleState : PState :=
  { buf := [91, 45, 52, 50, 93, 0], s := 1,
    stack := [{ tail := [{ value := Value.null, name := none }], endchar := 93 }], allocs := 1 }

/-! ## Reading decimal text (the meaning of what `Prettify` writes) -/

/-- The number a run of ASCII digits spells. -/
def digitsValue (ds : List Nat) : Nat := ds.foldl (fun a d => 10 * a + (d - 48)) 0

/-- All bytes are ASCII digits. -/
def allDigits (ds : List Nat) : Bool := ds.all (fun d => decide (48 ≤ d) && decide (d ≤ 57))

/-- The value of an exponent text: an optional `-` and a non-empty run of
digits. -/
def readExponent : List Nat → Option Int
  | 45 :: r => if r ≠ [] ∧ allDigits r = true then some (-(digitsValue r : Int)) else none
  | r => if r ≠ [] ∧ allDigits r = true then some (digitsValue r : Int) else none

/-- The value of a mantissa text: a non-empty run of digits, optionally
followed by `.` and another non-empty run of digits. -/
def readMantissa (t : List Nat) : Option ℚ :=
  let ip := t.takeWhile (fun c => c != 46)
  match t.dropWhile (fun c => c != 46) with
  | [] => if ip ≠ [] ∧ allDigits ip = true then some (digitsValue ip : ℚ) else none
  | _ :: fp =>
    if ip ≠ [] ∧ fp ≠ [] ∧ allDigits ip = true ∧ allDigits fp = true then
      some ((digitsValue (ip ++ fp) : ℚ) / 10 ^ fp.length)
    else none

/-- The value of a decimal text: a mantissa, optionally followed by `e` and an
exponent. -/
def readDecimal (t : List Nat) : Option ℚ :=
  let m := t.takeWhile (fun c => c != 101)
  match t.dropWhile (fun c => c != 101) with
  | [] => readMantissa m
  | _ :: e =>
    match readMantissa m, readExponent e with
    | some a, some b => some (a * 10 ^ b)
    | _, _ => none

/-- The text the specification gives for the digits `ds` and the decimal
exponent `k`, with `kk = L + k`: the digits followed by zeros, the digits with
a point inside, `0.` with zeros and the digits, or scientific notation with the
exponent `kk - 1` in plain decimal. -/
def prettyShape (ds : List Nat) (k : Int) : List Nat :=
  let L : Int := ds.length
  let kk : Int := L + k
  if L ≤ kk ∧ kk ≤ 21 then ds ++ List.replicate (kk - L).toNat 48
  else if 0 < kk ∧ kk < L then ds.take kk.toNat ++ [46] ++ ds.drop kk.toNat
  else if -6 < kk ∧ kk ≤ 0 then [48, 46] ++ List.replicate (-kk).toNat 48 ++ ds
  else if L = 1 then ds ++ [101] ++ decimalText (kk - 1)
  else ds.take 1 ++ [46] ++ ds.drop 1 ++ [101] ++ decimalText (kk - 1)

/-- The bit pattern of the double 0.30000000000000004. -/
def dThreeTenths : Nat := 4599075939470750516

/-! ## `i32toa` with its buffer -/

/-- The lower-case hexadecimal digit of a value below 16. -/
def hexLower (d : Nat) : Nat := if d < 10 then 48 + d else 87 + d

/-- What the specification has `writeEscaped` write for one byte from 0x01 to
0x7E: the byte itself when it is printable ASCII other than the quote and the
backslash, a two-character escape for the seven bytes of the escape table, and
`\u00HH` for the other control bytes. -/
def escapeSpec (c : Nat) : List Nat :=
  if 0x20 ≤ c ∧ c ≤ 0x7E ∧ c ≠ 0x22 ∧ c ≠ 0x5C then [c]
  else if c = 0x08 then [92, 98]
  else if c = 0x0C then [92, 102]
  else if c = 0x0A then [92, 110]
  else if c = 0x0D then [92, 114]
  else if c = 0x09 then [92, 116]
  else if c = 0x5C then [92, 92]
  else if c = 0x22 then [92, 34]
  else [92, 117, 48, 48, hexLower (c / 16), hexLower (c % 16)]

/-! ## The two layouts of `dump`, as the specification words them -/

mutual
/-- The compact text of a tree: a Number as the text `num d`, an Int as its
plain decimal text, a string escaped between quotes, an array as `[`, its
elements separated by single commas, and `]`, an object as `\x7b`, its
members separated by single commas, and `\x7d`. -/
def Value.compactText (num : Nat → List Nat) : Value (List Nat) → List Nat
  | .number d => num d
  | .int n => decimalText n
  | .string s => writeEscaped s
  | .array h => [91] ++ h.compactText num false ++ [93]
  | .object h => [123] ++ h.compactText num true ++ [125]
  | .jtrue => [116, 114, 117, 101]
  | .jfalse => [102, 97, 108, 115, 101]
  | .null => [110, 117, 108, 108]
/-- The compact text of the children of a container, in list order: each
child (for an object the escaped key, `:` and the value), with a single comma
between two children. -/
def Nodes.compactText (num : Nat → List Nat) (isObj : Bool) : Nodes (List Nat) → List Nat
  | .nil => []
  | .cons v name next =>
    (if isObj then writeEscaped (name.getD []) ++ [58] else []) ++ v.compactText num
      ++ (match next with
          | .nil => []
          | .cons _ _ _ => [44])
      ++ next.compactText num isObj
end

mutual
/-- The formatted text of a tree at nesting depth `i`: a Number as the text
`num d`, an Int as its plain decimal text, a string escaped between quotes, an
empty container as `[ ]` or `\x7b \x7d`, another container as the opening
bracket, a line feed, its children at depth `i + 1`, `i` tabs and the closing
bracket. -/
def Value.formattedText (num : Nat → List Nat) : Value (List Nat) → Nat → List Nat
  | .number d, _ => num d
  | .int n, _ => decimalText n
  | .string s, _ => writeEscaped s
  | .array .nil, _ => [91, 32, 93]
  | .array (.cons v name next), i =>
    [91, 10] ++ Nodes.formattedText num false (.cons v name next) (i + 1)
      ++ List.replicate i 9 ++ [93]
  | .object .nil, _ => [123, 32, 125]
  | .object (.cons v name next), i =>
    [123, 10] ++ Nodes.formattedText num true (.cons v name next) (i + 1)
      ++ List.replicate i 9 ++ [125]
  | .jtrue, _ => [116, 114, 117, 101]
  | .jfalse, _ => [102, 97, 108, 115, 101]
  | .null, _ => [110, 117, 108, 108]
/-- The formatted text of the children of a container at depth `j`, in list
order: for each child `j` tabs, the child (for an object the escaped key,
` : ` and the value), then `, ` if another child follows, then a line feed. -/
def Nodes.formattedText (num : Nat → List Nat) (isObj : Bool) :
    Nodes (List Nat) → Nat → List Nat
  | .nil, _ => []
  | .cons v name next, j =>
    List.replicate j 9
      ++ (if isObj then writeEscaped (name.getD []) ++ [32, 58, 32] else [])
      ++ v.formattedText num j
      ++ (match next with
          | .nil => []
          | .cons _ _ _ => [44, 32])
      ++ [10]
      ++ next.formattedText num isObj j
end

mutual
/-- The trees without a space outside escapes: no space or control byte in the
text of a Number leaf, and no space byte in a string or key. -/
def Value.SpaceFree (num : Nat → List Nat) : Value (List Nat) → Prop
  | .number d => ∀ x ∈ num d, 32 < x
  | .int _ => True
  | .string s => ∀ x ∈ s, x ≠ 32
  | .array h => h.SpaceFree num
  | .object h => h.SpaceFree num
  | .jtrue => True
  | .jfalse => True
  | .null => True
/-- The chains without a space outside escapes. -/
def Nodes.SpaceFree (num : Nat → List Nat) : Nodes (List Nat) → Prop
  | .nil => True
  | .cons v name next => v.SpaceFree num ∧ (∀ x ∈ name.getD [], x ≠ 32) ∧ next.SpaceFree num
end

/-- The bit pattern of the double 0.5. -/
def dHalf : Nat := 0x3FE0000000000000

/-- The bit pattern of the double -2.5. -/
def dMinusTwoHalf : Nat := 0xC004000000000000

/-- The tree of `{"k":[7,"h i",0.5,-2.5,[]],"n":null,"z":-12}`. -/
def mixedTree : Value (List Nat) :=
  .object
    (.cons (.array (.cons (.int 7) none (.cons (.string [104, 32, 105]) none
        (.cons (.number dHalf) none (.cons (.number dMinusTwoHalf) none
          (.cons (.array .nil) none .nil)))))) (some [107])
      (.cons .null (some [110]) (.cons (.int (-12)) (some [122]) .nil)))

/-- The texts of the Number leaves of `mixedTree`: `0.5` and `-2.5`. -/
def mixedNum (d : Nat) : List Nat := if d = dHalf then [48, 46, 53] else [45, 50, 46, 53]

/-- The tree of `[[true,"a"],\x7b"b":false\x7d]`. -/
def bareTree : Value (List Nat) :=
  .array
    (.cons (.array (.cons .jtrue none (.cons (.string [97]) none .nil))) none
      (.cons (.object (.cons .jfalse (some [98]) .nil)) none .nil))

/-! ## serialize.h: `BufferWriter`, and `Json::dump` of wrapper.h -/

/-- A `BufferWriter` on a memory: `_dst`, `_head` and `_end` are addresses. -/
structure BufferWriter where
  mem : List Nat
  dst : Nat
  head : Nat
  stop : Nat

/-- The constructor `BufferWriter(buffer, bufferSize)`. -/
def BufferWriter.new (mem : List Nat) (buffer bufferSize : Nat) : BufferWriter :=
  { mem := mem, dst := buffer, head := buffer, stop := buffer + bufferSize }

/-- The function `BufferWriter::size()`: `_dst - _head`. -/
def BufferWriter.size (w : BufferWriter) : Nat := w.dst - w.head

/-- The function `BufferWriter::puts(str, l)`, with `str` the `l` bytes to copy:
`if (_dst + l <= _end) memcpy(_dst, str, l); _dst += l;`. -/
def BufferWriter.puts (w : BufferWriter) (str : List Nat) : Res BufferWriter :=
  if w.dst + str.length ≤ w.stop then do
    let m ← stores w.mem w.dst str
    pure { w with mem := m.1, dst := w.dst + str.length }
  else pure { w with dst := w.dst + str.length }

/-- The function `BufferWriter::putc(c)`:
`if (_dst < _end) *_dst = c; _dst++;`. -/
def BufferWriter.putc (w : BufferWriter) (c : Nat) : Res BufferWriter :=
  if w.dst < w.stop then do
    let m ← wr w.mem w.dst c
    pure { w with mem := m, dst := w.dst + 1 }
  else pure { w with dst := w.dst + 1 }

/-- The function `BufferWriter::writeTabs(n)`:
`if (_dst + n <= _end) memset(_dst, '\t', n); _dst += n;`. -/
def BufferWriter.writeTabs (w : BufferWriter) (n : Nat) : Res BufferWriter :=
  if w.dst + n ≤ w.stop then do
    let m ← stores w.mem w.dst (List.replicate n 9)
    pure { w with mem := m.1, dst := w.dst + n }
  else pure { w with dst := w.dst + n }

/-- A call on a writer. -/
inductive WriterCall where
  | puts (str : List Nat)
  | putc (c : Nat)
  | writeTabs (n : Nat)

/-- The bytes a call requests. -/
def WriterCall.bytes : WriterCall → List Nat
  | .puts str => str
  | .putc c => [c]
  | .writeTabs n => List.replicate n 9

/-- The bytes a sequence of calls requests, in order. -/
def requested (cs : List WriterCall) : List Nat := cs.flatMap WriterCall.bytes

/-- One call on a `BufferWriter`. -/
def BufferWriter.call (w : BufferWriter) : WriterCall → Res BufferWriter
  | .puts str => w.puts str
  | .putc c => w.putc c
  | .writeTabs n => w.writeTabs n

/-- A sequence of calls on a `BufferWriter`. -/
def BufferWriter.run (w : BufferWriter) : List WriterCall → Res BufferWriter
  | [] => .ok w
  | c :: cs => do
    let w1 ← w.call c
    w1.run cs

/-- The calls of the loop body of `writeEscaped` for one byte `c`. -/
def escapeByteCalls (c : Nat) : List WriterCall :=
  if c ≥ 32 ∧ c ≠ 34 ∧ c ≠ 92 then [.putc c]
  else .putc 92 :: (
    if c = 8 then [.putc 98]
    else if c = 13 then [.putc 114]
    else if c = 9 then [.putc 116]
    else if c = 12 then [.putc 102]
    else if c = 10 then [.putc 110]
    else if c = 92 then [.putc 92]
    else if c = 34 then [.putc 34]
    else [.puts [117, 48, 48], .putc (s_to_hex.getD (c >>> 4) 0),
          .putc (s_to_hex.getD (c &&& 0xF) 0)])

/-- The calls of the loop `while (*s)` of `writeEscaped`. -/
def escapeLoopCalls : List Nat → List WriterCall
  | [] => []
  | c :: rest => if c = 0 then [] else escapeByteCalls c ++ escapeLoopCalls rest

/-- The calls of `Writer::writeEscaped(str)`. -/
def writeEscapedCalls (str : List Nat) : List WriterCall :=
  .putc 34 :: escapeLoopCalls str ++ [.putc 34]

mutual
/-- The calls that `Value::dump(out, formatted, indent)` makes on its writer,
in order, or the fault of a leaf writer that stores outside its buffer. -/
def Value.dumpCalls (F : FloatOps) (formatted : Bool) :
    Value (List Nat) → Nat → Res (List WriterCall)
  | .number d, _ => do
    let text ← writeNumber F d
    pure [.puts text]
  | .int n, _ => do
    let text ← writeInt n
    pure [.puts text]
  | .string str, _ => pure (writeEscapedCalls str)
  | .array .nil, _ => pure [.puts (if formatted then [91, 32, 93] else [91, 93])]
  | .array (.cons v name next), indent => do
    let body ← Nodes.dumpCalls F formatted false (.cons v name next) (indent + 1)
    pure ([.putc 91] ++ (if formatted then [.putc 10] else []) ++ body
      ++ (if formatted then [.writeTabs indent] else []) ++ [.putc 93])
  | .object .nil, _ => pure [.puts (if formatted then [123, 32, 125] else [123, 125])]
  | .object (.cons v name next), indent => do
    let body ← Nodes.dumpCalls F formatted true (.cons v name next) (indent + 1)
    pure ([.putc 123] ++ (if formatted then [.putc 10] else []) ++ body
      ++ (if formatted then [.writeTabs indent] else []) ++ [.putc 125])
  | .jtrue, _ => pure [.puts [116, 114, 117, 101]]
  | .jfalse, _ => pure [.puts [102, 97, 108, 115, 101]]
  | .null, _ => pure [.puts [110, 117, 108, 108]]
/-- The calls of the loop `for (Node* n = toNode(); n; n = n->next)` of
`Value::dump`. -/
def Nodes.dumpCalls (F : FloatOps) (formatted : Bool) (isObject : Bool) :
    Nodes (List Nat) → Nat → Res (List WriterCall)
  | .nil, _ => pure []
  | .cons v name next, indent => do
    let child ← Value.dumpCalls F formatted v indent
    let rest ← Nodes.dumpCalls F formatted isObject next indent
    pure ((if formatted then [.writeTabs indent] else [])
      ++ (if isObject then
            writeEscapedCalls (name.getD [])
              ++ (if formatted then [.puts [32, 58, 32]] else [.putc 58])
          else [])
      ++ child
      ++ (match next with
          | .nil => []
          | .cons _ _ _ => [.putc 44] ++ (if formatted then [.putc 32] else []))
      ++ (if formatted then [.putc 10] else [])
      ++ rest)
end

mutual
/-- The calls of `Value::dump` with the leaf writers left out: `num d` stands
for the text that `writeNumber` passes on for the Number `d`, and the text of
an Int is the bytes of `i32toa`. -/
def Value.callList (num : Nat → List Nat) (formatted : Bool) :
    Value (List Nat) → Nat → List WriterCall
  | .number d, _ => [.puts (num d)]
  | .int n, _ => [.puts (i32toa n)]
  | .string str, _ => writeEscapedCalls str
  | .array .nil, _ => [.puts (if formatted then [91, 32, 93] else [91, 93])]
  | .array (.cons v name next), indent =>
    [.putc 91] ++ (if formatted then [.putc 10] else [])
      ++ Nodes.callList num formatted false (.cons v name next) (indent + 1)
      ++ (if formatted then [.writeTabs indent] else []) ++ [.putc 93]
  | .object .nil, _ => [.puts (if formatted then [123, 32, 125] else [123, 125])]
  | .object (.cons v name next), indent =>
    [.putc 123] ++ (if formatted then [.putc 10] else [])
      ++ Nodes.callList num formatted true (.cons v name next) (indent + 1)
      ++ (if formatted then [.writeTabs indent] else []) ++ [.putc 125]
  | .jtrue, _ => [.puts [116, 114, 117, 101]]
  | .jfalse, _ => [.puts [102, 97, 108, 115, 101]]
  | .null, _ => [.puts [110, 117, 108, 108]]
/-- The calls of the loop over the children of a container, with the leaf
writers left out. -/
def Nodes.callList (num : Nat → List Nat) (formatted : Bool) (isObject : Bool) :
    Nodes (List Nat) → Nat → List WriterCall
  | .nil, _ => []
  | .cons v name next, indent =>
    (if formatted then [.writeTabs indent] else [])
      ++ (if isObject then
            writeEscapedCalls (name.getD [])
              ++ (if formatted then [.puts [32, 58, 32]] else [.putc 58])
          else [])
      ++ Value.callList num formatted v indent
      ++ (match next with
          | .nil => []
          | .cons _ _ _ => [.putc 44] ++ (if formatted then [.putc 32] else []))
      ++ (if formatted then [.putc 10] else [])
      ++ Nodes.callList num formatted isObject next indent
end

/-- The function `Json::dump(buffer, bufferSize, pSize, formatted)` on the
value `v`: the writer after the dump and the NUL, and the result
`writer.size() <= bufferSize`. -/
def Json.dump (F : FloatOps) (v : Value (List Nat)) (mem : List Nat) (buffer bufferSize : Nat)
    (formatted : Bool) : Res (BufferWriter × Bool) := do
  let calls ← v.dumpCalls F formatted 0
  let w ← (BufferWriter.new mem buffer bufferSize).run calls
  let w ← w.putc 0
  pure (w, decide (w.size ≤ bufferSize))

/-- The state of a writer on the buffer of `cap` bytes at `buffer` of the
memory `mem0`, after calls that requested the bytes `pre`: the memory differs
from `mem0` inside the buffer only, and while `pre` fits the buffer starts
with `pre`. -/
def WriterInv (mem0 : List Nat) (buffer cap : Nat) (w : BufferWriter) (pre : List Nat) : Prop :=
  w.head = buffer ∧ w.stop = buffer + cap ∧ w.dst = buffer + pre.length ∧
  ∃ body, w.mem = mem0.take buffer ++ body ++ mem0.drop (buffer + cap) ∧ body.length = cap ∧
    (pre.length ≤ cap → body.take pre.length = pre)

/-! ## value.h: the NaN-boxed word of a `Value` -/

/-- The macro `JSON_VALUE_PAYLOAD_MASK`. -/
def JSON_VALUE_PAYLOAD_MASK : Nat := 0x00007FFFFFFFFFFF

/-- The macro `JSON_VALUE_NAN_MASK`. -/
def JSON_VALUE_NAN_MASK : Nat := 0x7FF8000000000000

/-- The macro `JSON_VALUE_TAG_MASK`. -/
def JSON_VALUE_TAG_MASK : Nat := 0xF

/-- The macro `JSON_VALUE_TAG_SHIFT`. -/
def JSON_VALUE_TAG_SHIFT : Nat := 47

/-- The integer value of an enumerator of `Type`. -/
def JType.code : JType → Nat
  | .JSON_NUMBER => 0
  | .JSON_INT => 1
  | .JSON_STRING => 2
  | .JSON_ARRAY => 3
  | .JSON_OBJECT => 4
  | .JSON_TRUE => 5
  | .JSON_FALSE => 6
  | .JSON_NULL => 0xF

/-- The conversion `(int64_t)u` of a 64-bit word. -/
def toInt64 (u : Nat) : Int := if u % 2 ^ 64 < 2 ^ 63 then (u % 2 ^ 64 : Nat) else (u % 2 ^ 64 : Nat) - 2 ^ 64

/-- The conversion of an unsigned value to `int32_t`. -/
def toInt32 (u : Nat) : Int := if u % 2 ^ 32 < 2 ^ 31 then (u % 2 ^ 32 : Nat) else (u % 2 ^ 32 : Nat) - 2 ^ 32

/-- The word `ival` of a `Value`; `fval` is the same 64 bits read as a double. -/
structure Word where
  ival : Nat

/-- The constructor `Value(double x)`: `fval(x)`, with `x` as its bit pattern. -/
def Word.ofDouble (x : Nat) : Word := { ival := x }

/-- The constructor `Value(Type type, void* payload)`:
`ival = JSON_VALUE_NAN_MASK | ((uint64_t)type << JSON_VALUE_TAG_SHIFT) | (uintptr_t)payload`. -/
def Word.ofType (type : JType) (payload : Nat) : Word :=
  { ival := JSON_VALUE_NAN_MASK ||| ((type.code <<< JSON_VALUE_TAG_SHIFT) % 2 ^ 64) ||| payload }

/-- The constructor `Value(int32_t x)`:
`ival = JSON_VALUE_NAN_MASK | ((uint64_t)JSON_INT << JSON_VALUE_TAG_SHIFT) | (x & 0xFFFFFFFF)`. -/
def Word.ofInt32 (x : Int) : Word :=
  { ival := JSON_VALUE_NAN_MASK ||| ((JType.JSON_INT.code <<< JSON_VALUE_TAG_SHIFT) % 2 ^ 64)
      ||| (x % 2 ^ 32).toNat }

/-- The function `Value::isDouble()`:
`(int64_t)ival <= (int64_t)JSON_VALUE_NAN_MASK`. -/
def Word.isDouble (v : Word) : Bool := decide (toInt64 v.ival ≤ toInt64 JSON_VALUE_NAN_MASK)

/-- The function `Value::getType()`, as the integer value of the result. -/
def Word.getType (v : Word) : Nat :=
  if v.isDouble then JType.JSON_NUMBER.code
  else (v.ival >>> JSON_VALUE_TAG_SHIFT) &&& JSON_VALUE_TAG_MASK

/-- The function `Value::getPayload()`. -/
def Word.getPayload (v : Word) : Nat := v.ival &&& JSON_VALUE_PAYLOAD_MASK

/-- The function `Value::toNumber()`: the bit pattern of `fval`. -/
def Word.toNumber (v : Word) : Nat := v.ival

/-- The function `Value::toInt()`: `ival & 0xFFFFFFFF` returned as `int32_t`. -/
def Word.toInt (v : Word) : Int := toInt32 (v.ival &&& 0xFFFFFFFF)

/-! ## value.h: `insertAfter` and `listToValue` on nodes in memory -/

/-- The `next` fields of the nodes in memory, by node address; the address 0
is the null pointer. -/
abbrev NextMap := Nat → Nat

/-- The store `p->next = q`. -/
def setNext (h : NextMap) (p q : Nat) : Res NextMap :=
  if p = 0 then .fault .nullDeref else .ok (fun x => if x = p then q else h x)

namespace Heap

/-- The function `insertAfter(tail, node)`: the `next` fields after it and the
returned pointer. -/
def insertAfter (h : NextMap) (tail node : Nat) : Res (NextMap × Nat) :=
  if tail = 0 then do
    -- return node->next = node;
    let h1 ← setNext h node node
    pure (h1, node)
  else do
    -- node->next = tail->next;
    let h1 ← setNext h node (h tail)
    -- tail->next = node;
    let h2 ← setNext h1 tail node
    pure (h2, node)

/-- The function `listToValue(type, tail)`: the `next` fields after it and the
returned `Value`. -/
def listToValue (h : NextMap) (type : JType) (tail : Nat) : Res (NextMap × Word) :=
  if tail ≠ 0 then do
    let head := h tail
    let h1 ← setNext h tail 0
    pure (h1, Word.ofType type head)
  else pure (h, Word.ofType type 0)

/-- The calls `tail = insertAfter(tail, n)` for the nodes `ns` in order. -/
def insertAll (h : NextMap) (tail : Nat) : List Nat → Res (NextMap × Nat)
  | [] => .ok (h, tail)
  | n :: ns => do
    let r ← insertAfter h tail n
    insertAll r.1 r.2 ns

/-- The nodes met by following `next` from `p` up to the null pointer, within
`fuel` steps. -/
def chainFrom (h : NextMap) : Nat → Nat → Option (List Nat)
  | 0, p => if p = 0 then some [] else none
  | fuel + 1, p => if p = 0 then some [] else (chainFrom h fuel (h p)).map (fun l => p :: l)

/-- The nodes `l` are linked in order and the last one points to `q`. -/
def Seg (h : NextMap) : List Nat → Nat → Prop
  | [], _ => True
  | a :: r, q => h a = r.headD q ∧ Seg h r q

end Heap

/-- The state after the nodes `l` have been inserted: a null tail for no node,
otherwise the tail is the last node and the nodes form a ring in insertion
order. -/
def Heap.Ring (h : NextMap) (tail : Nat) (l : List Nat) : Prop :=
  (l = [] ∧ tail = 0) ∨ (∃ hne : l ≠ [], tail = l.getLast hne ∧ Heap.Seg h l (l.headD 0))

/-! ## allocator.h -/

/-- The macro `ZJSON_BLOCK_SIZE`. -/
def ZJSON_BLOCK_SIZE : Nat := 8192

/-- The size `sizeof(Block)` of the block header: a pointer and two `size_t`. -/
def sizeofBlock : Nat := 24

/-- The header `struct Block` of a block. -/
structure Block where
  next : Nat
  used : Nat
  size : Nat

/-- The state of an `Allocator`: the block headers in memory by address, the
two chain heads (0 is the null pointer), and the system heap behind `malloc`:
the address the next `malloc` returns, the end of the heap, and the blocks
obtained so far (address and bytes, the latest first). -/
structure Allocator where
  mem : Nat → Block
  blocksHead : Nat
  freeBlocksHead : Nat
  brk : Nat
  limit : Nat
  mallocs : List (Nat × Nat)

/-- The constructor `Allocator()`, on a system heap from `brk` to `limit`. -/
def Allocator.new (brk limit : Nat) : Allocator :=
  { mem := fun _ => { next := 0, used := 0, size := 0 }, blocksHead := 0, freeBlocksHead := 0,
    brk := brk, limit := limit, mallocs := [] }

/-- A store to the header of the block at `p`. -/
def Allocator.setBlock (a : Allocator) (p : Nat) (f : Block → Block) : Allocator :=
  { a with mem := fun x => if x = p then f (a.mem x) else a.mem x }

/-- The call `malloc(n)`: a fresh block of the system heap, or the null
pointer when the heap is exhausted. -/
def Allocator.malloc (a : Allocator) (n : Nat) : Allocator × Nat :=
  if a.brk + n ≤ a.limit then
    ({ a with brk := a.brk + n, mallocs := (a.brk, n) :: a.mallocs }, a.brk)
  else (a, 0)

/-- The statement `size = (size + 7) & ~7` on a 64-bit `size_t`. -/
def alignUp (size : Nat) : Nat := ((size + 7) % 2 ^ 64) &&& 0xFFFFFFFFFFFFFFF8

/-- The value `allocSize = sizeof(Block) + size` of `allocate`, for the request
`size0`, in 64-bit arithmetic. -/
def allocSizeOf (size0 : Nat) : Nat := (sizeofBlock + alignUp size0) % 2 ^ 64

/-- The function `Allocator::allocate(size)`: the state after it and the
returned pointer. The sums of `size_t` values are taken modulo `2^64`. -/
def Allocator.allocate (a : Allocator) (size0 : Nat) : Allocator × Nat :=
  let size := alignUp size0
  if a.blocksHead ≠ 0 ∧ ((a.mem a.blocksHead).used + size) % 2 ^ 64 ≤ ZJSON_BLOCK_SIZE then
    -- char *p = (char *)blocksHead + blocksHead->used; blocksHead->used += size;
    (a.setBlock a.blocksHead (fun b => { b with used := (b.used + size) % 2 ^ 64 }),
      a.blocksHead + (a.mem a.blocksHead).used)
  else
    let allocSize := allocSizeOf size0
    let block := a.freeBlocksHead
    let r : Allocator × Nat :=
      if block ≠ 0 ∧ (a.mem block).size ≥ allocSize then
        -- reuse free block
        ({ a with freeBlocksHead := (a.mem block).next }, block)
      else
        -- allocate new block
        let m := a.malloc (if allocSize ≤ ZJSON_BLOCK_SIZE then ZJSON_BLOCK_SIZE else allocSize)
        if m.2 = 0 then (a, 0)
        else (m.1.setBlock m.2 (fun b => { b with size := allocSize }), m.2)
    if r.2 = 0 then (a, 0)
    else
      let a2 := r.1.setBlock r.2 (fun b => { b with used := allocSize })
      let a3 :=
        if allocSize ≤ ZJSON_BLOCK_SIZE ∨ a2.blocksHead = 0 then
          -- push_front
          { a2.setBlock r.2 (fun b => { b with next := a2.blocksHead }) with blocksHead := r.2 }
        else
          -- insert
          (a2.setBlock r.2 (fun b => { b with next := (a2.mem a2.blocksHead).next })).setBlock
            a2.blocksHead (fun b => { b with next := r.2 })
      (a3, r.2 + sizeofBlock)

/-- The loop `while (block && block->next) block = block->next` of `reset`. -/
def lastBlock (mem : Nat → Block) : Nat → Nat → Res Nat
  | 0, _ => .fault .outOfFuel
  | fuel + 1, block =>
    if block ≠ 0 ∧ (mem block).next ≠ 0 then lastBlock mem fuel (mem block).next
    else .ok block

/-- The function `Allocator::reset()`. -/
def Allocator.reset (fuel : Nat) (a : Allocator) : Res Allocator :=
  if a.blocksHead ≠ 0 then do
    let block ← lastBlock a.mem fuel a.blocksHead
    pure { a.setBlock block (fun b => { b with next := a.freeBlocksHead }) with
      freeBlocksHead := a.blocksHead, blocksHead := 0 }
  else pure a

/-- The blocks of the chain that starts at `p`, up to the null pointer. -/
def Allocator.chain (a : Allocator) (fuel : Nat) (p : Nat) : Option (List Nat) :=
  Heap.chainFrom (fun x => (a.mem x).next) fuel p

/-- The calls `allocate(n)` for the sizes `ns` in order: the state after them. -/
def Allocator.allocateAll (a : Allocator) : List Nat → Allocator
  | [] => a
  | n :: ns => (a.allocate n).1.allocateAll ns

/-- The arena after `allocate(8000)` and `allocate(200)` on a fresh
`Allocator`: two blocks of 8192 bytes, the second one at the head of the
in-use chain. -/
def sampleArena : Allocator := (Allocator.new 4096 1000000).allocateAll [8000, 200]

/-- What ends a string body: the closing quote, a bare NUL, LF or CR, a
backslash before a NUL, or `\u` followed by fewer than four hexadecimal digits
and a byte that is none. -/
inductive StrEnd where
  | quote
  | bare (c : Nat)
  | escNul
  | badHex (pre : List Nat) (x : Nat)
  deriving DecidableEq

/-- The bytes of an end in the text. -/
def StrEnd.text : StrEnd → List Nat
  | .quote => [34]
  | .bare c => [c]
  | .escNul => [92, 0]
  | .badHex pre x => 92 :: 117 :: (pre ++ [x])

/-- The ends of a string body. -/
def StrEnd.Valid : StrEnd → Prop
  | .quote => True
  | .bare c => c = 0 ∨ c = 10 ∨ c = 13
  | .escNul => True
  | .badHex pre x => pre.length < 4 ∧ (∀ h ∈ pre, (hexDigit h).isSome) ∧ hexDigit x = none

/-- The hexadecimal digit of a value below 16 as an ASCII byte, in upper or
lower case. -/
def hexChar (d : Nat) (upper : Bool) : Nat :=
  if d < 10 then 48 + d else if upper then 55 + d else 87 + d

/-- The escape `\uXXXX` of the 16-bit value `u`, each digit in the given case. -/
def uEscape (u : Nat) (c1 c2 c3 c4 : Bool) : StrItem :=
  .uni (hexChar (u / 4096 % 16) c1) (hexChar (u / 256 % 16) c2) (hexChar (u / 16 % 16) c3)
    (hexChar (u % 16) c4)

/-- The bytes the specification gives for the code point `u`: one byte below
0x80, two bytes below 0x800, three bytes otherwise. -/
def utf8Claimed (u : Nat) : List Nat :=
  if u < 0x80 then [u]
  else if u < 0x800 then [0xC0 ||| (u >>> 6), 0x80 ||| (u &&& 0x3F)]
  else [0xE0 ||| (u >>> 12), 0x80 ||| ((u >>> 6) &&& 0x3F), 0x80 ||| (u &&& 0x3F)]

/-- The bytes of the amended claim: one byte for `0 < u < 0x80`, two bytes for
`u = 0` and for `0x80 <= u < 0x800`, three bytes otherwise. -/
def utf8Amended (u : Nat) : List Nat :=
  if 0 < u ∧ u < 0x80 then [u]
  else if u = 0 ∨ (0x80 ≤ u ∧ u < 0x800) then [0xC0 ||| (u >>> 6), 0x80 ||| (u &&& 0x3F)]
  else [0xE0 ||| (u >>> 12), 0x80 ||| ((u >>> 6) &&& 0x3F), 0x80 ||| (u &&& 0x3F)]

/-- The result of a successful parse holds an array or an object. -/
def RootOk (r : ParseResult) : Prop :=
  r.code = .ERROR_NO_ERROR →
    ∃ v, r.value = some v ∧ (v.getType = .JSON_ARRAY ∨ v.getType = .JSON_OBJECT)

/-- A step that returns, returns a good result. -/
def StepOk (x : Res Step) : Prop := ∀ r, x = .ok (.ret r) → RootOk r

/-- Parsing the members `ns` of the top frame, at least one element in all,
followed by the closing bracket of the other kind, ends with
`ERROR_MISMATCH_BRACKET`. -/
def MismatchOk (F : FloatOps) (avail : Nat) (ns : CNodes) : Prop :=
  ∀ (st : PState) (f : Frame) (rest : List Frame) (after : List Nat) (isObj first : Bool),
    st.stack = f :: rest → f.endchar = closerOf isObj → ns.Valid isObj first →
    (f.tail = [] ↔ first = true) → ns.NoTrailingComma → (first = true → 0 < ns.size) →
    st.buf.drop st.s = ns.text ++ closerOf (!isObj) :: after →
    rest.length + 1 + ns.depth ≤ 32 → st.allocs + ns.size ≤ avail →
    ∃ buf', ∀ fuel, parseLoop F avail (fuel + ns.size + 1) st
      = .ok { code := .ERROR_MISMATCH_BRACKET, value := none, buf := buf',
              allocs := st.allocs + ns.size }

/-! ### What an error return leaves behind -/

/-- A result that is no stack underflow and that stores a value only with
`ERROR_NO_ERROR`. -/
def Sound (r : ParseResult) : Prop :=
  r.code ≠ .ERROR_STACK_UNDERFLOW ∧ (r.code ≠ .ERROR_NO_ERROR → r.value = none)

/-- A step that returns, returns a sound result. -/
def StepSound (x : Res Step) : Prop := ∀ r, x = .ok (.ret r) → Sound r

/-- The 17 digits `12345678901234567`. -/
def seventeenDigits : List Nat :=
  [49, 50, 51, 52, 53, 54, 55, 56, 57, 48, 49, 50, 51, 52, 53, 54, 55]

/-! ## allocator.h: the oversize insert and the regions handed out -/

/-- A call on an arena. -/
inductive ArenaCall
  | allocate (n : Nat)
  | reset

/-- The calls `cs` in order on the arena `a`. The list `live` holds the
regions that `allocate` returned since the most recent `reset`, the latest
first: for `p = allocate(n)` with `p` not null the start `p` and the length
`n` rounded up to a multiple of 8. The loop of `reset` gets one step for every
block obtained from the system. -/
def Allocator.run : Allocator → List (Nat × Nat) → List ArenaCall →
    Res (Allocator × List (Nat × Nat))
  | a, live, [] => .ok (a, live)
  | a, live, .allocate n :: cs =>
    Allocator.run (a.allocate n).1
      (if (a.allocate n).2 = 0 then live else ((a.allocate n).2, alignUp n) :: live) cs
  | a, _, .reset :: cs =>
    match a.reset a.mallocs.length with
    | .ok a1 => Allocator.run a1 [] cs
    | .fault e => .fault e

/-- Two ranges of bytes, each a start and a length, do not overlap. -/
def Apart (x y : Nat × Nat) : Prop := x.1 + x.2 ≤ y.1 ∨ y.1 + y.2 ≤ x.1

instance (x y : Nat × Nat) : Decidable (Apart x y) := by
  unfold Apart; infer_instance

/-- The region `x` lies in a block obtained from the system: it starts at or
behind the header of the block, at an offset that is a multiple of 8, and ends
within the bytes obtained for the block. -/
def InBlock (a : Allocator) (x : Nat × Nat) : Prop :=
  ∃ bc ∈ a.mallocs, bc.1 + sizeofBlock ≤ x.1 ∧ (x.1 - bc.1) % 8 = 0 ∧ x.1 + x.2 ≤ bc.1 + bc.2

instance (a : Allocator) (x : Nat × Nat) : Decidable (InBlock a x) := by
  unfold InBlock; infer_instance

/-- The end of `allocate` once a block has been taken: the store of the `used`
count and the link into the in-use chain, at the front or behind the head. -/
def Allocator.link (a : Allocator) (block allocSize : Nat) : Allocator :=
  let a2 := a.setBlock block (fun b => { b with used := allocSize })
  if allocSize ≤ ZJSON_BLOCK_SIZE ∨ a2.blocksHead = 0 then
    { a2.setBlock block (fun b => { b with next := a2.blocksHead }) with blocksHead := block }
  else
    (a2.setBlock block (fun b => { b with next := (a2.mem a2.blocksHead).next })).setBlock
      a2.blocksHead (fun b => { b with next := block })

/-- The invariant of an arena with the in-use chain `l`, the free chain `f` and
the regions `live` handed out since the most recent `reset`: the chains are
linked lists of distinct blocks obtained from the system, the blocks obtained
from the system do not overlap, the recorded size of a block and the `used`
count of an in-use block stay within the bytes obtained for it, and every live
region lies below the `used` count of an in-use block. -/
structure ArenaInv (a : Allocator) (live : List (Nat × Nat)) (l f : List Nat) : Prop where
  segL : Heap.Seg (fun x => (a.mem x).next) l 0
  headL : a.blocksHead = l.headD 0
  segF : Heap.Seg (fun x => (a.mem x).next) f 0
  headF : a.freeBlocksHead = f.headD 0
  nodup : (l ++ f).Nodup
  owned : ∀ b ∈ l ++ f, ∃ cap, (b, cap) ∈ a.mallocs ∧ (a.mem b).size ≤ cap ∧
    (b ∈ l → sizeofBlock ≤ (a.mem b).used ∧ (a.mem b).used % 8 = 0 ∧ (a.mem b).used ≤ cap)
  heap : ∀ x ∈ a.mallocs, 0 < x.1 ∧ ZJSON_BLOCK_SIZE ≤ x.2 ∧ x.2 < 2 ^ 63 ∧ x.1 + x.2 ≤ a.brk
  stacked : a.mallocs.Pairwise Apart
  regions : ∀ x ∈ live, ∃ b ∈ l, b + sizeofBlock ≤ x.1 ∧ (x.1 - b) % 8 = 0 ∧
    x.1 + x.2 ≤ b + (a.mem b).used
  apart : live.Pairwise Apart

/-! ## The number case: where ERROR_BAD_NUMBER comes from -/

/-- The byte is an ASCII digit. -/
def digitByte (c : Nat) : Bool := decide (48 ≤ c ∧ c ≤ 57)

/-- The digits of the exponent in the text `t` that starts behind the mantissa
of a number token: behind the letter `e` or `E` and an optional `-` or `+`, the
run of digits that follows; `none` when `t` does not start with `e` or `E`. -/
def exponentTail : List Nat → Option (List Nat)
  | m :: t4 =>
    if m = 101 ∨ m = 69 then
      some ((if t4.head? = some 45 ∨ t4.head? = some 43 then t4.tail else t4).takeWhile digitByte)
    else none
  | [] => none

/-- The digits of the exponent of the number token at the head of the text
`t`: the mantissa is an optional `-`, a run of digits and an optional `.` with
a run of digits; `none` when no `e` or `E` follows the mantissa. -/
def exponentDigits (t : List Nat) : Option (List Nat) :=
  let t1 := if t.head? = some 45 then t.tail else t
  let t2 := t1.dropWhile digitByte
  exponentTail (if t2.head? = some 46 then t2.tail.dropWhile digitByte else t2)

/-- The part `// dot and after dot` of the number case. -/
def fractionPart (F : FloatOps) (buf : List Nat) (d : Nat) (e : Int) (s ch : Nat) :
    Res (Nat × Int × Nat × Nat) :=
  if ch = 46 then do
    let c ← rd buf (s + 1)
    floatDigits F 1 buf.length buf (s + 1) d e c
  else pure (d, e, s, ch)

/-- The part `// exponent` of the number case: `none` is
`return ERROR_BAD_NUMBER`, otherwise the signed exponent and the cursor. -/
def exponentPart (buf : List Nat) (s ch : Nat) : Res (Option (Int × Nat)) :=
  if ch = 101 ∨ ch = 69 then do
    let c ← rd buf (s + 1)
    let (negE, s1, c1) ← (if c = 45 then do
        let c1 ← rd buf (s + 2)
        pure (true, s + 2, c1)
      else if c = 43 then do
        let c1 ← rd buf (s + 2)
        pure (false, s + 2, c1)
      else pure (false, s + 1, c) : Res (Bool × Nat × Nat))
    match ← expDigits buf.length buf s1 0 c1 with
    | none => pure none
    | some (exp, s2, _) => pure (some ((if negE then -(exp : Int) else (exp : Int)), s2))
  else pure (some (0, s))

/-- A further digit arrives while the value of the exponent digits read so far
is already at least 214748364. -/
def ExponentOverflow (ds : List Nat) : Prop :=
  ∃ k, k < ds.length ∧ 214748364 ≤ digitsVal (ds.take k)

/-- The values that the loop over the digits of the exponent stores into
`exp`, in order. -/
def expStores : Nat → List Nat → Nat → Nat → Nat → List Nat
  | 0, _, _, _, _ => []
  | fuel + 1, buf, s, exp, ch =>
    if !matchFlag ch FLAG_DIGIT then [] else
    if exp ≥ 214748364 then [] else
    (exp * 10 + (ch - 48)) ::
      match rd buf (s + 1) with
      | .ok c => expStores fuel buf (s + 1) (exp * 10 + (ch - 48)) c
      | .fault _ => []

/-- A result with `ERROR_BAD_NUMBER` comes from a number case that returned
`ERROR_BAD_NUMBER` on the buffer of the result. -/
def NumberFault (F : FloatOps) (r : ParseResult) : Prop :=
  r.code = .ERROR_BAD_NUMBER → ∃ s ch, parseNumber F r.buf s ch = .ok none

/-- A step that returns, returns `ERROR_BAD_NUMBER` only from the number
case. -/
def StepNum (F : FloatOps) (x : Res Step) : Prop := ∀ r, x = .ok (.ret r) → NumberFault F r

/-! ## parseStringInternal: the write cursor stays below the read cursor -/

/-- The store `*pend = v` of `parseStringInternal` checked against the read
cursor: `s` is the index of the next byte still to be read, and a store at an
index that is not below `s` is a fault. -/
def wrBelow (buf : List Nat) (pend v s : Nat) : Res (List Nat) :=
  if pend < s then wr buf pend v else .fault (.outOfBounds pend)

/-- The copy loop `copyText` with every store checked against the read
cursor. -/
def copyTextChecked : Nat → StrState → Res StrState
  | 0, _ => .fault .outOfFuel
  | fuel + 1, st =>
    if matchFlag st.ch FLAG_TEXT_BREAK then pure st else do
    let b1 ← wrBelow st.buf st.pend st.ch st.s
    let c1 ← rd b1 st.s
    if matchFlag c1 FLAG_TEXT_BREAK then
      pure { buf := b1, pend := st.pend + 1, s := st.s + 1, ch := c1 } else
    let b2 ← wrBelow b1 (st.pend + 1) c1 (st.s + 1)
    let c2 ← rd b2 (st.s + 1)
    if matchFlag c2 FLAG_TEXT_BREAK then
      pure { buf := b2, pend := st.pend + 2, s := st.s + 2, ch := c2 } else
    let b3 ← wrBelow b2 (st.pend + 2) c2 (st.s + 2)
    let c3 ← rd b3 (st.s + 2)
    if matchFlag c3 FLAG_TEXT_BREAK then
      pure { buf := b3, pend := st.pend + 3, s := st.s + 3, ch := c3 } else
    let b4 ← wrBelow b3 (st.pend + 3) c3 (st.s + 3)
    let c4 ← rd b4 (st.s + 3)
    copyTextChecked fuel { buf := b4, pend := st.pend + 4, s := st.s + 4, ch := c4 }

/-- The stores `writeUtf8` of a `\u` escape with every store checked against
the read cursor `s`. -/
def writeUtf8Checked (buf : List Nat) (pend : Nat) (u : Nat) (s : Nat) : Res (List Nat × Nat) :=
  if u ≠ 0 ∧ u < 0x80 then do
    let b1 ← wrBelow buf pend u s
    pure (b1, pend + 1)
  else if u < 0x800 then do
    let b1 ← wrBelow buf pend (0xC0 ||| (u >>> 6)) s
    let b2 ← wrBelow b1 (pend + 1) (0x80 ||| (u &&& 0x3F)) s
    pure (b2, pend + 2)
  else do
    let b1 ← wrBelow buf pend (0xE0 ||| (u >>> 12)) s
    let b2 ← wrBelow b1 (pend + 1) (0x80 ||| ((u >>> 6) &&& 0x3F)) s
    let b3 ← wrBelow b2 (pend + 2) (0x80 ||| (u &&& 0x3F)) s
    pure (b3, pend + 3)

/-- The loop `unescape` with every store, the one of the terminating NUL
included, checked against the read cursor. -/
def unescapeChecked : Nat → StrState → Res StrResult
  | 0, _ => .fault .outOfFuel
  | fuel + 1, st =>
    if st.ch = 34 then do
      let b ← wrBelow st.buf st.pend 0 st.s
      pure { ok := true, buf := b, s := st.s, pend := st.pend + 1 }
    else if st.ch ≠ 92 then
      pure { ok := false, buf := st.buf, s := st.s, pend := st.pend }
    else do
      let ch ← rd st.buf st.s
      let s := st.s + 1
      if ch = 117 then do
        match ← parseHex4 4 st.buf s 0 with
        | (none, s1) => pure { ok := false, buf := st.buf, s := s1, pend := st.pend }
        | (some u, s1) =>
          let (b, pend) ← writeUtf8Checked st.buf st.pend u s1
          let ch1 ← rd b s1
          let st1 ← copyTextChecked b.length { buf := b, pend := pend, s := s1 + 1, ch := ch1 }
          unescapeChecked fuel st1
      else if ch = 0 then
        pure { ok := false, buf := st.buf, s := s, pend := st.pend }
      else do
        let dec : Nat := if ch = 98 then 8 else if ch = 102 then 12 else if ch = 110 then 10
          else if ch = 114 then 13 else if ch = 116 then 9 else ch
        let known : Bool := ch = 98 ∨ ch = 102 ∨ ch = 110 ∨ ch = 114 ∨ ch = 116 ∨ ch = 92 ∨ ch = 34
        let (b0, pend0) ← (if known then pure (st.buf, st.pend) else do
          let b ← wrBelow st.buf st.pend 92 s
          pure (b, st.pend + 1) : Res (List Nat × Nat))
        let b ← wrBelow b0 pend0 dec s
        let ch1 ← rd b s
        let st1 ← copyTextChecked b.length { buf := b, pend := pend0 + 1, s := s + 1, ch := ch1 }
        unescapeChecked fuel st1

/-- The function `parseStringInternal` with every store checked against the
read cursor. -/
def parseStringInternalChecked (buf : List Nat) (s : Nat) : Res StrResult := do
  let c0 ← rd buf s
  let s1 ← (if !matchFlag c0 FLAG_TEXT_BREAK then scanText buf.length buf s else pure s : Res Nat)
  let ch ← rd buf s1
  unescapeChecked buf.length { buf := buf, pend := s1, s := s1 + 1, ch := ch }

/-- What `DigitGen` has to leave for the scaled upper boundary `Wp`, the
width `delta` and the exponent `K`: 1 to 17 digits, the first of them not `0`,
and an exponent `K + kappa`, so that the number `digits * 10^kappa`, in units
of `2^-sh`, lies between `Wp - delta` and `Wp`. -/
def DigitsOk (sh Wp delta : Nat) (K : Int) (ds : Digits) : Prop :=
  1 ≤ ds.buffer.length ∧ ds.buffer.length ≤ 17 ∧ allDigits ds.buffer = true ∧
  ds.buffer.head? ≠ some 48 ∧
  ((∃ kappa : Nat, ds.K = K + kappa ∧
      Wp ≤ digitsValue ds.buffer * 10 ^ kappa * 2 ^ sh + delta ∧
      digitsValue ds.buffer * 10 ^ kappa * 2 ^ sh ≤ Wp) ∨
   (∃ m : Nat, ds.K = K - m ∧
      Wp * 10 ^ m ≤ digitsValue ds.buffer * 2 ^ sh + delta * 10 ^ m ∧
      digitsValue ds.buffer * 2 ^ sh ≤ Wp * 10 ^ m))

/-- The cached power `c` with the decimal exponent `K` is the power of ten
`10^(-K)` to half a unit of its last place: `|c.f * 2^c.e - 10^(-K)|` is at most
`2^c.e / 2`, checked with the denominators cleared. -/
def powerOk (c : DiyFp) (K : Int) : Bool :=
  let t1 := c.f * 2 ^ c.e.toNat * 10 ^ K.toNat
  let t2 := 10 ^ (-K).toNat * 2 ^ (-c.e).toNat
  let u := 2 ^ c.e.toNat * 10 ^ K.toNat
  decide (2 * t1 ≤ 2 * t2 + u) && decide (2 * t2 ≤ 2 * t1 + u)

/-- A step of the bisection of `ilog2` in arithmetic: `step` is added to `lo`
when `n` shifted right by `lo + step` is not zero. -/
def logStep (n step lo : Nat) : Nat :=
  Nat.add lo (Nat.mul step (Nat.sub 1 (Nat.sub 1 (Nat.shiftRight n (Nat.add lo step)))))

/-- The 14 steps of the bisection of `ilog2`, written out. -/
def ilog2Steps (n : Nat) : Nat :=
  logStep n 1 (logStep n 2 (logStep n 4 (logStep n 8 (logStep n 16 (logStep n 32 (logStep n 64
    (logStep n 128 (logStep n 256 (logStep n 512 (logStep n 1024 (logStep n 2048
      (logStep n 4096 (logStep n 8192 0)))))))))))))

/-- The function `roundPos` over the binary logarithm `lg`. -/
def roundPosWith (lg : Nat → Nat) (n d : Nat) : Nat :=
  let l : Int := (lg n : Int) - (lg d : Int)
  let fl : Int := if (if l ≥ 0 then d * 2 ^ l.toNat ≤ n else d ≤ n * 2 ^ (-l).toNat) then l else l - 1
  let e : Int := max (fl - 52) (-1074)
  let num := if e ≥ 0 then n else n * 2 ^ (-e).toNat
  let den := if e ≥ 0 then d * 2 ^ e.toNat else d
  let q := num / den
  let r := num % den
  let q1 := if 2 * r > den ∨ (2 * r = den ∧ q % 2 = 1) then q + 1 else q
  let bits := (e + 1074).toNat * 2 ^ 52 + q1
  if bits ≥ 0x7FF0000000000000 then 0x7FF0000000000000 else bits

/-- The function `dRound` over the binary logarithm `lg`. -/
def dRoundWith (lg : Nat → Nat) (s : Nat) (n d : Nat) : Nat :=
  s * 2 ^ 63 + (if n = 0 then 0 else roundPosWith lg n d)

/-- The function `dMul` over the binary logarithm `lg`. -/
def dMulWith (lg : Nat → Nat) (x y : Nat) : Nat :=
  let s := (dSign x + dSign y) % 2
  if dIsNaN x ∨ dIsNaN y then dNaN
  else if dIsInf x ∨ dIsInf y then
    (if dAbs x = 0 ∨ dAbs y = 0 then dNaN else s * 2 ^ 63 + 0x7FF0000000000000)
  else dRoundWith lg s (dNum x * dNum y) (2 ^ 1074 * 2 ^ 1074)

/-- The function `dAdd` over the binary logarithm `lg`. -/
def dAddWith (lg : Nat → Nat) (x y : Nat) : Nat :=
  if dIsNaN x ∨ dIsNaN y then dNaN
  else if dIsInf x then (if dIsInf y ∧ dSign x ≠ dSign y then dNaN else x)
  else if dIsInf y then y
  else
    let a := dNum x
    let b := dNum y
    if dSign x = dSign y then dRoundWith lg (dSign x) (a + b) (2 ^ 1074)
    else if a = b then 0
    else if a > b then dRoundWith lg (dSign x) (a - b) (2 ^ 1074)
    else dRoundWith lg (dSign y) (b - a) (2 ^ 1074)

/-- The function `dOfInt` over the binary logarithm `lg`. -/
def dOfIntWith (lg : Nat → Nat) (n : Int) : Nat :=
  dRoundWith lg (if n < 0 then 1 else 0) n.natAbs 1

/-- The function `GetCachedPower` over the binary logarithm `lg` of its
double arithmetic. -/
def GetCachedPowerWith (lg : Nat → Nat) (e : Int) : Res (DiyFp × Int) :=
  let dk := dAddWith lg (dMulWith lg (dOfIntWith lg (-61 - e))
      (roundPosWith lg 30102999566398114 100000000000000000))
    (dOfIntWith lg 347)
  let t : Int :=
    if dSign dk = 1 then -((dNum dk / 2 ^ 1074 : Nat) : Int) else ((dNum dk / 2 ^ 1074 : Nat) : Int)
  let k : Int := if dNum dk % 2 ^ 1074 ≠ 0 then t + 1 else t
  let index : Nat := (((k / 8) + 1) % 2 ^ 32).toNat
  let K : Int := -(-348 + ((index <<< 3 : Nat) : Int))
  match kCachedPowers_F.get? index, kCachedPowers_E.get? index with
  | some f, some ce => pure ({ f := f, e := ce }, K)
  | _, _ => .fault (.outOfBounds index)

/-- The check of `GetCachedPower(e)`: it returns a cached power `c` of 64
bits with its decimal exponent `K`, accurate to half a unit, so that the
exponent `e + c.e + 64` of the product lies from -60 to -34 and `c.f` is at
most `10^9` units of the integral part. -/
def cachedPowerOk (e : Int) : Bool :=
  match GetCachedPowerWith ilog2Steps e with
  | .ok (c, K) =>
    decide (34 ≤ -(e + c.e + 64)) && decide (-(e + c.e + 64) ≤ 60) && decide (2 ^ 63 ≤ c.f)
      && decide (c.f < 2 ^ 64) && decide (c.f ≤ 10 ^ 9 * 2 ^ (-(e + c.e + 64)).toNat)
      && powerOk c K
  | .fault _ => false

/-- The check `cachedPowerOk` at the `n` exponents from `lo` on. -/
def cachedPowerOkFrom (lo : Int) (n : Nat) : Bool :=
  (List.range n).all (fun i => cachedPowerOk (lo + (i : Int)))

/-! ## Grisu2: from the pattern of a double to its digits -/

/-- The significand of the finite double with the pattern `bits`, as a
multiple of its unit in the last place. -/
def dSig (bits : Nat) : Nat :=
  if bits / 2 ^ 52 = 0 then bits % 2 ^ 52 else bits % 2 ^ 52 + 2 ^ 52

/-- The exponent of the unit in the last place of the double with the pattern
`bits`. -/
def dExp (bits : Nat) : Int :=
  if bits / 2 ^ 52 = 0 then -1074 else ((bits / 2 ^ 52 : Nat) : Int) - 1075

/-- The rational value of the positive finite double with the pattern `bits`;
for the pattern of `+inf`, the successor of the largest finite double, it is
`2^1024`. -/
def dValue (bits : Nat) : ℚ := (dSig bits : ℚ) * (2 : ℚ) ^ dExp bits

/-! # Theorems -/

theorem flags_length : flags.length = 256 := by decide!

theorem matchFlag_big (c flag : Nat) (h : 256 ≤ c) : matchFlag c flag = false := by
  unfold matchFlag
  have : flags.getD c 0 = 0 := by
    apply List.getD_eq_default
    rw [flags_length]; exact h
  rw [this]; simp

theorem matchFlag_small (c : Nat) (h : c < 256) :
    matchFlag c FLAG_WHITESPACE = decide (c ≤ 32) ∧
    matchFlag c FLAG_TEXT_BREAK = decide (c = 0 ∨ c = 10 ∨ c = 13 ∨ c = 34 ∨ c = 92) ∧
    matchFlag c FLAG_DIGIT = decide (48 ≤ c ∧ c ≤ 57) ∧
    matchFlag c FLAG_NUMBER = decide ((48 ≤ c ∧ c ≤ 57) ∨ c = 46 ∨ c = 69 ∨ c = 101) := by
  interval_cases c <;> exact ⟨rfl, rfl, rfl, rfl⟩

theorem matchFlag_ws (c : Nat) : matchFlag c FLAG_WHITESPACE = decide (c ≤ 32) := by
  by_cases h : c < 256
  · exact (matchFlag_small c h).1
  · rw [matchFlag_big c _ (by omega)]
    simp; omega

theorem matchFlag_break (c : Nat) :
    matchFlag c FLAG_TEXT_BREAK = decide (c = 0 ∨ c = 10 ∨ c = 13 ∨ c = 34 ∨ c = 92) := by
  by_cases h : c < 256
  · exact (matchFlag_small c h).2.1
  · rw [matchFlag_big c _ (by omega)]
    simp; omega

theorem matchFlag_digit (c : Nat) : matchFlag c FLAG_DIGIT = decide (48 ≤ c ∧ c ≤ 57) := by
  by_cases h : c < 256
  · exact (matchFlag_small c h).2.2.1
  · rw [matchFlag_big c _ (by omega)]
    simp; omega

theorem matchFlag_number (c : Nat) :
    matchFlag c FLAG_NUMBER = decide ((48 ≤ c ∧ c ≤ 57) ∨ c = 46 ∨ c = 69 ∨ c = 101) := by
  by_cases h : c < 256
  · exact (matchFlag_small c h).2.2.2
  · rw [matchFlag_big c _ (by omega)]
    simp; omega

/-! ### Reading the buffer through its suffixes -/

theorem rd_of_drop {buf : List Nat} {s a : Nat} {tl : List Nat}
    (h : buf.drop s = a :: tl) : rd buf s = .ok a := by
  have : buf[s]? = some a := by
    have := congrArg (fun l => l[0]?) h
    simpa using this
  simp [rd, this]

theorem drop_succ_of_drop {buf : List Nat} {s a : Nat} {tl : List Nat}
    (h : buf.drop s = a :: tl) : buf.drop (s + 1) = tl := by
  have := congrArg (fun l => l.drop 1) h
  simpa [List.drop_drop, Nat.add_comm] using this

theorem drop_add_of_drop {buf : List Nat} {s : Nat} (xs : List Nat) {r : List Nat}
    (h : buf.drop s = xs ++ r) : buf.drop (s + xs.length) = r := by
  have := congrArg (fun l => l.drop xs.length) h
  simpa [List.drop_drop, Nat.add_comm] using this

theorem lt_length_of_drop {buf : List Nat} {s a : Nat} {tl : List Nat}
    (h : buf.drop s = a :: tl) : s < buf.length := by
  by_contra hn
  rw [List.drop_eq_nil_of_le (by omega)] at h
  cases h

theorem skipRun_spec : ∀ (fuel : Nat) (buf : List Nat) (s a : Nat) (w : List Nat) (c : Nat)
    (rest : List Nat), buf.drop s = a :: (w ++ c :: rest) → AllWs w → 32 < c → w.length < fuel →
    skipRun fuel buf s = .ok (s + 1 + w.length) := by
  intro fuel
  induction fuel with
  | zero => intro buf s a w c rest _ _ _ h; simp at h
  | succ fuel ih =>
    intro buf s a w c rest hd hw hc hf
    have hc' : ¬ c ≤ 32 := by omega
    rcases w with _ | ⟨w1, _ | ⟨w2, _ | ⟨w3, _ | ⟨w4, w⟩⟩⟩⟩ <;>
      simp only [List.nil_append, List.cons_append, AllWs, List.mem_cons, forall_eq_or_imp,
        List.not_mem_nil, false_imp_iff, implies_true, and_true, List.length_cons] at hd hw hf
    · have d1 := drop_succ_of_drop hd
      simp [skipRun, rd_of_drop d1, matchFlag_ws, hc]
    · have d1 := drop_succ_of_drop hd
      have d2 := drop_succ_of_drop d1
      have n1 : ¬ 32 < w1 := by omega
      simp [skipRun, rd_of_drop d1, rd_of_drop d2, matchFlag_ws, hc, n1]
    · have d1 := drop_succ_of_drop hd
      have d2 := drop_succ_of_drop d1
      have d3 := drop_succ_of_drop d2
      have n1 : ¬ 32 < w1 := by omega
      have n2 : ¬ 32 < w2 := by omega
      simp [skipRun, rd_of_drop d1, rd_of_drop d2, rd_of_drop d3, matchFlag_ws, hc, n1, n2]
    · have d1 := drop_succ_of_drop hd
      have d2 := drop_succ_of_drop d1
      have d3 := drop_succ_of_drop d2
      have d4 := drop_succ_of_drop d3
      have n1 : ¬ 32 < w1 := by omega
      have n2 : ¬ 32 < w2 := by omega
      have n3 : ¬ 32 < w3 := by omega
      simp [skipRun, rd_of_drop d1, rd_of_drop d2, rd_of_drop d3, rd_of_drop d4, matchFlag_ws,
        hc, n1, n2, n3, hc']
    · have d1 := drop_succ_of_drop hd
      have d2 := drop_succ_of_drop d1
      have d3 := drop_succ_of_drop d2
      have d4 := drop_succ_of_drop d3
      have n1 : ¬ 32 < w1 := by omega
      have n2 : ¬ 32 < w2 := by omega
      have n3 : ¬ 32 < w3 := by omega
      have := ih buf (s + 1 + 1 + 1 + 1) w4 w c rest d4 (fun x hx => hw.2.2.2.2 x hx) hc
        (by omega)
      simp [skipRun, rd_of_drop d1, rd_of_drop d2, rd_of_drop d3, rd_of_drop d4, matchFlag_ws,
        hc, hw, n1, n2, n3]
      simp only [Nat.add_assoc] at this ⊢
      rw [this]; congr 1; omega

theorem skipLine_spec : ∀ (fuel : Nat) (buf : List Nat) (s : Nat) (body : List Nat) (c : Nat)
    (rest : List Nat), buf.drop s = body ++ c :: rest →
    (∀ x ∈ body, x ≠ 0 ∧ x ≠ 10 ∧ x ≠ 13) → (c = 0 ∨ c = 10 ∨ c = 13) → body.length < fuel →
    skipLine fuel buf s = .ok (s + body.length) := by
  intro fuel
  induction fuel with
  | zero => intro buf s body c rest _ _ _ h; simp at h
  | succ fuel ih =>
    intro buf s body c rest hd hb hc hf
    cases body with
    | nil =>
      simp at hd
      rcases hc with h | h | h <;> simp [skipLine, rd_of_drop hd, h]
    | cons b body =>
      simp at hd hb
      have := ih buf (s + 1) body c rest (drop_succ_of_drop hd) hb.2 hc (by simp at hf; omega)
      simp [skipLine, rd_of_drop hd, hb.1, this]
      omega

theorem length_of_drop {buf : List Nat} {s : Nat} {xs : List Nat}
    (h : buf.drop s = xs) (hx : xs ≠ []) : s + xs.length = buf.length := by
  have h1 : (buf.drop s).length = xs.length := by rw [h]
  rw [List.length_drop] at h1
  have : xs.length ≠ 0 := by
    intro h0; exact hx (List.length_eq_zero.mp h0)
  omega

theorem skipLoop_spec {g : List Nat} (hg : Gap g) : ∀ (fuel : Nat) (buf : List Nat) (s c : Nat)
    (rest : List Nat), buf.drop s = g ++ c :: rest → 32 < c → c ≠ 47 → g.length < fuel →
    skipLoop fuel buf s = .ok (s + g.length) := by
  induction hg with
  | nil =>
    intro fuel buf s c rest hd hc _ hf
    cases fuel with
    | zero => simp at hf
    | succ fuel =>
      simp at hd
      simp [skipLoop, rd_of_drop hd, matchFlag_ws, hc]
  | ws a w ha hw =>
    intro fuel buf s c rest hd hc h47 hf
    cases fuel with
    | zero => simp at hf
    | succ fuel =>
      simp only [List.cons_append] at hd
      have hlen := length_of_drop hd (by simp)
      simp only [List.length_cons, List.length_append] at hlen hf
      have hrun := skipRun_spec buf.length buf s a w c rest hd hw hc (by omega)
      have dc := drop_add_of_drop (a :: w) (r := c :: rest) (by simpa using hd)
      simp only [List.length_cons] at dc
      have e : s + (w.length + 1) = s + 1 + w.length := by omega
      rw [e] at dc
      have na : ¬ 32 < a := by omega
      simp [skipLoop, rd_of_drop hd, matchFlag_ws, ha, hrun, rd_of_drop dc, h47, na]
      omega
  | comment a w body t g ha hw hb ht _ ih =>
    intro fuel buf s c rest hd hc h47 hf
    cases fuel with
    | zero => simp at hf
    | succ fuel =>
      simp only [List.cons_append, List.append_assoc] at hd
      have hlen := length_of_drop hd (by simp)
      simp only [List.length_cons, List.length_append] at hlen hf
      have hrun := skipRun_spec buf.length buf s a w 47 (47 :: (body ++ t :: (g ++ c :: rest)))
        hd hw (by omega) (by omega)
      have dc := drop_add_of_drop (a :: w) (r := 47 :: 47 :: (body ++ t :: (g ++ c :: rest)))
        (by simpa using hd)
      simp only [List.length_cons] at dc
      have e : s + (w.length + 1) = s + 1 + w.length := by omega
      rw [e] at dc
      have dc1 := drop_succ_of_drop dc
      have dc2 := drop_succ_of_drop dc1
      have hline := skipLine_spec buf.length buf (s + 1 + w.length + 1 + 1) body t
        (g ++ c :: rest) dc2 hb ht (by omega)
      have dt := drop_add_of_drop body (r := t :: (g ++ c :: rest)) dc2
      have := ih fuel buf (s + 1 + w.length + 1 + 1 + body.length) c rest (by simpa using dt) hc h47
        (by simp only [List.length_cons]; omega)
      have na : ¬ 32 < a := by omega
      simp [skipLoop, rd_of_drop hd, matchFlag_ws, ha, hrun, rd_of_drop dc, rd_of_drop dc1, hline, na]
      simp only [Nat.add_assoc] at this ⊢
      rw [this]; congr 1; simp; omega

theorem skipWhitespace_spec {g : List Nat} (hg : Gap g) (buf : List Nat) (s c : Nat)
    (rest : List Nat) (hd : buf.drop s = g ++ c :: rest) (hc : 32 < c) (h47 : c ≠ 47) :
    skipWhitespace buf s = .ok (s + g.length) := by
  have hlen := length_of_drop hd (by simp)
  simp only [List.length_cons, List.length_append] at hlen
  exact skipLoop_spec hg buf.length buf s c rest hd hc h47 (by omega)

theorem length_patch (buf : List Nat) (p : Nat) (xs : List Nat) (h : p + xs.length ≤ buf.length) :
    (patch buf p xs).length = buf.length := by
  simp [patch, List.length_take, List.length_drop]; omega

theorem patch_nil (buf : List Nat) (p : Nat) : patch buf p [] = buf := by
  simp [patch]

theorem wr_eq_patch (buf : List Nat) (p c : Nat) (h : p < buf.length) :
    wr buf p c = .ok (patch buf p [c]) := by
  simp [wr, h, patch, List.set_eq_take_append_cons_drop]

theorem patch_patch (buf : List Nat) (p : Nat) (xs ys : List Nat)
    (h : p + xs.length ≤ buf.length) :
    patch (patch buf p xs) (p + xs.length) ys = patch buf p (xs ++ ys) := by
  have hp : p ≤ buf.length := by omega
  have h1 : (buf.take p ++ xs).length = p + xs.length := by
    simp [List.length_take]; omega
  unfold patch
  have e1 : (buf.take p ++ xs ++ buf.drop (p + xs.length)).take (p + xs.length)
      = buf.take p ++ xs := by
    rw [← h1, List.take_left']
    rfl
  have e2 : (buf.take p ++ xs ++ buf.drop (p + xs.length)).drop (p + xs.length + ys.length)
      = buf.drop (p + (xs ++ ys).length) := by
    rw [show p + xs.length + ys.length = (buf.take p ++ xs).length + ys.length by rw [h1]]
    rw [List.drop_append, List.drop_drop]
    congr 1; simp; omega
  rw [e1, e2]; simp

theorem drop_patch (buf : List Nat) (p : Nat) (xs : List Nat) (q : Nat)
    (h : p + xs.length ≤ q) (hl : p + xs.length ≤ buf.length) :
    (patch buf p xs).drop q = buf.drop q := by
  have h1 : (buf.take p ++ xs).length = p + xs.length := by
    simp [List.length_take]; omega
  unfold patch
  obtain ⟨k, rfl⟩ : ∃ k, q = (buf.take p ++ xs).length + k := ⟨q - (p + xs.length), by omega⟩
  rw [List.drop_append, List.drop_drop, h1]

theorem drop_patch_self (buf : List Nat) (p : Nat) (xs : List Nat) (hl : p ≤ buf.length) :
    (patch buf p xs).drop p = xs ++ buf.drop (p + xs.length) := by
  have h1 : (buf.take p).length = p := by simp [List.length_take]; omega
  unfold patch
  rw [List.append_assoc]
  exact List.drop_left' h1

theorem take_patch (buf : List Nat) (p : Nat) (xs : List Nat) (hl : p ≤ buf.length) :
    (patch buf p xs).take p = buf.take p := by
  have h1 : (buf.take p).length = p := by simp [List.length_take]; omega
  unfold patch
  rw [List.append_assoc]
  exact List.take_left' h1

theorem patch_of_drop (buf : List Nat) (p : Nat) (xs tl : List Nat)
    (h : buf.drop p = xs ++ tl) : patch buf p xs = buf := by
  unfold patch
  rw [drop_add_of_drop xs h, List.append_assoc, ← h, List.take_append_drop]

theorem break_of_ordinary {c : Nat} (h : Ordinary c) : matchFlag c FLAG_TEXT_BREAK = false := by
  rw [matchFlag_break]; unfold Ordinary at h; simp; omega

theorem break_of_isBreak {c : Nat} (h : IsBreak c) : matchFlag c FLAG_TEXT_BREAK = true := by
  rw [matchFlag_break]; unfold IsBreak at h; simp; omega

theorem rd_congr_drop {b1 b2 : List Nat} {i : Nat} (h : b1.drop i = b2.drop i) :
    rd b1 i = rd b2 i := by
  have : b1[i]? = b2[i]? := by
    have := congrArg (fun l => l[0]?) h
    simpa using this
  simp [rd, this]

theorem wr_patch (buf : List Nat) (p : Nat) (xs : List Nat) (c : Nat)
    (h : p + xs.length < buf.length) :
    wr (patch buf p xs) (p + xs.length) c = .ok (patch buf p (xs ++ [c])) := by
  rw [wr_eq_patch _ _ _ (by rw [length_patch _ _ _ (by omega)]; exact h)]
  rw [patch_patch _ _ _ _ (by omega)]

theorem rd_patch (buf : List Nat) (p : Nat) (xs : List Nat) (i : Nat)
    (h : p + xs.length ≤ i) (hl : p + xs.length ≤ buf.length) :
    rd (patch buf p xs) i = rd buf i :=
  rd_congr_drop (drop_patch buf p xs i h hl)

theorem scanText_spec : ∀ (fuel : Nat) (buf : List Nat) (s a : Nat) (w : List Nat) (c : Nat)
    (rest : List Nat), buf.drop s = a :: (w ++ c :: rest) → (∀ x ∈ w, Ordinary x) → IsBreak c →
    w.length < fuel → scanText fuel buf s = .ok (s + 1 + w.length) := by
  intro fuel
  induction fuel with
  | zero => intro buf s a w c rest _ _ _ h; simp at h
  | succ fuel ih =>
    intro buf s a w c rest hd hw hc hf
    have bc := break_of_isBreak hc
    rcases w with _ | ⟨w1, _ | ⟨w2, _ | ⟨w3, _ | ⟨w4, w⟩⟩⟩⟩ <;>
      simp only [List.nil_append, List.cons_append, List.mem_cons, forall_eq_or_imp,
        List.not_mem_nil, false_imp_iff, implies_true, and_true, List.length_cons] at hd hw hf
    · have d1 := drop_succ_of_drop hd
      simp [scanText, rd_of_drop d1, bc]
    · have d1 := drop_succ_of_drop hd
      have d2 := drop_succ_of_drop d1
      simp [scanText, rd_of_drop d1, rd_of_drop d2, bc, break_of_ordinary hw]
    · have d1 := drop_succ_of_drop hd
      have d2 := drop_succ_of_drop d1
      have d3 := drop_succ_of_drop d2
      simp [scanText, rd_of_drop d1, rd_of_drop d2, rd_of_drop d3, bc, break_of_ordinary hw.1,
        break_of_ordinary hw.2]
    · have d1 := drop_succ_of_drop hd
      have d2 := drop_succ_of_drop d1
      have d3 := drop_succ_of_drop d2
      have d4 := drop_succ_of_drop d3
      simp [scanText, rd_of_drop d1, rd_of_drop d2, rd_of_drop d3, rd_of_drop d4, bc,
        break_of_ordinary hw.1, break_of_ordinary hw.2.1, break_of_ordinary hw.2.2]
    · have d1 := drop_succ_of_drop hd
      have d2 := drop_succ_of_drop d1
      have d3 := drop_succ_of_drop d2
      have d4 := drop_succ_of_drop d3
      have := ih buf (s + 1 + 1 + 1 + 1) w4 w c rest d4 (fun x hx => hw.2.2.2.2 x hx) hc
        (by omega)
      simp [scanText, rd_of_drop d1, rd_of_drop d2, rd_of_drop d3, rd_of_drop d4, bc,
        break_of_ordinary hw.1, break_of_ordinary hw.2.1, break_of_ordinary hw.2.2.1,
        break_of_ordinary hw.2.2.2.1]
      simp only [Nat.add_assoc] at this ⊢
      rw [this]; congr 1; omega

/-- One store and the following read of the copy loop. -/
theorem copy_step (buf : List Nat) (pend q : Nat) (xs : List Nat) (x y : Nat) (tl : List Nat)
    (hd : buf.drop (q + xs.length) = x :: y :: tl) (hp : pend ≤ q) :
    wr (patch buf pend xs) (pend + xs.length) x = .ok (patch buf pend (xs ++ [x])) ∧
    rd (patch buf pend (xs ++ [x])) (q + xs.length + 1) = .ok y := by
  have hl := lt_length_of_drop hd
  have hl2 := lt_length_of_drop (drop_succ_of_drop hd)
  refine ⟨wr_patch _ _ _ _ (by omega), ?_⟩
  rw [rd_patch _ _ _ _ (by simp; omega) (by simp; omega)]
  exact rd_of_drop (drop_succ_of_drop hd)

theorem copyText_spec : ∀ (fuel : Nat) (buf : List Nat) (pend q : Nat) (xs0 X : List Nat) (b : Nat)
    (rest : List Nat) (ch : Nat), buf.drop (q + xs0.length) = X ++ b :: rest →
    (X ++ b :: rest).head? = some ch → (∀ x ∈ X, Ordinary x) → IsBreak b → pend ≤ q →
    X.length < fuel →
    copyText fuel { buf := patch buf pend xs0, pend := pend + xs0.length,
                    s := q + xs0.length + 1, ch := ch }
      = .ok { buf := patch buf pend (xs0 ++ X), pend := pend + xs0.length + X.length,
              s := q + xs0.length + X.length + 1, ch := b } := by
  intro fuel
  induction fuel with
  | zero => intro buf pend q xs0 X b rest ch _ _ _ _ _ h; simp at h
  | succ fuel ih =>
    intro buf pend q xs0 X b rest ch hd hch hX hb hp hf
    have bb := break_of_isBreak hb
    rcases X with _ | ⟨x1, X⟩
    · simp at hch; subst hch
      simp [copyText, bb]
    simp only [List.cons_append, List.head?_cons, Option.some.injEq] at hch hd
    subst hch
    simp only [List.mem_cons, forall_eq_or_imp] at hX
    have o1 := break_of_ordinary hX.1
    -- first byte
    have hd0 : buf.drop (q + xs0.length) = x1 :: (X ++ b :: rest) := hd
    rcases X with _ | ⟨x2, X⟩
    · obtain ⟨w1, r1⟩ := copy_step buf pend q xs0 x1 b rest (by simpa using hd) hp
      simp [copyText, o1, w1, r1, bb]
    simp only [List.cons_append, List.mem_cons, forall_eq_or_imp] at hX hd
    have o2 := break_of_ordinary hX.2.1
    obtain ⟨w1, r1⟩ := copy_step buf pend q xs0 x1 x2 _ hd hp
    have hd1 : buf.drop (q + (xs0 ++ [x1]).length) = x2 :: (X ++ b :: rest) := by
      have := drop_succ_of_drop hd
      simpa [Nat.add_assoc] using this
    rcases X with _ | ⟨x3, X⟩
    · have w2 : wr (patch buf pend (xs0 ++ [x1])) (pend + xs0.length + 1) x2
          = .ok (patch buf pend (xs0 ++ [x1, x2])) := by
        have := (copy_step buf pend q (xs0 ++ [x1]) x2 b rest (by simpa using hd1) hp).1
        simpa [Nat.add_assoc] using this
      have r2 : rd (patch buf pend (xs0 ++ [x1, x2])) (q + xs0.length + 1 + 1) = .ok b := by
        have := (copy_step buf pend q (xs0 ++ [x1]) x2 b rest (by simpa using hd1) hp).2
        simpa [Nat.add_assoc] using this
      simp [copyText, o1, w1, r1, bb, o2, w2, r2]
    simp only [List.cons_append, List.mem_cons, forall_eq_or_imp] at hX hd1
    have o3 := break_of_ordinary hX.2.2.1
    have w2 : wr (patch buf pend (xs0 ++ [x1])) (pend + xs0.length + 1) x2
        = .ok (patch buf pend (xs0 ++ [x1, x2])) := by
      have := (copy_step buf pend q (xs0 ++ [x1]) x2 x3 _ hd1 hp).1
      simpa [Nat.add_assoc] using this
    have r2 : rd (patch buf pend (xs0 ++ [x1, x2])) (q + xs0.length + 1 + 1) = .ok x3 := by
      have := (copy_step buf pend q (xs0 ++ [x1]) x2 x3 _ hd1 hp).2
      simpa [Nat.add_assoc] using this
    have hd2 : buf.drop (q + (xs0 ++ [x1, x2]).length) = x3 :: (X ++ b :: rest) := by
      have := drop_succ_of_drop hd1
      simpa [Nat.add_assoc] using this
    rcases X with _ | ⟨x4, X⟩
    · have w3 : wr (patch buf pend (xs0 ++ [x1, x2])) (pend + xs0.length + 2) x3
          = .ok (patch buf pend (xs0 ++ [x1, x2, x3])) := by
        have := (copy_step buf pend q (xs0 ++ [x1, x2]) x3 b rest (by simpa using hd2) hp).1
        simpa [Nat.add_assoc] using this
      have r3 : rd (patch buf pend (xs0 ++ [x1, x2, x3])) (q + xs0.length + 1 + 2) = .ok b := by
        have := (copy_step buf pend q (xs0 ++ [x1, x2]) x3 b rest (by simpa using hd2) hp).2
        simpa [Nat.add_assoc, Nat.add_comm 1 2] using this
      simp [copyText, o1, w1, r1, bb, o2, w2, r2, o3, w3, r3]
    simp only [List.cons_append, List.mem_cons, forall_eq_or_imp] at hX hd2
    have w3 : wr (patch buf pend (xs0 ++ [x1, x2])) (pend + xs0.length + 2) x3
        = .ok (patch buf pend (xs0 ++ [x1, x2, x3])) := by
      have := (copy_step buf pend q (xs0 ++ [x1, x2]) x3 x4 _ hd2 hp).1
      simpa [Nat.add_assoc] using this
    have r3 : rd (patch buf pend (xs0 ++ [x1, x2, x3])) (q + xs0.length + 1 + 2) = .ok x4 := by
      have := (copy_step buf pend q (xs0 ++ [x1, x2]) x3 x4 _ hd2 hp).2
      simpa [Nat.add_assoc, Nat.add_comm 1 2] using this
    have hd3 : buf.drop (q + (xs0 ++ [x1, x2, x3]).length) = x4 :: (X ++ b :: rest) := by
      have := drop_succ_of_drop hd2
      simpa [Nat.add_assoc] using this
    have o4 := break_of_ordinary hX.2.2.2.1
    obtain ⟨y, hy⟩ : ∃ y, (X ++ b :: rest).head? = some y := by
      cases X <;> simp
    obtain ⟨tl, htl⟩ : ∃ tl, X ++ b :: rest = y :: tl := by
      cases X <;> simp_all
    rw [htl] at hd3
    have w4 : wr (patch buf pend (xs0 ++ [x1, x2, x3])) (pend + xs0.length + 3) x4
        = .ok (patch buf pend (xs0 ++ [x1, x2, x3, x4])) := by
      have := (copy_step buf pend q (xs0 ++ [x1, x2, x3]) x4 y tl hd3 hp).1
      simpa [Nat.add_assoc] using this
    have r4 : rd (patch buf pend (xs0 ++ [x1, x2, x3, x4])) (q + xs0.length + 1 + 3) = .ok y := by
      have := (copy_step buf pend q (xs0 ++ [x1, x2, x3]) x4 y tl hd3 hp).2
      simpa [Nat.add_assoc, Nat.add_comm 1 3] using this
    have hd4 : buf.drop (q + (xs0 ++ [x1, x2, x3, x4]).length) = X ++ b :: rest := by
      have := drop_succ_of_drop hd3
      rw [htl]
      simpa [Nat.add_assoc] using this
    have key := ih buf pend q (xs0 ++ [x1, x2, x3, x4]) X b rest y hd4 hy
      hX.2.2.2.2 hb hp (by simp only [List.length_cons] at hf ⊢; omega)
    have e1 : pend + (xs0 ++ [x1, x2, x3, x4]).length = pend + xs0.length + 4 := by simp; omega
    have e2 : q + (xs0 ++ [x1, x2, x3, x4]).length + 1 = q + xs0.length + 1 + 4 := by simp; omega
    rw [e1, e2] at key
    simp only [copyText, o1, w1, r1, o2, w2, r2, o3, w3, r3, o4, w4, r4, Bool.false_eq_true,
      ↓reduceIte, Res.ok_bind, key]
    simp only [List.length_cons, List.append_assoc, List.cons_append, List.nil_append,
      Res.ok.injEq, StrState.mk.injEq, true_and, List.length_append, List.length_nil,
      and_true]
    constructor <;> omega

theorem copyText_at (fuel : Nat) (buf : List Nat) (p0 r : Nat) (xs0 X : List Nat) (b : Nat)
    (rest : List Nat) (ch : Nat) (hd : buf.drop r = X ++ b :: rest)
    (hch : (X ++ b :: rest).head? = some ch) (hX : ∀ x ∈ X, Ordinary x) (hb : IsBreak b)
    (hp : p0 + xs0.length ≤ r) (hf : X.length < fuel) (pend s1 : Nat)
    (hpend : pend = p0 + xs0.length) (hs1 : s1 = r + 1) :
    copyText fuel { buf := patch buf p0 xs0, pend := pend, s := s1, ch := ch }
      = .ok { buf := patch buf p0 (xs0 ++ X), pend := p0 + xs0.length + X.length,
              s := r + X.length + 1, ch := b } := by
  subst hpend hs1
  have := copyText_spec fuel buf p0 (r - xs0.length) xs0 X b rest ch
    (by rw [Nat.sub_add_cancel (by omega)]; exact hd) hch hX hb (by omega) hf
  rw [Nat.sub_add_cancel (by omega)] at this
  exact this

theorem decodeEsc_length (c : Nat) : (decodeEsc c).length ≤ 2 := by
  unfold decodeEsc; split_ifs <;> simp

theorem utf8_length (u : Nat) : (utf8 u).length ≤ 3 := by
  unfold utf8; split_ifs <;> simp

/-- The stores of one two-byte escape. -/
theorem esc_round (fuel : Nat) (buf : List Nat) (p0 r : Nat) (D : List Nat) (c y : Nat)
    (tl : List Nat) (hd : buf.drop r = 92 :: c :: y :: tl) (hc : c ≠ 0 ∧ c ≠ 117)
    (hp : p0 + D.length ≤ r) :
    unescape (fuel + 1) { buf := patch buf p0 D, pend := p0 + D.length, s := r + 1, ch := 92 }
      = (copyText (patch buf p0 (D ++ decodeEsc c)).length
          { buf := patch buf p0 (D ++ decodeEsc c), pend := p0 + (D ++ decodeEsc c).length,
            s := r + 3, ch := y } >>= unescape fuel) := by
  have d1 := drop_succ_of_drop hd
  have d2 := drop_succ_of_drop d1
  have l2 := lt_length_of_drop d2
  have r1 : rd (patch buf p0 D) (r + 1) = .ok c := by
    rw [rd_patch _ _ _ _ (by omega) (by omega)]; exact rd_of_drop d1
  have ry : ∀ xs : List Nat, xs.length ≤ 2 → rd (patch buf p0 (D ++ xs)) (r + 1 + 1) = .ok y := by
    intro xs hxs
    rw [rd_patch _ _ _ _ (by simp; omega) (by simp; omega)]; exact rd_of_drop d2
  have w1 : ∀ x : Nat, wr (patch buf p0 D) (p0 + D.length) x = .ok (patch buf p0 (D ++ [x])) :=
    fun x => wr_patch _ _ _ _ (by omega)
  have w2 : ∀ x z : Nat, wr (patch buf p0 (D ++ [x])) (p0 + D.length + 1) z
      = .ok (patch buf p0 (D ++ [x, z])) := by
    intro x z
    have := wr_patch buf p0 (D ++ [x]) z (by simp; omega)
    simpa [Nat.add_assoc] using this
  have ry1 := fun x => ry [x] (by simp)
  have ry2 : ∀ x z : Nat, rd (patch buf p0 (D ++ [x, z])) (r + 2) = .ok y :=
    fun x z => ry [x, z] (by simp)
  have w2' : ∀ x z : Nat, wr (patch buf p0 (D ++ [x])) (p0 + (D.length + 1)) z
      = .ok (patch buf p0 (D ++ [x, z])) := by
    intro x z; rw [← Nat.add_assoc]; exact w2 x z
  by_cases hk : c = 98 ∨ c = 102 ∨ c = 110 ∨ c = 114 ∨ c = 116 ∨ c = 92 ∨ c = 34
  · rcases hk with h | h | h | h | h | h | h <;> subst h <;>
      simp [unescape, r1, decodeEsc, w1, ry1, Nat.add_assoc]
  · have hne : c ≠ 98 ∧ c ≠ 102 ∧ c ≠ 110 ∧ c ≠ 114 ∧ c ≠ 116 ∧ c ≠ 92 ∧ c ≠ 34 := by omega
    obtain ⟨h1, h2, h3, h4, h5, h6, h7⟩ := hne
    simp [unescape, r1, decodeEsc, w1, w2', ry2, Nat.add_assoc, hc.1, hc.2, h1, h2, h3, h4, h5,
      h6, h7]

theorem hexDigit_le {c d : Nat} (h : hexDigit c = some d) : d ≤ 15 := by
  unfold hexDigit at h
  split_ifs at h <;> simp at h <;> omega

theorem hexVal_of {c d : Nat} (h : hexDigit c = some d) : hexVal c = d := by
  simp [hexVal, h]

theorem writeUtf8_patch (buf : List Nat) (p0 : Nat) (D : List Nat) (u : Nat)
    (hl : p0 + D.length + 3 ≤ buf.length) :
    writeUtf8 (patch buf p0 D) (p0 + D.length) u
      = .ok (patch buf p0 (D ++ utf8 u), p0 + (D ++ utf8 u).length) := by
  have w1 : ∀ x : Nat, wr (patch buf p0 D) (p0 + D.length) x = .ok (patch buf p0 (D ++ [x])) :=
    fun x => wr_patch _ _ _ _ (by omega)
  have w2 : ∀ x z : Nat, wr (patch buf p0 (D ++ [x])) (p0 + (D.length + 1)) z
      = .ok (patch buf p0 (D ++ [x, z])) := by
    intro x z
    have := wr_patch buf p0 (D ++ [x]) z (by simp; omega)
    simpa [Nat.add_assoc] using this
  have w3 : ∀ x z t : Nat, wr (patch buf p0 (D ++ [x, z])) (p0 + (D.length + 2)) t
      = .ok (patch buf p0 (D ++ [x, z, t])) := by
    intro x z t
    have := wr_patch buf p0 (D ++ [x, z]) t (by simp; omega)
    simpa [Nat.add_assoc] using this
  unfold writeUtf8 utf8
  split_ifs <;> simp [w1, w2, w3, Nat.add_assoc]

theorem parseHex4_spec (buf : List Nat) (s h1 h2 h3 h4 : Nat) (tl : List Nat)
    (hd : buf.drop s = h1 :: h2 :: h3 :: h4 :: tl)
    (hv : (hexDigit h1).isSome ∧ (hexDigit h2).isSome ∧ (hexDigit h3).isSome ∧ (hexDigit h4).isSome) :
    parseHex4 4 buf s 0 = .ok (some (hex4 h1 h2 h3 h4), s + 4) := by
  obtain ⟨v1, v2, v3, v4⟩ := hv
  obtain ⟨a1, e1⟩ := Option.isSome_iff_exists.mp v1
  obtain ⟨a2, e2⟩ := Option.isSome_iff_exists.mp v2
  obtain ⟨a3, e3⟩ := Option.isSome_iff_exists.mp v3
  obtain ⟨a4, e4⟩ := Option.isSome_iff_exists.mp v4
  have b1 := hexDigit_le e1
  have b2 := hexDigit_le e2
  have b3 := hexDigit_le e3
  have b4 := hexDigit_le e4
  have d1 := drop_succ_of_drop hd
  have d2 := drop_succ_of_drop d1
  have d3 := drop_succ_of_drop d2
  simp only [parseHex4, rd_of_drop hd, rd_of_drop d1, rd_of_drop d2, rd_of_drop d3, e1, e2, e3, e4,
    Res.ok_bind, Res.pure_eq, hex4, hexVal_of e1, hexVal_of e2, hexVal_of e3, hexVal_of e4,
    Nat.shiftLeft_eq]
  have m1 : (0 * 2 ^ 4 % 2 ^ 32 + a1) = a1 := by omega
  have m2 : (a1 * 2 ^ 4 % 2 ^ 32 + a2) = a1 * 16 + a2 := by omega
  have m3 : ((a1 * 16 + a2) * 2 ^ 4 % 2 ^ 32 + a3) = (a1 * 16 + a2) * 16 + a3 := by omega
  have m4 : (((a1 * 16 + a2) * 16 + a3) * 2 ^ 4 % 2 ^ 32 + a4)
      = ((a1 * 16 + a2) * 16 + a3) * 16 + a4 := by omega
  rw [m1, m2, m3, m4]

/-- The stores of one `\u` escape. -/
theorem uni_round (fuel : Nat) (buf : List Nat) (p0 r : Nat) (D : List Nat) (h1 h2 h3 h4 y : Nat)
    (tl : List Nat) (hd : buf.drop r = 92 :: 117 :: h1 :: h2 :: h3 :: h4 :: y :: tl)
    (hv : (hexDigit h1).isSome ∧ (hexDigit h2).isSome ∧ (hexDigit h3).isSome ∧ (hexDigit h4).isSome)
    (hp : p0 + D.length ≤ r) :
    unescape (fuel + 1) { buf := patch buf p0 D, pend := p0 + D.length, s := r + 1, ch := 92 }
      = (copyText (patch buf p0 (D ++ utf8 (hex4 h1 h2 h3 h4))).length
          { buf := patch buf p0 (D ++ utf8 (hex4 h1 h2 h3 h4)),
            pend := p0 + (D ++ utf8 (hex4 h1 h2 h3 h4)).length,
            s := r + 7, ch := y } >>= unescape fuel) := by
  have d1 := drop_succ_of_drop hd
  have d2 := drop_succ_of_drop d1
  have d6 := drop_add_of_drop [h1, h2, h3, h4] (r := y :: tl) d2
  have l6 := lt_length_of_drop d6
  simp only [List.length_cons, List.length_nil] at d6 l6
  have hlen : (patch buf p0 D).length = buf.length := length_patch _ _ _ (by omega)
  have r1 : rd (patch buf p0 D) (r + 1) = .ok 117 := by
    rw [rd_patch _ _ _ _ (by omega) (by omega)]; exact rd_of_drop d1
  have hx : parseHex4 4 (patch buf p0 D) (r + 1 + 1) 0 = .ok (some (hex4 h1 h2 h3 h4), r + 1 + 1 + 4) := by
    apply parseHex4_spec _ _ _ _ _ _ (y :: tl) _ hv
    rw [drop_patch _ _ _ _ (by omega) (by omega)]; exact d2
  have hw := writeUtf8_patch buf p0 D (hex4 h1 h2 h3 h4) (by omega)
  have ul := utf8_length (hex4 h1 h2 h3 h4)
  have ry : rd (patch buf p0 (D ++ utf8 (hex4 h1 h2 h3 h4))) (r + 1 + 1 + 4) = .ok y := by
    rw [rd_patch _ _ _ _ (by simp; omega) (by simp; omega)]
    exact rd_of_drop (by simpa [Nat.add_assoc] using d6)
  simp only [unescape, r1, hx, hw, ry, Res.ok_bind]
  simp

theorem bodyText_cons (i : StrItem) (its : List StrItem) :
    bodyText (i :: its) = i.text ++ bodyText its := by
  simp [bodyText]

theorem bodyDecoded_cons (i : StrItem) (its : List StrItem) :
    bodyDecoded (i :: its) = i.decoded ++ bodyDecoded its := by
  simp [bodyDecoded]

theorem bodyText_plain (P : List Nat) (its : List StrItem) :
    bodyText (P.map StrItem.plain ++ its) = P ++ bodyText its := by
  induction P with
  | nil => simp
  | cons p P ih => simp [bodyText_cons, StrItem.text, ih]

theorem bodyDecoded_plain (P : List Nat) (its : List StrItem) :
    bodyDecoded (P.map StrItem.plain ++ its) = P ++ bodyDecoded its := by
  induction P with
  | nil => simp
  | cons p P ih => simp [bodyDecoded_cons, StrItem.decoded, ih]

theorem split_plain (its : List StrItem) (hv : ∀ i ∈ its, i.Valid) :
    ∃ (P : List Nat) (its2 : List StrItem), its = P.map StrItem.plain ++ its2 ∧
      (∀ x ∈ P, Ordinary x) ∧
      (∀ i ∈ its2, i.Valid) ∧ its2.length ≤ its.length ∧ NonPlainHead its2 := by
  induction its with
  | nil => exact ⟨[], [], by simp, by simp, by simp, by simp, Or.inl rfl⟩
  | cons i its ih =>
    cases i with
    | plain c =>
      obtain ⟨P, its2, e, hP, hv2, hl, hn⟩ := ih (fun j hj => hv j (List.mem_cons_of_mem _ hj))
      refine ⟨c :: P, its2, by simp [e], ?_, hv2, by simp; omega, hn⟩
      intro x hx
      rcases List.mem_cons.mp hx with h | h
      · subst h; exact hv (.plain x) (by simp)
      · exact hP x h
    | esc c =>
      exact ⟨[], .esc c :: its, by simp, by simp, hv, by simp, Or.inr ⟨_, _, rfl, by simp⟩⟩
    | uni h1 h2 h3 h4 =>
      exact ⟨[], .uni h1 h2 h3 h4 :: its, by simp, by simp, hv, by simp,
        Or.inr ⟨_, _, rfl, by simp⟩⟩

theorem head_break (its : List StrItem) (hn : NonPlainHead its) (rest : List Nat) :
    ∃ b tl, bodyText its ++ 34 :: rest = b :: tl ∧ IsBreak b := by
  rcases hn with h | ⟨i, tl, h, hi⟩
  · subst h; exact ⟨34, rest, by simp [bodyText], by simp [IsBreak]⟩
  · subst h
    cases i with
    | plain c => exact absurd rfl (hi c)
    | esc c =>
      exact ⟨92, c :: (bodyText tl ++ 34 :: rest), by simp [bodyText_cons, StrItem.text],
        by simp [IsBreak]⟩
    | uni h1 h2 h3 h4 =>
      exact ⟨92, 117 :: h1 :: h2 :: h3 :: h4 :: (bodyText tl ++ 34 :: rest),
        by simp [bodyText_cons, StrItem.text], by simp [IsBreak]⟩

theorem decoded_length_le (i : StrItem) : i.decoded.length ≤ i.text.length := by
  cases i with
  | plain c => simp [StrItem.decoded, StrItem.text]
  | esc c => simpa [StrItem.decoded, StrItem.text] using decodeEsc_length c
  | uni h1 h2 h3 h4 =>
    have := utf8_length (hex4 h1 h2 h3 h4)
    simp [StrItem.decoded, StrItem.text]; omega

theorem text_length_pos (i : StrItem) : 1 ≤ i.text.length := by
  cases i <;> simp [StrItem.text]

theorem bodyText_length_ge (its : List StrItem) : its.length ≤ (bodyText its).length := by
  induction its with
  | nil => simp
  | cons i its ih =>
    have := text_length_pos i
    simp [bodyText_cons]; omega

theorem unescape_spec : ∀ (fuel : Nat) (its : List StrItem) (D : List Nat) (r : Nat)
    (rest buf : List Nat) (p0 ch : Nat), NonPlainHead its → (∀ i ∈ its, i.Valid) →
    buf.drop r = bodyText its ++ 34 :: rest → p0 + D.length ≤ r → its.length < fuel →
    (bodyText its ++ 34 :: rest).head? = some ch →
    unescape fuel { buf := patch buf p0 D, pend := p0 + D.length, s := r + 1, ch := ch }
      = .ok { ok := true, buf := patch buf p0 (D ++ bodyDecoded its ++ [0]),
              s := r + (bodyText its).length + 1,
              pend := p0 + D.length + (bodyDecoded its).length + 1 } := by
  intro fuel
  induction fuel with
  | zero => intro its D r rest buf p0 ch _ _ _ _ h; simp at h
  | succ fuel ih =>
    intro its D r rest buf p0 ch hn hv hd hp hf hch
    rcases hn with h | ⟨i, its1, h, hi⟩
    · subst h
      simp only [bodyText, List.flatMap_nil, List.nil_append, List.head?_cons,
        Option.some.injEq] at hd hch
      subst hch
      have hl := lt_length_of_drop hd
      have w := wr_patch buf p0 D 0 (by omega)
      simp [unescape, w, bodyText, bodyDecoded]
    · subst h
      have hv1 : ∀ j ∈ its1, j.Valid := fun j hj => hv j (List.mem_cons_of_mem _ hj)
      obtain ⟨P, its2, e, hP, hv2, hl2, hn2⟩ := split_plain its1 hv1
      obtain ⟨b, tl, hb, hbb⟩ := head_break its2 hn2 rest
      have hlen : r + (bodyText (i :: its1) ++ 34 :: rest).length = buf.length :=
        length_of_drop hd (by simp)
      have et : bodyText its1 = P ++ bodyText its2 := by rw [e, bodyText_plain]
      have ed : bodyDecoded its1 = P ++ bodyDecoded its2 := by rw [e, bodyDecoded_plain]
      have hch2 : (bodyText its2 ++ 34 :: rest).head? = some b := by rw [hb]; rfl
      have hchP : (P ++ b :: tl).head? = (P ++ b :: tl).head? := rfl
      obtain ⟨y, tl2, hy⟩ : ∃ y tl2, P ++ b :: tl = y :: tl2 := by
        cases P <;> simp
      cases i with
      | plain c => exact absurd rfl (hi c)
      | esc c =>
        have hvc : c ≠ 0 ∧ c ≠ 117 := hv (.esc c) (by simp)
        have hd' : buf.drop r = 92 :: c :: (P ++ b :: tl) := by
          rw [hd, bodyText_cons, et]; simp [StrItem.text, hb]
        simp only [bodyText_cons, et, StrItem.text, List.length_append, List.length_cons,
          List.length_nil] at hlen
        have hdl := decodeEsc_length c
        have hround := esc_round fuel buf p0 r D c y tl2 (by rw [hd', hy]) hvc hp
        have hd2 : buf.drop (r + 2) = P ++ b :: tl := by
          have := drop_add_of_drop [92, c] (r := P ++ b :: tl) (by simpa using hd')
          simpa using this
        have hcopy := copyText_at (patch buf p0 (D ++ decodeEsc c)).length buf p0 (r + 2)
          (D ++ decodeEsc c) P b tl y hd2 (by rw [hy]; rfl) hP hbb
          (by simp; omega)
          (by rw [length_patch _ _ _ (by simp; omega)]; omega)
          (p0 + (D ++ decodeEsc c).length) (r + 3) rfl rfl
        have hd3 : buf.drop (r + 2 + P.length) = bodyText its2 ++ 34 :: rest := by
          rw [hb]; exact drop_add_of_drop P hd2
        have hih := ih its2 (D ++ decodeEsc c ++ P) (r + 2 + P.length) rest buf p0 b hn2 hv2 hd3
          (by simp; omega) (by simp at hf; omega) hch2
        have hch1 : ch = 92 := by
          rw [bodyText_cons] at hch; simpa [StrItem.text] using hch.symm
        subst hch1
        rw [hround, hcopy]
        simp only [Res.ok_bind]
        have e1 : p0 + (D ++ decodeEsc c).length + P.length = p0 + (D ++ decodeEsc c ++ P).length := by
          simp; omega
        rw [e1, hih]
        simp only [bodyText_cons, bodyDecoded_cons, et, ed, StrItem.text, StrItem.decoded,
          List.length_append, List.length_cons, List.length_nil, List.append_assoc,
          Res.ok.injEq, StrResult.mk.injEq, true_and]
        constructor <;> omega
      | uni h1 h2 h3 h4 =>
        have hvc := hv (.uni h1 h2 h3 h4) (by simp)
        have hd' : buf.drop r = 92 :: 117 :: h1 :: h2 :: h3 :: h4 :: (P ++ b :: tl) := by
          rw [hd, bodyText_cons, et]; simp [StrItem.text, hb]
        simp only [bodyText_cons, et, StrItem.text, List.length_append, List.length_cons,
          List.length_nil] at hlen
        have hdl := utf8_length (hex4 h1 h2 h3 h4)
        have hround := uni_round fuel buf p0 r D h1 h2 h3 h4 y tl2 (by rw [hd', hy]) hvc hp
        have hd2 : buf.drop (r + 6) = P ++ b :: tl := by
          have := drop_add_of_drop [92, 117, h1, h2, h3, h4] (r := P ++ b :: tl)
            (by simpa using hd')
          simpa using this
        have hcopy := copyText_at (patch buf p0 (D ++ utf8 (hex4 h1 h2 h3 h4))).length buf p0 (r + 6)
          (D ++ utf8 (hex4 h1 h2 h3 h4)) P b tl y hd2 (by rw [hy]; rfl) hP hbb
          (by simp; omega)
          (by rw [length_patch _ _ _ (by simp; omega)]; omega)
          (p0 + (D ++ utf8 (hex4 h1 h2 h3 h4)).length) (r + 7) rfl rfl
        have hd3 : buf.drop (r + 6 + P.length) = bodyText its2 ++ 34 :: rest := by
          rw [hb]; exact drop_add_of_drop P hd2
        have hih := ih its2 (D ++ utf8 (hex4 h1 h2 h3 h4) ++ P) (r + 6 + P.length) rest buf p0 b
          hn2 hv2 hd3 (by simp; omega) (by simp at hf; omega) hch2
        have hch1 : ch = 92 := by
          rw [bodyText_cons] at hch; simpa [StrItem.text] using hch.symm
        subst hch1
        rw [hround, hcopy]
        simp only [Res.ok_bind]
        have e1 : p0 + (D ++ utf8 (hex4 h1 h2 h3 h4)).length + P.length
            = p0 + (D ++ utf8 (hex4 h1 h2 h3 h4) ++ P).length := by
          simp; omega
        rw [e1, hih]
        simp only [bodyText_cons, bodyDecoded_cons, et, ed, StrItem.text, StrItem.decoded,
          List.length_append, List.length_cons, List.length_nil, List.append_assoc,
          Res.ok.injEq, StrResult.mk.injEq, true_and]
        constructor <;> omega

theorem parseStringInternal_spec (its : List StrItem) (hv : ∀ i ∈ its, i.Valid)
    (buf : List Nat) (s : Nat) (rest : List Nat)
    (hd : buf.drop s = bodyText its ++ 34 :: rest) :
    parseStringInternal buf s
      = .ok { ok := true, buf := patch buf s (bodyDecoded its ++ [0]),
              s := s + (bodyText its).length + 1,
              pend := s + (bodyDecoded its).length + 1 } := by
  obtain ⟨P, its2, e, hP, hv2, hl2, hn2⟩ := split_plain its hv
  obtain ⟨b, tl, hb, hbb⟩ := head_break its2 hn2 rest
  have et : bodyText its = P ++ bodyText its2 := by rw [e, bodyText_plain]
  have ed : bodyDecoded its = P ++ bodyDecoded its2 := by rw [e, bodyDecoded_plain]
  have hlen : s + (bodyText its ++ 34 :: rest).length = buf.length :=
    length_of_drop hd (by simp)
  have hl3 := bodyText_length_ge its2
  simp only [et, List.length_append, List.length_cons] at hlen
  have hd' : buf.drop s = P ++ b :: tl := by rw [hd, et, List.append_assoc, hb]
  have hd2 : buf.drop (s + P.length) = bodyText its2 ++ 34 :: rest := by
    rw [hb]; exact drop_add_of_drop P hd'
  have hch2 : (bodyText its2 ++ 34 :: rest).head? = some b := by rw [hb]; rfl
  have hu := unescape_spec buf.length its2 P (s + P.length) rest buf s b hn2 hv2 hd2
    (by omega) (by omega) hch2
  rw [patch_of_drop buf s P (b :: tl) hd'] at hu
  have rb : rd buf (s + P.length) = .ok b := rd_of_drop (by rw [hd2, hb])
  cases P with
  | nil =>
    simp only [List.nil_append, List.length_nil, Nat.add_zero] at hd' rb hu ⊢
    simp only [parseStringInternal, rd_of_drop hd', break_of_isBreak hbb, Res.ok_bind,
      Bool.not_true, Bool.false_eq_true, ↓reduceIte, Res.pure_eq, hu]
    simp [et, ed]
  | cons a P =>
    simp only [List.cons_append] at hd'
    simp only [List.mem_cons, forall_eq_or_imp] at hP
    have hs := scanText_spec buf.length buf s a P b tl hd' hP.2 hbb (by
      simp only [List.length_cons] at hlen; omega)
    have e1 : s + 1 + P.length = s + (a :: P).length := by simp; omega
    rw [e1] at hs
    simp only [parseStringInternal, rd_of_drop hd', break_of_ordinary hP.1, Res.ok_bind,
      Bool.not_false, ↓reduceIte, hs, rb, hu]
    simp only [et, ed, List.length_append, List.length_cons, Res.ok.injEq, StrResult.mk.injEq,
      true_and, List.append_assoc, List.cons_append]
    constructor <;> omega

theorem decodeEsc_nonzero (c : Nat) (hc : c ≠ 0) : ∀ x ∈ decodeEsc c, x ≠ 0 := by
  unfold decodeEsc
  split_ifs <;> simp <;> omega

theorem or_ne_zero_left (a b : Nat) (ha : a ≠ 0) : a ||| b ≠ 0 := by
  obtain ⟨i, hi⟩ := Nat.ne_zero_implies_bit_true ha
  intro h
  have := Nat.testBit_or a b i
  rw [h] at this
  simp [hi] at this

theorem utf8_nonzero (u : Nat) : ∀ x ∈ utf8 u, x ≠ 0 := by
  unfold utf8
  split_ifs with h1 h2
  · simp; exact h1.1
  · simp; exact ⟨or_ne_zero_left _ _ (by decide), or_ne_zero_left _ _ (by decide)⟩
  · simp
    exact ⟨or_ne_zero_left _ _ (by decide), or_ne_zero_left _ _ (by decide),
      or_ne_zero_left _ _ (by decide)⟩

theorem bodyDecoded_nonzero (its : List StrItem) (hv : ∀ i ∈ its, i.Valid) :
    ∀ x ∈ bodyDecoded its, x ≠ 0 := by
  induction its with
  | nil => simp [bodyDecoded]
  | cons i its ih =>
    intro x hx
    rw [bodyDecoded_cons, List.mem_append] at hx
    rcases hx with h | h
    · have hvi := hv i (by simp)
      cases i with
      | plain c =>
        simp [StrItem.decoded] at h; subst h; exact hvi.1
      | esc c => exact decodeEsc_nonzero c hvi.1 x h
      | uni h1 h2 h3 h4 => exact utf8_nonzero _ x h
    · exact ih (fun j hj => hv j (List.mem_cons_of_mem _ hj)) x h

theorem takeWhile_nonzero (xs rest : List Nat) (h : ∀ x ∈ xs, x ≠ 0) :
    (xs ++ 0 :: rest).takeWhile (fun c => c ≠ 0) = xs := by
  induction xs with
  | nil => simp
  | cons x xs ih =>
    simp only [List.mem_cons, forall_eq_or_imp] at h
    have := ih h.2
    simp only [List.cons_append, List.takeWhile_cons, h.1, ne_eq, not_false_eq_true,
      decide_True, ↓reduceIte, this]

/-- The C string at `p` once `xs` and a NUL have been stored there. -/
theorem cstrAt_of_drop (buf : List Nat) (p : Nat) (xs rest : List Nat)
    (hd : buf.drop p = xs ++ 0 :: rest) (h : ∀ x ∈ xs, x ≠ 0) : cstrAt buf p = xs := by
  unfold cstrAt; rw [hd]; exact takeWhile_nonzero xs rest h

theorem escItem_spec (c : Nat) (hc : c ≠ 0) :
    (escItem c).Valid ∧ (escItem c).text = escapeByte c ∧ (escItem c).decoded = [c] := by
  by_cases h : c ≥ 32 ∧ c ≠ 34 ∧ c ≠ 92
  · have e : escItem c = .plain c := by unfold escItem; rw [if_pos h]
    have e2 : escapeByte c = [c] := by unfold escapeByte; rw [if_pos h]
    rw [e, e2]
    exact ⟨by simp only [StrItem.Valid, Ordinary]; omega, rfl, rfl⟩
  · have hc' : c < 32 ∨ c = 34 ∨ c = 92 := by omega
    rcases hc' with h1 | h1 | h1
    · interval_cases c <;> first | exact absurd rfl hc | decide
    · subst h1; decide
    · subst h1; decide

theorem escapeLoop_items (str : List Nat) (h : ∀ x ∈ str, x ≠ 0) :
    (∀ i ∈ str.map escItem, i.Valid) ∧ bodyText (str.map escItem) = escapeLoop str ∧
      bodyDecoded (str.map escItem) = str := by
  induction str with
  | nil => simp [bodyText, bodyDecoded, escapeLoop]
  | cons c str ih =>
    simp only [List.mem_cons, forall_eq_or_imp] at h
    obtain ⟨v, t, d⟩ := escItem_spec c h.1
    obtain ⟨iv, it, id⟩ := ih h.2
    refine ⟨?_, ?_, ?_⟩
    · intro i hi
      simp only [List.map_cons, List.mem_cons] at hi
      rcases hi with hi | hi
      · subst hi; exact v
      · exact iv i hi
    · simp [bodyText_cons, t, it, escapeLoop, h.1]
    · simp [bodyDecoded_cons, d, id]

theorem parseInt9_spec : ∀ (k : Nat) (ds : List Nat) (buf : List Nat) (s n c : Nat)
    (rest : List Nat) (ch : Nat), ds.length ≤ k → IsDigits ds → ¬ (48 ≤ c ∧ c ≤ 57) →
    buf.drop s = ds ++ c :: rest → (ds ++ c :: rest).head? = some ch →
    parseInt9 k buf s n ch = .ok (digitsAcc n ds, s + ds.length, c) := by
  intro k
  induction k with
  | zero =>
    intro ds buf s n c rest ch hl _ _ hd hch
    have : ds = [] := List.length_eq_zero.mp (by omega)
    subst this
    simp at hch; subst hch
    simp [parseInt9, digitsAcc]
  | succ k ih =>
    intro ds buf s n c rest ch hl hds hc hd hch
    cases ds with
    | nil =>
      simp at hch; subst hch
      have : matchFlag c FLAG_DIGIT = false := by rw [matchFlag_digit]; simpa using hc
      simp [parseInt9, this, digitsAcc]
    | cons d ds =>
      simp only [List.cons_append, List.head?_cons, Option.some.injEq] at hch hd
      subst hch
      have hd1 := hds d (by simp)
      have : matchFlag d FLAG_DIGIT = true := by rw [matchFlag_digit]; simpa using hd1
      have d1 := drop_succ_of_drop hd
      obtain ⟨y, hy⟩ : ∃ y, (ds ++ c :: rest).head? = some y := by cases ds <;> simp
      obtain ⟨tl, htl⟩ : ∃ tl, ds ++ c :: rest = y :: tl := by cases ds <;> simp_all
      have ry : rd buf (s + 1) = .ok y := rd_of_drop (by rw [d1, htl])
      have := ih ds buf (s + 1) (n * 10 + (d - 48)) c rest y (by simp at hl; omega)
        (fun x hx => hds x (List.mem_cons_of_mem _ hx)) hc d1 hy
      simp only [parseInt9, ↓reduceIte, ry, Res.ok_bind, this, *]
      simp [digitsAcc]; omega

theorem lut_spec (k : Nat) (h : k < 100) : lut (2 * k) = 48 + k / 10 ∧ lut (2 * k + 1) = 48 + k % 10 := by
  interval_cases k <;> exact ⟨rfl, rfl⟩

theorem lut_shift (k : Nat) (h : k < 100) :
    lut (k <<< 1) = 48 + k / 10 ∧ lut ((k <<< 1) + 1) = 48 + k % 10 := by
  have : k <<< 1 = 2 * k := by rw [Nat.shiftLeft_eq]; omega
  rw [this]; exact lut_spec k h

theorem u32digits_spec (u : Nat) (hu : u < 1000000000) :
    IsDigits (u32digits u) ∧ 1 ≤ (u32digits u).length ∧ (u32digits u).length ≤ 9 ∧
      digitsVal (u32digits u) = u := by
  have L := fun k (h : k < 100) => lut_shift k h
  by_cases h1 : u < 10000
  · have a1 := L (u / 100) (by omega)
    have a2 := L (u % 100) (by omega)
    simp only [u32digits, h1, ↓reduceIte, a1.1, a1.2, a2.1, a2.2]
    by_cases c1 : u ≥ 1000 <;> by_cases c2 : u ≥ 100 <;> by_cases c3 : u ≥ 10 <;>
      simp only [c1, c2, c3, ↓reduceIte, IsDigits, digitsVal, digitsAcc, List.cons_append,
        List.nil_append, List.append_nil, List.foldl_cons, List.foldl_nil, List.mem_cons,
        List.mem_singleton, List.not_mem_nil, forall_eq_or_imp, forall_eq, List.length_cons,
        List.length_nil, or_false, false_imp_iff, implies_true, and_true] <;>
      clear a1 a2 L <;> omega
  · by_cases h2 : u < 100000000
    · have a1 := L (u / 10000 / 100) (by omega)
      have a2 := L (u / 10000 % 100) (by omega)
      have a3 := L (u % 10000 / 100) (by omega)
      have a4 := L (u % 10000 % 100) (by omega)
      simp only [u32digits, h1, h2, ↓reduceIte, a1.1, a1.2, a2.1, a2.2, a3.1, a3.2, a4.1, a4.2]
      by_cases c1 : u ≥ 10000000 <;> by_cases c2 : u ≥ 1000000 <;> by_cases c3 : u ≥ 100000 <;>
        simp only [c1, c2, c3, ↓reduceIte, IsDigits, digitsVal, digitsAcc, List.cons_append,
          List.nil_append, List.append_nil, List.foldl_cons, List.foldl_nil, List.mem_cons,
          List.mem_singleton, List.not_mem_nil, forall_eq_or_imp, forall_eq, List.length_cons,
          List.length_nil, or_false, false_imp_iff, implies_true, and_true] <;>
        clear a1 a2 a3 a4 L <;> omega
    · have a1 := L (u % 100000000 / 10000 / 100) (by omega)
      have a2 := L (u % 100000000 / 10000 % 100) (by omega)
      have a3 := L (u % 100000000 % 10000 / 100) (by omega)
      have a4 := L (u % 100000000 % 10000 % 100) (by omega)
      have c1 : ¬ u / 100000000 ≥ 10 := by omega
      simp only [u32digits, h1, h2, ↓reduceIte, a1.1, a1.2, a2.1, a2.2, a3.1, a3.2, a4.1, a4.2,
        c1, IsDigits, digitsVal, digitsAcc, List.cons_append,
        List.nil_append, List.append_nil, List.foldl_cons, List.foldl_nil, List.mem_cons,
        List.mem_singleton, List.not_mem_nil, forall_eq_or_imp, forall_eq, List.length_cons,
        List.length_nil, or_false, false_imp_iff, implies_true, and_true]
      clear a1 a2 a3 a4 L
      omega

theorem i32toa_nonneg (u : Nat) (hu : u < 2 ^ 31) : i32toa (u : Int) = u32digits u := by
  have h0 : ¬ ((u : Int) < 0) := by omega
  have h1 : ((u : Int) % 2 ^ 32).toNat = u := by omega
  simp only [i32toa, h0, ↓reduceIte, h1]

theorem i32toa_neg (u : Nat) (h0 : 0 < u) (hu : u ≤ 2 ^ 31) :
    i32toa (-(u : Int)) = 45 :: u32digits u := by
  have h0 : (-(u : Int) < 0) := by omega
  have h1 : ((2 ^ 32 - 1 - (-(u : Int) % 2 ^ 32).toNat) + 1) % 2 ^ 32 = u := by omega
  simp only [i32toa, h0, ↓reduceIte, h1]

theorem parseNumber_int (F : FloatOps) (neg : Bool) (ds : List Nat) (buf : List Nat) (s c : Nat)
    (rest : List Nat) (ch0 : Nat) (h1 : 1 ≤ ds.length) (h9 : ds.length ≤ 9) (hds : IsDigits ds)
    (hc : NotNumber c)
    (hd : buf.drop s = (if neg then [45] else []) ++ ds ++ c :: rest)
    (hch : ((if neg then [45] else []) ++ ds ++ c :: rest).head? = some ch0) :
    parseNumber F buf s ch0
      = .ok (some (Value.int (if neg then -(digitsVal ds : Int) else (digitsVal ds : Int)),
                   s + ((if neg then [45] else []) ++ ds).length)) := by
  have hc1 : ¬ (48 ≤ c ∧ c ≤ 57) := fun h => hc (Or.inl h)
  have hcn : matchFlag c FLAG_NUMBER = false := by
    rw [matchFlag_number]; simpa [NotNumber] using hc
  obtain ⟨d, ds', rfl⟩ : ∃ d ds', ds = d :: ds' := by
    cases ds with
    | nil => simp at h1
    | cons d ds' => exact ⟨d, ds', rfl⟩
  have hd0 := hds d (by simp)
  cases neg with
  | false =>
    simp only [Bool.false_eq_true, ↓reduceIte, List.nil_append, List.cons_append,
      List.head?_cons, Option.some.injEq] at hd hch
    subst hch
    have hne : ¬ (d = 45) := by omega
    have hp := parseInt9_spec 9 (d :: ds') buf s 0 c rest d h9 hds hc1 (by simpa using hd) (by simp)
    simp only [parseNumber, hne, decide_False, Bool.false_eq_true, ↓reduceIte, rd_of_drop hd,
      Res.ok_bind, hp, hcn, Bool.not_false, Res.pure_eq, digitsVal]
    simp
  | true =>
    simp only [↓reduceIte, List.cons_append, List.nil_append, List.head?_cons,
      Option.some.injEq, List.singleton_append] at hd hch
    subst hch
    have d1 := drop_succ_of_drop hd
    have hp := parseInt9_spec 9 (d :: ds') buf (s + 1) 0 c rest d h9 hds hc1 (by simpa using d1)
      (by simp)
    simp only [parseNumber, decide_True, ↓reduceIte, rd_of_drop d1, Res.ok_bind, hp, hcn,
      Bool.not_false, Res.pure_eq, digitsVal]
    simp; omega

theorem resolve_foldl (B : List Nat) (tail : List PNode) (acc : Nodes Nat) :
    (tail.foldl (fun acc n => Nodes.cons n.value n.name acc) acc).resolve B
      = chainOf (resolveTail B tail) (acc.resolve B) := by
  induction tail generalizing acc with
  | nil => simp [chainOf, resolveTail]
  | cons n tail ih =>
    simp only [List.foldl_cons, ih]
    simp [chainOf, resolveTail, Nodes.resolve]

theorem resolve_toChain (B : List Nat) (tail : List PNode) :
    (toChain tail).resolve B = chainOf (resolveTail B tail) Nodes.nil := by
  unfold toChain
  rw [resolve_foldl]
  simp [Nodes.resolve]

theorem chainOf_append (l1 l2 : List (Value (List Nat) × Option (List Nat)))
    (acc : Nodes (List Nat)) : chainOf (l1 ++ l2) acc = chainOf l2 (chainOf l1 acc) := by
  simp [chainOf]

/-- The chain built from the members in reverse order, in front of `acc`. -/
theorem chainOf_items : ∀ (ns : CNodes) (acc : Nodes (List Nat)),
    chainOf ns.items.reverse acc = ns.items.foldr (fun p a => Nodes.cons p.1 p.2 a) acc := by
  intro ns acc
  simp [chainOf, List.foldl_reverse]

theorem value_eq_foldr : ∀ ns : CNodes,
    ns.value = ns.items.foldr (fun p a => Nodes.cons p.1 p.2 a) Nodes.nil
  | .nil _ => by simp [CNodes.value, CNodes.items]
  | .cons _ key v next => by
    simp [CNodes.value, CNodes.items, value_eq_foldr next]

theorem chainOf_items_nil (ns : CNodes) : chainOf ns.items.reverse Nodes.nil = ns.value := by
  rw [chainOf_items, value_eq_foldr]

theorem CValue.text_start : ∀ v : CValue, v.Valid → ∃ c tl, v.text = c :: tl ∧ StartByte c
  | .int neg ds, h => by
    obtain ⟨h1, _, hd⟩ := h
    cases neg with
    | true => exact ⟨45, ds, by simp [CValue.text], by simp [StartByte]⟩
    | false =>
      cases ds with
      | nil => simp at h1
      | cons d ds =>
        exact ⟨d, ds, by simp [CValue.text], Or.inl (hd d (by simp))⟩
  | .string its, _ => ⟨34, bodyText its ++ [34], by simp [CValue.text], by simp [StartByte]⟩
  | .jtrue, _ => ⟨116, [114, 117, 101], by simp [CValue.text], by simp [StartByte]⟩
  | .jfalse, _ => ⟨102, [97, 108, 115, 101], by simp [CValue.text], by simp [StartByte]⟩
  | .null, _ => ⟨110, [117, 108, 108], by simp [CValue.text], by simp [StartByte]⟩
  | .array ns, _ => ⟨91, ns.text ++ [93], by simp [CValue.text], by simp [StartByte]⟩
  | .object ns, _ => ⟨123, ns.text ++ [125], by simp [CValue.text], by simp [StartByte]⟩

theorem Delim.notNumber {c : Nat} (h : Delim c) : NotNumber c := by
  unfold Delim at h; unfold NotNumber; omega

theorem Gap.head_le {g : List Nat} (hg : Gap g) : ∀ c tl, g = c :: tl → c ≤ 32 := by
  intro c tl h
  cases hg with
  | nil => cases h
  | ws a w ha _ => simp at h; omega
  | comment a w body t g ha _ _ _ _ => simp at h; omega

theorem Lead.text_head (l : Lead) (hg : Gap l.a) (x : List Nat)
    (hx : ∃ c tl, x = c :: tl ∧ Delim c) :
    ∃ c tl, l.text ++ x = c :: tl ∧ Delim c := by
  unfold Lead.text
  obtain ⟨c, tl, hx, hd⟩ := hx
  subst hx
  rcases hga : l.a with _ | ⟨a, w⟩
  · cases hcm : l.comma with
    | none => exact ⟨c, tl, by simp [commaText], hd⟩
    | some b => exact ⟨44, b ++ c :: tl, by simp [commaText], by simp [Delim]⟩
  · exact ⟨a, w ++ (commaText l.comma ++ c :: tl), by simp, Or.inl (hg.head_le a w hga)⟩

/-- What follows a member inside a container starts with a delimiter. -/
theorem CNodes.members_text_head (ns : CNodes) (isObj : Bool) (h : ns.Valid isObj false)
    (closer : Nat) (after : List Nat) (hc : closer = 93 ∨ closer = 125) :
    ∃ c tl, ns.text ++ closer :: after = c :: tl ∧ Delim c := by
  cases ns with
  | nil lead =>
    have := Lead.text_head lead h.1 (closer :: after) ⟨closer, after, rfl, by unfold Delim; omega⟩
    simpa [CNodes.text] using this
  | cons lead key v next =>
    obtain ⟨hg, hcm, _⟩ := h
    cases hl : lead.comma with
    | none => rw [hl] at hcm; simp at hcm
    | some b =>
      rcases hga : lead.a with _ | ⟨a, w⟩
      · exact ⟨44, _, by simp [CNodes.text, Lead.text, hga, hl, commaText] <;> rfl, by simp [Delim]⟩
      · exact ⟨a, _, by simp [CNodes.text, Lead.text, hga] <;> rfl, Or.inl (hg.head_le a w hga)⟩

theorem parseLoop_succ (F : FloatOps) (avail fuel : Nat) (st : PState) :
    parseLoop F avail (fuel + 1) st = roundRest F avail fuel (separator st) := by
  simp only [parseLoop, parseRound, roundRest, roundFrom, memberSteps]
  cases separator st with
  | fault e => rfl
  | ok x =>
    cases x with
    | ret r => rfl
    | cont st1 ch =>
      try simp only [Res.ok_bind]
      all_goals
        cases newNode avail st1 ch with
        | fault e => rfl
        | ok y =>
          cases y with
          | ret r => rfl
          | cont st2 ch2 =>
            try simp only [Res.ok_bind]
            all_goals
              cases parseValue F st2 ch2 with
              | fault e => rfl
              | ok z => cases z <;> rfl

theorem roundRest_cont (F : FloatOps) (avail fuel : Nat) (st : PState) (ch : Nat) :
    roundRest F avail fuel (.ok (.cont st ch)) = roundFrom F avail fuel (memberSteps F avail st ch) :=
  rfl

theorem roundFrom_cont (F : FloatOps) (avail fuel : Nat) (st : PState) (ch : Nat) :
    roundFrom F avail fuel (.ok (.cont st ch)) = parseLoop F avail fuel st := rfl

theorem StartByte.gt {c : Nat} (h : StartByte c) : 32 < c ∧ c ≠ 47 ∧ c ≠ 44 ∧ c ≠ 93 ∧ c ≠ 125 ∧ c ≠ 58 := by
  unfold StartByte at h; omega

/-- The separator before a member. -/
theorem sep_member (st : PState) (f : Frame) (rest : List Frame) (lead : Lead) (c : Nat)
    (tl : List Nat) (hst : st.stack = f :: rest) (he : f.endchar = 93 ∨ f.endchar = 125)
    (hd : st.buf.drop st.s = lead.text ++ c :: tl) (hc : StartByte c) (hg : Gap lead.a)
    (hcm : match lead.comma with
           | none => f.tail = []
           | some b => f.tail ≠ [] ∧ Gap b) :
    separator st = .ok (.cont { st with s := st.s + lead.text.length } c) := by
  obtain ⟨c1, c2, c3, c4, c5, c6⟩ := hc.gt
  unfold separator
  rw [hst]
  simp only
  cases hl : lead.comma with
  | none =>
    rw [hl] at hcm
    simp only [Lead.text, hl, commaText, List.append_nil] at hd ⊢
    have hs := skipWhitespace_spec hg st.buf st.s c tl hd c1 c2
    have hr : rd st.buf (st.s + lead.a.length) = .ok c := rd_of_drop (drop_add_of_drop _ hd)
    have hne : c ≠ f.endchar := by omega
    simp [hs, hr, c3, hcm, hne]
  | some b =>
    rw [hl] at hcm
    simp only [Lead.text, hl, commaText, List.append_assoc, List.cons_append] at hd ⊢
    have hs := skipWhitespace_spec hg st.buf st.s 44 (b ++ c :: tl) hd (by omega) (by omega)
    have d1 := drop_add_of_drop _ hd
    have hr : rd st.buf (st.s + lead.a.length) = .ok 44 := rd_of_drop d1
    have d2 := drop_succ_of_drop d1
    have hs2 := skipWhitespace_spec hcm.2 st.buf (st.s + lead.a.length + 1) c tl d2 c1 c2
    have hr2 : rd st.buf (st.s + lead.a.length + 1 + b.length) = .ok c :=
      rd_of_drop (drop_add_of_drop _ d2)
    have hne : c ≠ f.endchar := by omega
    have hte : f.tail.isEmpty = false := by
      cases hft : f.tail with
      | nil => exact absurd hft hcm.1
      | cons _ _ => rfl
    simp only [Nat.add_assoc] at hs2 hr2
    simp [hs, hr, hte, hs2, hr2, hne, Nat.add_assoc]
    omega

/-- The separator before the closing bracket. -/
theorem sep_close (st : PState) (f : Frame) (rest : List Frame) (lead : Lead)
    (after : List Nat) (hst : st.stack = f :: rest) (he : f.endchar = 93 ∨ f.endchar = 125)
    (hd : st.buf.drop st.s = lead.text ++ f.endchar :: after) (hg : Gap lead.a)
    (hcm : match lead.comma with
           | none => True
           | some b => f.tail ≠ [] ∧ Gap b) :
    separator st = closeLoop st.stack.length { st with s := st.s + lead.text.length + 1 } := by
  unfold separator
  rw [hst]
  simp only
  cases hl : lead.comma with
  | none =>
    simp only [Lead.text, hl, commaText, List.append_nil] at hd ⊢
    have hs := skipWhitespace_spec hg st.buf st.s f.endchar after hd (by omega) (by omega)
    have hr : rd st.buf (st.s + lead.a.length) = .ok f.endchar :=
      rd_of_drop (drop_add_of_drop _ hd)
    have hne : f.endchar ≠ 44 := by omega
    simp [hs, hr, hne, hst]
  | some b =>
    rw [hl] at hcm
    simp only [Lead.text, hl, commaText, List.append_assoc, List.cons_append] at hd ⊢
    have hs := skipWhitespace_spec hg st.buf st.s 44 (b ++ f.endchar :: after) hd (by omega)
      (by omega)
    have d1 := drop_add_of_drop _ hd
    have hr : rd st.buf (st.s + lead.a.length) = .ok 44 := rd_of_drop d1
    have d2 := drop_succ_of_drop d1
    have hs2 := skipWhitespace_spec hcm.2 st.buf (st.s + lead.a.length + 1) f.endchar after d2
      (by omega) (by omega)
    have hr2 : rd st.buf (st.s + lead.a.length + 1 + b.length) = .ok f.endchar :=
      rd_of_drop (drop_add_of_drop _ d2)
    have hte : f.tail.isEmpty = false := by
      cases hft : f.tail with
      | nil => exact absurd hft hcm.1
      | cons _ _ => rfl
    simp only [Nat.add_assoc] at hs2 hr2
    simp [hs, hr, hte, hs2, hr2, hst, Nat.add_assoc]
    congr 2; omega

/-- Closing a frame that is not the root goes on like the separator of the
frame below, once the closed container is stored in its last node. -/
theorem closeLoop_eq_separator (st : PState) (f p p1 : Frame) (rest : List Frame)
    (hst : st.stack = f :: p :: rest)
    (hp : setTailValue p (listToValue (if f.endchar = 125 then JType.JSON_OBJECT
            else JType.JSON_ARRAY) f.tail) = .ok p1) :
    closeLoop st.stack.length st = separator { st with stack := p1 :: rest } := by
  have hne : p1.tail.isEmpty = false ∧ p1.endchar = p.endchar := by
    unfold setTailValue at hp
    cases hpt : p.tail with
    | nil => rw [hpt] at hp; cases hp
    | cons n ns =>
      rw [hpt] at hp
      simp only [Res.pure_eq, Res.ok.injEq] at hp
      subst hp; exact ⟨rfl, rfl⟩
  rw [hst]
  simp only [List.length_cons, closeLoop, separator, hst, hp, Res.ok_bind]
  cases skipWhitespace st.buf st.s with
  | fault e => rfl
  | ok s1 =>
    simp only [Res.ok_bind]
    cases rd st.buf s1 with
    | fault e => rfl
    | ok c =>
      simp only [Res.ok_bind, hne.1, Bool.false_eq_true, ↓reduceIte, Bool.not_false, true_and]
      by_cases h44 : c = 44
      · simp only [h44, ↓reduceIte]
      · simp only [h44, ↓reduceIte]
        by_cases he : c = p1.endchar
        · simp [he]
        · simp [he, PState.fail]

/-- Closing the root frame returns the root. -/
theorem closeLoop_root (st : PState) (f : Frame) (hst : st.stack = [f]) :
    closeLoop st.stack.length st
      = .ok (.ret { code := .ERROR_NO_ERROR,
                    value := some (listToValue (if f.endchar = 125 then JType.JSON_OBJECT
                      else JType.JSON_ARRAY) f.tail),
                    buf := st.buf, allocs := st.allocs }) := by
  rw [hst]
  simp [closeLoop, hst]

theorem Agree.mono {k j : Nat} {B B' : List Nat} (h : Agree k B B') (hj : j ≤ k) : Agree j B B' := by
  unfold Agree at *
  have := congrArg (fun l => l.take j) h
  simpa [List.take_take, Nat.min_eq_left hj] using this

theorem Agree.trans {k : Nat} {B B' B'' : List Nat} (h : Agree k B B') (h' : Agree k B' B'') :
    Agree k B B'' := by
  unfold Agree at *; rw [h, h']

theorem Agree.refl (k : Nat) (B : List Nat) : Agree k B B := rfl

theorem Agree.symm {k : Nat} {B B' : List Nat} (h : Agree k B B') : Agree k B' B := by
  unfold Agree at *; exact h.symm

theorem agree_patch (buf : List Nat) (p : Nat) (xs : List Nat) (k : Nat) (hk : k ≤ p)
    (hl : p ≤ buf.length) : Agree k (patch buf p xs) buf := by
  have h : Agree p (patch buf p xs) buf := take_patch buf p xs hl
  exact h.mono hk

/-- A C string that lies in the agreed part of two buffers reads the same. -/
theorem cstrAt_agree (B B' : List Nat) (k p : Nat) (xs r : List Nat) (h : Agree k B B')
    (hd : B'.drop p = xs ++ 0 :: r) (hk : p + xs.length + 1 ≤ k) (hkl : k ≤ B'.length)
    (hx : ∀ x ∈ xs, x ≠ 0) : cstrAt B p = xs := by
  have e1 : (B'.take k).drop p = xs ++ 0 :: (r.take (k - p - xs.length - 1)) := by
    rw [List.drop_take, hd, List.take_append_eq_append_take]
    have : k - p - xs.length = (k - p - xs.length - 1) + 1 := by omega
    rw [List.take_of_length_le (by omega), this, List.take_succ_cons]
    simp
  have e2 : (B.take k).drop p = xs ++ 0 :: (r.take (k - p - xs.length - 1)) := by
    rw [h]; exact e1
  have e3 : B.drop p = (B.take k).drop p ++ B.drop k := by
    have hkB : (B.take k).length = k := by
      have : (B.take k).length = (B'.take k).length := by rw [h]
      rw [this, List.length_take]; omega
    conv => lhs; rw [← List.take_append_drop k B]
    rw [List.drop_append_of_le_length (by omega)]
  exact cstrAt_of_drop B p xs (r.take (k - p - xs.length - 1) ++ B.drop k)
    (by rw [e3, e2]; simp) hx

/-- The node allocation of a round in an array. -/
theorem newNode_array (avail : Nat) (st : PState) (f : Frame) (rest : List Frame) (ch : Nat)
    (hst : st.stack = f :: rest) (he : f.endchar = 93) (ha : st.allocs < avail) :
    newNode avail st ch
      = .ok (.cont { st with stack := { f with tail := { value := Value.null, name := none } :: f.tail } :: rest,
                             allocs := st.allocs + 1 } ch) := by
  have : ¬ avail ≤ st.allocs := by omega
  simp [newNode, hst, this, he, insertAfter]

/-- The node allocation of a round in an object, with the key and the colon. -/
theorem newNode_object (avail : Nat) (st : PState) (f : Frame) (rest : List Frame) (k : CKey)
    (c : Nat) (tl : List Nat) (hst : st.stack = f :: rest) (he : f.endchar = 125)
    (ha : st.allocs < avail) (hd : st.buf.drop st.s = k.text ++ c :: tl)
    (hv : ∀ i ∈ k.its, i.Valid) (hg1 : Gap k.g1) (hg2 : Gap k.g2) (hc : StartByte c) :
    newNode avail st 34
      = .ok (.cont { buf := patch st.buf (st.s + 1) (bodyDecoded k.its ++ [0]),
                     s := st.s + k.text.length,
                     stack := { f with tail := { value := Value.null, name := some (st.s + 1) } :: f.tail } :: rest,
                     allocs := st.allocs + 1 } c) := by
  obtain ⟨c1, c2, c3, c4, c5, c6⟩ := hc.gt
  have hna : ¬ avail ≤ st.allocs := by omega
  simp only [CKey.text, List.cons_append, List.append_assoc] at hd
  have d1 := drop_succ_of_drop hd
  have hps := parseStringInternal_spec k.its hv st.buf (st.s + 1) (k.g1 ++ 58 :: (k.g2 ++ c :: tl)) d1
  have hlen : st.s + (34 :: (bodyText k.its ++ 34 :: (k.g1 ++ 58 :: (k.g2 ++ c :: tl)))).length
      = st.buf.length := length_of_drop hd (by simp)
  simp only [List.length_cons, List.length_append] at hlen
  have hdl : (bodyDecoded k.its).length ≤ (bodyText k.its).length := by
    have : ∀ its : List StrItem, (bodyDecoded its).length ≤ (bodyText its).length := by
      intro its
      induction its with
      | nil => simp [bodyDecoded, bodyText]
      | cons i its ih =>
        have := decoded_length_le i
        simp [bodyDecoded_cons, bodyText_cons]; omega
    exact this k.its
  -- the buffer after the key
  have d2 : st.buf.drop (st.s + 1 + (bodyText k.its).length + 1) = k.g1 ++ 58 :: (k.g2 ++ c :: tl) := by
    have := drop_add_of_drop (bodyText k.its) d1
    exact drop_succ_of_drop this
  have d2' : (patch st.buf (st.s + 1) (bodyDecoded k.its ++ [0])).drop
      (st.s + 1 + (bodyText k.its).length + 1) = k.g1 ++ 58 :: (k.g2 ++ c :: tl) := by
    rw [drop_patch _ _ _ _ (by simp; omega) (by simp; omega)]; exact d2
  have hs1 := skipWhitespace_spec hg1 _ _ 58 (k.g2 ++ c :: tl) d2' (by omega) (by omega)
  have d3 := drop_add_of_drop k.g1 d2'
  have d4 := drop_succ_of_drop d3
  have hs2 := skipWhitespace_spec hg2 _ _ c tl d4 c1 c2
  have d5 := drop_add_of_drop k.g2 d4
  simp only [newNode, hst, hna, ↓reduceIte, he, insertAfter, setTailName, Res.pure_eq,
    Res.ok_bind, hps, Bool.not_true, Bool.false_eq_true, hs1, rd_of_drop d3, hs2, rd_of_drop d5,
    ne_eq, not_true_eq_false]
  rw [if_neg (by decide)]
  simp only [CKey.text, List.length_cons, List.length_append, Res.ok.injEq, Step.cont.injEq,
    and_true, PState.mk.injEq, true_and]
  omega

theorem bodyDecoded_length_le (its : List StrItem) :
    (bodyDecoded its).length ≤ (bodyText its).length := by
  induction its with
  | nil => simp [bodyDecoded, bodyText]
  | cons i its ih =>
    have := decoded_length_le i
    simp [bodyDecoded_cons, bodyText_cons]; omega

theorem setTailValue_cons (f : Frame) (n0 : PNode) (t : List PNode) (v : Value Nat)
    (h : f.tail = n0 :: t) :
    setTailValue f v = .ok { f with tail := { n0 with value := v } :: t } := by
  simp [setTailValue, h]

/-- The number case of the switch on an integer token. -/
theorem parseValue_int (F : FloatOps) (st : PState) (f : Frame) (rest : List Frame) (n0 : PNode)
    (t : List PNode) (neg : Bool) (ds : List Nat) (c : Nat) (tl : List Nat) (c0 : Nat)
    (hst : st.stack = f :: rest) (hf : f.tail = n0 :: t)
    (hd : st.buf.drop st.s = (CValue.int neg ds).text ++ c :: tl) (hc : NotNumber c)
    (hc0 : (CValue.int neg ds).text.head? = some c0) (hv : (CValue.int neg ds).Valid) :
    parseValue F st c0
      = .ok (.cont { st with s := st.s + (CValue.int neg ds).text.length,
                             stack := { f with tail := { n0 with value := (Value.int
                               (if neg then -(digitsVal ds : Int) else (digitsVal ds : Int))) } :: t } :: rest }
                   c0) := by
  obtain ⟨h1, h9, hds⟩ := hv
  simp only [CValue.text] at hd hc0 ⊢
  have hch : ((if neg then [45] else []) ++ ds ++ c :: tl).head? = some c0 := by
    cases neg with
    | true => simpa using hc0
    | false =>
      cases ds with
      | nil => simp at h1
      | cons d ds => simpa using hc0
  have hp := parseNumber_int F neg ds st.buf st.s c tl c0 h1 h9 hds hc hd hch
  have hstart : (48 ≤ c0 ∧ c0 ≤ 57) ∨ c0 = 45 := by
    cases neg with
    | true => simp at hc0; omega
    | false =>
      cases ds with
      | nil => simp at h1
      | cons d ds =>
        simp at hc0; subst hc0
        exact Or.inl (hds _ (by simp))
  have n1 : ¬ (c0 = 123 ∨ c0 = 91) := by omega
  have n2 : ¬ c0 = 34 := by omega
  have n3 : ¬ c0 = 110 := by omega
  have n4 : ¬ c0 = 116 := by omega
  have n5 : ¬ c0 = 102 := by omega
  have n6 : (48 ≤ c0 ∧ c0 ≤ 57) ∨ c0 = 45 ∨ c0 = 46 := by omega
  simp only [parseValue, hst, n1, n2, n3, n4, n5, n6, ↓reduceIte, hp, Res.ok_bind,
    setTailValue_cons f n0 t _ hf, Res.pure_eq]

/-- The string case of the switch. -/
theorem parseValue_string (F : FloatOps) (st : PState) (f : Frame) (rest : List Frame)
    (n0 : PNode) (t : List PNode) (its : List StrItem) (after : List Nat)
    (hst : st.stack = f :: rest) (hf : f.tail = n0 :: t)
    (hd : st.buf.drop st.s = (CValue.string its).text ++ after) (hv : ∀ i ∈ its, i.Valid) :
    parseValue F st 34
      = .ok (.cont { st with buf := patch st.buf (st.s + 1) (bodyDecoded its ++ [0]),
                             s := st.s + (CValue.string its).text.length,
                             stack := { f with tail := { n0 with value := Value.string (st.s + 1) } :: t } :: rest }
                   34) := by
  simp only [CValue.text, List.cons_append, List.append_assoc, List.singleton_append] at hd
  have d1 := drop_succ_of_drop hd
  have hps := parseStringInternal_spec its hv st.buf (st.s + 1) after d1
  simp only [parseValue, hst, ↓reduceIte, setTailValue_cons f n0 t _ hf, Res.ok_bind, hps,
    Bool.not_true, Bool.false_eq_true, Res.pure_eq]
  rw [if_neg (by decide)]
  simp only [↓reduceIte, CValue.text, List.length_cons, List.length_append,
    List.length_singleton, List.length_nil, Res.ok.injEq, Step.cont.injEq, and_true,
    PState.mk.injEq, true_and]
  omega

theorem matchLit_spec : ∀ (lit : List Nat) (buf : List Nat) (s : Nat) (tl : List Nat),
    buf.drop (s + 1) = lit ++ tl → matchLit buf s lit = .ok true
  | [], _, _, _, _ => rfl
  | c :: lit, buf, s, tl, hd => by
    have := matchLit_spec lit buf (s + 1) tl (drop_succ_of_drop hd)
    simp [matchLit, rd_of_drop hd, this]

/-- The literal cases of the switch. -/
theorem parseValue_lit (F : FloatOps) (st : PState) (f : Frame) (rest : List Frame)
    (n0 : PNode) (t : List PNode) (v : CValue) (after : List Nat)
    (hv : v = .jtrue ∨ v = .jfalse ∨ v = .null)
    (hst : st.stack = f :: rest) (hf : f.tail = n0 :: t)
    (hd : st.buf.drop st.s = v.text ++ after) (c0 : Nat) (hc0 : v.text.head? = some c0) :
    parseValue F st c0
      = .ok (.cont { st with s := st.s + v.text.length,
                             stack := { f with tail := { n0 with value :=
                               (if v.text.length = 5 then Value.jfalse
                                else if c0 = 116 then Value.jtrue else Value.null) } :: t } :: rest }
                   c0) := by
  rcases hv with h | h | h <;> subst h <;>
    simp only [CValue.text, List.cons_append, List.head?_cons, Option.some.injEq] at hd hc0 <;>
    subst hc0
  · have := matchLit_spec [114, 117, 101] st.buf st.s after (drop_succ_of_drop hd)
    simp [parseValue, hst, this, setTailValue_cons f n0 t _ hf, CValue.text]
  · have := matchLit_spec [97, 108, 115, 101] st.buf st.s after (drop_succ_of_drop hd)
    simp [parseValue, hst, this, setTailValue_cons f n0 t _ hf, CValue.text]
  · have := matchLit_spec [117, 108, 108] st.buf st.s after (drop_succ_of_drop hd)
    simp [parseValue, hst, this, setTailValue_cons f n0 t _ hf, CValue.text]

/-- The bracket case of the switch. -/
theorem parseValue_open (F : FloatOps) (st : PState) (c0 : Nat) (h : c0 = 91 ∨ c0 = 123)
    (hl : st.stack.length < 32) (hne : st.stack ≠ []) :
    parseValue F st c0
      = .ok (.cont { st with s := st.s + 1,
                             stack := { tail := [], endchar := c0 + 2 } :: st.stack } c0) := by
  have h1 : c0 = 123 ∨ c0 = 91 := by omega
  have h2 : ¬ st.stack.length = 32 := by omega
  cases hs : st.stack with
  | nil => exact absurd hs hne
  | cons f rest =>
    rw [hs] at h2
    have h3 : ¬ rest.length = 31 := by simpa using h2
    simp [parseValue, hs, h1, h3]

theorem closerOf_cases (isObj : Bool) : closerOf isObj = 93 ∨ closerOf isObj = 125 := by
  cases isObj <;> simp [closerOf]

theorem scalar_ok (F : FloatOps) (avail : Nat) (v : CValue) (_hdp : v.depth = 0)
    (hsz : v.size = 1)
    (h : ∀ (st : PState) (f : Frame) (rest : List Frame) (n0 : PNode) (t : List PNode)
      (after : List Nat) (c0 : Nat), st.stack = f :: rest → f.tail = n0 :: t →
      st.buf.drop st.s = v.text ++ after → (∃ c tl, after = c :: tl ∧ Delim c) →
      v.text.head? = some c0 →
      ∃ (buf' : List Nat) (val : Value Nat),
        buf'.length = st.buf.length ∧ buf'.drop (st.s + v.text.length) = after ∧
        Agree st.s buf' st.buf ∧
        (∀ B, Agree (st.s + v.text.length) B buf' → val.resolve B = v.value) ∧
        parseValue F st c0 = .ok (.cont { buf := buf', s := st.s + v.text.length, stack := { f with tail := { n0 with value := val } :: t } :: rest, allocs := st.allocs } c0)) :
    ValueOk F avail v := by
  intro st f rest n0 t after c0 k hst hf hd hdl hc0 _ hk _
  obtain ⟨buf', val, h1, h2, h3, h4, h5⟩ := h st f rest n0 t after c0 hst hf hd hdl hc0
  have hk0 : k = 0 := by omega
  subst hk0
  refine ⟨buf', val, h1, h2, h3, h4, ?_⟩
  intro fuel
  rw [h5]; rfl

theorem int_ok (F : FloatOps) (avail : Nat) (neg : Bool) (ds : List Nat)
    (hv : (CValue.int neg ds).Valid) : ValueOk F avail (.int neg ds) := by
  apply scalar_ok F avail (.int neg ds) rfl rfl
  intro st f rest n0 t after c0 hst hf hd hdl hc0
  obtain ⟨c, tl, rfl, hdc⟩ := hdl
  refine ⟨st.buf, Value.int (if neg then -(digitsVal ds : Int) else (digitsVal ds : Int)), rfl,
    ?_, Agree.refl _ _, ?_, ?_⟩
  · exact drop_add_of_drop _ hd
  · intro B _; rfl
  · exact parseValue_int F st f rest n0 t neg ds c tl c0 hst hf hd hdc.notNumber hc0 hv

theorem lit_ok (F : FloatOps) (avail : Nat) (v : CValue)
    (hv : v = .jtrue ∨ v = .jfalse ∨ v = .null) : ValueOk F avail v := by
  apply scalar_ok F avail v (by rcases hv with h | h | h <;> subst h <;> rfl)
    (by rcases hv with h | h | h <;> subst h <;> rfl)
  intro st f rest n0 t after c0 hst hf hd hdl hc0
  refine ⟨st.buf, (if v.text.length = 5 then Value.jfalse
      else if c0 = 116 then Value.jtrue else Value.null), rfl, ?_, Agree.refl _ _, ?_, ?_⟩
  · exact drop_add_of_drop _ hd
  rotate_left
  · exact parseValue_lit F st f rest n0 t v after hv hst hf hd c0 hc0
  · intro B _
    rcases hv with h | h | h <;> subst h <;>
      simp only [CValue.text, List.head?_cons, Option.some.injEq] at hc0 <;> subst hc0 <;> rfl

theorem string_ok (F : FloatOps) (avail : Nat) (its : List StrItem) (hv : ∀ i ∈ its, i.Valid) :
    ValueOk F avail (.string its) := by
  apply scalar_ok F avail (.string its) rfl rfl
  intro st f rest n0 t after c0 hst hf hd hdl hc0
  simp only [CValue.text, List.head?_cons, Option.some.injEq] at hc0
  subst hc0
  have hlen : st.s + ((CValue.string its).text ++ after).length = st.buf.length :=
    length_of_drop hd (by simp [CValue.text])
  have hdl2 := bodyDecoded_length_le its
  simp only [CValue.text, List.length_cons, List.length_append, List.length_singleton] at hlen
  have hps := parseValue_string F st f rest n0 t its after hst hf hd hv
  refine ⟨patch st.buf (st.s + 1) (bodyDecoded its ++ [0]), Value.string (st.s + 1), ?_, ?_, ?_,
    ?_, hps⟩
  · exact length_patch _ _ _ (by simp; omega)
  · rw [drop_patch _ _ _ _ (by simp [CValue.text]; omega) (by simp; omega)]
    exact drop_add_of_drop _ hd
  · exact agree_patch _ _ _ _ (by omega) (by omega)
  · intro B hB
    have hdp := drop_patch_self st.buf (st.s + 1) (bodyDecoded its ++ [0]) (by omega)
    rw [List.append_assoc] at hdp
    have := cstrAt_agree B _ (st.s + (CValue.string its).text.length) (st.s + 1)
      (bodyDecoded its) _ hB hdp (by simp [CValue.text]; omega)
      (by rw [length_patch _ _ _ (by simp; omega)]; simp [CValue.text]; omega)
      (bodyDecoded_nonzero its hv)
    simp [Value.resolve, CValue.value, this]

theorem resolve_listToValue (B : List Nat) (c0 : Nat) (hc : c0 = 91 ∨ c0 = 123)
    (tail : List PNode) :
    (listToValue (if c0 + 2 = 125 then JType.JSON_OBJECT else JType.JSON_ARRAY) tail).resolve B
      = if c0 = 123 then Value.object (chainOf (resolveTail B tail) Nodes.nil)
        else Value.array (chainOf (resolveTail B tail) Nodes.nil) := by
  rcases hc with h | h <;> subst h <;> simp [listToValue, Value.resolve, resolve_toChain]

theorem container_ok (F : FloatOps) (avail : Nat) (v : CValue) (ns : CNodes) (b0 : Nat)
    (hc : b0 = 91 ∨ b0 = 123) (htext : v.text = b0 :: (ns.text ++ [b0 + 2]))
    (hval : v.value = if b0 = 123 then Value.object ns.value else Value.array ns.value)
    (hdepth : v.depth = ns.depth + 1) (hsize : v.size = ns.size + 1)
    (hvalid : ns.Valid (decide (b0 = 123)) true) (hns : NodesOk F avail ns) :
    ValueOk F avail v := by
  intro st f rest n0 t after c0 k hst hf hd hdl hc0 hdp hk hal
  rw [htext] at hd hc0
  simp only [List.head?_cons, Option.some.injEq] at hc0
  subst hc0
  have hkk : k = ns.size := by omega
  subst hkk
  have hopen := parseValue_open F st b0 hc (by rw [hst]; simp; omega) (by rw [hst]; simp)
  have hd1 : st.buf.drop (st.s + 1) = ns.text ++ (b0 + 2) :: after := by
    have := drop_succ_of_drop hd
    simpa using this
  have hcl : b0 + 2 = closerOf (decide (b0 = 123)) := by
    rcases hc with h | h <;> subst h <;> simp [closerOf]
  obtain ⟨buf', tail', h1, h2, h3, h4, h5⟩ :=
    hns { st with s := st.s + 1, stack := { tail := [], endchar := b0 + 2 } :: st.stack }
      { tail := [], endchar := b0 + 2 } (f :: rest) after (decide (b0 = 123)) true
      (by simp [hst]) hcl hvalid (by simp) hd1 (by simp; omega) (by simpa using hal)
  simp only at h1 h2 h3 h4 h5
  have htl : v.text.length = 1 + ns.text.length + 1 := by rw [htext]; simp; omega
  refine ⟨buf', listToValue (if b0 + 2 = 125 then JType.JSON_OBJECT else JType.JSON_ARRAY) tail',
    h1, ?_, h3.mono (by omega), ?_, ?_⟩
  · have := drop_succ_of_drop h2
    rw [htl]
    simpa [Nat.add_assoc] using this
  · intro B hB
    have hB' : Agree (st.s + 1 + ns.text.length) B buf' := hB.mono (by omega)
    rw [resolve_listToValue B b0 hc, h4 B hB', hval]
    simp [resolveTail, chainOf_items_nil]
  · intro fuel
    rw [hopen, roundFrom_cont]
    have heq := closeLoop_eq_separator
      { buf := buf', s := st.s + 1 + ns.text.length + 1, stack := { tail := tail', endchar := b0 + 2 } :: f :: rest, allocs := st.allocs + ns.size }
      { tail := tail', endchar := b0 + 2 } f
      { f with tail := { n0 with value := listToValue (if b0 + 2 = 125 then JType.JSON_OBJECT else JType.JSON_ARRAY) tail' } :: t } rest rfl
      (setTailValue_cons f n0 t _ hf)
    simp only [List.length_cons] at heq h5 ⊢
    rw [h5 fuel, heq, ← parseLoop_succ]
    rw [htl]
    simp only [Nat.add_assoc]

theorem nodes_nil_ok (F : FloatOps) (avail : Nat) (lead : Lead) : NodesOk F avail (.nil lead) := by
  intro st f rest after isObj first hst he hv hft hd _ _
  obtain ⟨hg, hcm⟩ := hv
  simp only [CNodes.text] at hd
  have hcl := closerOf_cases isObj
  have hsep := sep_close st f rest lead after hst (by rw [he]; exact hcl) hd hg (by
    cases hl : lead.comma with
    | none => trivial
    | some b =>
      rw [hl] at hcm
      refine ⟨?_, hcm.2⟩
      intro h0
      have := hft.mp h0
      rw [hcm.1] at this
      cases this)
  refine ⟨st.buf, f.tail, rfl, ?_, Agree.refl _ _, ?_, ?_⟩
  · exact drop_add_of_drop _ hd
  · intro B _; simp [CNodes.items]
  · intro fuel
    simp only [CNodes.size, Nat.add_zero, CNodes.text]
    rw [parseLoop_succ, hsep, hst]
    simp only [List.length_cons]

theorem CValue.size_pos : ∀ v : CValue, ∃ k, v.size = k + 1
  | .int _ _ => ⟨0, rfl⟩
  | .string _ => ⟨0, rfl⟩
  | .jtrue => ⟨0, rfl⟩
  | .jfalse => ⟨0, rfl⟩
  | .null => ⟨0, rfl⟩
  | .array ns => ⟨ns.size, rfl⟩
  | .object ns => ⟨ns.size, rfl⟩

/-- The node of a member: allocated, and named when the member has a key. -/
theorem newNode_spec (avail : Nat) (st : PState) (f : Frame) (rest : List Frame)
    (key : Option CKey) (isObj : Bool) (cv : Nat) (tl : List Nat) (c1 : Nat)
    (hst : st.stack = f :: rest) (he : f.endchar = closerOf isObj) (ha : st.allocs < avail)
    (hkey : match key with
            | none => isObj = false
            | some k => isObj = true ∧ (∀ i ∈ k.its, i.Valid) ∧ Gap k.g1 ∧ Gap k.g2)
    (hd : st.buf.drop st.s = keyText key ++ cv :: tl)
    (hc1 : (keyText key ++ cv :: tl).head? = some c1)
    (hcv : StartByte cv) :
    ∃ (buf2 : List Nat) (nm : Option Nat),
      newNode avail st c1 = .ok (.cont { buf := buf2, s := st.s + (keyText key).length, stack := { f with tail := { value := Value.null, name := nm } :: f.tail } :: rest, allocs := st.allocs + 1 } cv) ∧
      buf2.length = st.buf.length ∧ buf2.drop (st.s + (keyText key).length) = cv :: tl ∧
      Agree st.s buf2 st.buf ∧
      (∀ B, Agree (st.s + (keyText key).length) B buf2 →
        nm.map (cstrAt B) = key.map (fun k => bodyDecoded k.its)) := by
  cases key with
  | none =>
    simp only at hkey
    subst hkey
    simp only [keyText, List.nil_append, List.head?_cons, Option.some.injEq, List.length_nil,
      Nat.add_zero] at hd hc1 ⊢
    subst hc1
    refine ⟨st.buf, none, ?_, rfl, hd, Agree.refl _ _, ?_⟩
    · rw [newNode_array avail st f rest cv hst (by simpa [closerOf] using he) ha]
    · intro B _; rfl
  | some k =>
    simp only at hkey
    obtain ⟨rfl, hv, hg1, hg2⟩ := hkey
    simp only [keyText] at hd hc1 ⊢
    have hc34 : c1 = 34 := by
      simp [CKey.text] at hc1; exact hc1.symm
    subst hc34
    have hlen : st.s + (k.text ++ cv :: tl).length = st.buf.length :=
      length_of_drop hd (by simp)
    have hdl := bodyDecoded_length_le k.its
    simp only [CKey.text, List.length_cons, List.length_append] at hlen
    have hkl : k.text.length = (bodyText k.its).length + k.g1.length + k.g2.length + 3 := by
      simp [CKey.text]; omega
    refine ⟨patch st.buf (st.s + 1) (bodyDecoded k.its ++ [0]), some (st.s + 1), ?_, ?_, ?_, ?_, ?_⟩
    · exact newNode_object avail st f rest k cv tl hst (by simpa [closerOf] using he) ha hd hv hg1
        hg2 hcv
    · exact length_patch _ _ _ (by simp; omega)
    · rw [drop_patch _ _ _ _ (by simp; omega) (by simp; omega)]
      exact drop_add_of_drop _ hd
    · exact agree_patch _ _ _ _ (by omega) (by omega)
    · intro B hB
      have hdp := drop_patch_self st.buf (st.s + 1) (bodyDecoded k.its ++ [0]) (by omega)
      rw [List.append_assoc] at hdp
      have := cstrAt_agree B _ (st.s + k.text.length) (st.s + 1) (bodyDecoded k.its) _ hB hdp
        (by omega) (by rw [length_patch _ _ _ (by simp; omega)]; omega)
        (bodyDecoded_nonzero k.its hv)
      simp [this]

theorem keyText_start (key : Option CKey) (cv : Nat) (tl : List Nat) (hcv : StartByte cv) :
    ∃ c tl', keyText key ++ cv :: tl = c :: tl' ∧ StartByte c := by
  cases key with
  | none => exact ⟨cv, tl, rfl, hcv⟩
  | some k => exact ⟨34, _, by simp [keyText, CKey.text]; rfl, by simp [StartByte]⟩

theorem memberSteps_of_newNode (F : FloatOps) (avail : Nat) (st st2 : PState) (c1 cv : Nat)
    (h : newNode avail st c1 = .ok (.cont st2 cv)) :
    memberSteps F avail st c1 = parseValue F st2 cv := by
  simp [memberSteps, h]

theorem nodes_cons_ok (F : FloatOps) (avail : Nat) (lead : Lead) (key : Option CKey)
    (v : CValue) (next : CNodes) (hv : ValueOk F avail v) (hn : NodesOk F avail next) :
    NodesOk F avail (.cons lead key v next) := by
  intro st f rest after isObj first hst he hvalid hft hd hdp hal
  obtain ⟨hg, hcm, hkey, hvv, hnv⟩ := hvalid
  have hcl := closerOf_cases isObj
  obtain ⟨k, hk⟩ := CValue.size_pos v
  obtain ⟨cv, tlv, hvt, hcv⟩ := CValue.text_start v hvv
  obtain ⟨ca, tla, hA, hdA⟩ := CNodes.members_text_head next isObj hnv f.endchar after (by rw [he]; exact hcl)
  simp only [CNodes.text, CNodes.size, CNodes.depth, List.append_assoc] at hd hdp hal ⊢
  obtain ⟨c1, tl1, hk1, hc1⟩ := keyText_start key cv (tlv ++ (next.text ++ f.endchar :: after)) hcv
  -- the separator
  have hd0 : st.buf.drop st.s = lead.text ++ c1 :: tl1 := by
    rw [hd, ← hk1, hvt]; simp
  have hsep := sep_member st f rest lead c1 tl1 hst (by rw [he]; exact hcl) hd0 hc1 hg (by
    cases hl : lead.comma with
    | none =>
      rw [hl] at hcm; exact hft.mpr hcm
    | some b =>
      rw [hl] at hcm
      refine ⟨?_, hcm.2⟩
      intro h0
      have := hft.mp h0
      rw [hcm.1] at this
      cases this)
  -- the node
  have hd1 : st.buf.drop (st.s + lead.text.length)
      = keyText key ++ cv :: (tlv ++ (next.text ++ f.endchar :: after)) := by
    rw [hk1]; exact drop_add_of_drop _ hd0
  obtain ⟨buf2, nm, hnew, hl2, hd2, hag2, hnm⟩ :=
    newNode_spec avail { st with s := st.s + lead.text.length } f rest key isObj cv
      (tlv ++ (next.text ++ f.endchar :: after)) c1 hst he (by simp; omega) hkey hd1
      (by rw [hk1]; rfl) hcv
  simp only at hnew hl2 hd2 hag2 hnm
  -- the value
  obtain ⟨buf3, val, hl3, hd3, hag3, hres3, hrun3⟩ :=
    hv { buf := buf2, s := st.s + lead.text.length + (keyText key).length, stack := { f with tail := { value := Value.null, name := nm } :: f.tail } :: rest, allocs := st.allocs + 1 }
      { f with tail := { value := Value.null, name := nm } :: f.tail } rest
      { value := Value.null, name := nm } f.tail (next.text ++ f.endchar :: after) cv k rfl rfl
      (by simp only; rw [hd2, hvt]; simp) ⟨ca, tla, hA, hdA⟩ (by rw [hvt]; rfl)
      (by have := Nat.le_max_left v.depth next.depth; omega) hk (by simp only; omega)
  simp only at hl3 hd3 hag3 hres3 hrun3
  -- the following members
  obtain ⟨buf4, tail4, hl4, hd4, hag4, hres4, hrun4⟩ :=
    hn { buf := buf3, s := st.s + lead.text.length + (keyText key).length + v.text.length, stack := { f with tail := { value := val, name := nm } :: f.tail } :: rest, allocs := st.allocs + 1 + k }
      { f with tail := { value := val, name := nm } :: f.tail } rest after isObj false rfl he hnv
      (by simp) hd3 (by have := Nat.le_max_right v.depth next.depth; omega)
      (by simp only; omega)
  simp only at hl4 hd4 hag4 hres4 hrun4
  have hlen : (lead.text ++ (keyText key ++ (v.text ++ next.text))).length
      = lead.text.length + (keyText key).length + v.text.length + next.text.length := by
    simp; omega
  refine ⟨buf4, tail4, by rw [hl4, hl3, hl2], ?_, ?_, ?_, ?_⟩
  · rw [hlen]; simpa [Nat.add_assoc] using hd4
  · exact ((hag4.mono (by omega)).trans (hag3.mono (by omega))).trans (hag2.mono (by omega))
  · intro B hB
    rw [hlen] at hB
    have hB4 : Agree (st.s + lead.text.length + (keyText key).length + v.text.length
        + next.text.length) B buf4 := by simpa [Nat.add_assoc] using hB
    have hB3 : Agree (st.s + lead.text.length + (keyText key).length + v.text.length) B buf3 :=
      (hB4.mono (by omega)).trans hag4
    have hB2 : Agree (st.s + lead.text.length + (keyText key).length) B buf2 :=
      (hB3.mono (by omega)).trans hag3
    rw [hres4 B hB4]
    simp only [resolveTail, List.map_cons, CNodes.items, List.reverse_cons, List.append_assoc,
      List.singleton_append, hres3 B hB3, hnm B hB2]
  · intro fuel
    rw [parseLoop_succ, hsep, roundRest_cont, memberSteps_of_newNode F avail _ _ c1 cv hnew]
    have e1 : fuel + (v.size + next.size) = (fuel + next.size) + k + 1 := by omega
    rw [e1, hrun3 (fuel + next.size), hrun4 fuel, hlen]
    have e2 : st.allocs + 1 + k + next.size = st.allocs + (v.size + next.size) := by omega
    have e3 : st.s + lead.text.length + (keyText key).length + v.text.length + next.text.length + 1
        = st.s + (lead.text.length + (keyText key).length + v.text.length + next.text.length) + 1 := by
      omega
    rw [e2, e3]

mutual
/-- Every valid spelled value is parsed into the value it stands for. -/
theorem value_ok (F : FloatOps) (avail : Nat) : ∀ v : CValue, v.Valid → ValueOk F avail v
  | .int neg ds, hv => int_ok F avail neg ds hv
  | .string its, hv => string_ok F avail its hv
  | .jtrue, _ => lit_ok F avail _ (Or.inl rfl)
  | .jfalse, _ => lit_ok F avail _ (Or.inr (Or.inl rfl))
  | .null, _ => lit_ok F avail _ (Or.inr (Or.inr rfl))
  | .array ns, hv =>
    container_ok F avail (.array ns) ns 91 (Or.inl rfl) rfl rfl rfl rfl hv (nodes_ok F avail ns)
  | .object ns, hv =>
    container_ok F avail (.object ns) ns 123 (Or.inr rfl) rfl rfl rfl rfl hv (nodes_ok F avail ns)
/-- Every list of valid spelled members is parsed into the nodes it stands for. -/
theorem nodes_ok (F : FloatOps) (avail : Nat) : ∀ ns : CNodes, NodesOk F avail ns
  | .nil lead => nodes_nil_ok F avail lead
  | .cons lead key v next => by
    intro st f rest after isObj first hst he hvalid
    exact nodes_cons_ok F avail lead key v next (value_ok F avail v hvalid.2.2.2.1)
      (nodes_ok F avail next) st f rest after isObj first hst he hvalid
end

mutual
theorem CValue.size_le_text : ∀ v : CValue, v.Valid → v.size ≤ v.text.length
  | .int neg ds, hv => by
    have := hv.1
    simp only [CValue.size, CValue.text, List.length_append]
    omega
  | .string its, _ => by simp [CValue.size, CValue.text]
  | .jtrue, _ => by simp [CValue.size, CValue.text]
  | .jfalse, _ => by simp [CValue.size, CValue.text]
  | .null, _ => by simp [CValue.size, CValue.text]
  | .array ns, hv => by
    have := CNodes.members_size_le_text ns false true hv
    simp only [CValue.size, CValue.text, List.length_cons, List.length_append, List.length_nil]
    omega
  | .object ns, hv => by
    have := CNodes.members_size_le_text ns true true hv
    simp only [CValue.size, CValue.text, List.length_cons, List.length_append, List.length_nil]
    omega
theorem CNodes.members_size_le_text : ∀ (ns : CNodes) (isObj first : Bool), ns.Valid isObj first →
    ns.size ≤ ns.text.length
  | .nil _, _, _, _ => by simp [CNodes.size]
  | .cons lead key v next, isObj, first, hv => by
    have h1 := CValue.size_le_text v hv.2.2.2.1
    have h2 := CNodes.members_size_le_text next isObj false hv.2.2.2.2
    simp only [CNodes.size, CNodes.text, List.length_append]
    omega
end

/-- A document: skipped bytes, then a container with valid members, then
anything, is parsed without error into the value it spells. -/
theorem jsonParse_document (F : FloatOps) (avail : Nat) (g : List Nat) (isObj : Bool)
    (ns : CNodes) (after : List Nat) (hg : Gap g) (hv : ns.Valid isObj true)
    (hdepth : ns.depth + 1 ≤ 32) (hal : ns.size ≤ avail) :
    ∃ (buf' : List Nat) (val : Value Nat),
      jsonParse F avail (g ++ openerOf isObj :: (ns.text ++ closerOf isObj :: after))
        = .ok { code := .ERROR_NO_ERROR, value := some val, buf := buf', allocs := ns.size } ∧
      val.resolve buf' = containerValue isObj ns.value := by
  have hop : openerOf isObj = 91 ∨ openerOf isObj = 123 := by
    cases isObj <;> simp [openerOf]
  have hcl : closerOf isObj = openerOf isObj + 2 := by
    cases isObj <;> simp [openerOf, closerOf]
  have hdec : decide (openerOf isObj = 123) = isObj := by
    cases isObj <;> simp [openerOf]
  generalize hbuf : g ++ openerOf isObj :: (ns.text ++ closerOf isObj :: after) = buf
  have hd0 : buf.drop 0 = g ++ openerOf isObj :: (ns.text ++ closerOf isObj :: after) := by
    rw [← hbuf]; rfl
  have hskip := skipWhitespace_spec hg buf 0 (openerOf isObj) _ hd0
    (by rcases hop with h | h <;> omega) (by rcases hop with h | h <;> omega)
  have hd1 : buf.drop (0 + g.length) = openerOf isObj :: (ns.text ++ closerOf isObj :: after) :=
    drop_add_of_drop _ hd0
  have hrd := rd_of_drop hd1
  have hd2 : buf.drop (0 + g.length + 1) = ns.text ++ closerOf isObj :: after :=
    drop_succ_of_drop hd1
  have hsz := CNodes.members_size_le_text ns isObj true hv
  have hlen : buf.length = (g.length + after.length + (ns.text.length - ns.size) + 1) + ns.size + 1 := by
    rw [← hbuf]
    simp only [List.length_append, List.length_cons]
    omega
  obtain ⟨buf', tail', h1, h2, h3, h4, h5⟩ :=
    nodes_ok F avail ns
      { buf := buf, s := 0 + g.length + 1, stack := [{ tail := [], endchar := openerOf isObj + 2 }], allocs := 0 }
      { tail := [], endchar := openerOf isObj + 2 } [] after isObj true rfl hcl.symm hv (by simp)
      (by simp only; rw [← hcl]; exact hd2) (by simp only [List.length_nil]; omega) (by simpa using hal)
  simp only at h1 h2 h3 h4 h5
  refine ⟨buf', listToValue (if openerOf isObj + 2 = 125 then JType.JSON_OBJECT else JType.JSON_ARRAY) tail', ?_, ?_⟩
  · have hroot := closeLoop_root
      { buf := buf', s := 0 + g.length + 1 + ns.text.length + 1, stack := [{ tail := tail', endchar := openerOf isObj + 2 }], allocs := 0 + ns.size }
      { tail := tail', endchar := openerOf isObj + 2 } rfl
    simp only [List.length_cons, List.length_nil] at hroot h5
    simp only [jsonParse, hskip, Res.ok_bind, hrd, hop, or_comm, if_true]
    rw [hlen, h5 _, hroot]
    simp [roundRest]
  · rw [resolve_listToValue buf' _ hop, h4 buf' (Agree.refl _ _)]
    cases isObj <;> simp [openerOf, containerValue, resolveTail, chainOf_items_nil]

theorem gap_of_allWs (w : List Nat) (h : AllWs w) : Gap w := by
  cases w with
  | nil => exact Gap.nil
  | cons a w =>
    exact Gap.ws a w (h a (by simp)) (fun c hc => h c (by simp [hc]))

theorem allWs_tabs (n : Nat) : AllWs (writeTabs n) := by
  intro c hc
  simp only [writeTabs, List.mem_replicate] at hc
  omega

theorem gap_fmt_tabs (formatted : Bool) (n : Nat) : Gap (fmt formatted (10 :: writeTabs n)) := by
  cases formatted
  · exact Gap.nil
  · exact Gap.ws 10 _ (by omega) (allWs_tabs n)

theorem gap_fmt_sp (formatted : Bool) : Gap (fmt formatted [32]) := by
  cases formatted
  · exact Gap.nil
  · exact Gap.ws 32 [] (by omega) (fun c hc => by simp at hc)

theorem gap_fmt_sep (formatted : Bool) (n : Nat) :
    Gap (fmt formatted (32 :: 10 :: writeTabs n)) := by
  cases formatted
  · exact Gap.nil
  · refine Gap.ws 32 _ (by omega) ?_
    intro c hc
    simp only [List.mem_cons] at hc
    rcases hc with h | h
    · omega
    · exact allWs_tabs n c h

theorem int_text (n : Int) (h : -1000000000 < n ∧ n < 1000000000) :
    (if decide (n < 0) = true then [45] else []) ++ u32digits n.natAbs = i32toa n := by
  by_cases hn : n < 0
  · have e : n = -((n.natAbs : Nat) : Int) := by omega
    have := i32toa_neg n.natAbs (by omega) (by omega)
    rw [← e] at this
    simp [hn, this]
  · have e : n = ((n.natAbs : Nat) : Int) := by omega
    have := i32toa_nonneg n.natAbs (by omega)
    rw [← e] at this
    simp [hn, this]

theorem int_value (n : Int) (h : -1000000000 < n ∧ n < 1000000000) :
    (if decide (n < 0) = true then -((digitsVal (u32digits n.natAbs) : Nat) : Int)
      else ((digitsVal (u32digits n.natAbs) : Nat) : Int)) = n := by
  have := (u32digits_spec n.natAbs (by omega)).2.2.2
  rw [this]
  by_cases hn : n < 0
  · simp only [hn, decide_True, if_true]; omega
  · simp only [hn, decide_False, Bool.false_eq_true, if_false]; omega

theorem key_text (formatted : Bool) (k : List Nat) (h : ∀ x ∈ k, x ≠ 0) :
    keyText (keyOf formatted true (some k))
      = writeEscaped k ++ (if formatted then [32, 58, 32] else [58]) := by
  have := (escapeLoop_items k h).2.1
  cases formatted <;>
    simp [keyOf, keyText, CKey.text, writeEscaped, fmt, this]

mutual
theorem Value.cst_text (num : Nat → List Nat) (formatted : Bool) : ∀ (v : Value (List Nat)) (indent : Nat),
    v.Plain → (v.cst formatted indent).text = Value.dumpText num formatted v indent
  | .number _, _, h => by simp [Value.Plain] at h
  | .int n, _, h => by
    simp only [Value.cst, CValue.text, Value.dumpText]
    exact int_text n h
  | .string s, _, h => by
    simp only [Value.cst, CValue.text, Value.dumpText, writeEscaped]
    rw [(escapeLoop_items s h).2.1]
    simp
  | .array .nil, _, _ => by
    cases formatted <;> simp [Value.cst, CValue.text, CNodes.text, Value.dumpText, Lead.text, commaText, fmt]
  | .array (.cons v name next), indent, h => by
    have := Nodes.members_text num formatted (.cons v name next) false indent
      { a := fmt formatted (10 :: writeTabs (indent + 1)), comma := none } (fmt formatted [10]) h
      (by cases formatted <;> simp [Lead.text, commaText, fmt]) (by simp)
    simp only [Value.cst, CValue.text, Value.dumpText, this]
    cases formatted <;> simp [fmt]
  | .object .nil, _, _ => by
    cases formatted <;> simp [Value.cst, CValue.text, CNodes.text, Value.dumpText, Lead.text, commaText, fmt]
  | .object (.cons v name next), indent, h => by
    have := Nodes.members_text num formatted (.cons v name next) true indent
      { a := fmt formatted (10 :: writeTabs (indent + 1)), comma := none } (fmt formatted [10]) h
      (by cases formatted <;> simp [Lead.text, commaText, fmt]) (by simp)
    simp only [Value.cst, CValue.text, Value.dumpText, this]
    cases formatted <;> simp [fmt]
  | .jtrue, _, _ => by simp [Value.cst, CValue.text, Value.dumpText]
  | .jfalse, _, _ => by simp [Value.cst, CValue.text, Value.dumpText]
  | .null, _, _ => by simp [Value.cst, CValue.text, Value.dumpText]
theorem Nodes.members_text (num : Nat → List Nat) (formatted : Bool) : ∀ (ns : Nodes (List Nat))
    (isObj : Bool) (indent : Nat) (lead : Lead) (X : List Nat), ns.Plain isObj →
    lead.text = X ++ fmt formatted (writeTabs (indent + 1)) → ns ≠ .nil →
    (ns.cst formatted isObj indent lead).text
      = X ++ Nodes.dumpText num formatted isObj ns (indent + 1) ++ fmt formatted (writeTabs indent)
  | .nil, _, _, _, _, _, _, hne => absurd rfl hne
  | .cons v name next, isObj, indent, lead, X, h, hl, _ => by
    have hv := Value.cst_text num formatted v (indent + 1) h.1
    have hk : keyText (keyOf formatted isObj name)
        = if isObj then writeEscaped (name.getD []) ++ (if formatted then [32, 58, 32] else [58])
          else [] := by
      cases isObj with
      | false => simp [keyOf, keyText]
      | true =>
        cases name with
        | none => have := h.2.1; simp at this
        | some k => have := h.2.1; simp only [true_and] at this; simpa using key_text formatted k this
    have hn := Nodes.members_text num formatted next isObj indent (leadAfter formatted indent next)
      (44 :: fmt formatted [32, 10]) h.2.2
    rw [Nodes.cst, CNodes.text, hl, hv, hk]
    cases next with
    | nil =>
      simp only [Nodes.cst, CNodes.text, Nodes.dumpText, leadAfter, Lead.text, commaText]
      cases formatted <;> simp [fmt]
    | cons v2 name2 next2 =>
      rw [hn (by cases formatted <;> simp [leadAfter, Lead.text, commaText, fmt]) (by simp)]
      rw [Nodes.dumpText]
      cases formatted <;> simp [fmt]
end

theorem key_value (formatted : Bool) (isObj : Bool) (name : Option (List Nat))
    (h : match name with
         | none => isObj = false
         | some k => isObj = true ∧ ∀ x ∈ k, x ≠ 0) :
    (keyOf formatted isObj name).map (fun k => bodyDecoded k.its) = name := by
  cases name with
  | none => simp only at h; subst h; simp [keyOf]
  | some k =>
    simp only at h
    obtain ⟨h1, h2⟩ := h
    subst h1
    simp [keyOf, (escapeLoop_items k h2).2.2]

theorem key_valid (formatted : Bool) (isObj : Bool) (name : Option (List Nat))
    (h : match name with
         | none => isObj = false
         | some k => isObj = true ∧ ∀ x ∈ k, x ≠ 0) :
    match keyOf formatted isObj name with
    | none => isObj = false
    | some k => isObj = true ∧ (∀ i ∈ k.its, i.Valid) ∧ Gap k.g1 ∧ Gap k.g2 := by
  cases name with
  | none => simp only at h; subst h; simp [keyOf]
  | some k =>
    simp only at h
    obtain ⟨h1, h2⟩ := h
    subst h1
    simp only [keyOf, if_true, Option.getD_some, true_and]
    exact ⟨(escapeLoop_items k h2).1, gap_fmt_sp formatted, gap_fmt_sp formatted⟩

mutual
theorem Value.cst_value (formatted : Bool) : ∀ (v : Value (List Nat)) (indent : Nat),
    v.Plain → (v.cst formatted indent).value = v
  | .number _, _, h => by simp [Value.Plain] at h
  | .int n, _, h => by
    simp only [Value.cst, CValue.value]
    rw [int_value n h]
  | .string s, _, h => by
    simp only [Value.cst, CValue.value]
    rw [(escapeLoop_items s h).2.2]
  | .array .nil, _, _ => by simp [Value.cst, CValue.value, CNodes.value]
  | .array (.cons v name next), indent, h => by
    simp only [Value.cst, CValue.value]
    rw [Nodes.members_value formatted (.cons v name next) false indent _ h]
  | .object .nil, _, _ => by simp [Value.cst, CValue.value, CNodes.value]
  | .object (.cons v name next), indent, h => by
    simp only [Value.cst, CValue.value]
    rw [Nodes.members_value formatted (.cons v name next) true indent _ h]
  | .jtrue, _, _ => by simp [Value.cst, CValue.value]
  | .jfalse, _, _ => by simp [Value.cst, CValue.value]
  | .null, _, _ => by simp [Value.cst, CValue.value]
theorem Nodes.members_value (formatted : Bool) : ∀ (ns : Nodes (List Nat)) (isObj : Bool)
    (indent : Nat) (lead : Lead), ns.Plain isObj →
    (ns.cst formatted isObj indent lead).value = ns
  | .nil, _, _, _, _ => by simp [Nodes.cst, CNodes.value]
  | .cons v name next, isObj, indent, lead, h => by
    simp only [Nodes.cst, CNodes.value]
    rw [Value.cst_value formatted v (indent + 1) h.1, key_value formatted isObj name h.2.1,
      Nodes.members_value formatted next isObj indent _ h.2.2]
end

theorem leadAfter_ok (formatted : Bool) (indent : Nat) (next : Nodes (List Nat)) :
    Gap (leadAfter formatted indent next).a ∧
      (match (leadAfter formatted indent next).comma with
       | none => next = .nil
       | some b => next ≠ .nil ∧ Gap b) := by
  cases next with
  | nil => exact ⟨gap_fmt_tabs formatted indent, rfl⟩
  | cons v name next => exact ⟨Gap.nil, by simp, gap_fmt_sep formatted (indent + 1)⟩

mutual
theorem Value.cst_valid (formatted : Bool) : ∀ (v : Value (List Nat)) (indent : Nat),
    v.Plain → (v.cst formatted indent).Valid
  | .number _, _, h => by simp [Value.Plain] at h
  | .int n, _, h => by
    have := u32digits_spec n.natAbs (by have := h.1; have := h.2; omega)
    simp only [Value.cst, CValue.Valid]
    exact ⟨this.2.1, this.2.2.1, this.1⟩
  | .string s, _, h => by
    simp only [Value.cst, CValue.Valid]
    exact (escapeLoop_items s h).1
  | .array .nil, _, _ => by
    simp only [Value.cst, CValue.Valid, CNodes.Valid]
    exact ⟨gap_fmt_sp formatted, trivial⟩
  | .array (.cons v name next), indent, h => by
    simp only [Value.cst, CValue.Valid]
    exact Nodes.members_valid formatted (.cons v name next) false indent _ true h
      ⟨gap_fmt_tabs formatted (indent + 1), Or.inr rfl⟩ (by simp)
  | .object .nil, _, _ => by
    simp only [Value.cst, CValue.Valid, CNodes.Valid]
    exact ⟨gap_fmt_sp formatted, trivial⟩
  | .object (.cons v name next), indent, h => by
    simp only [Value.cst, CValue.Valid]
    exact Nodes.members_valid formatted (.cons v name next) true indent _ true h
      ⟨gap_fmt_tabs formatted (indent + 1), Or.inr rfl⟩ (by simp)
  | .jtrue, _, _ => by simp [Value.cst, CValue.Valid]
  | .jfalse, _, _ => by simp [Value.cst, CValue.Valid]
  | .null, _, _ => by simp [Value.cst, CValue.Valid]
theorem Nodes.members_valid (formatted : Bool) : ∀ (ns : Nodes (List Nat)) (isObj : Bool)
    (indent : Nat) (lead : Lead) (first : Bool), ns.Plain isObj →
    Gap lead.a ∧ (match lead.comma with
                  | none => ns = .nil ∨ first = true
                  | some b => ns ≠ .nil ∧ first = false ∧ Gap b) →
    (ns = .nil → first = false) →
    (ns.cst formatted isObj indent lead).Valid isObj first
  | .nil, _, _, lead, first, _, hl, _ => by
    simp only [Nodes.cst, CNodes.Valid]
    refine ⟨hl.1, ?_⟩
    cases hc : lead.comma with
    | none => trivial
    | some b => have := hl.2; rw [hc] at this; exact absurd rfl this.1
  | .cons v name next, isObj, indent, lead, first, h, hl, _ => by
    simp only [Nodes.cst, CNodes.Valid]
    refine ⟨hl.1, ?_, key_valid formatted isObj name h.2.1,
      Value.cst_valid formatted v (indent + 1) h.1, ?_⟩
    · cases hc : lead.comma with
      | none => have := hl.2; rw [hc] at this; simpa using this
      | some b => have := hl.2; rw [hc] at this; exact this.2
    · have hla := leadAfter_ok formatted indent next
      apply Nodes.members_valid formatted next isObj indent _ false h.2.2
      · refine ⟨hla.1, ?_⟩
        cases hc : (leadAfter formatted indent next).comma with
        | none => have := hla.2; rw [hc] at this; exact Or.inl this
        | some b => have := hla.2; rw [hc] at this; exact ⟨this.1, rfl, this.2⟩
      · intro _; rfl
end

mutual
theorem Value.cst_depth (formatted : Bool) : ∀ (v : Value (List Nat)) (indent : Nat),
    (v.cst formatted indent).depth = v.depth
  | .number _, _ => by simp [Value.cst, CValue.depth, Value.depth]
  | .int n, _ => by simp [Value.cst, CValue.depth, Value.depth]
  | .string s, _ => by simp [Value.cst, CValue.depth, Value.depth]
  | .array .nil, _ => by simp [Value.cst, CValue.depth, Value.depth, CNodes.depth, Nodes.depth]
  | .array (.cons v name next), indent => by
    simp only [Value.cst, CValue.depth, Value.depth]
    rw [Nodes.members_depth formatted (.cons v name next) false indent _]
  | .object .nil, _ => by simp [Value.cst, CValue.depth, Value.depth, CNodes.depth, Nodes.depth]
  | .object (.cons v name next), indent => by
    simp only [Value.cst, CValue.depth, Value.depth]
    rw [Nodes.members_depth formatted (.cons v name next) true indent _]
  | .jtrue, _ => by simp [Value.cst, CValue.depth, Value.depth]
  | .jfalse, _ => by simp [Value.cst, CValue.depth, Value.depth]
  | .null, _ => by simp [Value.cst, CValue.depth, Value.depth]
theorem Nodes.members_depth (formatted : Bool) : ∀ (ns : Nodes (List Nat)) (isObj : Bool)
    (indent : Nat) (lead : Lead), (ns.cst formatted isObj indent lead).depth = ns.depth
  | .nil, _, _, _ => by simp [Nodes.cst, CNodes.depth, Nodes.depth]
  | .cons v name next, isObj, indent, lead => by
    simp only [Nodes.cst, CNodes.depth, Nodes.depth]
    rw [Value.cst_depth formatted v (indent + 1), Nodes.members_depth formatted next isObj indent _]
end

mutual
theorem Value.cst_size (formatted : Bool) : ∀ (v : Value (List Nat)) (indent : Nat),
    (v.cst formatted indent).size = v.count
  | .number _, _ => by simp [Value.cst, CValue.size, Value.count]
  | .int n, _ => by simp [Value.cst, CValue.size, Value.count]
  | .string s, _ => by simp [Value.cst, CValue.size, Value.count]
  | .array .nil, _ => by simp [Value.cst, CValue.size, Value.count, CNodes.size, Nodes.count]
  | .array (.cons v name next), indent => by
    simp only [Value.cst, CValue.size, Value.count]
    rw [Nodes.members_size formatted (.cons v name next) false indent _]
  | .object .nil, _ => by simp [Value.cst, CValue.size, Value.count, CNodes.size, Nodes.count]
  | .object (.cons v name next), indent => by
    simp only [Value.cst, CValue.size, Value.count]
    rw [Nodes.members_size formatted (.cons v name next) true indent _]
  | .jtrue, _ => by simp [Value.cst, CValue.size, Value.count]
  | .jfalse, _ => by simp [Value.cst, CValue.size, Value.count]
  | .null, _ => by simp [Value.cst, CValue.size, Value.count]
theorem Nodes.members_size (formatted : Bool) : ∀ (ns : Nodes (List Nat)) (isObj : Bool)
    (indent : Nat) (lead : Lead), (ns.cst formatted isObj indent lead).size = ns.count
  | .nil, _, _, _ => by simp [Nodes.cst, CNodes.size, Nodes.count]
  | .cons v name next, isObj, indent, lead => by
    simp only [Nodes.cst, CNodes.size, Nodes.count]
    rw [Value.cst_size formatted v (indent + 1), Nodes.members_size formatted next isObj indent _]
end

/-- The spelling of a dumped array or object is a container whose members
are valid, as deep and as many as those of the tree. -/
theorem root_cst (num : Nat → List Nat) (formatted : Bool) (isObj : Bool) (h : Nodes (List Nat))
    (indent : Nat) (hp : h.Plain isObj) :
    ∃ ns : CNodes, ns.Valid isObj true ∧ ns.depth = h.depth ∧ ns.size = h.count ∧
      ns.value = h ∧
      Value.dumpText num formatted (if isObj then .object h else .array h) indent
        = openerOf isObj :: (ns.text ++ [closerOf isObj]) := by
  cases isObj with
  | false =>
    have hv := Value.cst_valid formatted (.array h) indent hp
    have ht := Value.cst_text num formatted (.array h) indent hp
    have hd := Value.cst_depth formatted (.array h) indent
    have hs := Value.cst_size formatted (.array h) indent
    have hx := Value.cst_value formatted (.array h) indent hp
    cases h with
    | nil =>
      simp only [Value.cst, CValue.Valid, CValue.text, CValue.depth, Value.depth, CValue.size,
        Value.count, CValue.value] at hv ht hd hs hx
      exact ⟨_, hv, by omega, by omega, by simpa using hx, by simpa [openerOf, closerOf] using ht.symm⟩
    | cons v name next =>
      simp only [Value.cst, CValue.Valid, CValue.text, CValue.depth, Value.depth, CValue.size,
        Value.count, CValue.value] at hv ht hd hs hx
      exact ⟨_, hv, by omega, by omega, by simpa using hx, by simpa [openerOf, closerOf] using ht.symm⟩
  | true =>
    have hv := Value.cst_valid formatted (.object h) indent hp
    have ht := Value.cst_text num formatted (.object h) indent hp
    have hd := Value.cst_depth formatted (.object h) indent
    have hs := Value.cst_size formatted (.object h) indent
    have hx := Value.cst_value formatted (.object h) indent hp
    cases h with
    | nil =>
      simp only [Value.cst, CValue.Valid, CValue.text, CValue.depth, Value.depth, CValue.size,
        Value.count, CValue.value] at hv ht hd hs hx
      exact ⟨_, hv, by omega, by omega, by simpa using hx, by simpa [openerOf, closerOf] using ht.symm⟩
    | cons v name next =>
      simp only [Value.cst, CValue.Valid, CValue.text, CValue.depth, Value.depth, CValue.size,
        Value.count, CValue.value] at hv ht hd hs hx
      exact ⟨_, hv, by omega, by omega, by simpa using hx, by simpa [openerOf, closerOf] using ht.symm⟩

/-- The round trip for an array or object given by its members. -/
theorem roundtrip_container (F : FloatOps) (num : Nat → List Nat) (avail : Nat) (formatted : Bool) (isObj : Bool)
    (h : Nodes (List Nat)) (indent : Nat) (after : List Nat) (hp : h.Plain isObj)
    (hdepth : h.depth + 1 ≤ 32) (hal : h.count ≤ avail) :
    ∃ (buf' : List Nat) (val : Value Nat),
      jsonParse F avail
          (Value.dumpText num formatted (if isObj then .object h else .array h) indent ++ 0 :: after)
        = .ok { code := .ERROR_NO_ERROR, value := some val, buf := buf', allocs := h.count } ∧
      val.resolve buf' = (if isObj then .object h else .array h) := by
  obtain ⟨ns, hv, hd, hs, hx, ht⟩ := root_cst num formatted isObj h indent hp
  obtain ⟨buf', val, h1, h2⟩ := jsonParse_document F avail [] isObj ns (0 :: after) Gap.nil hv
    (by omega) (by omega)
  refine ⟨buf', val, ?_, ?_⟩
  · rw [ht, ← hs, ← h1]
    simp
  · rw [h2, hx]
    cases isObj <;> simp [containerValue]

theorem startByte_opener (b : Bool) : StartByte (openerOf b) := by
  cases b <;> simp [openerOf, StartByte]

theorem container_text (b : Bool) (ns : CNodes) :
    (container b ns).text = openerOf b :: (ns.text ++ [closerOf b]) := by
  cases b <;> simp [container, CValue.text, openerOf, closerOf]

theorem nestKey_ok (k : CKey) (hk : k.Ok) (b : Bool) :
    match nestKey k b with
    | none => b = false
    | some k => b = true ∧ (∀ i ∈ k.its, i.Valid) ∧ Gap k.g1 ∧ Gap k.g2 := by
  cases b
  · simp [nestKey]
  · simp only [nestKey, if_true, true_and]; exact hk

theorem nestNodes_valid (k : CKey) (hk : k.Ok) : ∀ (ks : List Bool) (b : Bool),
    (nestNodes k b ks).Valid b true
  | [], b => by simp [nestNodes, CNodes.Valid, Gap.nil]
  | c :: ks, b => by
    simp only [nestNodes, CNodes.Valid]
    refine ⟨Gap.nil, trivial, nestKey_ok k hk b, ?_, Gap.nil, trivial⟩
    have := nestNodes_valid k hk ks c
    cases c <;> simpa [container, CValue.Valid] using this

theorem nestNodes_depth (k : CKey) : ∀ (ks : List Bool) (b : Bool),
    (nestNodes k b ks).depth = ks.length
  | [], b => by simp [nestNodes, CNodes.depth]
  | c :: ks, b => by
    have := nestNodes_depth k ks c
    cases c <;> simp [nestNodes, CNodes.depth, container, CValue.depth, this]

theorem nestNodes_size (k : CKey) : ∀ (ks : List Bool) (b : Bool),
    (nestNodes k b ks).size = ks.length
  | [], b => by simp [nestNodes, CNodes.size]
  | c :: ks, b => by
    have := nestNodes_size k ks c
    cases c <;> simp [nestNodes, CNodes.size, container, CValue.size, this]

theorem nestNodes_text_cons (k : CKey) (b c : Bool) (ks : List Bool) :
    (nestNodes k b (c :: ks)).text
      = keyText (nestKey k b) ++ openerOf c :: ((nestNodes k c ks).text ++ [closerOf c]) := by
  simp [nestNodes, CNodes.text, container_text, Lead.text, commaText]

theorem nestNodes_text_length (k : CKey) : ∀ (ks : List Bool) (b : Bool),
    ks.length ≤ (nestNodes k b ks).text.length
  | [], b => by simp
  | c :: ks, b => by
    have := nestNodes_text_length k ks c
    rw [nestNodes_text_cons]
    simp only [List.length_append, List.length_cons, List.length_nil]
    omega

/-- One level down: in a container without members yet, the round of the
main loop that meets an opening bracket allocates the node of the member,
reads its key in an object and pushes a frame, or overflows when 32 frames
are open. -/
theorem descend (F : FloatOps) (avail : Nat) (st : PState) (f : Frame) (rest : List Frame)
    (b c : Bool) (key : Option CKey) (tl : List Nat)
    (hst : st.stack = f :: rest) (he : f.endchar = closerOf b) (hft : f.tail = [])
    (hkey : match key with
            | none => b = false
            | some k => b = true ∧ (∀ i ∈ k.its, i.Valid) ∧ Gap k.g1 ∧ Gap k.g2)
    (hd : st.buf.drop st.s = keyText key ++ openerOf c :: tl) (hal : st.allocs < avail)
    (hlen : rest.length + 1 ≤ 32) :
    ∃ (buf2 : List Nat) (nm : Option Nat), buf2.length = st.buf.length ∧
      buf2.drop (st.s + (keyText key).length + 1) = tl ∧
      ∀ fuel, parseLoop F avail (fuel + 1) st
        = if rest.length + 1 = 32 then
            .ok { code := .ERROR_STACK_OVERFLOW, value := none, buf := buf2, allocs := st.allocs + 1 }
          else
            parseLoop F avail fuel { buf := buf2, s := st.s + (keyText key).length + 1, stack := { tail := [], endchar := closerOf c } :: { f with tail := [{ value := Value.null, name := nm }] } :: rest, allocs := st.allocs + 1 } := by
  have hcl := closerOf_cases b
  have hsb := startByte_opener c
  obtain ⟨c1, tl1, hk1, hc1⟩ := keyText_start key (openerOf c) tl hsb
  have hsep := sep_member st f rest { a := [], comma := none } c1 tl1 hst (by rw [he]; exact hcl)
    (by rw [hd, hk1]; simp [Lead.text, commaText]) hc1 Gap.nil hft
  have hl0 : ({ a := [], comma := none } : Lead).text.length = 0 := by simp [Lead.text, commaText]
  rw [hl0] at hsep
  obtain ⟨buf2, nm, hnew, hl2, hd2, _, _⟩ :=
    newNode_spec avail st f rest key b (openerOf c) tl c1 hst he hal hkey hd
      (by rw [hk1]; rfl) hsb
  rw [hft] at hnew
  refine ⟨buf2, nm, hl2, drop_succ_of_drop hd2, ?_⟩
  intro fuel
  have hs0 : ({ st with s := st.s + 0 } : PState) = st := by cases st; rfl
  rw [hs0] at hsep
  rw [parseLoop_succ, hsep, roundRest_cont, memberSteps_of_newNode F avail _ _ c1 _ hnew]
  have hop : openerOf c = 91 ∨ openerOf c = 123 := by cases c <;> simp [openerOf]
  have hcc : openerOf c + 2 = closerOf c := by cases c <;> simp [openerOf, closerOf]
  by_cases h32 : rest.length + 1 = 32
  · have hop2 : openerOf c = 123 ∨ openerOf c = 91 := by omega
    simp only [h32, if_true]
    simp [parseValue, hop2, h32, roundFrom, PState.fail]
  · rw [parseValue_open F _ (openerOf c) hop (by simp only [List.length_cons]; omega) (by simp)]
    simp only [h32, if_false, roundFrom_cont, hcc]

/-- A nest deeper than the stack overflows it. -/
theorem nest_overflow (F : FloatOps) (avail : Nat) (k : CKey) (hk : k.Ok) :
    ∀ (ks : List Bool) (b : Bool) (st : PState) (f : Frame) (rest : List Frame) (tl : List Nat),
      st.stack = f :: rest → f.endchar = closerOf b → f.tail = [] →
      st.buf.drop st.s = (nestNodes k b ks).text ++ tl →
      33 ≤ rest.length + 1 + ks.length → rest.length + 1 ≤ 32 →
      st.allocs + (32 - rest.length) ≤ avail →
      ∃ buf2 : List Nat, buf2.length = st.buf.length ∧
        ∀ extra, parseLoop F avail (32 - rest.length + extra) st
          = .ok { code := .ERROR_STACK_OVERFLOW, value := none, buf := buf2, allocs := st.allocs + (32 - rest.length) }
  | [], b, st, f, rest, tl, _, _, _, _, h33, h32, _ => by
    simp only [List.length_nil] at h33; omega
  | c :: ks, b, st, f, rest, tl, hst, he, hft, hd, h33, h32, hal => by
    rw [nestNodes_text_cons, List.append_assoc, List.cons_append, List.append_assoc] at hd
    obtain ⟨buf2, nm, hl2, hd2, hrun⟩ := descend F avail st f rest b c (nestKey k b) _ hst he hft
      (nestKey_ok k hk b) hd (by omega) h32
    by_cases h : rest.length + 1 = 32
    · refine ⟨buf2, hl2, ?_⟩
      intro extra
      have e : 32 - rest.length + extra = extra + 1 := by omega
      have e2 : 32 - rest.length = 1 := by omega
      rw [e, hrun extra, if_pos h, e2]
    · obtain ⟨buf3, hl3, hrun3⟩ := nest_overflow F avail k hk ks c
        { buf := buf2, s := st.s + (keyText (nestKey k b)).length + 1, stack := { tail := [], endchar := closerOf c } :: { f with tail := [{ value := Value.null, name := nm }] } :: rest, allocs := st.allocs + 1 }
        { tail := [], endchar := closerOf c } ({ f with tail := [{ value := Value.null, name := nm }] } :: rest)
        ([closerOf c] ++ tl) rfl rfl rfl hd2
        (by simp only [List.length_cons] at h33 ⊢; omega) (by simp only [List.length_cons]; omega)
        (by simp only [List.length_cons]; omega)
      simp only [List.length_cons] at hrun3
      refine ⟨buf3, by rw [hl3, hl2], ?_⟩
      intro extra
      have e : 32 - rest.length + extra = (32 - (rest.length + 1) + extra) + 1 := by omega
      rw [e, hrun _, if_neg h, hrun3 extra]
      have e2 : st.allocs + 1 + (32 - (rest.length + 1)) = st.allocs + (32 - rest.length) := by omega
      rw [e2]

theorem nestNodes_value (k : CKey) : ∀ (ks : List Bool) (b : Bool),
    containerValue b (nestNodes k b ks).value = nestTree (bodyDecoded k.its) b ks
  | [], b => by simp [nestNodes, CNodes.value, nestTree]
  | c :: ks, b => by
    have := nestNodes_value k ks c
    simp only [nestNodes, CNodes.value, nestTree]
    have e : (container c (nestNodes k c ks)).value = containerValue c (nestNodes k c ks).value := by
      cases c <;> simp [container, CValue.value, containerValue]
    rw [e, this]
    cases b <;> simp [nestKey]

theorem nestText_arrays (k : CKey) : ∀ m : Nat,
    nestText k false (List.replicate m false)
      = List.replicate (m + 1) 91 ++ List.replicate (m + 1) 93
  | 0 => by simp [nestText, nestNodes, CNodes.text, Lead.text, commaText, openerOf, closerOf]
  | m + 1 => by
    have := nestText_arrays k m
    simp only [nestText, List.replicate_succ, nestNodes_text_cons] at this ⊢
    simp only [nestKey, keyText, Bool.false_eq_true, if_false, List.nil_append]
    rw [this]
    simp [openerOf, closerOf, List.replicate_succ]
    exact (List.replicate_succ' m 93).symm

theorem jsonParse_nest_ok (F : FloatOps) (avail : Nat) (k : CKey) (hk : k.Ok) (b : Bool)
    (ks : List Bool) (after : List Nat) (h32 : ks.length + 1 ≤ 32) (hal : ks.length ≤ avail) :
    ∃ (buf' : List Nat) (val : Value Nat),
      jsonParse F avail (nestText k b ks ++ after)
        = .ok { code := .ERROR_NO_ERROR, value := some val, buf := buf', allocs := ks.length } ∧
      val.resolve buf' = nestTree (bodyDecoded k.its) b ks := by
  obtain ⟨buf', val, h1, h2⟩ := jsonParse_document F avail [] b (nestNodes k b ks) after Gap.nil
    (nestNodes_valid k hk ks b) (by rw [nestNodes_depth]; exact h32)
    (by rw [nestNodes_size]; exact hal)
  rw [nestNodes_size] at h1
  refine ⟨buf', val, ?_, by rw [h2, nestNodes_value]⟩
  rw [← h1]
  simp [nestText]

theorem jsonParse_nest_overflow (F : FloatOps) (avail : Nat) (k : CKey) (hk : k.Ok) (b : Bool)
    (ks : List Bool) (after : List Nat) (h33 : 33 ≤ ks.length + 1) (hal : 32 ≤ avail) :
    ∃ buf' : List Nat,
      jsonParse F avail (nestText k b ks ++ after)
        = .ok { code := .ERROR_STACK_OVERFLOW, value := none, buf := buf', allocs := 32 } := by
  generalize hbuf : nestText k b ks ++ after = buf
  have hd0 : buf.drop 0 = [] ++ openerOf b :: ((nestNodes k b ks).text ++ closerOf b :: after) := by
    rw [← hbuf]; simp [nestText]
  have hop : openerOf b = 91 ∨ openerOf b = 123 := by cases b <;> simp [openerOf]
  have hcl : closerOf b = openerOf b + 2 := by cases b <;> simp [openerOf, closerOf]
  have hskip := skipWhitespace_spec Gap.nil buf 0 (openerOf b) _ hd0
    (by rcases hop with h | h <;> omega) (by rcases hop with h | h <;> omega)
  have hd1 : buf.drop 0 = openerOf b :: ((nestNodes k b ks).text ++ closerOf b :: after) := hd0
  have hrd := rd_of_drop hd1
  have hd2 : buf.drop (0 + 1) = (nestNodes k b ks).text ++ closerOf b :: after :=
    drop_succ_of_drop hd1
  have hlen : buf.length = 32 - 0 + (buf.length - 32) := by
    have := nestNodes_text_length k ks b
    rw [← hbuf]
    simp only [nestText, List.length_append, List.length_cons]
    omega
  obtain ⟨buf2, _, hrun⟩ := nest_overflow F avail k hk ks b
    { buf := buf, s := 0 + 1, stack := [{ tail := [], endchar := openerOf b + 2 }], allocs := 0 }
    { tail := [], endchar := openerOf b + 2 } [] (closerOf b :: after) rfl hcl.symm rfl hd2
    (by simp only [List.length_nil]; omega) (by simp) (by simpa using hal)
  refine ⟨buf2, ?_⟩
  simp only [List.length_nil, List.length_append, List.length_cons] at hskip hrun
  simp only [jsonParse, hskip, Res.ok_bind, hrd, hop, or_comm, if_true]
  rw [hlen]
  simpa using hrun (buf.length - 32)

theorem natDecimal_1 (u : Nat) (h1 : 1 ≤ u) (h2 : u < 10) :
    natDecimal u = [48 + u % 10] := by
  have h0 : u ≠ 0 := by omega
  unfold natDecimal
  rw [if_neg h0]
  rw [Nat.digits_def' (by norm_num) (by omega : 0 < u)]
  have hz : u / 10 = 0 := by omega
  rw [hz, Nat.digits_zero]
  simp only [List.reverse_cons, List.reverse_nil, List.nil_append, List.cons_append, List.map_cons, List.map_nil, List.cons.injEq, and_true]

theorem natDecimal_2 (u : Nat) (h1 : 10 ≤ u) (h2 : u < 100) :
    natDecimal u = [48 + u / 10 % 10, 48 + u % 10] := by
  have h0 : u ≠ 0 := by omega
  unfold natDecimal
  rw [if_neg h0]
  rw [Nat.digits_def' (by norm_num) (by omega : 0 < u)]
  rw [Nat.digits_def' (by norm_num) (by omega : 0 < u / 10)]
  have hz : u / 10 / 10 = 0 := by omega
  rw [hz, Nat.digits_zero]
  simp only [List.reverse_cons, List.reverse_nil, List.nil_append, List.cons_append, List.map_cons, List.map_nil, List.cons.injEq, and_true]

theorem natDecimal_3 (u : Nat) (h1 : 100 ≤ u) (h2 : u < 1000) :
    natDecimal u = [48 + u / 100 % 10, 48 + u / 10 % 10, 48 + u % 10] := by
  have h0 : u ≠ 0 := by omega
  unfold natDecimal
  rw [if_neg h0]
  rw [Nat.digits_def' (by norm_num) (by omega : 0 < u)]
  rw [Nat.digits_def' (by norm_num) (by omega : 0 < u / 10)]
  rw [Nat.digits_def' (by norm_num) (by omega : 0 < u / 10 / 10)]
  have hz : u / 10 / 10 / 10 = 0 := by omega
  rw [hz, Nat.digits_zero]
  simp only [List.reverse_cons, List.reverse_nil, List.nil_append, List.cons_append, List.map_cons, List.map_nil, List.cons.injEq, and_true]
  omega

theorem natDecimal_4 (u : Nat) (h1 : 1000 ≤ u) (h2 : u < 10000) :
    natDecimal u = [48 + u / 1000 % 10, 48 + u / 100 % 10, 48 + u / 10 % 10, 48 + u % 10] := by
  have h0 : u ≠ 0 := by omega
  unfold natDecimal
  rw [if_neg h0]
  rw [Nat.digits_def' (by norm_num) (by omega : 0 < u)]
  rw [Nat.digits_def' (by norm_num) (by omega : 0 < u / 10)]
  rw [Nat.digits_def' (by norm_num) (by omega : 0 < u / 10 / 10)]
  rw [Nat.digits_def' (by norm_num) (by omega : 0 < u / 10 / 10 / 10)]
  have hz : u / 10 / 10 / 10 / 10 = 0 := by omega
  rw [hz, Nat.digits_zero]
  simp only [List.reverse_cons, List.reverse_nil, List.nil_append, List.cons_append, List.map_cons, List.map_nil, List.cons.injEq, and_true]
  omega

theorem natDecimal_5 (u : Nat) (h1 : 10000 ≤ u) (h2 : u < 100000) :
    natDecimal u = [48 + u / 10000 % 10, 48 + u / 1000 % 10, 48 + u / 100 % 10, 48 + u / 10 % 10, 48 + u % 10] := by
  have h0 : u ≠ 0 := by omega
  unfold natDecimal
  rw [if_neg h0]
  rw [Nat.digits_def' (by norm_num) (by omega : 0 < u)]
  rw [Nat.digits_def' (by norm_num) (by omega : 0 < u / 10)]
  rw [Nat.digits_def' (by norm_num) (by omega : 0 < u / 10 / 10)]
  rw [Nat.digits_def' (by norm_num) (by omega : 0 < u / 10 / 10 / 10)]
  rw [Nat.digits_def' (by norm_num) (by omega : 0 < u / 10 / 10 / 10 / 10)]
  have hz : u / 10 / 10 / 10 / 10 / 10 = 0 := by omega
  rw [hz, Nat.digits_zero]
  simp only [List.reverse_cons, List.reverse_nil, List.nil_append, List.cons_append, List.map_cons, List.map_nil, List.cons.injEq, and_true]
  omega

theorem natDecimal_6 (u : Nat) (h1 : 100000 ≤ u) (h2 : u < 1000000) :
    natDecimal u = [48 + u / 100000 % 10, 48 + u / 10000 % 10, 48 + u / 1000 % 10, 48 + u / 100 % 10, 48 + u / 10 % 10, 48 + u % 10] := by
  have h0 : u ≠ 0 := by omega
  unfold natDecimal
  rw [if_neg h0]
  rw [Nat.digits_def' (by norm_num) (by omega : 0 < u)]
  rw [Nat.digits_def' (by norm_num) (by omega : 0 < u / 10)]
  rw [Nat.digits_def' (by norm_num) (by omega : 0 < u / 10 / 10)]
  rw [Nat.digits_def' (by norm_num) (by omega : 0 < u / 10 / 10 / 10)]
  rw [Nat.digits_def' (by norm_num) (by omega : 0 < u / 10 / 10 / 10 / 10)]
  rw [Nat.digits_def' (by norm_num) (by omega : 0 < u / 10 / 10 / 10 / 10 / 10)]
  have hz : u / 10 / 10 / 10 / 10 / 10 / 10 = 0 := by omega
  rw [hz, Nat.digits_zero]
  simp only [List.reverse_cons, List.reverse_nil, List.nil_append, List.cons_append, List.map_cons, List.map_nil, List.cons.injEq, and_true]
  omega

theorem natDecimal_7 (u : Nat) (h1 : 1000000 ≤ u) (h2 : u < 10000000) :
    natDecimal u = [48 + u / 1000000 % 10, 48 + u / 100000 % 10, 48 + u / 10000 % 10, 48 + u / 1000 % 10, 48 + u / 100 % 10, 48 + u / 10 % 10, 48 + u % 10] := by
  have h0 : u ≠ 0 := by omega
  unfold natDecimal
  rw [if_neg h0]
  rw [Nat.digits_def' (by norm_num) (by omega : 0 < u)]
  rw [Nat.digits_def' (by norm_num) (by omega : 0 < u / 10)]
  rw [Nat.digits_def' (by norm_num) (by omega : 0 < u / 10 / 10)]
  rw [Nat.digits_def' (by norm_num) (by omega : 0 < u / 10 / 10 / 10)]
  rw [Nat.digits_def' (by norm_num) (by omega : 0 < u / 10 / 10 / 10 / 10)]
  rw [Nat.digits_def' (by norm_num) (by omega : 0 < u / 10 / 10 / 10 / 10 / 10)]
  rw [Nat.digits_def' (by norm_num) (by omega : 0 < u / 10 / 10 / 10 / 10 / 10 / 10)]
  have hz : u / 10 / 10 / 10 / 10 / 10 / 10 / 10 = 0 := by omega
  rw [hz, Nat.digits_zero]
  simp only [List.reverse_cons, List.reverse_nil, List.nil_append, List.cons_append, List.map_cons, List.map_nil, List.cons.injEq, and_true]
  omega

theorem natDecimal_8 (u : Nat) (h1 : 10000000 ≤ u) (h2 : u < 100000000) :
    natDecimal u = [48 + u / 10000000 % 10, 48 + u / 1000000 % 10, 48 + u / 100000 % 10, 48 + u / 10000 % 10, 48 + u / 1000 % 10, 48 + u / 100 % 10, 48 + u / 10 % 10, 48 + u % 10] := by
  have h0 : u ≠ 0 := by omega
  unfold natDecimal
  rw [if_neg h0]
  rw [Nat.digits_def' (by norm_num) (by omega : 0 < u)]
  rw [Nat.digits_def' (by norm_num) (by omega : 0 < u / 10)]
  rw [Nat.digits_def' (by norm_num) (by omega : 0 < u / 10 / 10)]
  rw [Nat.digits_def' (by norm_num) (by omega : 0 < u / 10 / 10 / 10)]
  rw [Nat.digits_def' (by norm_num) (by omega : 0 < u / 10 / 10 / 10 / 10)]
  rw [Nat.digits_def' (by norm_num) (by omega : 0 < u / 10 / 10 / 10 / 10 / 10)]
  rw [Nat.digits_def' (by norm_num) (by omega : 0 < u / 10 / 10 / 10 / 10 / 10 / 10)]
  rw [Nat.digits_def' (by norm_num) (by omega : 0 < u / 10 / 10 / 10 / 10 / 10 / 10 / 10)]
  have hz : u / 10 / 10 / 10 / 10 / 10 / 10 / 10 / 10 = 0 := by omega
  rw [hz, Nat.digits_zero]
  simp only [List.reverse_cons, List.reverse_nil, List.nil_append, List.cons_append, List.map_cons, List.map_nil, List.cons.injEq, and_true]
  omega

theorem natDecimal_9 (u : Nat) (h1 : 100000000 ≤ u) (h2 : u < 1000000000) :
    natDecimal u = [48 + u / 100000000 % 10, 48 + u / 10000000 % 10, 48 + u / 1000000 % 10, 48 + u / 100000 % 10, 48 + u / 10000 % 10, 48 + u / 1000 % 10, 48 + u / 100 % 10, 48 + u / 10 % 10, 48 + u % 10] := by
  have h0 : u ≠ 0 := by omega
  unfold natDecimal
  rw [if_neg h0]
  rw [Nat.digits_def' (by norm_num) (by omega : 0 < u)]
  rw [Nat.digits_def' (by norm_num) (by omega : 0 < u / 10)]
  rw [Nat.digits_def' (by norm_num) (by omega : 0 < u / 10 / 10)]
  rw [Nat.digits_def' (by norm_num) (by omega : 0 < u / 10 / 10 / 10)]
  rw [Nat.digits_def' (by norm_num) (by omega : 0 < u / 10 / 10 / 10 / 10)]
  rw [Nat.digits_def' (by norm_num) (by omega : 0 < u / 10 / 10 / 10 / 10 / 10)]
  rw [Nat.digits_def' (by norm_num) (by omega : 0 < u / 10 / 10 / 10 / 10 / 10 / 10)]
  rw [Nat.digits_def' (by norm_num) (by omega : 0 < u / 10 / 10 / 10 / 10 / 10 / 10 / 10)]
  rw [Nat.digits_def' (by norm_num) (by omega : 0 < u / 10 / 10 / 10 / 10 / 10 / 10 / 10 / 10)]
  have hz : u / 10 / 10 / 10 / 10 / 10 / 10 / 10 / 10 / 10 = 0 := by omega
  rw [hz, Nat.digits_zero]
  simp only [List.reverse_cons, List.reverse_nil, List.nil_append, List.cons_append, List.map_cons, List.map_nil, List.cons.injEq, and_true]
  omega

theorem natDecimal_10 (u : Nat) (h1 : 1000000000 ≤ u) (h2 : u < 10000000000) :
    natDecimal u = [48 + u / 1000000000 % 10, 48 + u / 100000000 % 10, 48 + u / 10000000 % 10, 48 + u / 1000000 % 10, 48 + u / 100000 % 10, 48 + u / 10000 % 10, 48 + u / 1000 % 10, 48 + u / 100 % 10, 48 + u / 10 % 10, 48 + u % 10] := by
  have h0 : u ≠ 0 := by omega
  unfold natDecimal
  rw [if_neg h0]
  rw [Nat.digits_def' (by norm_num) (by omega : 0 < u)]
  rw [Nat.digits_def' (by norm_num) (by omega : 0 < u / 10)]
  rw [Nat.digits_def' (by norm_num) (by omega : 0 < u / 10 / 10)]
  rw [Nat.digits_def' (by norm_num) (by omega : 0 < u / 10 / 10 / 10)]
  rw [Nat.digits_def' (by norm_num) (by omega : 0 < u / 10 / 10 / 10 / 10)]
  rw [Nat.digits_def' (by norm_num) (by omega : 0 < u / 10 / 10 / 10 / 10 / 10)]
  rw [Nat.digits_def' (by norm_num) (by omega : 0 < u / 10 / 10 / 10 / 10 / 10 / 10)]
  rw [Nat.digits_def' (by norm_num) (by omega : 0 < u / 10 / 10 / 10 / 10 / 10 / 10 / 10)]
  rw [Nat.digits_def' (by norm_num) (by omega : 0 < u / 10 / 10 / 10 / 10 / 10 / 10 / 10 / 10)]
  rw [Nat.digits_def' (by norm_num) (by omega : 0 < u / 10 / 10 / 10 / 10 / 10 / 10 / 10 / 10 / 10)]
  have hz : u / 10 / 10 / 10 / 10 / 10 / 10 / 10 / 10 / 10 / 10 = 0 := by omega
  rw [hz, Nat.digits_zero]
  simp only [List.reverse_cons, List.reverse_nil, List.nil_append, List.cons_append, List.map_cons, List.map_nil, List.cons.injEq, and_true]
  omega

theorem u32digits_decimal (u : Nat) (hu : u < 4294967296) : u32digits u = natDecimal u := by
  have L := fun k (h : k < 100) => lut_shift k h
  by_cases h1 : u < 10000
  · have a1 := L (u / 100) (by omega)
    have a2 := L (u % 100) (by omega)
    simp only [u32digits, h1, ↓reduceIte, a1.1, a1.2, a2.1, a2.2]
    by_cases c3 : u ≥ 10
    · by_cases c2 : u ≥ 100
      · by_cases c1 : u ≥ 1000
        · rw [natDecimal_4 u (by omega) (by omega)]
          simp only [c1, c2, c3, ↓reduceIte, a1.1, a1.2, a2.1, a2.2, List.cons_append, List.nil_append, List.cons.injEq,
            and_true, true_and]
          clear a1 a2 L
          omega
        · rw [natDecimal_3 u (by omega) (by omega)]
          simp only [c1, c2, c3, ↓reduceIte, a1.1, a1.2, a2.1, a2.2, List.cons_append, List.nil_append, List.cons.injEq,
            and_true, true_and]
          clear a1 a2 L
          omega
      · have c1 : ¬ u ≥ 1000 := by omega
        rw [natDecimal_2 u (by omega) (by omega)]
        simp only [c1, c2, c3, ↓reduceIte, a1.1, a1.2, a2.1, a2.2, List.cons_append, List.nil_append, List.cons.injEq,
          and_true, true_and]
        clear a1 a2 L
        omega
    · have c1 : ¬ u ≥ 1000 := by omega
      have c2 : ¬ u ≥ 100 := by omega
      by_cases h0 : u = 0
      · subst h0; rfl
      · rw [natDecimal_1 u (by omega) (by omega)]
        simp only [c1, c2, c3, ↓reduceIte, a1.1, a1.2, a2.1, a2.2, List.cons_append, List.nil_append, List.cons.injEq,
          and_true, true_and]
        clear a1 a2 L
        omega
  · by_cases h2 : u < 100000000
    · have a1 := L (u / 10000 / 100) (by omega)
      have a2 := L (u / 10000 % 100) (by omega)
      have a3 := L (u % 10000 / 100) (by omega)
      have a4 := L (u % 10000 % 100) (by omega)
      simp only [u32digits, h1, h2, ↓reduceIte, a1.1, a1.2, a2.1, a2.2, a3.1, a3.2, a4.1, a4.2]
      by_cases c3 : u ≥ 100000
      · by_cases c2 : u ≥ 1000000
        · by_cases c1 : u ≥ 10000000
          · rw [natDecimal_8 u (by omega) (by omega)]
            simp only [c1, c2, c3, ↓reduceIte, a1.1, a1.2, a2.1, a2.2, List.cons_append, List.nil_append,
              List.cons.injEq, and_true, true_and]
            clear a1 a2 a3 a4 L
            omega
          · rw [natDecimal_7 u (by omega) (by omega)]
            simp only [c1, c2, c3, ↓reduceIte, a1.1, a1.2, a2.1, a2.2, List.cons_append, List.nil_append,
              List.cons.injEq, and_true, true_and]
            clear a1 a2 a3 a4 L
            omega
        · have c1 : ¬ u ≥ 10000000 := by omega
          rw [natDecimal_6 u (by omega) (by omega)]
          simp only [c1, c2, c3, ↓reduceIte, a1.1, a1.2, a2.1, a2.2, List.cons_append, List.nil_append, List.cons.injEq,
            and_true, true_and]
          clear a1 a2 a3 a4 L
          omega
      · have c1 : ¬ u ≥ 10000000 := by omega
        have c2 : ¬ u ≥ 1000000 := by omega
        rw [natDecimal_5 u (by omega) (by omega)]
        simp only [c1, c2, c3, ↓reduceIte, a1.1, a1.2, a2.1, a2.2, List.cons_append, List.nil_append, List.cons.injEq,
          and_true, true_and]
        clear a1 a2 a3 a4 L
        omega
    · have a0 := L (u / 100000000) (by omega)
      have a1 := L (u % 100000000 / 10000 / 100) (by omega)
      have a2 := L (u % 100000000 / 10000 % 100) (by omega)
      have a3 := L (u % 100000000 % 10000 / 100) (by omega)
      have a4 := L (u % 100000000 % 10000 % 100) (by omega)
      simp only [u32digits, h1, h2, ↓reduceIte, a0.1, a0.2, a1.1, a1.2, a2.1, a2.2, a3.1, a3.2,
        a4.1, a4.2]
      by_cases c1 : u / 100000000 ≥ 10
      · rw [natDecimal_10 u (by omega) (by omega)]
        simp only [c1, ↓reduceIte, a0.1, a0.2, a1.1, a1.2, a2.1, a2.2, a3.1, a3.2, a4.1, a4.2, List.cons_append, List.nil_append, List.cons.injEq, and_true, true_and]
        clear a0 a1 a2 a3 a4 L
        omega
      · rw [natDecimal_9 u (by omega) (by omega)]
        simp only [c1, ↓reduceIte, a0.1, a0.2, a1.1, a1.2, a2.1, a2.2, a3.1, a3.2, a4.1, a4.2, List.cons_append, List.nil_append, List.cons.injEq, and_true, true_and]
        clear a0 a1 a2 a3 a4 L
        omega

/-- For every 32-bit integer `i32toa` writes the plain decimal text. -/
theorem i32toa_decimal (n : Int) (h1 : -2147483648 ≤ n) (h2 : n ≤ 2147483647) :
    i32toa n = decimalText n := by
  by_cases hn : n < 0
  · have e : n = -((n.natAbs : Nat) : Int) := by omega
    have := i32toa_neg n.natAbs (by omega) (by omega)
    rw [← e] at this
    rw [this, u32digits_decimal _ (by omega)]
    simp [decimalText, hn]
  · have e : n = ((n.natAbs : Nat) : Int) := by omega
    have := i32toa_nonneg n.natAbs (by omega)
    rw [← e] at this
    rw [this, u32digits_decimal _ (by omega)]
    simp [decimalText, hn]

theorem CNodes.withTrailingComma_text (g : List Nat) : ∀ ns : CNodes, ns.NoTrailingComma →
    (ns.withTrailingComma g).text = ns.text ++ 44 :: g
  | .nil lead, h => by
    simp only [CNodes.NoTrailingComma] at h
    simp [CNodes.withTrailingComma, CNodes.text, Lead.text, commaText, h]
  | .cons lead key v next, h => by
    simp only [CNodes.withTrailingComma, CNodes.text,
      CNodes.withTrailingComma_text g next h, List.append_assoc]

theorem CNodes.withTrailingComma_value (g : List Nat) : ∀ ns : CNodes,
    (ns.withTrailingComma g).value = ns.value
  | .nil _ => rfl
  | .cons lead key v next => by
    simp only [CNodes.withTrailingComma, CNodes.value, CNodes.withTrailingComma_value g next]

theorem CNodes.withTrailingComma_size (g : List Nat) : ∀ ns : CNodes,
    (ns.withTrailingComma g).size = ns.size
  | .nil _ => rfl
  | .cons lead key v next => by
    simp only [CNodes.withTrailingComma, CNodes.size, CNodes.withTrailingComma_size g next]

theorem CNodes.withTrailingComma_depth (g : List Nat) : ∀ ns : CNodes,
    (ns.withTrailingComma g).depth = ns.depth
  | .nil _ => rfl
  | .cons lead key v next => by
    simp only [CNodes.withTrailingComma, CNodes.depth, CNodes.withTrailingComma_depth g next]

theorem CNodes.withTrailingComma_valid (g : List Nat) (hg : Gap g) : ∀ (ns : CNodes)
    (isObj first : Bool), ns.Valid isObj first → (first = true → 0 < ns.size) →
    (ns.withTrailingComma g).Valid isObj first
  | .nil lead, isObj, first, hv, hf => by
    simp only [CNodes.withTrailingComma, CNodes.Valid]
    refine ⟨hv.1, ?_, hg⟩
    cases first with
    | false => rfl
    | true => have := hf rfl; simp [CNodes.size] at this
  | .cons lead key v next, isObj, first, hv, _ => by
    simp only [CNodes.withTrailingComma, CNodes.Valid]
    exact ⟨hv.1, hv.2.1, hv.2.2.1, hv.2.2.2.1,
      CNodes.withTrailingComma_valid g hg next isObj false hv.2.2.2.2 (by simp)⟩

/-- A document whose last member is followed by a comma is parsed like the
document without that comma. -/
theorem jsonParse_trailing_comma (F : FloatOps) (avail : Nat) (pre : List Nat) (isObj : Bool)
    (ns : CNodes) (g after : List Nat) (hpre : Gap pre) (hg : Gap g)
    (hv : ns.Valid isObj true) (hne : 0 < ns.size) (hnc : ns.NoTrailingComma)
    (hdepth : ns.depth + 1 ≤ 32) (hal : ns.size ≤ avail) :
    ∃ (buf1 buf2 : List Nat) (val1 val2 : Value Nat),
      jsonParse F avail (pre ++ openerOf isObj :: (ns.text ++ 44 :: (g ++ closerOf isObj :: after)))
        = .ok { code := .ERROR_NO_ERROR, value := some val1, buf := buf1, allocs := ns.size } ∧
      jsonParse F avail (pre ++ openerOf isObj :: (ns.text ++ closerOf isObj :: after))
        = .ok { code := .ERROR_NO_ERROR, value := some val2, buf := buf2, allocs := ns.size } ∧
      val1.resolve buf1 = val2.resolve buf2 := by
  obtain ⟨buf1, val1, h1, r1⟩ := jsonParse_document F avail pre isObj (ns.withTrailingComma g)
    after hpre (CNodes.withTrailingComma_valid g hg ns isObj true hv (fun _ => hne))
    (by rw [CNodes.withTrailingComma_depth]; exact hdepth)
    (by rw [CNodes.withTrailingComma_size]; exact hal)
  obtain ⟨buf2, val2, h2, r2⟩ := jsonParse_document F avail pre isObj ns after hpre hv hdepth hal
  rw [CNodes.withTrailingComma_text g ns hnc, CNodes.withTrailingComma_size, List.append_assoc,
    List.cons_append] at h1
  rw [CNodes.withTrailingComma_value] at r1
  exact ⟨buf1, buf2, val1, val2, h1, h2, by rw [r1, r2]⟩

theorem keyA_ok : keyA.Ok := by
  refine ⟨?_, Gap.nil, Gap.nil⟩
  intro i hi
  simp only [keyA, List.mem_singleton] at hi
  subst hi
  simp [StrItem.Valid, Ordinary]

/-- A container with one valid member is parsed into its tree. -/
theorem jsonParse_single (F : FloatOps) (avail : Nat) (k : CKey) (hk : k.Ok) (isObj : Bool)
    (v : CValue) (hv : v.Valid) (hs : v.size = 1) (hd : v.depth = 0) (hal : 1 ≤ avail) :
    ∃ (buf' : List Nat) (val : Value Nat),
      jsonParse F avail (singleText k isObj v.text)
        = .ok { code := .ERROR_NO_ERROR, value := some val, buf := buf', allocs := 1 } ∧
      val.resolve buf' = singleTree (bodyDecoded k.its) isObj v.value := by
  have hvalid : (CNodes.cons { a := [], comma := none } (nestKey k isObj) v
      (.nil { a := [], comma := none })).Valid isObj true := by
    simp only [CNodes.Valid]
    exact ⟨Gap.nil, trivial, nestKey_ok k hk isObj, hv, Gap.nil, trivial⟩
  obtain ⟨buf', val, h1, h2⟩ := jsonParse_document F avail [] isObj _ [0] Gap.nil hvalid
    (by simp [CNodes.depth, hd]) (by simp [CNodes.size, hs]; exact hal)
  refine ⟨buf', val, ?_, ?_⟩
  · simp only [CNodes.size, hs, CNodes.text, Lead.text, commaText, List.append_nil,
      List.nil_append, List.append_assoc] at h1
    simpa [singleText] using h1
  · rw [h2]
    cases isObj <;> simp [singleTree, CNodes.value, nestKey]

/-- The integer spelled by its plain decimal text. -/
theorem int_cst (n : Int) (h1 : -1000000000 < n) (h2 : n < 1000000000) :
    (CValue.int (decide (n < 0)) (u32digits n.natAbs)).text = decimalText n ∧
    (CValue.int (decide (n < 0)) (u32digits n.natAbs)).value = .int n ∧
    (CValue.int (decide (n < 0)) (u32digits n.natAbs)).Valid := by
  have hu := u32digits_spec n.natAbs (by omega)
  refine ⟨?_, ?_, hu.2.1, hu.2.2.1, hu.1⟩
  · simp only [CValue.text]
    rw [int_text n ⟨h1, h2⟩, i32toa_decimal n (by omega) (by omega)]
  · simp only [CValue.value]
    rw [int_value n ⟨h1, h2⟩]

/-- An integer of at most 9 digits as the only member of a container. -/
theorem jsonParse_single_int (F : FloatOps) (avail : Nat) (k : CKey) (hk : k.Ok) (isObj : Bool)
    (n : Int) (h1 : -1000000000 < n) (h2 : n < 1000000000) (hal : 1 ≤ avail) :
    ∃ (buf' : List Nat) (val : Value Nat),
      jsonParse F avail (singleText k isObj (decimalText n))
        = .ok { code := .ERROR_NO_ERROR, value := some val, buf := buf', allocs := 1 } ∧
      val.resolve buf' = singleTree (bodyDecoded k.its) isObj (.int n) := by
  obtain ⟨ht, hv, hvalid⟩ := int_cst n h1 h2
  have := jsonParse_single F avail k hk isObj _ hvalid rfl rfl hal
  rw [ht, hv] at this
  exact this

theorem decimalText_zero : decimalText 0 = [48] := by
  simp [decimalText, natDecimal]

/-! ## The leaf writers and their buffers -/

theorem stores_spec : ∀ (cs : List Nat) (mem : List Nat) (p : Nat),
    p + cs.length ≤ mem.length →
    stores mem p cs = .ok (patch mem p cs, p + cs.length)
  | [], mem, p, _ => by simp [stores, patch_nil]
  | c :: cs, mem, p, h => by
    simp only [List.length_cons] at h
    have hw := wr_eq_patch mem p c (by omega)
    have hl : (patch mem p [c]).length = mem.length :=
      length_patch mem p [c] (by simp only [List.length_singleton]; omega)
    have ih := stores_spec cs (patch mem p [c]) (p + 1) (by omega)
    have pp := patch_patch mem p [c] cs (by simp only [List.length_singleton]; omega)
    simp only [List.length_singleton, List.singleton_append] at pp
    simp only [stores, hw, Res.ok_bind, ih, pp, List.length_cons]
    congr 2
    omega

/-- A store outside the memory is a fault, at the first index outside. -/
theorem stores_overrun : ∀ (cs : List Nat) (mem : List Nat) (p : Nat),
    p ≤ mem.length → mem.length < p + cs.length →
    stores mem p cs = .fault (.outOfBounds mem.length)
  | [], mem, p, h1, h2 => by simp only [List.length_nil] at h2; omega
  | c :: cs, mem, p, h1, h2 => by
    simp only [List.length_cons] at h2
    by_cases hp : p < mem.length
    · have hw := wr_eq_patch mem p c hp
      have hl : (patch mem p [c]).length = mem.length :=
        length_patch mem p [c] (by simp only [List.length_singleton]; omega)
      have ih := stores_overrun cs (patch mem p [c]) (p + 1) (by omega) (by omega)
      simp only [stores, hw, Res.ok_bind, ih, hl]
    · have e : p = mem.length := by omega
      subst e
      simp [stores, wr]

theorem u32digits_length (u : Nat) :
    (u32digits u).length ≤ 10 ∧ (u < 1000000000 → (u32digits u).length ≤ 9) := by
  unfold u32digits
  by_cases h1 : u < 10000
  · rw [if_pos h1]
    simp only [List.length_append, List.length_singleton]
    split_ifs <;> simp only [List.length_nil, List.length_singleton] <;> omega
  · rw [if_neg h1]
    by_cases h2 : u < 100000000
    · rw [if_pos h2]
      simp only [List.length_append, List.length_cons, List.length_nil]
      split_ifs <;> simp only [List.length_nil, List.length_singleton] <;> omega
    · rw [if_neg h2]
      simp only [List.length_append, List.length_cons, List.length_nil]
      by_cases h3 : u / 100000000 ≥ 10
      · rw [if_pos h3]
        simp only [List.length_cons, List.length_nil]
        omega
      · rw [if_neg h3]
        simp only [List.length_cons, List.length_nil]
        omega

/-- The text of a 32-bit integer above -10^9 has at most 10 bytes. -/
theorem i32toa_length (n : Int) (h1 : -1000000000 < n) (h2 : n ≤ 2147483647) :
    (i32toa n).length ≤ 10 := by
  by_cases hn : n < 0
  · have e : n = -((n.natAbs : Nat) : Int) := by omega
    have := i32toa_neg n.natAbs (by omega) (by omega)
    rw [← e] at this
    rw [this, List.length_cons]
    have := (u32digits_length n.natAbs).2 (by omega)
    omega
  · have e : n = ((n.natAbs : Nat) : Int) := by omega
    have := i32toa_nonneg n.natAbs (by omega)
    rw [← e] at this
    rw [this]
    exact (u32digits_length n.natAbs).1

theorem patch_take (mem t : List Nat) : (patch mem 0 t).take (0 + t.length) = t := by
  simp [patch]

/-- Inside its buffer `writeInt` passes on the bytes of `i32toa`. -/
theorem writeInt_ok (n : Int) (h : (i32toa n).length ≤ 10) : writeInt n = .ok (i32toa n) := by
  unfold writeInt i32toaAt
  rw [stores_spec (i32toa n) (List.replicate 10 0) 0 (by simp only [List.length_replicate]; omega)]
  simp only [Res.ok_bind, Res.pure_eq, patch_take]

/-- A text of more than 10 bytes is stored past the buffer of `writeInt`. -/
theorem writeInt_overrun (n : Int) (h : 10 < (i32toa n).length) :
    writeInt n = .fault (.outOfBounds 10) := by
  unfold writeInt i32toaAt
  rw [stores_overrun (i32toa n) (List.replicate 10 0) 0 (by omega)
    (by simp only [List.length_replicate]; omega)]
  simp only [Res.fault_bind, List.length_replicate]

theorem patch_drop_zero (mem t : List Nat) : (patch mem 0 (t ++ [0])).drop 0
    = t ++ 0 :: mem.drop (t.length + 1) := by
  simp [patch]

/-- Inside its buffer `writeNumber` passes on the text of `dtoa_milo`, when
that text holds no NUL. -/
theorem writeNumber_ok (F : FloatOps) (d : Nat) (t : List Nat) (h : dtoa_milo F d = .ok t)
    (hz : ∀ x ∈ t, x ≠ 0) (hl : t.length + 1 ≤ 25) : writeNumber F d = .ok t := by
  unfold writeNumber
  rw [h, Res.ok_bind,
    stores_spec (t ++ [0]) (List.replicate 25 0) 0
      (by simp only [List.length_append, List.length_singleton, List.length_replicate]; omega)]
  simp only [Res.ok_bind, Res.pure_eq]
  congr 1
  exact cstrAt_of_drop _ 0 t _ (patch_drop_zero _ t) hz

/-- A text that with its NUL has more than 25 bytes is stored past the buffer
of `writeNumber`. -/
theorem writeNumber_overrun (F : FloatOps) (d : Nat) (t : List Nat) (h : dtoa_milo F d = .ok t)
    (hl : 25 < t.length + 1) : writeNumber F d = .fault (.outOfBounds 25) := by
  unfold writeNumber
  rw [h, Res.ok_bind,
    stores_overrun (t ++ [0]) (List.replicate 25 0) 0 (by omega)
      (by simp only [List.length_append, List.length_singleton, List.length_replicate]; omega)]
  simp only [Res.fault_bind, List.length_replicate]

/-- The dump of an Int above -10^9 is its plain decimal text. -/
theorem dump_int (F : FloatOps) (formatted : Bool) (n : Int) (indent : Nat)
    (h1 : -1000000000 < n) (h2 : n ≤ 2147483647) :
    Value.dump F formatted (.int n) indent = .ok (decimalText n) := by
  simp only [Value.dump]
  rw [writeInt_ok n (i32toa_length n h1 h2), i32toa_decimal n (by omega) h2]

mutual
/-- When the leaf writers stay inside their buffers, `Value::dump` returns the
text of the layout. -/
theorem Value.dump_ok (F : FloatOps) (num : Nat → List Nat) (formatted : Bool) :
    ∀ (v : Value (List Nat)) (indent : Nat), v.Fits F num →
    Value.dump F formatted v indent = .ok (Value.dumpText num formatted v indent)
  | .number d, _, h => by
    simp only [Value.Fits] at h
    simp only [Value.dump, Value.dumpText, h]
  | .int n, _, h => by
    simp only [Value.Fits] at h
    simp only [Value.dump, Value.dumpText]
    exact writeInt_ok n (i32toa_length n h.1 h.2)
  | .string s, _, _ => by simp only [Value.dump, Value.dumpText, Res.pure_eq]
  | .array .nil, _, _ => by simp only [Value.dump, Value.dumpText, Res.pure_eq]
  | .array (.cons v name next), indent, h => by
    simp only [Value.Fits] at h
    have := Nodes.members_dump_ok F num formatted false (.cons v name next) (indent + 1) h
    simp only [Value.dump, Value.dumpText, this, Res.ok_bind, Res.pure_eq]
  | .object .nil, _, _ => by simp only [Value.dump, Value.dumpText, Res.pure_eq]
  | .object (.cons v name next), indent, h => by
    simp only [Value.Fits] at h
    have := Nodes.members_dump_ok F num formatted true (.cons v name next) (indent + 1) h
    simp only [Value.dump, Value.dumpText, this, Res.ok_bind, Res.pure_eq]
  | .jtrue, _, _ => by simp only [Value.dump, Value.dumpText, Res.pure_eq]
  | .jfalse, _, _ => by simp only [Value.dump, Value.dumpText, Res.pure_eq]
  | .null, _, _ => by simp only [Value.dump, Value.dumpText, Res.pure_eq]
theorem Nodes.members_dump_ok (F : FloatOps) (num : Nat → List Nat) (formatted : Bool)
    (isObj : Bool) : ∀ (ns : Nodes (List Nat)) (indent : Nat), ns.Fits F num →
    Nodes.dump F formatted isObj ns indent = .ok (Nodes.dumpText num formatted isObj ns indent)
  | .nil, _, _ => by simp only [Nodes.dump, Nodes.dumpText, Res.pure_eq]
  | .cons v name next, indent, h => by
    simp only [Nodes.Fits] at h
    have h1 := Value.dump_ok F num formatted v indent h.1
    have h2 := Nodes.members_dump_ok F num formatted isObj next indent h.2
    simp only [Nodes.dump, Nodes.dumpText, h1, h2, Res.ok_bind, Res.pure_eq]
end

mutual
/-- A plain tree has no Number leaf, and its Int leaves fit. -/
theorem Value.plain_fits (F : FloatOps) (num : Nat → List Nat) :
    ∀ (v : Value (List Nat)), v.Plain → v.Fits F num
  | .number _, h => by simp [Value.Plain] at h
  | .int n, h => by
    simp only [Value.Plain] at h
    simp only [Value.Fits]
    omega
  | .string _, _ => by simp only [Value.Fits]
  | .array ns, h => by
    simp only [Value.Plain] at h
    simp only [Value.Fits]
    exact Nodes.members_plain_fits F num false ns h
  | .object ns, h => by
    simp only [Value.Plain] at h
    simp only [Value.Fits]
    exact Nodes.members_plain_fits F num true ns h
  | .jtrue, _ => by simp only [Value.Fits]
  | .jfalse, _ => by simp only [Value.Fits]
  | .null, _ => by simp only [Value.Fits]
theorem Nodes.members_plain_fits (F : FloatOps) (num : Nat → List Nat) (isObj : Bool) :
    ∀ (ns : Nodes (List Nat)), ns.Plain isObj → ns.Fits F num
  | .nil, _ => by simp only [Nodes.Fits]
  | .cons v name next, h => by
    simp only [Nodes.Plain] at h
    simp only [Nodes.Fits]
    exact ⟨Value.plain_fits F num v h.1, Nodes.members_plain_fits F num isObj next h.2.2⟩
end

/-! ## The claims -/

/-- C1: parse undoes dump. For every tree `v` whose root is an array or an
object, that is at most 32 deep and plain (no Number leaf, Int leaves of at
most 9 decimal digits, no NUL byte in a string or key), for either layout and
any indentation, `Value::dump` returns a text, and `jsonParse` on that text
with its terminating NUL, with an allocator that serves one node per value
below the root, returns `ERROR_NO_ERROR` and a tree that reads as `v` in the
buffer. -/
theorem parse_dump_roundtrip (F : FloatOps) (avail : Nat) (formatted : Bool)
    (v : Value (List Nat)) (indent : Nat)
    (hroot : v.getType = .JSON_ARRAY ∨ v.getType = .JSON_OBJECT) (hplain : v.Plain)
    (hdepth : v.depth ≤ 32) (hal : v.count ≤ avail + 1) :
    ∃ (text buf' : List Nat) (val : Value Nat),
      Value.dump F formatted v indent = .ok text ∧
      jsonParse F avail (text ++ [0])
        = .ok { code := .ERROR_NO_ERROR, value := some val, buf := buf',
                allocs := v.count - 1 } ∧
      val.resolve buf' = v := by
  have hok := Value.dump_ok F (fun _ => []) formatted v indent
    (Value.plain_fits F (fun _ => []) v hplain)
  refine ⟨Value.dumpText (fun _ => []) formatted v indent, ?_⟩
  cases v with
  | array h =>
    simp only [Value.Plain, Value.depth, Value.count] at hplain hdepth hal
    obtain ⟨buf', val, h1, h2⟩ :=
      roundtrip_container F (fun _ => []) avail formatted false h indent [] hplain hdepth
        (by omega)
    exact ⟨buf', val, hok, by simpa [Value.count] using h1, by simpa using h2⟩
  | object h =>
    simp only [Value.Plain, Value.depth, Value.count] at hplain hdepth hal
    obtain ⟨buf', val, h1, h2⟩ :=
      roundtrip_container F (fun _ => []) avail formatted true h indent [] hplain hdepth
        (by omega)
    exact ⟨buf', val, hok, by simpa [Value.count] using h1, by simpa using h2⟩
  | number _ => simp [Value.getType] at hroot
  | int _ => simp [Value.getType] at hroot
  | string _ => simp [Value.getType] at hroot
  | jtrue => simp [Value.getType] at hroot
  | jfalse => simp [Value.getType] at hroot
  | null => simp [Value.getType] at hroot

/-- The round trip of `{"k":[7,"hi"]}` in the formatted layout. -/
theorem parse_dump_roundtrip_witness :
    ∃ (text buf' : List Nat) (val : Value Nat),
      Value.dump ieee true sampleTree 0 = .ok text ∧
      jsonParse ieee 3 (text ++ [0])
        = .ok { code := .ERROR_NO_ERROR, value := some val, buf := buf',
                allocs := sampleTree.count - 1 } ∧
      val.resolve buf' = sampleTree :=
  parse_dump_roundtrip ieee 3 true sampleTree 0 (Or.inr rfl)
    (by simp [sampleTree, Value.Plain, Nodes.Plain]) (by decide) (by decide)

/-- C2: on the buffer `[` NUL, whose last byte is 0x00, `jsonParse` reads the
byte at index 2, outside the buffer: the whitespace skipping takes the NUL for
whitespace and tests the byte after it. -/
theorem skip_reads_past_nul (F : FloatOps) (avail : Nat) :
    jsonParse F avail [91, 0] = .fault (.outOfBounds 2) := rfl

/-- C3: for every string body made of valid pieces (ordinary bytes, a
backslash followed by a byte other than NUL and `u`, and `\u` with four
hexadecimal digits) and terminated by `"`, `parseStringInternal` returns true,
leaves the cursor just past the closing quote and leaves at the start of the
string the decoded content followed by 0x00; `decodeEsc` maps the bytes after
the backslash `b f n r t \ "` to 0x08 0x0C 0x0A 0x0D 0x09 0x5C 0x22 and keeps
any other escape as the backslash and the byte. -/
theorem parseStringInternal_decodes (its : List StrItem) (hv : ∀ i ∈ its, i.Valid)
    (buf : List Nat) (s : Nat) (rest : List Nat)
    (hd : buf.drop s = bodyText its ++ 34 :: rest) :
    parseStringInternal buf s
      = .ok { ok := true, buf := patch buf s (bodyDecoded its ++ [0]),
              s := s + (bodyText its).length + 1,
              pend := s + (bodyDecoded its).length + 1 } :=
  parseStringInternal_spec its hv buf s rest hd

/-- The string body `h\n\q"` decodes to `h`, LF, `\`, `q`. -/
theorem parseStringInternal_decodes_witness :
    parseStringInternal [104, 92, 110, 92, 113, 34, 0] 0
      = .ok { ok := true, buf := [104, 10, 92, 113, 0, 34, 0], s := 6, pend := 5 } :=
  parseStringInternal_decodes [.plain 104, .esc 110, .esc 113] (by decide)
    [104, 92, 110, 92, 113, 34, 0] 0 [0] rfl

/-- C4, as stated, fails: the text `{"a": 1,}` is accepted. -/
theorem trailing_comma_example :
    jsonParse ieee 1 [123, 34, 97, 34, 58, 32, 49, 44, 125, 0]
      = .ok { code := .ERROR_NO_ERROR,
              value := some (.object (.cons (.int 1) (some 2) .nil)),
              buf := [123, 34, 97, 0, 58, 32, 49, 44, 125, 0], allocs := 1 } := rfl

/-- C4, amended: a comma between the last member of a container and its
closing bracket is accepted. For every array or object with at least one
member, valid members and at most 32 levels, the text with `,` and a skipped
stretch `g` before the closing bracket is parsed without error into the same
tree as the text without them. -/
theorem trailing_comma_accepted (F : FloatOps) (avail : Nat) (pre : List Nat) (isObj : Bool)
    (ns : CNodes) (g after : List Nat) (hpre : Gap pre) (hg : Gap g)
    (hv : ns.Valid isObj true) (hne : 0 < ns.size) (hnc : ns.NoTrailingComma)
    (hdepth : ns.depth + 1 ≤ 32) (hal : ns.size ≤ avail) :
    ∃ (buf1 buf2 : List Nat) (val1 val2 : Value Nat),
      jsonParse F avail (pre ++ openerOf isObj :: (ns.text ++ 44 :: (g ++ closerOf isObj :: after)))
        = .ok { code := .ERROR_NO_ERROR, value := some val1, buf := buf1, allocs := ns.size } ∧
      jsonParse F avail (pre ++ openerOf isObj :: (ns.text ++ closerOf isObj :: after))
        = .ok { code := .ERROR_NO_ERROR, value := some val2, buf := buf2, allocs := ns.size } ∧
      val1.resolve buf1 = val2.resolve buf2 :=
  jsonParse_trailing_comma F avail pre isObj ns g after hpre hg hv hne hnc hdepth hal

/-- The texts `[1,]` and `[1]` are parsed into the same tree. -/
theorem trailing_comma_accepted_witness :
    ∃ (buf1 buf2 : List Nat) (val1 val2 : Value Nat),
      jsonParse ieee 1 ([] ++ openerOf false :: (sampleMembers.text ++ 44 :: ([] ++ closerOf false :: [0])))
        = .ok { code := .ERROR_NO_ERROR, value := some val1, buf := buf1,
                allocs := sampleMembers.size } ∧
      jsonParse ieee 1 ([] ++ openerOf false :: (sampleMembers.text ++ closerOf false :: [0]))
        = .ok { code := .ERROR_NO_ERROR, value := some val2, buf := buf2,
                allocs := sampleMembers.size } ∧
      val1.resolve buf1 = val2.resolve buf2 :=
  trailing_comma_accepted ieee 1 [] false sampleMembers [] [0] Gap.nil Gap.nil
    (by simp [sampleMembers, CNodes.Valid, CValue.Valid, IsDigits, Gap.nil])
    (by decide) (by simp [sampleMembers, CNodes.NoTrailingComma]) (by decide) (by decide)

/-- C5: a `//` comment that no whitespace byte precedes is not skipped. The
text `[1//c` LF `]` is rejected with `ERROR_MISMATCH_BRACKET` and the text
`//c` LF `[1]` with `ERROR_BAD_ROOT`, while `[1 //c` LF `]`, with a space
before the `//`, is accepted: the comment test of `ZJSON_SKIP_WHITESPACE`
stands inside the loop over whitespace bytes. -/
theorem comment_after_token_rejected (F : FloatOps) :
    jsonParse F 1 [91, 49, 47, 47, 99, 10, 93, 0]
      = .ok { code := .ERROR_MISMATCH_BRACKET, value := none,
              buf := [91, 49, 47, 47, 99, 10, 93, 0], allocs := 1 } ∧
    jsonParse F 1 [47, 47, 99, 10, 91, 49, 93, 0]
      = .ok { code := .ERROR_BAD_ROOT, value := none,
              buf := [47, 47, 99, 10, 91, 49, 93, 0], allocs := 0 } ∧
    jsonParse F 1 [91, 49, 32, 47, 47, 99, 10, 93, 0]
      = .ok { code := .ERROR_NO_ERROR, value := some (.array (.cons (.int 1) none .nil)),
              buf := [91, 49, 32, 47, 47, 99, 10, 93, 0], allocs := 1 } :=
  ⟨rfl, rfl, rfl⟩

/-- C6, as stated, fails: the ten digits of 1000000000 are parsed into a
Number, not into an Int. -/
theorem ten_digits_example :
    ∃ d : Nat, jsonParse ieee 1 (singleText keyA false (decimalText 1000000000))
      = .ok { code := .ERROR_NO_ERROR, value := some (.array (.cons (.number d) none .nil)),
              buf := [91, 49, 48, 48, 48, 48, 48, 48, 48, 48, 48, 93, 0], allocs := 1 } := by
  rw [← i32toa_decimal 1000000000 (by decide) (by decide)]
  exact ⟨_, rfl⟩

/-- C6, amended: for every integer `n` with `-10^9 < n < 10^9`, the plain
decimal text of `n` as the only element of an array, or as the only member of
an object under a valid key, is parsed into the Int `n`, and dumping the Int
`n` writes the same decimal text. -/
theorem int_text_roundtrip (F : FloatOps) (avail : Nat) (k : CKey) (hk : k.Ok) (isObj : Bool)
    (n : Int) (h1 : -1000000000 < n) (h2 : n < 1000000000) (hal : 1 ≤ avail) :
    (∃ (buf' : List Nat) (val : Value Nat),
      jsonParse F avail (singleText k isObj (decimalText n))
        = .ok { code := .ERROR_NO_ERROR, value := some val, buf := buf', allocs := 1 } ∧
      val.resolve buf' = singleTree (bodyDecoded k.its) isObj (.int n) ∧
      (Value.int n : Value (List Nat)).getType = .JSON_INT ∧
      (Value.int n : Value (List Nat)).toInt = n) ∧
    ∀ (formatted : Bool) (indent : Nat),
      Value.dump F formatted (.int n) indent = .ok (decimalText n) := by
  obtain ⟨buf', val, h, hr⟩ := jsonParse_single_int F avail k hk isObj n h1 h2 hal
  exact ⟨⟨buf', val, h, hr, rfl, rfl⟩,
    fun formatted indent => dump_int F formatted n indent h1 (by omega)⟩

/-- The text `-999999999` as a member of an object. -/
theorem int_text_roundtrip_witness :
    (∃ (buf' : List Nat) (val : Value Nat),
      jsonParse ieee 1 (singleText keyA true (decimalText (-999999999)))
        = .ok { code := .ERROR_NO_ERROR, value := some val, buf := buf', allocs := 1 } ∧
      val.resolve buf' = singleTree (bodyDecoded keyA.its) true (.int (-999999999)) ∧
      (Value.int (-999999999) : Value (List Nat)).getType = .JSON_INT ∧
      (Value.int (-999999999) : Value (List Nat)).toInt = -999999999) ∧
    ∀ (formatted : Bool) (indent : Nat),
      Value.dump ieee formatted (.int (-999999999)) indent = .ok (decimalText (-999999999)) :=
  int_text_roundtrip ieee 1 keyA keyA_ok true (-999999999) (by decide) (by decide) (by decide)

/-- C7: for every number token made of an optional `-` and 1 to 9 decimal
digits, followed by a byte that is no digit, `.`, `e` or `E`, the number case
of `jsonParse` stores in the node of the element the Int whose value is the
decimal value of the digits, negated when the `-` is there, and leaves the
cursor at the byte after the token. -/
theorem int_token_stored (F : FloatOps) (st : PState) (f : Frame) (rest : List Frame)
    (n0 : PNode) (t : List PNode) (neg : Bool) (ds : List Nat) (c : Nat) (tl : List Nat)
    (c0 : Nat) (hst : st.stack = f :: rest) (hf : f.tail = n0 :: t)
    (h1 : 1 ≤ ds.length) (h9 : ds.length ≤ 9) (hds : IsDigits ds) (hc : NotNumber c)
    (hd : st.buf.drop st.s = ((if neg then [45] else []) ++ ds) ++ c :: tl)
    (hc0 : ((if neg then [45] else []) ++ ds).head? = some c0) :
    parseValue F st c0
      = .ok (.cont { st with s := st.s + ((if neg then [45] else []) ++ ds).length,
                             stack := { f with tail := { n0 with value := (Value.int
                               (if neg then -(digitsVal ds : Int) else (digitsVal ds : Int))) } :: t } :: rest }
                   c0) :=
  parseValue_int F st f rest n0 t neg ds c tl c0 hst hf hd hc hc0 ⟨h1, h9, hds⟩

/-- The token `-42` of the text `[-42]` is stored as the Int -42. -/
theorem int_token_stored_witness :
    parseValue ieee sampleState 45
      = .ok (.cont { sampleState with s := 4, stack := [{ tail := [{ value := Value.int (-42), name := none }], endchar := 93 }] } 45) :=
  int_token_stored ieee sampleState { tail := [{ value := Value.null, name := none }], endchar := 93 } []
    { value := Value.null, name := none } [] true [52, 50] 93 [0] 45 rfl rfl (by decide)
    (by decide) (by simp [IsDigits]) (by simp [NotNumber]) rfl rfl

/-- C8: with an allocator that serves 32 nodes, the text of `n` opening `[`
followed by `n` closing `]` is parsed without error into `n` nested arrays
when `n ≤ 32` and yields `ERROR_STACK_OVERFLOW` when `n ≥ 33`; the same holds
for every nest of `n` arrays and objects (outermost kind `b`, inner kinds
`ks`, the valid key `k` in front of the member of an object). -/
theorem nesting_limit (F : FloatOps) (avail : Nat) (n : Nat) (k : CKey) (b : Bool)
    (ks : List Bool) (hal : 32 ≤ avail) (hk : k.Ok) (hn : ks.length + 1 = n) :
    (n ≤ 32 →
      (∃ (buf' : List Nat) (val : Value Nat),
        jsonParse F avail (List.replicate n 91 ++ List.replicate n 93 ++ [0])
          = .ok { code := .ERROR_NO_ERROR, value := some val, buf := buf', allocs := n - 1 } ∧
        val.resolve buf' = nestTree [] false (List.replicate (n - 1) false)) ∧
      (∃ (buf' : List Nat) (val : Value Nat),
        jsonParse F avail (nestText k b ks ++ [0])
          = .ok { code := .ERROR_NO_ERROR, value := some val, buf := buf', allocs := n - 1 } ∧
        val.resolve buf' = nestTree (bodyDecoded k.its) b ks)) ∧
    (33 ≤ n →
      (∃ buf' : List Nat,
        jsonParse F avail (List.replicate n 91 ++ List.replicate n 93 ++ [0])
          = .ok { code := .ERROR_STACK_OVERFLOW, value := none, buf := buf', allocs := 32 }) ∧
      (∃ buf' : List Nat,
        jsonParse F avail (nestText k b ks ++ [0])
          = .ok { code := .ERROR_STACK_OVERFLOW, value := none, buf := buf', allocs := 32 })) := by
  subst hn
  have harr : List.replicate (ks.length + 1) 91 ++ List.replicate (ks.length + 1) 93
      = nestText { its := [], g1 := [], g2 := [] } false (List.replicate ks.length false) :=
    (nestText_arrays _ ks.length).symm
  have hk0 : CKey.Ok { its := [], g1 := [], g2 := [] } :=
    ⟨fun _ h => by simp at h, Gap.nil, Gap.nil⟩
  constructor
  · intro h32
    constructor
    · have := jsonParse_nest_ok F avail _ hk0 false (List.replicate ks.length false) [0]
        (by simpa using h32) (by simp; omega)
      rw [harr]
      simpa [bodyDecoded] using this
    · have := jsonParse_nest_ok F avail k hk b ks [0] h32 (by omega)
      simpa using this
  · intro h33
    constructor
    · have := jsonParse_nest_overflow F avail _ hk0 false (List.replicate ks.length false) [0]
        (by simpa using h33) hal
      rw [harr]
      exact this
    · exact jsonParse_nest_overflow F avail k hk b ks [0] h33 hal

/-- The nest `[{"a":[]}]` of three containers. -/
theorem nesting_limit_witness :
    (3 ≤ 32 →
      (∃ (buf' : List Nat) (val : Value Nat),
        jsonParse ieee 32 (List.replicate 3 91 ++ List.replicate 3 93 ++ [0])
          = .ok { code := .ERROR_NO_ERROR, value := some val, buf := buf', allocs := 3 - 1 } ∧
        val.resolve buf' = nestTree [] false (List.replicate (3 - 1) false)) ∧
      (∃ (buf' : List Nat) (val : Value Nat),
        jsonParse ieee 32 (nestText keyA false [true, false] ++ [0])
          = .ok { code := .ERROR_NO_ERROR, value := some val, buf := buf', allocs := 3 - 1 } ∧
        val.resolve buf' = nestTree (bodyDecoded keyA.its) false [true, false])) ∧
    (33 ≤ 3 →
      (∃ buf' : List Nat,
        jsonParse ieee 32 (List.replicate 3 91 ++ List.replicate 3 93 ++ [0])
          = .ok { code := .ERROR_STACK_OVERFLOW, value := none, buf := buf', allocs := 32 }) ∧
      (∃ buf' : List Nat,
        jsonParse ieee 32 (nestText keyA false [true, false] ++ [0])
          = .ok { code := .ERROR_STACK_OVERFLOW, value := none, buf := buf', allocs := 32 })) :=
  nesting_limit ieee 32 3 keyA false [true, false] (by decide) keyA_ok rfl

/-- C9: the text that `dtoa_milo` writes for a double is not always read back
as that double. For the double nearest to 0.00007, which is the correctly
rounded value of 7/100000, `dtoa_milo` writes `0.00007`, and the number case
of `jsonParse` reads `0.00007` in an array as the Number whose pattern is one
above: it multiplies the double 7 by the rounded constant 1e-5, and the
rounded product is the next double. For the double 0.0 the text is `0`, which
is read as the Int 0. -/
theorem dtoa_text_read_back_one_bit_off :
    roundPos 7 100000 = dSevenE5 ∧
    dtoa_milo ieee dSevenE5 = .ok [48, 46, 48, 48, 48, 48, 55] ∧
    jsonParse ieee 1 (singleText keyA false [48, 46, 48, 48, 48, 48, 55])
      = .ok { code := .ERROR_NO_ERROR,
              value := some (.array (.cons (.number (dSevenE5 + 1)) none .nil)),
              buf := [91, 48, 46, 48, 48, 48, 48, 55, 93, 0], allocs := 1 } ∧
    dtoa_milo ieee 0 = .ok [48] ∧
    jsonParse ieee 1 (singleText keyA false [48])
      = .ok { code := .ERROR_NO_ERROR, value := some (.array (.cons (.int 0) none .nil)),
              buf := [91, 48, 93, 0], allocs := 1 } := by
  have h : ∃ d : Nat, jsonParse ieee 1 (singleText keyA false [48, 46, 48, 48, 48, 48, 55])
      = .ok { code := .ERROR_NO_ERROR, value := some (.array (.cons (.number d) none .nil)),
              buf := [91, 48, 46, 48, 48, 48, 48, 55, 93, 0], allocs := 1 } ∧
      d = dSevenE5 + 1 := ⟨_, rfl, by decide!⟩
  obtain ⟨d, h1, h2⟩ := h
  rw [h2] at h1
  exact ⟨by decide!, by decide!, h1, rfl, rfl⟩

/-- C10: dump is not idempotent through a parse. In the compact layout, the
text `[70e-6]` is parsed and dumped as `[0.00007]`, and `[0.00007]` is parsed
and dumped as `[0.00007000000000000001]`: the product `70 * 1e-6` is the
double nearest to 0.00007, the product `7 * 1e-5` is the next one. -/
theorem dump_not_idempotent :
    emitParse ieee false 1 [91, 55, 48, 101, 45, 54, 93, 0]
      = .ok (some [91, 48, 46, 48, 48, 48, 48, 55, 93]) ∧
    emitParse ieee false 1 [91, 48, 46, 48, 48, 48, 48, 55, 93, 0]
      = .ok (some [91, 48, 46, 48, 48, 48, 48, 55, 48, 48, 48, 48, 48, 48, 48, 48, 48, 48, 48,
              48, 48, 48, 49, 93]) := by
  decide!

theorem digitsValue_foldl (ds : List Nat) (a : Nat) :
    ds.foldl (fun a d => 10 * a + (d - 48)) a = a * 10 ^ ds.length + digitsValue ds := by
  induction ds generalizing a with
  | nil => simp [digitsValue]
  | cons d ds ih =>
    simp only [List.foldl_cons, digitsValue, List.length_cons]
    rw [ih, ih (10 * 0 + (d - 48))]
    ring

theorem digitsValue_append (a b : List Nat) :
    digitsValue (a ++ b) = digitsValue a * 10 ^ b.length + digitsValue b := by
  unfold digitsValue
  rw [List.foldl_append, digitsValue_foldl]
  rfl

theorem digitsValue_zeros (n : Nat) : digitsValue (List.replicate n 48) = 0 := by
  induction n with
  | zero => rfl
  | succ n ih =>
    have : List.replicate (n + 1) 48 = [48] ++ List.replicate n 48 := rfl
    rw [this, digitsValue_append, ih]
    simp [digitsValue]

theorem allDigits_append (a b : List Nat) :
    allDigits (a ++ b) = (allDigits a && allDigits b) := by
  simp [allDigits, List.all_append]

theorem allDigits_zeros (n : Nat) : allDigits (List.replicate n 48) = true := by
  simp [allDigits, List.all_eq_true]

theorem allDigits_ne (ds : List Nat) (h : allDigits ds = true) (c : Nat)
    (hc : ¬ (48 ≤ c ∧ c ≤ 57)) : ∀ x ∈ ds, x ≠ c := by
  intro x hx e
  simp only [allDigits, List.all_eq_true, Bool.and_eq_true, decide_eq_true_eq] at h
  have := h x hx
  subst e
  exact hc this

theorem allDigits_take (ds : List Nat) (h : allDigits ds = true) (n : Nat) :
    allDigits (ds.take n) = true := by
  simp only [allDigits, List.all_eq_true] at h ⊢
  intro x hx
  exact h x (List.mem_of_mem_take hx)

theorem allDigits_drop (ds : List Nat) (h : allDigits ds = true) (n : Nat) :
    allDigits (ds.drop n) = true := by
  simp only [allDigits, List.all_eq_true] at h ⊢
  intro x hx
  exact h x (List.mem_of_mem_drop hx)

theorem split_at_byte (c : Nat) (a r : List Nat) (h : ∀ x ∈ a, x ≠ c) :
    (a ++ c :: r).takeWhile (fun x => x != c) = a ∧
    (a ++ c :: r).dropWhile (fun x => x != c) = c :: r := by
  induction a with
  | nil => simp [List.takeWhile, List.dropWhile]
  | cons x a ih =>
    have hx : (x != c) = true := by simpa using h x (List.mem_cons_self _ _)
    have := ih (fun y hy => h y (List.mem_cons_of_mem _ hy))
    rw [List.cons_append, List.takeWhile_cons, List.dropWhile_cons]
    simp only [hx, if_true, this.1, this.2, and_self]

theorem split_none (c : Nat) (a : List Nat) (h : ∀ x ∈ a, x ≠ c) :
    a.takeWhile (fun x => x != c) = a ∧ a.dropWhile (fun x => x != c) = [] := by
  induction a with
  | nil => simp
  | cons x a ih =>
    have hx : (x != c) = true := by simpa using h x (List.mem_cons_self _ _)
    have := ih (fun y hy => h y (List.mem_cons_of_mem _ hy))
    rw [List.takeWhile_cons, List.dropWhile_cons]
    simp only [hx, if_true, this.1, this.2, and_self]

/-- A run of digits reads as its value. -/
theorem readMantissa_digits (ds : List Nat) (hd : allDigits ds = true) (hne : ds ≠ []) :
    readMantissa ds = some (digitsValue ds : ℚ) := by
  have h := split_none 46 ds (allDigits_ne ds hd 46 (by omega))
  simp only [readMantissa, h.1, h.2, hd, hne, ne_eq, not_false_eq_true, and_self, if_true]

/-- Digits, a point and digits read as the value of all the digits over the
power of ten of the fraction length. -/
theorem readMantissa_point (ip fp : List Nat) (hi : allDigits ip = true) (hf : allDigits fp = true)
    (hine : ip ≠ []) (hfne : fp ≠ []) :
    readMantissa (ip ++ 46 :: fp) = some ((digitsValue (ip ++ fp) : ℚ) / 10 ^ fp.length) := by
  have h := split_at_byte 46 ip fp (allDigits_ne ip hi 46 (by omega))
  simp only [readMantissa, h.1, h.2, hi, hf, hine, hfne, ne_eq, not_false_eq_true, and_self, if_true]

/-- For an exponent of fewer than four digits `WriteExponent` writes its plain
decimal text. -/
theorem WriteExponent_decimal (K : Int) (h1 : -1000 < K) (h2 : K < 1000) :
    WriteExponent K = decimalText K := by
  have hu : K.natAbs < 1000 := by omega
  generalize hK : K.natAbs = u at hu
  have body : (if u ≥ 100 then [(48 + u / 100) % 256, lut (u % 100 * 2), lut (u % 100 * 2 + 1)]
      else if u ≥ 10 then [lut (u * 2), lut (u * 2 + 1)] else [48 + u]) = natDecimal u := by
    by_cases c1 : u ≥ 100
    · have a := lut_spec (u % 100) (by omega)
      rw [Nat.mul_comm 2 _] at a
      rw [natDecimal_3 u c1 hu, if_pos c1, a.1, a.2]
      simp only [List.cons.injEq, and_true]
      clear a
      omega
    · by_cases c2 : u ≥ 10
      · have a := lut_spec u (by omega)
        rw [Nat.mul_comm 2 _] at a
        rw [natDecimal_2 u c2 (by omega), if_neg c1, if_pos c2, a.1, a.2]
        simp only [List.cons.injEq, and_true]
        clear a
        omega
      · rw [if_neg c1, if_neg c2]
        by_cases c3 : u = 0
        · subst c3; rfl
        · rw [natDecimal_1 u (by omega) (by omega)]
          simp only [List.cons.injEq, and_true]
          omega
  unfold WriteExponent decimalText
  simp only [hK, body]
  by_cases hn : K < 0
  · simp only [hn, if_true, List.cons_append, List.nil_append]
  · simp only [hn, if_false, List.nil_append]

theorem natDecimal_reads (u : Nat) (hu : u < 1000) :
    natDecimal u ≠ [] ∧ allDigits (natDecimal u) = true ∧ digitsValue (natDecimal u) = u ∧
    natDecimal u ≠ 45 :: (natDecimal u).tail := by
  by_cases c1 : u ≥ 100
  · rw [natDecimal_3 u c1 hu]
    simp only [allDigits, digitsValue, List.all_cons, List.all_nil, List.foldl_cons, List.foldl_nil,
      ne_eq, List.cons_ne_nil, not_false_eq_true, true_and, Bool.and_true, Bool.and_eq_true,
      decide_eq_true_eq, List.tail_cons, List.cons.injEq, and_true]
    omega
  · by_cases c2 : u ≥ 10
    · rw [natDecimal_2 u c2 (by omega)]
      simp only [allDigits, digitsValue, List.all_cons, List.all_nil, List.foldl_cons, List.foldl_nil,
        ne_eq, List.cons_ne_nil, not_false_eq_true, true_and, Bool.and_true, Bool.and_eq_true,
        decide_eq_true_eq, List.tail_cons, List.cons.injEq, and_true]
      omega
    · by_cases c3 : u = 0
      · subst c3; decide
      · rw [natDecimal_1 u (by omega) (by omega)]
        simp only [allDigits, digitsValue, List.all_cons, List.all_nil, List.foldl_cons, List.foldl_nil,
          ne_eq, List.cons_ne_nil, not_false_eq_true, true_and, Bool.and_true, Bool.and_eq_true,
          decide_eq_true_eq, List.tail_cons, List.cons.injEq, and_true]
        omega

/-- The plain decimal text of an exponent of fewer than four digits reads as
that exponent. -/
theorem readExponent_decimal (K : Int) (h1 : -1000 < K) (h2 : K < 1000) :
    readExponent (decimalText K) = some K := by
  have hu : K.natAbs < 1000 := by omega
  obtain ⟨a, b, c, d⟩ := natDecimal_reads K.natAbs hu
  unfold decimalText
  by_cases hn : K < 0
  · simp only [hn, if_true, readExponent, a, b, c, ne_eq, not_false_eq_true, and_self]
    congr 1
    omega
  · simp only [hn, if_false]
    cases e : natDecimal K.natAbs with
    | nil => exact absurd e a
    | cons x r =>
      have hx : x ≠ 45 := by
        intro hx
        rw [e, hx] at d
        exact d rfl
      rw [e] at b c
      unfold readExponent
      split
      · rename_i r2 heq
        simp only [List.cons.injEq] at heq
        exact absurd heq.1 hx
      · simp only [b, c, ne_eq, List.cons_ne_nil, not_false_eq_true, and_self, if_true]
        congr 1
        omega

theorem readDecimal_plain (t : List Nat) (h : ∀ x ∈ t, x ≠ 101) :
    readDecimal t = readMantissa t := by
  have a := split_none 101 t h
  simp only [readDecimal, a.1, a.2]

theorem readDecimal_exp (m e : List Nat) (h : ∀ x ∈ m, x ≠ 101) (a : ℚ) (b : Int)
    (hm : readMantissa m = some a) (he : readExponent e = some b) :
    readDecimal (m ++ 101 :: e) = some (a * 10 ^ b) := by
  have s := split_at_byte 101 m e h
  simp only [readDecimal, s.1, s.2, hm, he]

/-- For digit strings of at most 17 digits and exponents of fewer than four
digits `Prettify` leaves the text of the specification. -/
theorem Prettify_eq_shape (ds : List Nat) (k : Int) (hL : ds.length ≤ 17)
    (h1 : -1000 < (ds.length : Int) + k - 1) (h2 : (ds.length : Int) + k - 1 < 1000) :
    Prettify ds k = prettyShape ds k := by
  have we := WriteExponent_decimal (ds.length + k - 1) h1 h2
  simp only [Prettify, prettyShape, we]
  split_ifs <;> first
    | omega
    | simp only [List.append_assoc, List.cons_append, List.nil_append, List.singleton_append]

/-- The text of the specification reads as the digits times the power of ten. -/
theorem prettyShape_value (ds : List Nat) (k : Int) (hd : allDigits ds = true)
    (hL1 : 1 ≤ ds.length) (hL : ds.length ≤ 17)
    (h1 : -1000 < (ds.length : Int) + k - 1) (h2 : (ds.length : Int) + k - 1 < 1000) :
    readDecimal (prettyShape ds k) = some ((digitsValue ds : ℚ) * 10 ^ k) := by
  have hne : ds ≠ [] := by
    intro e; rw [e] at hL1; simp at hL1
  have h10 : (10 : ℚ) ≠ 0 := by norm_num
  simp only [prettyShape]
  by_cases c1 : (ds.length : Int) ≤ ds.length + k ∧ (ds.length : Int) + k ≤ 21
  · rw [if_pos c1]
    have hz : ((ds.length : Int) + k - ds.length).toNat = k.toNat := by congr 1; omega
    rw [hz]
    have hall : allDigits (ds ++ List.replicate k.toNat 48) = true := by
      rw [allDigits_append, hd, allDigits_zeros]; rfl
    rw [readDecimal_plain _ (allDigits_ne _ hall 101 (by omega)),
      readMantissa_digits _ hall (by simp [hne]), digitsValue_append, digitsValue_zeros,
      List.length_replicate]
    have hk : k = (k.toNat : Int) := by omega
    congr 1
    conv_rhs => rw [hk]
    rw [zpow_natCast]
    push_cast
    ring
  · rw [if_neg c1]
    by_cases c2 : 0 < (ds.length : Int) + k ∧ (ds.length : Int) + k < ds.length
    · rw [if_pos c2]
      generalize hj : ((ds.length : Int) + k).toNat = j
      have hj1 : 0 < j := by omega
      have hj2 : j < ds.length := by omega
      have ht := allDigits_take ds hd j
      have hr := allDigits_drop ds hd j
      have hall : ∀ x ∈ ds.take j ++ [46] ++ ds.drop j, x ≠ 101 := by
        intro x hx
        simp only [List.mem_append, List.mem_singleton] at hx
        rcases hx with (hx | hx) | hx
        · exact allDigits_ne _ ht 101 (by omega) x hx
        · omega
        · exact allDigits_ne _ hr 101 (by omega) x hx
      rw [readDecimal_plain _ hall]
      have e : ds.take j ++ [46] ++ ds.drop j = ds.take j ++ 46 :: ds.drop j := by simp
      rw [e, readMantissa_point _ _ ht hr
        (by intro h; have := congrArg List.length h
            rw [List.length_take, List.length_nil] at this; omega)
        (by intro h; have := congrArg List.length h
            rw [List.length_drop, List.length_nil] at this; omega),
        List.take_append_drop, List.length_drop]
      have hk : k = -((ds.length - j : Nat) : Int) := by omega
      congr 1
      conv_rhs => rw [hk]
      rw [zpow_neg, zpow_natCast, div_eq_mul_inv]
    · rw [if_neg c2]
      by_cases c3 : -6 < (ds.length : Int) + k ∧ (ds.length : Int) + k ≤ 0
      · rw [if_pos c3]
        generalize hz : (-((ds.length : Int) + k)).toNat = z
        have hf : allDigits (List.replicate z 48 ++ ds) = true := by
          rw [allDigits_append, hd, allDigits_zeros]; rfl
        have hall : ∀ x ∈ [48, 46] ++ List.replicate z 48 ++ ds, x ≠ 101 := by
          intro x hx
          simp only [List.append_assoc, List.mem_append, List.mem_cons, List.mem_singleton,
            List.not_mem_nil, or_false] at hx
          rcases hx with (hx | hx) | hx
          · omega
          · omega
          · exact allDigits_ne _ hf 101 (by omega) x (by simpa using hx)
        rw [readDecimal_plain _ hall]
        have e : [48, 46] ++ List.replicate z 48 ++ ds = [48] ++ 46 :: (List.replicate z 48 ++ ds) := by
          simp
        rw [e, readMantissa_point _ _ (by decide) hf (by simp) (by simp [hne]),
          digitsValue_append, digitsValue_append, digitsValue_zeros, List.length_append,
          List.length_replicate]
        have hk : k = -((z + ds.length : Nat) : Int) := by omega
        congr 1
        conv_rhs => rw [hk]
        rw [zpow_neg, zpow_natCast, div_eq_mul_inv]
        simp [digitsValue]
      · rw [if_neg c3]
        have rexp := readExponent_decimal ((ds.length : Int) + k - 1) h1 h2
        by_cases c4 : (ds.length : Int) = 1
        · rw [if_pos c4]
          have e : ds ++ [101] ++ decimalText ((ds.length : Int) + k - 1)
              = ds ++ 101 :: decimalText ((ds.length : Int) + k - 1) := by simp
          rw [e, readDecimal_exp _ _ (allDigits_ne _ hd 101 (by omega)) _ _
            (readMantissa_digits ds hd hne) rexp]
          have : (ds.length : Int) + k - 1 = k := by omega
          rw [this]
        · rw [if_neg c4]
          have ht := allDigits_take ds hd 1
          have hr := allDigits_drop ds hd 1
          have hall : ∀ x ∈ ds.take 1 ++ 46 :: ds.drop 1, x ≠ 101 := by
            intro x hx
            simp only [List.mem_append, List.mem_cons] at hx
            rcases hx with hx | hx | hx
            · exact allDigits_ne _ ht 101 (by omega) x hx
            · omega
            · exact allDigits_ne _ hr 101 (by omega) x hx
          have e : ds.take 1 ++ [46] ++ ds.drop 1 ++ [101] ++ decimalText ((ds.length : Int) + k - 1)
              = (ds.take 1 ++ 46 :: ds.drop 1) ++ 101 :: decimalText ((ds.length : Int) + k - 1) := by
            simp
          have hm := readMantissa_point _ _ ht hr
            (by intro h; have := congrArg List.length h
                rw [List.length_take, List.length_nil] at this; omega)
            (by intro h; have := congrArg List.length h
                rw [List.length_drop, List.length_nil] at this; omega)
          rw [List.take_append_drop, List.length_drop] at hm
          rw [e, readDecimal_exp _ _ hall _ _ hm rexp]
          congr 1
          have hk : (ds.length : Int) + k - 1 = k + ((ds.length - 1 : Nat) : Int) := by omega
          rw [hk, zpow_add₀ h10, zpow_natCast]
          field_simp
          ring

/-- With every read checked, `Grisu2` reads outside its table of powers of
ten: for the double 0.30000000000000004 (the sum 0.1 + 0.2), of 17 significant
digits, the second loop of `DigitGen` ends with `kappa = -13` and reads
`kPow10[13]`, and the table has the 10 entries `kPow10[0]` to `kPow10[9]`. -/
theorem grisu2_reads_past_table : Grisu2 dThreeTenths = .fault (.outOfBounds 13) := by
  decide!

/-- C12: in the compact layout the array of the Number values 0.1, 1e100 and
-3.14 is dumped as the text `[0.1,1e100,-3.14]`. -/
theorem dump_three_numbers :
    Value.dump ieee false
      (.array (.cons (.number 4591870180066957722) none
        (.cons (.number 6103021453049119613) none
          (.cons (.number (4614253070214989087 + 2 ^ 63)) none .nil)))) 0
      = .ok [91, 48, 46, 49, 44, 49, 101, 49, 48, 48, 44, 45, 51, 46, 49, 52, 93] := by
  decide!

/-- C13, as the specification words it, fails: for the digit string `1` and
the decimal exponent 1000 `Prettify` leaves the text `1e:00`, which is no
decimal text: `WriteExponent` writes the hundreds of the exponent as one byte,
`0` plus 10 here. -/
theorem prettify_exponent_1000 :
    Prettify [49] 1000 = [49, 101, 58, 48, 48] ∧ readDecimal (Prettify [49] 1000) = none ∧
    prettyShape [49] 1000 = [49, 101, 49, 48, 48, 48] := by
  decide!

/-- C13, amended: for every string `ds` of 1 to 17 digits and every decimal
exponent `k` with `-1000 < kk - 1 < 1000`, where `kk = L + k`, `Prettify`
leaves the text of the specification for these shapes (the digits followed by
zeros, the digits with a point inside, `0.` with zeros and the digits, or
scientific notation with the exponent `kk - 1`), and that text reads as the
decimal value digits x 10^k. -/
theorem prettify_shapes (ds : List Nat) (k : Int) (hd : allDigits ds = true)
    (hL1 : 1 ≤ ds.length) (hL : ds.length ≤ 17)
    (h1 : -1000 < (ds.length : Int) + k - 1) (h2 : (ds.length : Int) + k - 1 < 1000) :
    Prettify ds k = prettyShape ds k ∧
    readDecimal (Prettify ds k) = some ((digitsValue ds : ℚ) * 10 ^ k) := by
  have e := Prettify_eq_shape ds k hL h1 h2
  exact ⟨e, by rw [e]; exact prettyShape_value ds k hd hL1 hL h1 h2⟩

theorem prettify_shapes_witness :
    Prettify [49, 50, 51, 52] (-2) = prettyShape [49, 50, 51, 52] (-2) ∧
    readDecimal (Prettify [49, 50, 51, 52] (-2))
      = some ((digitsValue [49, 50, 51, 52] : ℚ) * 10 ^ (-2 : Int)) :=
  prettify_shapes [49, 50, 51, 52] (-2) (by decide) (by decide) (by decide) (by decide) (by decide)

theorem escapeLoop_terminated : ∀ (s rest : List Nat), (∀ c ∈ s, c ≠ 0) →
    escapeLoop (s ++ 0 :: rest) = s.flatMap escapeByte
  | [], rest, _ => by simp [escapeLoop]
  | c :: s, rest, h => by
    have hc : c ≠ 0 := h c (List.mem_cons_self _ _)
    have ih := escapeLoop_terminated s rest (fun x hx => h x (List.mem_cons_of_mem _ hx))
    simp only [List.cons_append, escapeLoop, hc, if_false, List.append_eq, ih, List.flatMap_cons]

/-- C14: for every 32-bit signed integer `n`, `-2^31` included, `i32toa`
stores the plain decimal text of `n` (a `-` in front of a negative one, no
leading zeros, `0` for zero) from `buffer` on and returns the position just
past the last byte it stored. -/
theorem i32toa_canonical (n : Int) (mem : List Nat) (buffer : Nat)
    (h1 : -2147483648 ≤ n) (h2 : n ≤ 2147483647)
    (hroom : buffer + (decimalText n).length ≤ mem.length) :
    i32toaAt n mem buffer
      = .ok (patch mem buffer (decimalText n), buffer + (decimalText n).length) := by
  unfold i32toaAt
  rw [i32toa_decimal n h1 h2]
  exact stores_spec _ mem buffer hroom

theorem i32toa_canonical_witness :
    i32toaAt (-2147483648) (List.replicate 12 0) 0
      = .ok (patch (List.replicate 12 0) 0 (decimalText (-2147483648)),
          0 + (decimalText (-2147483648)).length) :=
  i32toa_canonical (-2147483648) (List.replicate 12 0) 0 (by decide) (by decide)
    (by rw [← i32toa_decimal _ (by decide) (by decide)]; decide)

/-- C15: for every NUL-terminated byte string `writeEscaped` writes a quote,
then for each byte before the NUL, in order, what the loop body writes for it,
then a closing quote; and for every byte from 0x01 to 0x7E the loop body writes
what the specification lists: the byte itself when it is printable ASCII other
than the quote and the backslash, the escapes `\b \f \n \r \t \\ \"` for the
bytes 0x08 0x0C 0x0A 0x0D 0x09 0x5C 0x22, and `\u00HH` with two lower-case
hexadecimal digits for every other control byte. -/
theorem writeEscaped_bytes (s rest : List Nat) (hs : ∀ c ∈ s, c ≠ 0) :
    writeEscaped (s ++ 0 :: rest) = 34 :: (s.flatMap escapeByte ++ [34]) ∧
    ∀ c, 1 ≤ c → c ≤ 0x7E → escapeByte c = escapeSpec c := by
  refine ⟨?_, ?_⟩
  · simp only [writeEscaped, escapeLoop_terminated s rest hs, List.cons_append]
  · intro c h1 h2
    interval_cases c <;> rfl

theorem writeEscaped_bytes_witness :
    writeEscaped ([97, 10, 1] ++ 0 :: [55]) = 34 :: ([97, 10, 1].flatMap escapeByte ++ [34]) ∧
    ∀ c, 1 ≤ c → c ≤ 0x7E → escapeByte c = escapeSpec c :=
  writeEscaped_bytes [97, 10, 1] [55] (by decide)

mutual
theorem Value.dumpText_compact (F : FloatOps) (num : Nat → List Nat) :
    ∀ (v : Value (List Nat)) (indent : Nat), v.Fits F num →
    Value.dumpText num false v indent = v.compactText num
  | .number d, _, _ => by simp [Value.dumpText, Value.compactText]
  | .int n, _, h => by
    simp only [Value.Fits] at h
    simp only [Value.dumpText, Value.compactText]
    exact i32toa_decimal n (by omega) h.2
  | .string s, _, _ => by simp [Value.dumpText, Value.compactText]
  | .array .nil, _, _ => by simp [Value.dumpText, Value.compactText, Nodes.compactText]
  | .array (.cons v name next), indent, h => by
    simp only [Value.Fits] at h
    have := Nodes.members_dumpText_compact F num false (.cons v name next) (indent + 1) h
    simp [Value.dumpText, Value.compactText, this]
  | .object .nil, _, _ => by simp [Value.dumpText, Value.compactText, Nodes.compactText]
  | .object (.cons v name next), indent, h => by
    simp only [Value.Fits] at h
    have := Nodes.members_dumpText_compact F num true (.cons v name next) (indent + 1) h
    simp [Value.dumpText, Value.compactText, this]
  | .jtrue, _, _ => by simp [Value.dumpText, Value.compactText]
  | .jfalse, _, _ => by simp [Value.dumpText, Value.compactText]
  | .null, _, _ => by simp [Value.dumpText, Value.compactText]
theorem Nodes.members_dumpText_compact (F : FloatOps) (num : Nat → List Nat) (isObj : Bool) :
    ∀ (ns : Nodes (List Nat)) (indent : Nat), ns.Fits F num →
    Nodes.dumpText num false isObj ns indent = ns.compactText num isObj
  | .nil, _, _ => by simp [Nodes.dumpText, Nodes.compactText]
  | .cons v name next, indent, h => by
    simp only [Nodes.Fits] at h
    have h1 := Value.dumpText_compact F num v indent h.1
    have h2 := Nodes.members_dumpText_compact F num isObj next indent h.2
    simp only [Nodes.dumpText, Nodes.compactText]
    rw [h1, h2]
    cases next <;> cases isObj <;> simp
end

mutual
theorem Value.dumpText_formatted (F : FloatOps) (num : Nat → List Nat) :
    ∀ (v : Value (List Nat)) (indent : Nat), v.Fits F num →
    Value.dumpText num true v indent = v.formattedText num indent
  | .number d, _, _ => by simp [Value.dumpText, Value.formattedText]
  | .int n, _, h => by
    simp only [Value.Fits] at h
    simp only [Value.dumpText, Value.formattedText]
    exact i32toa_decimal n (by omega) h.2
  | .string s, _, _ => by simp [Value.dumpText, Value.formattedText]
  | .array .nil, _, _ => by simp [Value.dumpText, Value.formattedText]
  | .array (.cons v name next), indent, h => by
    simp only [Value.Fits] at h
    have := Nodes.members_dumpText_formatted F num false (.cons v name next) (indent + 1) h
    simp [Value.dumpText, Value.formattedText, this, writeTabs]
  | .object .nil, _, _ => by simp [Value.dumpText, Value.formattedText]
  | .object (.cons v name next), indent, h => by
    simp only [Value.Fits] at h
    have := Nodes.members_dumpText_formatted F num true (.cons v name next) (indent + 1) h
    simp [Value.dumpText, Value.formattedText, this, writeTabs]
  | .jtrue, _, _ => by simp [Value.dumpText, Value.formattedText]
  | .jfalse, _, _ => by simp [Value.dumpText, Value.formattedText]
  | .null, _, _ => by simp [Value.dumpText, Value.formattedText]
theorem Nodes.members_dumpText_formatted (F : FloatOps) (num : Nat → List Nat) (isObj : Bool) :
    ∀ (ns : Nodes (List Nat)) (indent : Nat), ns.Fits F num →
    Nodes.dumpText num true isObj ns indent = ns.formattedText num isObj indent
  | .nil, _, _ => by simp [Nodes.dumpText, Nodes.formattedText]
  | .cons v name next, indent, h => by
    simp only [Nodes.Fits] at h
    have h1 := Value.dumpText_formatted F num v indent h.1
    have h2 := Nodes.members_dumpText_formatted F num isObj next indent h.2
    simp only [Nodes.dumpText, Nodes.formattedText]
    rw [h1, h2]
    cases next <;> cases isObj <;> simp [writeTabs]
end

theorem escapeByte_nospace (c : Nat) (hc : c ≠ 32) : ∀ x ∈ escapeByte c, 32 < x := by
  by_cases h : c ≥ 32 ∧ c ≠ 34 ∧ c ≠ 92
  · unfold escapeByte
    rw [if_pos h]
    intro x hx
    simp only [List.mem_singleton] at hx
    omega
  · have hlt : c < 32 ∨ c = 34 ∨ c = 92 := by omega
    rcases hlt with hlt | hlt | hlt
    · interval_cases c <;> decide
    · subst hlt; decide
    · subst hlt; decide

theorem escapeLoop_nospace : ∀ (s : List Nat), (∀ x ∈ s, x ≠ 32) → ∀ x ∈ escapeLoop s, 32 < x
  | [], _ => by simp [escapeLoop]
  | c :: s, h => by
    intro x hx
    simp only [escapeLoop] at hx
    by_cases hc : c = 0
    · simp [hc] at hx
    · rw [if_neg hc, List.mem_append] at hx
      rcases hx with hx | hx
      · exact escapeByte_nospace c (h c (List.mem_cons_self _ _)) x hx
      · exact escapeLoop_nospace s (fun y hy => h y (List.mem_cons_of_mem _ hy)) x hx

theorem writeEscaped_nospace (s : List Nat) (h : ∀ x ∈ s, x ≠ 32) :
    ∀ x ∈ writeEscaped s, 32 < x := by
  intro x hx
  simp only [writeEscaped, List.mem_cons, List.mem_append, List.mem_singleton,
    List.not_mem_nil, or_false] at hx
  rcases hx with (hx | hx) | hx
  · omega
  · exact escapeLoop_nospace s h x hx
  · omega

theorem decimalText_nospace (n : Int) : ∀ x ∈ decimalText n, 32 < x := by
  have hn : ∀ u, ∀ x ∈ natDecimal u, 32 < x := by
    intro u x hx
    unfold natDecimal at hx
    split at hx
    · simp only [List.mem_singleton] at hx; omega
    · simp only [List.mem_map] at hx
      obtain ⟨d, _, e⟩ := hx
      omega
  intro x hx
  unfold decimalText at hx
  split at hx
  · simp only [List.mem_cons] at hx
    rcases hx with hx | hx
    · omega
    · exact hn _ x hx
  · exact hn _ x hx

mutual
theorem Value.compactText_nospace (num : Nat → List Nat) : ∀ (v : Value (List Nat)),
    v.SpaceFree num → ∀ x ∈ v.compactText num, 32 < x
  | .number d, h => by
    simp only [Value.SpaceFree] at h
    simp only [Value.compactText]
    exact h
  | .int n, _ => by
    simp only [Value.compactText]
    exact decimalText_nospace n
  | .string s, h => by
    simp only [Value.SpaceFree] at h
    simp only [Value.compactText]
    exact writeEscaped_nospace s h
  | .array ns, h => by
    simp only [Value.SpaceFree] at h
    have := Nodes.members_compactText_nospace num false ns h
    intro x hx
    simp only [Value.compactText, List.mem_append, List.mem_singleton] at hx
    rcases hx with (hx | hx) | hx
    · omega
    · exact this x hx
    · omega
  | .object ns, h => by
    simp only [Value.SpaceFree] at h
    have := Nodes.members_compactText_nospace num true ns h
    intro x hx
    simp only [Value.compactText, List.mem_append, List.mem_singleton] at hx
    rcases hx with (hx | hx) | hx
    · omega
    · exact this x hx
    · omega
  | .jtrue, _ => by simp [Value.compactText]
  | .jfalse, _ => by simp [Value.compactText]
  | .null, _ => by simp [Value.compactText]
theorem Nodes.members_compactText_nospace (num : Nat → List Nat) (isObj : Bool) :
    ∀ (ns : Nodes (List Nat)), ns.SpaceFree num → ∀ x ∈ ns.compactText num isObj, 32 < x
  | .nil, _ => by simp [Nodes.compactText]
  | .cons v name next, h => by
    simp only [Nodes.SpaceFree] at h
    have h1 := Value.compactText_nospace num v h.1
    have h2 := Nodes.members_compactText_nospace num isObj next h.2.2
    have h3 := writeEscaped_nospace _ h.2.1
    intro x hx
    simp only [Nodes.compactText, List.mem_append] at hx
    rcases hx with ((hx | hx) | hx) | hx
    · split at hx
      · simp only [List.mem_append, List.mem_singleton] at hx
        rcases hx with hx | hx
        · exact h3 x hx
        · omega
      · simp at hx
    · exact h1 x hx
    · split at hx
      · simp at hx
      · simp only [List.mem_singleton] at hx; omega
    · exact h2 x hx
end

/-- The leaf writers of `mixedTree` stay inside their buffers. -/
theorem mixedTree_fits : mixedTree.Fits ieee mixedNum := by
  have h1 : writeNumber ieee dHalf = .ok [48, 46, 53] := by decide!
  have h2 : writeNumber ieee dMinusTwoHalf = .ok [45, 50, 46, 53] := by decide!
  simp only [mixedTree, Value.Fits, Nodes.Fits, h1, h2, mixedNum]
  decide

/-- C16: in the compact layout `Value::dump`, on a tree whose leaf writers
stay inside their buffers (`writeNumber` returns the text `num d` for every
Number leaf `d`, and every Int leaf is a 32-bit integer above -10^9), returns
the compact text of the tree: `[]` for an empty array, `\x7b\x7d` for an empty
object, otherwise the opening bracket, the children in list order (for an
object each as escaped key, `:` and value) separated by single commas, and the
closing bracket; `true`, `false` and `null` for True, False and Null; the
plain decimal text for an Int. It writes no whitespace outside string
contents: when no string or key holds a space and no text of a Number leaf
holds a space or control byte, no byte of the dump is a space or a control
byte. -/
theorem dump_compact_layout (F : FloatOps) (num : Nat → List Nat) (v : Value (List Nat))
    (indent : Nat) (hfit : v.Fits F num) :
    Value.dump F false v indent = .ok (v.compactText num) ∧
    (v.SpaceFree num → ∀ x ∈ v.compactText num, 32 < x) := by
  have e := Value.dump_ok F num false v indent hfit
  rw [Value.dumpText_compact F num v indent hfit] at e
  exact ⟨e, Value.compactText_nospace num v⟩

/-- The compact dump of `mixedTree` is
`\x7b"k":[7,"h i",0.5,-2.5,[]],"n":null,"z":-12\x7d`, and that of `bareTree` is
`[[true,"a"],\x7b"b":false\x7d]`, without a space or control byte. -/
theorem dump_compact_layout_witness :
    Value.dump ieee false mixedTree 0
      = .ok [123, 34, 107, 34, 58, 91, 55, 44, 34, 104, 32, 105, 34, 44, 48, 46, 53, 44, 45, 50,
             46, 53, 44, 91, 93, 93, 44, 34, 110, 34, 58, 110, 117, 108, 108, 44, 34, 122, 34,
             58, 45, 49, 50, 125] ∧
    Value.dump ieee false bareTree 3
      = .ok [91, 91, 116, 114, 117, 101, 44, 34, 97, 34, 93, 44, 123, 34, 98, 34, 58, 102, 97,
             108, 115, 101, 125, 93] ∧
    ∀ x ∈ bareTree.compactText mixedNum, 32 < x :=
  ⟨(dump_compact_layout ieee mixedNum mixedTree 0 mixedTree_fits).1.trans (by decide!),
   (dump_compact_layout ieee mixedNum bareTree 3
      (by simp [bareTree, Value.Fits, Nodes.Fits])).1.trans (by decide),
   (dump_compact_layout ieee mixedNum bareTree 3
      (by simp [bareTree, Value.Fits, Nodes.Fits])).2
      (by simp [bareTree, Value.SpaceFree, Nodes.SpaceFree])⟩

/-- C17: in the formatted layout `Value::dump` of a tree at nesting depth `i`,
on a tree whose leaf writers stay inside their buffers (`writeNumber` returns
the text `num d` for every Number leaf `d`, and every Int leaf is a 32-bit
integer above -10^9), returns the formatted text: for a non-empty container
the opening bracket and a line feed, then for each child in list order `i + 1`
tabs, the child (for an object the escaped key, ` : ` and the value), `, ` if
another child follows, and a line feed, and finally `i` tabs and the closing
bracket; `[ ]` for an empty array and `\x7b \x7d` for an empty object. -/
theorem dump_formatted_layout (F : FloatOps) (num : Nat → List Nat) (v : Value (List Nat))
    (i : Nat) (hfit : v.Fits F num) :
    Value.dump F true v i = .ok (v.formattedText num i) := by
  have e := Value.dump_ok F num true v i hfit
  rw [Value.dumpText_formatted F num v i hfit] at e
  exact e

/-- The formatted dump of `mixedTree` at depth 0: the lines
`\x7b`, `"k" : [`, `7, `, `"h i", `, `0.5, `, `-2.5, `, `[ ]`, `], `,
`"n" : null, `, `"z" : -12` and `\x7d`, the members of the object behind one
tab and the elements of the array behind two. -/
theorem dump_formatted_layout_witness :
    Value.dump ieee true mixedTree 0
      = .ok [123, 10,
             9, 34, 107, 34, 32, 58, 32, 91, 10,
             9, 9, 55, 44, 32, 10,
             9, 9, 34, 104, 32, 105, 34, 44, 32, 10,
             9, 9, 48, 46, 53, 44, 32, 10,
             9, 9, 45, 50, 46, 53, 44, 32, 10,
             9, 9, 91, 32, 93, 10,
             9, 93, 44, 32, 10,
             9, 34, 110, 34, 32, 58, 32, 110, 117, 108, 108, 44, 32, 10,
             9, 34, 122, 34, 32, 58, 32, 45, 49, 50, 10,
             125] :=
  (dump_formatted_layout ieee mixedNum mixedTree 0 mixedTree_fits).trans (by decide!)

theorem patch_middle (A body Z : List Nat) (p : Nat) (xs : List Nat)
    (h : p + xs.length ≤ body.length) :
    patch (A ++ body ++ Z) (A.length + p) xs = A ++ patch body p xs ++ Z := by
  unfold patch
  have e1 : (A ++ body ++ Z).take (A.length + p) = A ++ body.take p := by
    rw [List.append_assoc, List.take_append, List.take_append_of_le_length (by omega)]
  have e2 : (A ++ body ++ Z).drop (A.length + p + xs.length) = body.drop (p + xs.length) ++ Z := by
    rw [List.append_assoc, Nat.add_assoc, List.drop_append, List.drop_append_of_le_length (by omega)]
  rw [e1, e2]
  simp only [List.append_assoc]

theorem patch_prefix (body : List Nat) (pre xs : List Nat) (hp : body.take pre.length = pre) :
    (patch body pre.length xs).take ((pre ++ xs).length) = pre ++ xs := by
  unfold patch
  rw [hp]
  exact List.take_left' rfl

/-- One write of the bytes `xs` under the guard `_dst + l <= _end`. -/
theorem writer_step (mem0 : List Nat) (buffer cap : Nat) (hmem : buffer + cap ≤ mem0.length)
    (w : BufferWriter) (pre xs : List Nat) (hi : WriterInv mem0 buffer cap w pre) :
    ∃ w1, (if w.dst + xs.length ≤ w.stop then
            (stores w.mem w.dst xs).bind
              (fun m => .ok { w with mem := m.1, dst := w.dst + xs.length })
          else .ok { w with dst := w.dst + xs.length }) = .ok w1 ∧
      WriterInv mem0 buffer cap w1 (pre ++ xs) := by
  obtain ⟨h1, h2, h3, body, hb, hl, hc⟩ := hi
  have hA : (mem0.take buffer).length = buffer := by
    rw [List.length_take]; omega
  by_cases hg : w.dst + xs.length ≤ w.stop
  · rw [if_pos hg]
    have hfit : pre.length + xs.length ≤ cap := by omega
    have hlen : w.mem.length = mem0.length := by
      rw [hb]; simp only [List.length_append, List.length_take, List.length_drop, hl]; omega
    rw [stores_spec xs w.mem w.dst (by omega)]
    refine ⟨_, rfl, h1, h2, ?_, patch body pre.length xs, ?_, ?_, ?_⟩
    · simp only [List.length_append]; omega
    · show patch w.mem w.dst xs = _
      rw [hb, h3]
      have pm := patch_middle (mem0.take buffer) body (mem0.drop (buffer + cap)) pre.length xs
        (by omega)
      rw [hA] at pm
      exact pm
    · rw [length_patch body pre.length xs (by omega)]; exact hl
    · intro _
      exact patch_prefix body pre xs (hc (by omega))
  · rw [if_neg hg]
    refine ⟨_, rfl, h1, h2, ?_, body, hb, hl, ?_⟩
    · simp only [List.length_append]; omega
    · intro hle
      simp only [List.length_append] at hle
      omega

theorem call_spec (mem0 : List Nat) (buffer cap : Nat) (hmem : buffer + cap ≤ mem0.length)
    (w : BufferWriter) (pre : List Nat) (c : WriterCall) (hi : WriterInv mem0 buffer cap w pre) :
    ∃ w1, w.call c = .ok w1 ∧ WriterInv mem0 buffer cap w1 (pre ++ c.bytes) := by
  cases c with
  | puts str =>
    exact writer_step mem0 buffer cap hmem w pre str hi
  | putc ch =>
    obtain ⟨w1, e, h⟩ := writer_step mem0 buffer cap hmem w pre [ch] hi
    refine ⟨w1, ?_, h⟩
    rw [← e]
    simp only [BufferWriter.call, BufferWriter.putc, List.length_singleton, stores]
    by_cases hg : w.dst < w.stop
    · have hg2 : w.dst + 1 ≤ w.stop := hg
      rw [if_pos hg, if_pos hg2]
      cases wr w.mem w.dst ch <;> rfl
    · have hg2 : ¬ w.dst + 1 ≤ w.stop := hg
      rw [if_neg hg, if_neg hg2]
      rfl
  | writeTabs n =>
    obtain ⟨w1, e, h⟩ := writer_step mem0 buffer cap hmem w pre (List.replicate n 9) hi
    refine ⟨w1, ?_, h⟩
    rw [← e]
    simp only [BufferWriter.call, BufferWriter.writeTabs, List.length_replicate]
    rfl

theorem run_spec (mem0 : List Nat) (buffer cap : Nat) (hmem : buffer + cap ≤ mem0.length) :
    ∀ (cs : List WriterCall) (w : BufferWriter) (pre : List Nat),
    WriterInv mem0 buffer cap w pre →
    ∃ w1, w.run cs = .ok w1 ∧ WriterInv mem0 buffer cap w1 (pre ++ requested cs)
  | [], w, pre, hi => ⟨w, rfl, by simpa [requested] using hi⟩
  | c :: cs, w, pre, hi => by
    obtain ⟨w1, e1, h1⟩ := call_spec mem0 buffer cap hmem w pre c hi
    obtain ⟨w2, e2, h2⟩ := run_spec mem0 buffer cap hmem cs w1 (pre ++ c.bytes) h1
    refine ⟨w2, ?_, ?_⟩
    · simp only [BufferWriter.run, e1, Res.ok_bind, e2]
    · simpa [requested, List.append_assoc] using h2

theorem new_inv (mem0 : List Nat) (buffer cap : Nat) (hmem : buffer + cap ≤ mem0.length) :
    WriterInv mem0 buffer cap (BufferWriter.new mem0 buffer cap) [] := by
  refine ⟨rfl, rfl, rfl, (mem0.drop buffer).take cap, ?_, ?_, fun _ => rfl⟩
  · show mem0 = _
    rw [List.append_assoc, ← List.drop_drop, List.take_append_drop, List.take_append_drop]
  · rw [List.length_take, List.length_drop]; omega

theorem escapeLoopCalls_bytes : ∀ (s : List Nat),
    requested (escapeLoopCalls s) = escapeLoop s
  | [] => rfl
  | c :: s => by
    have ih := escapeLoopCalls_bytes s
    have hb : requested (escapeByteCalls c) = escapeByte c := by
      unfold escapeByteCalls escapeByte
      split_ifs <;> rfl
    unfold escapeLoopCalls escapeLoop
    split_ifs
    · rfl
    · unfold requested at ih hb ⊢
      rw [List.flatMap_append, ih, hb]

theorem writeEscapedCalls_bytes (s : List Nat) :
    requested (writeEscapedCalls s) = writeEscaped s := by
  have := escapeLoopCalls_bytes s
  unfold requested at this ⊢
  simp only [writeEscapedCalls, writeEscaped, List.flatMap_cons, List.flatMap_append,
    List.flatMap_nil, WriterCall.bytes, this, List.append_nil, List.cons_append,
    List.singleton_append, List.nil_append]

mutual
theorem Value.callList_bytes (num : Nat → List Nat) (formatted : Bool) :
    ∀ (v : Value (List Nat)) (indent : Nat),
    requested (v.callList num formatted indent) = Value.dumpText num formatted v indent
  | .number d, _ => by simp [Value.callList, Value.dumpText, requested, WriterCall.bytes]
  | .int n, _ => by simp [Value.callList, Value.dumpText, requested, WriterCall.bytes]
  | .string s, _ => by
    simp only [Value.callList, Value.dumpText]; exact writeEscapedCalls_bytes s
  | .array .nil, _ => by simp [Value.callList, Value.dumpText, requested, WriterCall.bytes]
  | .array (.cons v name next), indent => by
    have := Nodes.members_callList_bytes num formatted false (.cons v name next) (indent + 1)
    unfold requested at this
    simp only [Value.callList, Value.dumpText, requested, List.flatMap_append, this]
    cases formatted <;> simp [WriterCall.bytes, writeTabs]
  | .object .nil, _ => by simp [Value.callList, Value.dumpText, requested, WriterCall.bytes]
  | .object (.cons v name next), indent => by
    have := Nodes.members_callList_bytes num formatted true (.cons v name next) (indent + 1)
    unfold requested at this
    simp only [Value.callList, Value.dumpText, requested, List.flatMap_append, this]
    cases formatted <;> simp [WriterCall.bytes, writeTabs]
  | .jtrue, _ => by simp [Value.callList, Value.dumpText, requested, WriterCall.bytes]
  | .jfalse, _ => by simp [Value.callList, Value.dumpText, requested, WriterCall.bytes]
  | .null, _ => by simp [Value.callList, Value.dumpText, requested, WriterCall.bytes]
theorem Nodes.members_callList_bytes (num : Nat → List Nat) (formatted : Bool) (isObj : Bool) :
    ∀ (ns : Nodes (List Nat)) (indent : Nat),
    requested (ns.callList num formatted isObj indent)
      = Nodes.dumpText num formatted isObj ns indent
  | .nil, _ => by simp [Nodes.callList, Nodes.dumpText, requested]
  | .cons v name next, indent => by
    have h1 := Value.callList_bytes num formatted v indent
    have h2 := Nodes.members_callList_bytes num formatted isObj next indent
    have h3 := writeEscapedCalls_bytes (name.getD [])
    unfold requested at h1 h2 h3
    simp only [Nodes.callList, Nodes.dumpText, requested, List.flatMap_append, h1, h2]
    cases next <;> cases isObj <;> cases formatted <;>
      simp [WriterCall.bytes, writeTabs, h3, List.flatMap_append]
end

mutual
/-- When the leaf writers stay inside their buffers, `Value::dump` makes the
calls of the layout. -/
theorem Value.dumpCalls_ok (F : FloatOps) (num : Nat → List Nat) (formatted : Bool) :
    ∀ (v : Value (List Nat)) (indent : Nat), v.Fits F num →
    Value.dumpCalls F formatted v indent = .ok (v.callList num formatted indent)
  | .number d, _, h => by
    simp only [Value.Fits] at h
    simp only [Value.dumpCalls, Value.callList, h, Res.ok_bind, Res.pure_eq]
  | .int n, _, h => by
    simp only [Value.Fits] at h
    simp only [Value.dumpCalls, Value.callList, writeInt_ok n (i32toa_length n h.1 h.2),
      Res.ok_bind, Res.pure_eq]
  | .string s, _, _ => by simp only [Value.dumpCalls, Value.callList, Res.pure_eq]
  | .array .nil, _, _ => by simp only [Value.dumpCalls, Value.callList, Res.pure_eq]
  | .array (.cons v name next), indent, h => by
    simp only [Value.Fits] at h
    have := Nodes.members_dumpCalls_ok F num formatted false (.cons v name next) (indent + 1) h
    simp only [Value.dumpCalls, Value.callList, this, Res.ok_bind, Res.pure_eq]
  | .object .nil, _, _ => by simp only [Value.dumpCalls, Value.callList, Res.pure_eq]
  | .object (.cons v name next), indent, h => by
    simp only [Value.Fits] at h
    have := Nodes.members_dumpCalls_ok F num formatted true (.cons v name next) (indent + 1) h
    simp only [Value.dumpCalls, Value.callList, this, Res.ok_bind, Res.pure_eq]
  | .jtrue, _, _ => by simp only [Value.dumpCalls, Value.callList, Res.pure_eq]
  | .jfalse, _, _ => by simp only [Value.dumpCalls, Value.callList, Res.pure_eq]
  | .null, _, _ => by simp only [Value.dumpCalls, Value.callList, Res.pure_eq]
theorem Nodes.members_dumpCalls_ok (F : FloatOps) (num : Nat → List Nat) (formatted : Bool)
    (isObj : Bool) : ∀ (ns : Nodes (List Nat)) (indent : Nat), ns.Fits F num →
    Nodes.dumpCalls F formatted isObj ns indent = .ok (ns.callList num formatted isObj indent)
  | .nil, _, _ => by simp only [Nodes.dumpCalls, Nodes.callList, Res.pure_eq]
  | .cons v name next, indent, h => by
    simp only [Nodes.Fits] at h
    have h1 := Value.dumpCalls_ok F num formatted v indent h.1
    have h2 := Nodes.members_dumpCalls_ok F num formatted isObj next indent h.2
    simp only [Nodes.dumpCalls, Nodes.callList, h1, h2, Res.ok_bind, Res.pure_eq]
end

/-- C18: for every capacity and every sequence of `puts`, `putc` and
`writeTabs` calls on a `BufferWriter`, `size()` is the total number of bytes
requested, also when it exceeds the capacity; the memory changes inside the
buffer only, so no byte is stored at an offset from the capacity on; and when
the total does not exceed the capacity the buffer starts with the requested
bytes in order. Hence, on a tree whose leaf writers stay inside their buffers,
`Json::dump(buffer, bufferSize)` returns true exactly when the text of
`Value::dump` and its terminating NUL fit in `bufferSize`: the size of its
writer is the length of the text plus 1, the memory changes inside the buffer
only, and when the text and the NUL fit the buffer starts with them. -/
theorem bufferWriter_contract (mem : List Nat) (buffer bufferSize : Nat) (cs : List WriterCall)
    (hmem : buffer + bufferSize ≤ mem.length) :
    (∃ w body, (BufferWriter.new mem buffer bufferSize).run cs = .ok w ∧
      w.size = (requested cs).length ∧
      w.mem = mem.take buffer ++ body ++ mem.drop (buffer + bufferSize) ∧
      body.length = bufferSize ∧
      ((requested cs).length ≤ bufferSize → body.take (requested cs).length = requested cs)) ∧
    ∀ (F : FloatOps) (num : Nat → List Nat) (v : Value (List Nat)) (formatted : Bool),
      v.Fits F num →
      ∃ text w body, Value.dump F formatted v 0 = .ok text ∧
        Json.dump F v mem buffer bufferSize formatted
          = .ok (w, decide (text.length + 1 ≤ bufferSize)) ∧
        w.size = text.length + 1 ∧
        w.mem = mem.take buffer ++ body ++ mem.drop (buffer + bufferSize) ∧
        body.length = bufferSize ∧
        (text.length + 1 ≤ bufferSize → body.take (text.length + 1) = text ++ [0]) := by
  have h0 := new_inv mem buffer bufferSize hmem
  refine ⟨?_, ?_⟩
  · obtain ⟨w, e, h1, h2, h3, body, hb, hl, hc⟩ :=
      run_spec mem buffer bufferSize hmem cs _ [] h0
    simp only [List.nil_append] at h3 hc
    refine ⟨w, body, e, ?_, hb, hl, hc⟩
    unfold BufferWriter.size
    omega
  · intro F num v formatted hfit
    have hd := Value.dump_ok F num formatted v 0 hfit
    have hcalls := Value.dumpCalls_ok F num formatted v 0 hfit
    obtain ⟨w1, e1, i1⟩ :=
      run_spec mem buffer bufferSize hmem (v.callList num formatted 0) _ [] h0
    obtain ⟨w2, e2, h1, h2, h3, body, hb, hl, hc⟩ :=
      call_spec mem buffer bufferSize hmem w1 _ (.putc 0) i1
    simp only [BufferWriter.call] at e2
    rw [Value.callList_bytes] at h3 hc
    simp only [List.nil_append, WriterCall.bytes, List.length_append, List.length_singleton]
      at h3 hc
    have hsize : w2.size = (Value.dumpText num formatted v 0).length + 1 := by
      unfold BufferWriter.size
      omega
    refine ⟨_, w2, body, hd, ?_, hsize, hb, hl, hc⟩
    simp only [Json.dump, hcalls, e1, Res.ok_bind, e2, Res.pure_eq]
    rw [hsize]

/-- Three calls on a writer of 3 bytes at offset 2 of a memory of 8 bytes; the
compact dump of `bareTree`, 24 bytes, into a buffer of 25 bytes at offset 2 of
a memory of 30 bytes, which returns true and leaves the text and its NUL in
the buffer; and the same dump into the buffer of 3 bytes, which returns false
with the size 25. -/
theorem bufferWriter_contract_witness :
    (∃ w body, (BufferWriter.new (List.replicate 8 0) 2 3).run [.puts [97, 98], .putc 99, .writeTabs 2]
        = .ok w ∧
      w.size = (requested [.puts [97, 98], .putc 99, .writeTabs 2]).length ∧
      w.mem = (List.replicate 8 0).take 2 ++ body ++ (List.replicate 8 0).drop (2 + 3) ∧
      body.length = 3 ∧
      ((requested [.puts [97, 98], .putc 99, .writeTabs 2]).length ≤ 3 →
        body.take (requested [.puts [97, 98], .putc 99, .writeTabs 2]).length
          = requested [.puts [97, 98], .putc 99, .writeTabs 2])) ∧
    (∃ w, Json.dump ieee bareTree (List.replicate 30 7) 2 25 false = .ok (w, true) ∧
      w.size = 25 ∧
      w.mem = [7, 7, 91, 91, 116, 114, 117, 101, 44, 34, 97, 34, 93, 44, 123, 34, 98, 34, 58,
               102, 97, 108, 115, 101, 125, 93, 0, 7, 7, 7]) ∧
    (∃ w, Json.dump ieee bareTree (List.replicate 8 0) 2 3 false = .ok (w, false) ∧
      w.size = 25) := by
  have hf : bareTree.Fits ieee mixedNum := by simp [bareTree, Value.Fits, Nodes.Fits]
  have hd : Value.dump ieee false bareTree 0
      = .ok [91, 91, 116, 114, 117, 101, 44, 34, 97, 34, 93, 44, 123, 34, 98, 34, 58, 102, 97,
             108, 115, 101, 125, 93] := by decide
  refine ⟨(bufferWriter_contract (List.replicate 8 0) 2 3 [.puts [97, 98], .putc 99, .writeTabs 2]
    (by decide)).1, ?_, ?_⟩
  · obtain ⟨text, w, body, h1, h2, h3, h4, h5, h6⟩ :=
      (bufferWriter_contract (List.replicate 30 7) 2 25 [] (by decide)).2 ieee mixedNum bareTree
        false hf
    rw [hd] at h1
    cases h1
    refine ⟨w, h2, h3, ?_⟩
    have hb : body = [91, 91, 116, 114, 117, 101, 44, 34, 97, 34, 93, 44, 123, 34, 98, 34, 58,
        102, 97, 108, 115, 101, 125, 93, 0] := by
      have := h6 (by decide)
      rw [List.take_of_length_le (by rw [h5]; decide)] at this
      exact this
    rw [h4, hb]
    decide
  · obtain ⟨text, w, body, h1, h2, h3, _⟩ :=
      (bufferWriter_contract (List.replicate 8 0) 2 3 [] (by decide)).2 ieee mixedNum bareTree
        false hf
    rw [hd] at h1
    cases h1
    exact ⟨w, h2, h3⟩

/-- The tagged word is the sum of the mask, the shifted tag and the payload. -/
theorem tagged_word (k p : Nat) (hk : k < 16) (hp : p < 2 ^ 47) :
    JSON_VALUE_NAN_MASK ||| ((k <<< JSON_VALUE_TAG_SHIFT) % 2 ^ 64) ||| p
      = (0xFFF0 + k) * 2 ^ 47 + p := by
  have e1 : JSON_VALUE_NAN_MASK ||| ((k <<< JSON_VALUE_TAG_SHIFT) % 2 ^ 64)
      = (0xFFF0 + k) <<< 47 := by
    interval_cases k <;> rfl
  rw [e1, Nat.shiftLeft_eq, Nat.mul_comm, ← Nat.mul_add_lt_is_or hp]

theorem and_payload_mask (x : Nat) : x &&& JSON_VALUE_PAYLOAD_MASK = x % 2 ^ 47 := by
  have : JSON_VALUE_PAYLOAD_MASK = 2 ^ 47 - 1 := by decide
  rw [this, Nat.and_pow_two_sub_one_eq_mod]

theorem and_tag_mask (x : Nat) : x &&& JSON_VALUE_TAG_MASK = x % 2 ^ 4 := by
  have : JSON_VALUE_TAG_MASK = 2 ^ 4 - 1 := by decide
  rw [this, Nat.and_pow_two_sub_one_eq_mod]

theorem and_low32 (x : Nat) : x &&& 0xFFFFFFFF = x % 2 ^ 32 := by
  have : (0xFFFFFFFF : Nat) = 2 ^ 32 - 1 := by decide
  rw [this, Nat.and_pow_two_sub_one_eq_mod]

theorem tagged_not_double (k p : Nat) (hk1 : 1 ≤ k) (hk : k < 16) (hp : p < 2 ^ 47) :
    Word.isDouble { ival := (0xFFF0 + k) * 2 ^ 47 + p } = false := by
  simp only [Word.isDouble, toInt64, JSON_VALUE_NAN_MASK, decide_eq_false_iff_not]
  have h1 : ((0xFFF0 + k) * 2 ^ 47 + p) % 2 ^ 64 = (0xFFF0 + k) * 2 ^ 47 + p := by
    apply Nat.mod_eq_of_lt; omega
  rw [h1]
  norm_num
  split_ifs <;> omega

theorem code_cases (t : JType) (ht : t ≠ .JSON_NUMBER) : 1 ≤ t.code ∧ t.code < 16 := by
  cases t <;> simp [JType.code] at ht ⊢

/-- C20: for every type tag `t` other than Number (Int, String, Array,
Object, True, False, Null) and every payload `p <= 0x00007FFFFFFFFFFF`, the
value built by `Value(t, p)` is no double, `getType()` returns `t` and
`getPayload()` returns `p`. -/
theorem tagged_roundtrip (t : JType) (p : Nat) (ht : t ≠ .JSON_NUMBER)
    (hp : p ≤ JSON_VALUE_PAYLOAD_MASK) :
    (Word.ofType t p).isDouble = false ∧ (Word.ofType t p).getType = t.code ∧
    (Word.ofType t p).getPayload = p := by
  have hp2 : p < 2 ^ 47 := by unfold JSON_VALUE_PAYLOAD_MASK at hp; omega
  obtain ⟨c1, c2⟩ := code_cases t ht
  have hw := tagged_word t.code p c2 hp2
  have hd := tagged_not_double t.code p c1 c2 hp2
  unfold Word.ofType
  rw [hw]
  refine ⟨hd, ?_, ?_⟩
  · simp only [Word.getType, hd, Bool.false_eq_true, if_false, and_tag_mask,
      JSON_VALUE_TAG_SHIFT, Nat.shiftRight_eq_div_pow]
    omega
  · simp only [Word.getPayload, and_payload_mask]
    omega

theorem tagged_roundtrip_witness :
    (Word.ofType .JSON_NULL 0x00007FFFFFFFFFFF).isDouble = false ∧
    (Word.ofType .JSON_NULL 0x00007FFFFFFFFFFF).getType = JType.JSON_NULL.code ∧
    (Word.ofType .JSON_NULL 0x00007FFFFFFFFFFF).getPayload = 0x00007FFFFFFFFFFF :=
  tagged_roundtrip .JSON_NULL 0x00007FFFFFFFFFFF (by decide) (by decide)

/-- C21: for every 32-bit signed integer `x`, negative ones included,
`Value(x).getType()` is `JSON_INT` and `Value(x).toInt()` returns `x`. -/
theorem int_roundtrip (x : Int) (h1 : -2147483648 ≤ x) (h2 : x ≤ 2147483647) :
    (Word.ofInt32 x).getType = JType.JSON_INT.code ∧ (Word.ofInt32 x).toInt = x := by
  have hm : (x % 2 ^ 32).toNat < 2 ^ 32 := by omega
  have hw := tagged_word 1 (x % 2 ^ 32).toNat (by norm_num) (by omega)
  have hd := tagged_not_double 1 (x % 2 ^ 32).toNat (by norm_num) (by norm_num) (by omega)
  unfold Word.ofInt32
  simp only [JType.code] at hw ⊢
  rw [hw]
  refine ⟨?_, ?_⟩
  · simp only [Word.getType, hd, Bool.false_eq_true, if_false, and_tag_mask,
      JSON_VALUE_TAG_SHIFT, Nat.shiftRight_eq_div_pow]
    omega
  · simp only [Word.toInt, and_low32, toInt32]
    split_ifs <;> omega

theorem int_roundtrip_witness :
    (Word.ofInt32 (-2147483648)).getType = JType.JSON_INT.code ∧
    (Word.ofInt32 (-2147483648)).toInt = -2147483648 :=
  int_roundtrip (-2147483648) (by decide) (by decide)

/-- C22: for every 64-bit pattern `d` of a double that is no NaN (finite of
either sign, a zero or an infinity), `Value(d)` is a double, `getType()`
returns `JSON_NUMBER` and `toNumber()` returns the same bit pattern; such a
word is never read as a tagged value. -/
theorem double_roundtrip (d : Nat) (hn : dIsNaN d = false) :
    (Word.ofDouble d).isDouble = true ∧ (Word.ofDouble d).getType = JType.JSON_NUMBER.code ∧
    (Word.ofDouble d).toNumber = d := by
  have h : (Word.ofDouble d).isDouble = true := by
    simp only [dIsNaN, dAbs, decide_eq_false_iff_not] at hn
    simp only [Word.ofDouble, Word.isDouble, toInt64, JSON_VALUE_NAN_MASK, decide_eq_true_eq]
    norm_num
    split_ifs <;> omega
  refine ⟨h, ?_, rfl⟩
  simp only [Word.getType, h, if_true]

theorem double_roundtrip_witness :
    (Word.ofDouble 0xFFF0000000000000).isDouble = true ∧
    (Word.ofDouble 0xFFF0000000000000).getType = JType.JSON_NUMBER.code ∧
    (Word.ofDouble 0xFFF0000000000000).toNumber = 0xFFF0000000000000 :=
  double_roundtrip 0xFFF0000000000000 (by decide)

theorem Heap.seg_append (h : NextMap) : ∀ (l m : List Nat) (q : Nat),
    Heap.Seg h (l ++ m) q ↔ Heap.Seg h l (m.headD q) ∧ Heap.Seg h m q
  | [], m, q => by simp [Heap.Seg]
  | a :: r, m, q => by
    have ih := Heap.seg_append h r m q
    have hh : (r ++ m).headD q = r.headD (m.headD q) := by cases r <;> rfl
    show (h a = (r ++ m).headD q ∧ Heap.Seg h (r ++ m) q) ↔
      (h a = r.headD (m.headD q) ∧ Heap.Seg h r (m.headD q)) ∧ Heap.Seg h m q
    rw [ih, hh, and_assoc]

theorem Heap.seg_last (h : NextMap) : ∀ (l : List Nat) (q : Nat) (hne : l ≠ []),
    Heap.Seg h l q → h (l.getLast hne) = q
  | [a], q, _, hs => by simpa [Heap.Seg] using hs.1
  | a :: b :: r, q, _, hs => by
    have := Heap.seg_last h (b :: r) q (by simp) hs.2
    simpa using this

/-- Changing the `next` field of the last node only retargets the segment. -/
theorem Heap.seg_retarget (h g : NextMap) (q p : Nat) : ∀ (l : List Nat) (hne : l ≠ []),
    l.Nodup → (∀ x ∈ l, x ≠ l.getLast hne → g x = h x) → g (l.getLast hne) = p →
    Heap.Seg h l q → Heap.Seg g l p
  | [a], _, _, _, hl, _ => by
    simp only [List.getLast_singleton] at hl
    simp [Heap.Seg, hl]
  | a :: b :: r, _, hnd, hag, hl, hs => by
    have hab : a ≠ (a :: b :: r).getLast (by simp) := by
      intro e
      have hm : (b :: r).getLast (by simp) ∈ b :: r := List.getLast_mem _
      rw [List.getLast_cons (by simp : b :: r ≠ [])] at e
      rw [← e] at hm
      exact (List.nodup_cons.mp hnd).1 hm
    have ha : g a = h a := hag a (List.mem_cons_self _ _) hab
    have ih := Heap.seg_retarget h g q p (b :: r) (by simp) (List.nodup_cons.mp hnd).2
      (fun x hx hne => hag x (List.mem_cons_of_mem _ hx)
        (by rw [List.getLast_cons (by simp : b :: r ≠ [])]; exact hne))
      (by rw [List.getLast_cons (by simp : b :: r ≠ [])] at hl; exact hl) hs.2
    refine ⟨?_, ih⟩
    rw [ha]
    simpa [Heap.Seg] using hs.1

theorem Heap.chain_of_seg (h : NextMap) : ∀ (l : List Nat), (∀ x ∈ l, x ≠ 0) → Heap.Seg h l 0 →
    Heap.chainFrom h l.length (l.headD 0) = some l
  | [], _, _ => by simp [Heap.chainFrom]
  | a :: r, hz, hs => by
    have ha : a ≠ 0 := hz a (List.mem_cons_self _ _)
    have ih := Heap.chain_of_seg h r (fun x hx => hz x (List.mem_cons_of_mem _ hx)) hs.2
    simp only [List.length_cons, List.headD_cons, Heap.chainFrom, ha, if_false, hs.1, ih, Option.map_some']

theorem Heap.insertAfter_ring (h : NextMap) (tail : Nat) (l : List Nat) (n : Nat)
    (hr : Heap.Ring h tail l) (hnd : (l ++ [n]).Nodup) (hz : ∀ x ∈ l ++ [n], x ≠ 0) :
    ∃ h1, Heap.insertAfter h tail n = .ok (h1, n) ∧ Heap.Ring h1 n (l ++ [n]) := by
  have hn0 : n ≠ 0 := hz n (by simp)
  rcases hr with ⟨hl, ht⟩ | ⟨hne, ht, hs⟩
  · subst hl; subst ht
    refine ⟨_, by simp [Heap.insertAfter, setNext, hn0]; rfl, Or.inr ⟨by simp, by simp, ?_⟩⟩
    simp [Heap.Seg]
  · have ht0 : tail ≠ 0 := by
      rw [ht]; exact hz _ (List.mem_append_left _ (List.getLast_mem hne))
    have hnl : n ∉ l := by
      intro hm
      have := List.nodup_append.mp hnd
      exact this.2.2 hm (List.mem_singleton_self n) 
    have htn : tail ≠ n := by
      intro e
      apply hnl
      rw [← e, ht]
      exact List.getLast_mem hne
    have hlast := Heap.seg_last h l _ hne hs
    refine ⟨fun x => if x = tail then n else if x = n then h tail else h x, ?_,
      Or.inr ⟨by simp, by simp, ?_⟩⟩
    · simp only [Heap.insertAfter, ht0, if_false, setNext, hn0, Res.ok_bind, Res.pure_eq]
    · obtain ⟨a, r, rfl⟩ := List.exists_cons_of_ne_nil hne
      rw [Heap.seg_append]
      simp only [List.cons_append, List.headD_cons]
      refine ⟨?_, ?_⟩
      · refine Heap.seg_retarget h _ a n (a :: r) hne (List.nodup_append.mp hnd).1 ?_ ?_ hs
        · intro x hx hxl
          have h1 : x ≠ tail := by rw [ht]; exact hxl
          have h2 : x ≠ n := fun e => hnl (e ▸ hx)
          simp only [h1, h2, if_false]
        · simp only [← ht, if_true]
      · simp only [Heap.Seg, List.headD_nil, and_true]
        have : n ≠ tail := fun e => htn e.symm
        simp only [this, if_false, if_true]
        rw [ht, hlast]
        rfl

theorem Heap.insertAll_ring : ∀ (ns : List Nat) (h : NextMap) (tail : Nat) (l : List Nat),
    Heap.Ring h tail l → (l ++ ns).Nodup → (∀ x ∈ l ++ ns, x ≠ 0) →
    ∃ h1 t1, Heap.insertAll h tail ns = .ok (h1, t1) ∧ Heap.Ring h1 t1 (l ++ ns)
  | [], h, tail, l, hr, _, _ => ⟨h, tail, rfl, by simpa using hr⟩
  | n :: ns, h, tail, l, hr, hnd, hz => by
    have e : l ++ n :: ns = (l ++ [n]) ++ ns := by simp
    rw [e] at hnd hz
    obtain ⟨h1, e1, r1⟩ := Heap.insertAfter_ring h tail l n hr
      (List.nodup_append.mp hnd).1 (fun x hx => hz x (List.mem_append_left _ hx))
    obtain ⟨h2, t2, e2, r2⟩ := Heap.insertAll_ring ns h1 n (l ++ [n]) r1 hnd hz
    refine ⟨h2, t2, ?_, by rw [e]; exact r2⟩
    simp only [Heap.insertAll, e1, Res.ok_bind, e2]

/-- C19: starting from a null tail and calling `tail = insertAfter(tail, n)`
for distinct nodes `n_1 .. n_k` in that order, `listToValue(type, tail)`
returns the `Value(type, n_1)`, and following `next` from `n_1` meets
`n_1, n_2, .., n_k` and then the null pointer: insertion order, null
terminated, exactly `k` nodes. For no node the tail is null and the result is
`Value(type, nullptr)`, the empty container. -/
theorem insertAfter_chain (h0 : NextMap) (type : JType) (ns : List Nat) (hnd : ns.Nodup)
    (hz : ∀ n ∈ ns, n ≠ 0) :
    ∃ h1 tail h2, Heap.insertAll h0 0 ns = .ok (h1, tail) ∧
      Heap.listToValue h1 type tail = .ok (h2, Word.ofType type (ns.headD 0)) ∧
      Heap.chainFrom h2 ns.length (ns.headD 0) = some ns ∧
      (ns = [] → tail = 0) := by
  obtain ⟨h1, tail, e1, r1⟩ := Heap.insertAll_ring ns h0 0 [] (Or.inl ⟨rfl, rfl⟩)
    (by simpa using hnd) (by simpa using hz)
  simp only [List.nil_append] at r1
  rcases r1 with ⟨hl, ht⟩ | ⟨hne, ht, hs⟩
  · subst hl; subst ht
    exact ⟨h1, 0, h1, e1, by simp [Heap.listToValue], by simp [Heap.chainFrom], fun _ => rfl⟩
  · have ht0 : tail ≠ 0 := by rw [ht]; exact hz _ (List.getLast_mem hne)
    have hlast := Heap.seg_last h1 ns _ hne hs
    refine ⟨h1, tail, fun x => if x = tail then 0 else h1 x, e1, ?_, ?_, fun e => absurd e hne⟩
    · simp only [Heap.listToValue, ht0, ne_eq, not_false_eq_true, if_true, setNext, if_false,
        Res.ok_bind, Res.pure_eq]
      rw [ht, hlast]
    · apply Heap.chain_of_seg _ ns hz
      refine Heap.seg_retarget h1 _ _ 0 ns hne hnd ?_ ?_ hs
      · intro x _ hxl
        have : x ≠ tail := by rw [ht]; exact hxl
        simp only [this, if_false]
      · simp only [← ht, if_true]

theorem insertAfter_chain_witness :
    ∃ h1 tail h2, Heap.insertAll (fun _ => 0) 0 [8, 24, 16] = .ok (h1, tail) ∧
      Heap.listToValue h1 .JSON_ARRAY tail
        = .ok (h2, Word.ofType .JSON_ARRAY (([8, 24, 16] : List Nat).headD 0)) ∧
      Heap.chainFrom h2 ([8, 24, 16] : List Nat).length (([8, 24, 16] : List Nat).headD 0)
        = some [8, 24, 16] ∧
      (([8, 24, 16] : List Nat) = [] → tail = 0) :=
  insertAfter_chain (fun _ => 0) .JSON_ARRAY [8, 24, 16] (by decide) (by decide)

theorem Heap.seg_of_chain (h : NextMap) : ∀ (fuel p : Nat) (l : List Nat),
    Heap.chainFrom h fuel p = some l →
    Heap.Seg h l 0 ∧ p = l.headD 0 ∧ (∀ x ∈ l, x ≠ 0) ∧ l.length ≤ fuel
  | 0, p, l, hc => by
    simp only [Heap.chainFrom] at hc
    split at hc
    · rename_i hp
      simp only [Option.some.injEq] at hc
      subst hc
      exact ⟨trivial, hp, by simp, by simp⟩
    · simp at hc
  | fuel + 1, p, l, hc => by
    simp only [Heap.chainFrom] at hc
    split at hc
    · rename_i hp
      simp only [Option.some.injEq] at hc
      subst hc
      exact ⟨trivial, hp, by simp, by simp⟩
    · rename_i hp
      cases hr : Heap.chainFrom h fuel (h p) with
      | none => rw [hr] at hc; simp at hc
      | some r =>
        rw [hr] at hc
        simp only [Option.map_some', Option.some.injEq] at hc
        subst hc
        obtain ⟨s1, s2, s3, s4⟩ := Heap.seg_of_chain h fuel (h p) r hr
        refine ⟨⟨s2, s1⟩, rfl, ?_, by simp only [List.length_cons]; omega⟩
        intro x hx
        rcases List.mem_cons.mp hx with e | e
        · rw [e]; exact hp
        · exact s3 x e

theorem Heap.seg_congr (h g : NextMap) (q : Nat) : ∀ (l : List Nat),
    (∀ x ∈ l, g x = h x) → Heap.Seg h l q → Heap.Seg g l q
  | [], _, _ => trivial
  | a :: r, hag, hs =>
    ⟨by rw [hag a (List.mem_cons_self _ _)]; exact hs.1,
     Heap.seg_congr h g q r (fun x hx => hag x (List.mem_cons_of_mem _ hx)) hs.2⟩

theorem lastBlock_seg (mem : Nat → Block) : ∀ (l : List Nat) (hne : l ≠ []) (fuel : Nat),
    l.length ≤ fuel → (∀ x ∈ l, x ≠ 0) → Heap.Seg (fun x => (mem x).next) l 0 →
    lastBlock mem fuel (l.headD 0) = .ok (l.getLast hne)
  | [a], _, fuel, hf, hz, hs => by
    obtain ⟨f, rfl⟩ : ∃ f, fuel = f + 1 := ⟨fuel - 1, by simp at hf; omega⟩
    have h1 : (mem a).next = 0 := hs.1
    simp [lastBlock, h1]
  | a :: b :: r, _, fuel, hf, hz, hs => by
    obtain ⟨f, rfl⟩ : ∃ f, fuel = f + 1 := ⟨fuel - 1, by simp at hf; omega⟩
    have ha : a ≠ 0 := hz a (List.mem_cons_self _ _)
    have hb : b ≠ 0 := hz b (by simp)
    have h1 : (mem a).next = b := hs.1
    have ih := lastBlock_seg mem (b :: r) (by simp) f (by simp at hf ⊢; omega)
      (fun x hx => hz x (List.mem_cons_of_mem _ hx)) hs.2
    simp only [List.headD_cons] at ih ⊢
    simp only [lastBlock, ha, h1, hb, ne_eq, not_false_eq_true, and_self, if_true, ih]
    rw [List.getLast_cons (by simp : b :: r ≠ [])]

/-- C23: for every arena state, with the in-use chain `l` and the free chain
`f` of distinct blocks, after `reset()` the in-use chain is empty and the free
chain is `l` followed by `f`: the same blocks in the same order. No header
field other than a `next` pointer changes and the system heap is untouched, so
no block is released, lost or duplicated; and `reset()` on an arena with an
empty in-use chain changes nothing. -/
theorem reset_splices (a : Allocator) (l f : List Nat) (n m fuel : Nat)
    (hl : a.chain n a.blocksHead = some l) (hf : a.chain m a.freeBlocksHead = some f)
    (hnd : (l ++ f).Nodup) (hfuel : l.length ≤ fuel) :
    ∃ a1, a.reset fuel = .ok a1 ∧ a1.blocksHead = 0 ∧
      a1.chain 0 a1.blocksHead = some [] ∧
      a1.chain (l ++ f).length a1.freeBlocksHead = some (l ++ f) ∧
      (∀ b, (a1.mem b).used = (a.mem b).used ∧ (a1.mem b).size = (a.mem b).size) ∧
      a1.mallocs = a.mallocs ∧ a1.brk = a.brk ∧ (l = [] → a1 = a) := by
  obtain ⟨sl, hl0, zl, _⟩ := Heap.seg_of_chain _ n _ l hl
  obtain ⟨sf, hf0, zf, _⟩ := Heap.seg_of_chain _ m _ f hf
  by_cases hne : l = []
  · subst hne
    have hb : a.blocksHead = 0 := hl0
    refine ⟨a, by simp [Allocator.reset, hb], hb, by simp [Allocator.chain, Heap.chainFrom, hb],
      ?_, fun _ => ⟨rfl, rfl⟩, rfl, rfl, fun _ => rfl⟩
    simp only [List.nil_append]
    unfold Allocator.chain
    rw [hf0]
    exact Heap.chain_of_seg _ f zf sf
  · have hb : a.blocksHead ≠ 0 := by
      rw [hl0]
      obtain ⟨x, r, rfl⟩ := List.exists_cons_of_ne_nil hne
      exact zl x (List.mem_cons_self _ _)
    have hlast := lastBlock_seg a.mem l hne fuel hfuel zl sl
    rw [← hl0] at hlast
    have hlm : l.getLast hne ∈ l := List.getLast_mem hne
    have hnf : l.getLast hne ∉ f := fun hm => (List.nodup_append.mp hnd).2.2 hlm hm
    refine ⟨{ a.setBlock (l.getLast hne) (fun b => { b with next := a.freeBlocksHead }) with
        freeBlocksHead := a.blocksHead, blocksHead := 0 },
      by simp only [Allocator.reset, hb, ne_eq, not_false_eq_true, if_true, hlast,
        Res.ok_bind, Res.pure_eq], rfl, by simp [Allocator.chain, Heap.chainFrom], ?_, ?_, rfl, rfl,
      fun e => absurd e hne⟩
    · have hz : ∀ x ∈ l ++ f, x ≠ 0 := by
        intro x hx
        rcases List.mem_append.mp hx with e | e
        · exact zl x e
        · exact zf x e
      have hh : (l ++ f).headD 0 = a.blocksHead := by
        rw [hl0]
        obtain ⟨x, r, rfl⟩ := List.exists_cons_of_ne_nil hne
        rfl
      unfold Allocator.chain
      show Heap.chainFrom _ (l ++ f).length a.blocksHead = some (l ++ f)
      rw [← hh]
      apply Heap.chain_of_seg _ (l ++ f) hz
      rw [Heap.seg_append]
      refine ⟨?_, ?_⟩
      · refine Heap.seg_retarget _ _ 0 _ l hne (List.nodup_append.mp hnd).1 ?_ ?_ sl
        · intro x _ hx
          simp only [Allocator.setBlock, hx, if_false]
        · simp only [Allocator.setBlock, if_true, hf0]
      · refine Heap.seg_congr _ _ 0 f ?_ sf
        intro x hx
        have : x ≠ l.getLast hne := fun e => hnf (e ▸ hx)
        simp only [Allocator.setBlock, this, if_false]
    · intro b
      simp only [Allocator.setBlock]
      split <;> simp_all

theorem reset_splices_witness :
    ∃ a1, sampleArena.reset 2 = .ok a1 ∧ a1.blocksHead = 0 ∧
      a1.chain 0 a1.blocksHead = some [] ∧
      a1.chain ([12288, 4096] ++ ([] : List Nat)).length a1.freeBlocksHead
        = some ([12288, 4096] ++ []) ∧
      (∀ b, (a1.mem b).used = (sampleArena.mem b).used ∧
        (a1.mem b).size = (sampleArena.mem b).size) ∧
      a1.mallocs = sampleArena.mallocs ∧ a1.brk = sampleArena.brk ∧
      (([12288, 4096] : List Nat) = [] → a1 = sampleArena) :=
  reset_splices sampleArena [12288, 4096] [] 2 0 2 (by decide) (by decide) (by decide) (by decide)

/-- C24, as the specification words it, fails: after `allocate(8000)`,
`allocate(200)` and `reset()` on a fresh arena the free chain holds the block
of the 200 bytes, of recorded size 224, and then the block of the 8000 bytes,
of recorded size 8024. The in-use chain is empty, so `allocate(8000)` cannot
bump-allocate, and the second free block is large enough; yet `allocate`
obtains a third block from the system and leaves the free chain as it was: it
looks at the head of the free chain only. -/
theorem free_chain_not_searched :
    ∃ st, sampleArena.reset 2 = .ok st ∧
      st.blocksHead = 0 ∧
      st.chain 2 st.freeBlocksHead = some [12288, 4096] ∧
      (st.mem 12288).size = 224 ∧ (st.mem 4096).size = 8024 ∧
      allocSizeOf 8000 = 8024 ∧
      st.mallocs.length = 2 ∧ (st.allocate 8000).1.mallocs.length = 3 ∧
      (st.allocate 8000).1.chain 2 (st.allocate 8000).1.freeBlocksHead = some [12288, 4096] :=
  ⟨_, rfl, by decide⟩

/-- C24, amended: whenever `allocate(n)` cannot bump-allocate from the head
in-use block and the block at the head of the free chain has a recorded size
of at least `allocSize`, the header plus `n` rounded up to a multiple of 8,
`allocate`
takes that block: it returns the address behind its header, removes it from
the free chain, links it into the in-use chain and leaves the system heap
untouched. -/
theorem allocate_reuses_head (a : Allocator) (n : Nat)
    (hb : ¬ (a.blocksHead ≠ 0 ∧
      ((a.mem a.blocksHead).used + alignUp n) % 2 ^ 64 ≤ ZJSON_BLOCK_SIZE))
    (hf : a.freeBlocksHead ≠ 0)
    (hs : (a.mem a.freeBlocksHead).size ≥ allocSizeOf n) :
    (a.allocate n).2 = a.freeBlocksHead + sizeofBlock ∧
    (a.allocate n).1.freeBlocksHead = (a.mem a.freeBlocksHead).next ∧
    ((a.allocate n).1.blocksHead = a.freeBlocksHead ∨
      ((a.allocate n).1.mem (a.allocate n).1.blocksHead).next = a.freeBlocksHead) ∧
    (a.allocate n).1.mallocs = a.mallocs ∧ (a.allocate n).1.brk = a.brk := by
  unfold Allocator.allocate
  simp only [hb, if_false, hf, ne_eq, not_false_eq_true, hs, and_self, if_true]
  by_cases hp : allocSizeOf n ≤ ZJSON_BLOCK_SIZE ∨ a.blocksHead = 0
  · simp [Allocator.setBlock, hp]
  · simp [Allocator.setBlock, hp]

theorem allocate_reuses_head_witness :
    ((Allocator.allocate { sampleArena with blocksHead := 0, freeBlocksHead := 4096 } 8000).2
      = 4096 + sizeofBlock) ∧
    (Allocator.allocate { sampleArena with blocksHead := 0, freeBlocksHead := 4096 } 8000).1.freeBlocksHead
      = (sampleArena.mem 4096).next ∧
    ((Allocator.allocate { sampleArena with blocksHead := 0, freeBlocksHead := 4096 } 8000).1.blocksHead
        = 4096 ∨
      ((Allocator.allocate { sampleArena with blocksHead := 0, freeBlocksHead := 4096 } 8000).1.mem
        (Allocator.allocate { sampleArena with blocksHead := 0, freeBlocksHead := 4096 } 8000).1.blocksHead).next
        = 4096) ∧
    (Allocator.allocate { sampleArena with blocksHead := 0, freeBlocksHead := 4096 } 8000).1.mallocs
      = sampleArena.mallocs ∧
    (Allocator.allocate { sampleArena with blocksHead := 0, freeBlocksHead := 4096 } 8000).1.brk
      = sampleArena.brk :=
  allocate_reuses_head { sampleArena with blocksHead := 0, freeBlocksHead := 4096 } 8000
    (by decide) (by decide) (by decide)

/-- C25: blocks recycled by `reset()` are not always reused. The sequence
`allocate(8000)`, `allocate(200)` on a fresh arena obtains two blocks of 8192
bytes from the system; after `reset()` the same sequence obtains a third one.
The block of the 200 bytes is at the head of the free chain with the recorded
size 224, its first request and not its 8192 bytes, so it is refused for the
8024 bytes of the first request; the block that served them before is left on
the free chain. -/
theorem second_pass_obtains_block :
    ∃ st, ((Allocator.new 4096 1000000).allocateAll [8000, 200]).reset 2 = .ok st ∧
      st.mallocs = [(12288, 8192), (4096, 8192)] ∧
      (st.allocateAll [8000, 200]).mallocs = [(20480, 8192), (12288, 8192), (4096, 8192)] ∧
      (st.allocateAll [8000, 200]).chain 2 (st.allocateAll [8000, 200]).freeBlocksHead
        = some [4096] :=
  ⟨_, rfl, by decide⟩

/-! ### The end of a string body -/

theorem head_break_gen (its : List StrItem) (hn : NonPlainHead its) (t : Nat) (ht : IsBreak t)
    (rest : List Nat) : ∃ b tl, bodyText its ++ t :: rest = b :: tl ∧ IsBreak b := by
  rcases hn with h | ⟨i, tl, h, hi⟩
  · subst h; exact ⟨t, rest, by simp [bodyText], ht⟩
  · subst h
    cases i with
    | plain c => exact absurd rfl (hi c)
    | esc c =>
      exact ⟨92, c :: (bodyText tl ++ t :: rest), by simp [bodyText_cons, StrItem.text],
        by simp [IsBreak]⟩
    | uni h1 h2 h3 h4 =>
      exact ⟨92, 117 :: h1 :: h2 :: h3 :: h4 :: (bodyText tl ++ t :: rest),
        by simp [bodyText_cons, StrItem.text], by simp [IsBreak]⟩

/-- The loop of `parseStringInternal` over the valid pieces `its`, up to the
break byte `t` that follows them: the pieces are decoded and the loop stands at
`t`. -/
theorem unescape_reach : ∀ (fuel : Nat) (its : List StrItem) (D : List Nat) (r : Nat)
    (rest buf : List Nat) (p0 ch t : Nat), NonPlainHead its → (∀ i ∈ its, i.Valid) →
    IsBreak t →
    buf.drop r = bodyText its ++ t :: rest → p0 + D.length ≤ r → its.length < fuel →
    (bodyText its ++ t :: rest).head? = some ch →
    ∃ k, 0 < k ∧
      unescape fuel { buf := patch buf p0 D, pend := p0 + D.length, s := r + 1, ch := ch }
        = unescape k { buf := patch buf p0 (D ++ bodyDecoded its),
                       pend := p0 + D.length + (bodyDecoded its).length,
                       s := r + (bodyText its).length + 1, ch := t } := by
  intro fuel
  induction fuel with
  | zero => intro its D r rest buf p0 ch t _ _ _ _ _ h; simp at h
  | succ fuel ih =>
    intro its D r rest buf p0 ch t hn hv ht hd hp hf hch
    rcases hn with h | ⟨i, its1, h, hi⟩
    · subst h
      simp only [bodyText, List.flatMap_nil, List.nil_append, List.head?_cons,
        Option.some.injEq] at hd hch
      subst hch
      exact ⟨fuel + 1, by omega, by simp [bodyText, bodyDecoded]⟩
    · subst h
      have hv1 : ∀ j ∈ its1, j.Valid := fun j hj => hv j (List.mem_cons_of_mem _ hj)
      obtain ⟨P, its2, e, hP, hv2, hl2, hn2⟩ := split_plain its1 hv1
      obtain ⟨b, tl, hb, hbb⟩ := head_break_gen its2 hn2 t ht rest
      have hlen : r + (bodyText (i :: its1) ++ t :: rest).length = buf.length :=
        length_of_drop hd (by simp)
      have et : bodyText its1 = P ++ bodyText its2 := by rw [e, bodyText_plain]
      have ed : bodyDecoded its1 = P ++ bodyDecoded its2 := by rw [e, bodyDecoded_plain]
      have hch2 : (bodyText its2 ++ t :: rest).head? = some b := by rw [hb]; rfl
      obtain ⟨y, tl2, hy⟩ : ∃ y tl2, P ++ b :: tl = y :: tl2 := by
        cases P <;> simp
      cases i with
      | plain c => exact absurd rfl (hi c)
      | esc c =>
        have hvc : c ≠ 0 ∧ c ≠ 117 := hv (.esc c) (by simp)
        have hd' : buf.drop r = 92 :: c :: (P ++ b :: tl) := by
          rw [hd, bodyText_cons, et]; simp [StrItem.text, hb]
        simp only [bodyText_cons, et, StrItem.text, List.length_append, List.length_cons,
          List.length_nil] at hlen
        have hdl := decodeEsc_length c
        have hround := esc_round fuel buf p0 r D c y tl2 (by rw [hd', hy]) hvc hp
        have hd2 : buf.drop (r + 2) = P ++ b :: tl := by
          have := drop_add_of_drop [92, c] (r := P ++ b :: tl) (by simpa using hd')
          simpa using this
        have hcopy := copyText_at (patch buf p0 (D ++ decodeEsc c)).length buf p0 (r + 2)
          (D ++ decodeEsc c) P b tl y hd2 (by rw [hy]; rfl) hP hbb
          (by simp; omega)
          (by rw [length_patch _ _ _ (by simp; omega)]; omega)
          (p0 + (D ++ decodeEsc c).length) (r + 3) rfl rfl
        have hd3 : buf.drop (r + 2 + P.length) = bodyText its2 ++ t :: rest := by
          rw [hb]; exact drop_add_of_drop P hd2
        obtain ⟨k, hk, hih⟩ := ih its2 (D ++ decodeEsc c ++ P) (r + 2 + P.length) rest buf p0 b t
          hn2 hv2 ht hd3 (by simp; omega) (by simp at hf; omega) hch2
        have hch1 : ch = 92 := by
          rw [bodyText_cons] at hch; simpa [StrItem.text] using hch.symm
        subst hch1
        refine ⟨k, hk, ?_⟩
        rw [hround, hcopy]
        simp only [Res.ok_bind]
        have e1 : p0 + (D ++ decodeEsc c).length + P.length = p0 + (D ++ decodeEsc c ++ P).length := by
          simp; omega
        rw [e1, hih]
        simp only [bodyText_cons, bodyDecoded_cons, et, ed, StrItem.text, StrItem.decoded,
          List.length_append, List.length_cons, List.length_nil, List.append_assoc]
        congr 2 <;> omega
      | uni h1 h2 h3 h4 =>
        have hvc := hv (.uni h1 h2 h3 h4) (by simp)
        have hd' : buf.drop r = 92 :: 117 :: h1 :: h2 :: h3 :: h4 :: (P ++ b :: tl) := by
          rw [hd, bodyText_cons, et]; simp [StrItem.text, hb]
        simp only [bodyText_cons, et, StrItem.text, List.length_append, List.length_cons,
          List.length_nil] at hlen
        have hdl := utf8_length (hex4 h1 h2 h3 h4)
        have hround := uni_round fuel buf p0 r D h1 h2 h3 h4 y tl2 (by rw [hd', hy]) hvc hp
        have hd2 : buf.drop (r + 6) = P ++ b :: tl := by
          have := drop_add_of_drop [92, 117, h1, h2, h3, h4] (r := P ++ b :: tl)
            (by simpa using hd')
          simpa using this
        have hcopy := copyText_at (patch buf p0 (D ++ utf8 (hex4 h1 h2 h3 h4))).length buf p0 (r + 6)
          (D ++ utf8 (hex4 h1 h2 h3 h4)) P b tl y hd2 (by rw [hy]; rfl) hP hbb
          (by simp; omega)
          (by rw [length_patch _ _ _ (by simp; omega)]; omega)
          (p0 + (D ++ utf8 (hex4 h1 h2 h3 h4)).length) (r + 7) rfl rfl
        have hd3 : buf.drop (r + 6 + P.length) = bodyText its2 ++ t :: rest := by
          rw [hb]; exact drop_add_of_drop P hd2
        obtain ⟨k, hk, hih⟩ := ih its2 (D ++ utf8 (hex4 h1 h2 h3 h4) ++ P) (r + 6 + P.length)
          rest buf p0 b t hn2 hv2 ht hd3 (by simp; omega) (by simp at hf; omega) hch2
        have hch1 : ch = 92 := by
          rw [bodyText_cons] at hch; simpa [StrItem.text] using hch.symm
        subst hch1
        refine ⟨k, hk, ?_⟩
        rw [hround, hcopy]
        simp only [Res.ok_bind]
        have e1 : p0 + (D ++ utf8 (hex4 h1 h2 h3 h4)).length + P.length
            = p0 + (D ++ utf8 (hex4 h1 h2 h3 h4) ++ P).length := by
          simp; omega
        rw [e1, hih]
        simp only [bodyText_cons, bodyDecoded_cons, et, ed, StrItem.text, StrItem.decoded,
          List.length_append, List.length_cons, List.length_nil, List.append_assoc]
        congr 2 <;> omega

/-- The function `parseStringInternal` on valid pieces followed by a break
byte `t`: the pieces are decoded and the loop stands at `t`. -/
theorem parseStringInternal_reach (its : List StrItem) (hv : ∀ i ∈ its, i.Valid)
    (buf : List Nat) (s t : Nat) (rest : List Nat) (ht : IsBreak t)
    (hd : buf.drop s = bodyText its ++ t :: rest) :
    ∃ k, 0 < k ∧ parseStringInternal buf s
      = unescape k { buf := patch buf s (bodyDecoded its),
                     pend := s + (bodyDecoded its).length,
                     s := s + (bodyText its).length + 1, ch := t } := by
  obtain ⟨P, its2, e, hP, hv2, hl2, hn2⟩ := split_plain its hv
  obtain ⟨b, tl, hb, hbb⟩ := head_break_gen its2 hn2 t ht rest
  have et : bodyText its = P ++ bodyText its2 := by rw [e, bodyText_plain]
  have ed : bodyDecoded its = P ++ bodyDecoded its2 := by rw [e, bodyDecoded_plain]
  have hlen : s + (bodyText its ++ t :: rest).length = buf.length :=
    length_of_drop hd (by simp)
  have hl3 := bodyText_length_ge its2
  simp only [et, List.length_append, List.length_cons] at hlen
  have hd' : buf.drop s = P ++ b :: tl := by rw [hd, et, List.append_assoc, hb]
  have hd2 : buf.drop (s + P.length) = bodyText its2 ++ t :: rest := by
    rw [hb]; exact drop_add_of_drop P hd'
  have hch2 : (bodyText its2 ++ t :: rest).head? = some b := by rw [hb]; rfl
  obtain ⟨k, hk, hu⟩ := unescape_reach buf.length its2 P (s + P.length) rest buf s b t hn2 hv2 ht
    hd2 (by omega) (by omega) hch2
  rw [patch_of_drop buf s P (b :: tl) hd'] at hu
  have rb : rd buf (s + P.length) = .ok b := rd_of_drop (by rw [hd2, hb])
  refine ⟨k, hk, ?_⟩
  have efin :
      unescape k { buf := patch buf s (P ++ bodyDecoded its2),
                   pend := s + P.length + (bodyDecoded its2).length,
                   s := s + P.length + (bodyText its2).length + 1, ch := t }
      = unescape k { buf := patch buf s (bodyDecoded its),
                     pend := s + (bodyDecoded its).length,
                     s := s + (bodyText its).length + 1, ch := t } := by
    rw [et, ed]
    simp only [List.length_append]
    congr 2 <;> omega
  rw [← efin, ← hu]
  cases P with
  | nil =>
    simp only [List.nil_append, List.length_nil, Nat.add_zero] at hd' rb ⊢
    simp only [parseStringInternal, rd_of_drop hd', break_of_isBreak hbb, Res.ok_bind,
      Bool.not_true, Bool.false_eq_true, ↓reduceIte, Res.pure_eq]
  | cons a P =>
    simp only [List.cons_append] at hd'
    simp only [List.mem_cons, forall_eq_or_imp] at hP
    have hs := scanText_spec buf.length buf s a P b tl hd' hP.2 hbb (by
      simp only [List.length_cons] at hlen; omega)
    have e1 : s + 1 + P.length = s + (a :: P).length := by simp; omega
    rw [e1] at hs
    simp only [parseStringInternal, rd_of_drop hd', break_of_ordinary hP.1, Res.ok_bind,
      Bool.not_false, ↓reduceIte, hs, rb]

theorem parseHex4_bad : ∀ (pre : List Nat) (n : Nat) (buf : List Nat) (s u x : Nat)
    (tl : List Nat), buf.drop s = pre ++ x :: tl → pre.length < n →
    (∀ h ∈ pre, (hexDigit h).isSome) → hexDigit x = none →
    parseHex4 n buf s u = .ok (none, s + pre.length + 1)
  | [], n, buf, s, u, x, tl, hd, hn, _, hx => by
    obtain ⟨m, rfl⟩ : ∃ m, n = m + 1 := ⟨n - 1, by simp at hn; omega⟩
    simp only [List.nil_append] at hd
    simp [parseHex4, rd_of_drop hd, hx]
  | h :: pre, n, buf, s, u, x, tl, hd, hn, hp, hx => by
    obtain ⟨m, rfl⟩ : ∃ m, n = m + 1 := ⟨n - 1, by simp at hn; omega⟩
    simp only [List.cons_append] at hd
    obtain ⟨d, hd1⟩ := Option.isSome_iff_exists.mp (hp h (List.mem_cons_self _ _))
    have ih := parseHex4_bad pre m buf (s + 1) ((u <<< 4) % 2 ^ 32 + d) x tl
      (drop_succ_of_drop hd) (by simp at hn; omega)
      (fun y hy => hp y (List.mem_cons_of_mem _ hy)) hx
    simp only [parseHex4, rd_of_drop hd, hd1, Res.ok_bind, ih, List.length_cons]
    congr 2
    omega

theorem StrEnd.end_text_head (e : StrEnd) (he : e.Valid) :
    ∃ t tl, e.text = t :: tl ∧ IsBreak t := by
  cases e with
  | quote => exact ⟨34, [], rfl, by simp [IsBreak]⟩
  | bare c =>
    refine ⟨c, [], rfl, ?_⟩
    simp only [StrEnd.Valid] at he
    unfold IsBreak; omega
  | escNul => exact ⟨92, [0], rfl, by simp [IsBreak]⟩
  | badHex pre x => exact ⟨92, 117 :: (pre ++ [x]), rfl, by simp [IsBreak]⟩

/-- The function `parseStringInternal` on valid pieces followed by an end:
it returns, and it returns true for the closing quote only. -/
theorem parseStringInternal_end (its : List StrItem) (hv : ∀ i ∈ its, i.Valid) (e : StrEnd)
    (he : e.Valid) (buf : List Nat) (s : Nat) (rest : List Nat)
    (hd : buf.drop s = bodyText its ++ (e.text ++ rest)) :
    ∃ r, parseStringInternal buf s = .ok r ∧ (r.ok = true ↔ e = .quote) := by
  obtain ⟨t, tl, htx, htb⟩ := StrEnd.end_text_head e he
  rw [htx, List.cons_append] at hd
  have hdl := bodyDecoded_length_le its
  have hlen : s + (bodyText its ++ t :: (tl ++ rest)).length = buf.length :=
    length_of_drop hd (by simp)
  simp only [List.length_append, List.length_cons] at hlen
  obtain ⟨k, hk, hr⟩ := parseStringInternal_reach its hv buf s t (tl ++ rest) htb hd
  obtain ⟨j, rfl⟩ : ∃ j, k = j + 1 := ⟨k - 1, by omega⟩
  have hq : buf.drop (s + (bodyText its).length + 1) = tl ++ rest := by
    have := drop_add_of_drop (bodyText its) hd
    exact drop_succ_of_drop this
  have hB : (patch buf s (bodyDecoded its)).drop (s + (bodyText its).length + 1) = tl ++ rest := by
    rw [drop_patch _ _ _ _ (by omega) (by omega)]; exact hq
  rw [hr]
  cases e with
  | quote =>
    simp only [StrEnd.text, List.cons.injEq] at htx
    obtain ⟨rfl, rfl⟩ := htx
    have w := wr_patch buf s (bodyDecoded its) 0 (by omega)
    have hu : unescape (j + 1) { buf := patch buf s (bodyDecoded its),
                                 pend := s + (bodyDecoded its).length,
                                 s := s + (bodyText its).length + 1, ch := 34 }
        = .ok { ok := true, buf := patch buf s (bodyDecoded its ++ [0]),
                s := s + (bodyText its).length + 1,
                pend := s + (bodyDecoded its).length + 1 } := by
      simp only [unescape, if_true, w, Res.ok_bind, Res.pure_eq]
    exact ⟨_, hu, by simp⟩
  | bare c =>
    simp only [StrEnd.text, List.cons.injEq] at htx
    obtain ⟨rfl, rfl⟩ := htx
    simp only [StrEnd.Valid] at he
    have h1 : c ≠ 34 := by omega
    have h2 : c ≠ 92 := by omega
    have hu : unescape (j + 1) { buf := patch buf s (bodyDecoded its),
                                 pend := s + (bodyDecoded its).length,
                                 s := s + (bodyText its).length + 1, ch := c }
        = .ok { ok := false, buf := patch buf s (bodyDecoded its),
                s := s + (bodyText its).length + 1,
                pend := s + (bodyDecoded its).length } := by
      simp only [unescape, h1, h2, if_false, ne_eq, not_false_eq_true, if_true, Res.pure_eq]
    exact ⟨_, hu, by simp⟩
  | escNul =>
    simp only [StrEnd.text, List.cons.injEq] at htx
    obtain ⟨rfl, rfl⟩ := htx
    have r1 : rd (patch buf s (bodyDecoded its)) (s + (bodyText its).length + 1) = .ok 0 :=
      rd_of_drop (by rw [hB]; rfl)
    have hu : unescape (j + 1) { buf := patch buf s (bodyDecoded its),
                                 pend := s + (bodyDecoded its).length,
                                 s := s + (bodyText its).length + 1, ch := 92 }
        = .ok { ok := false, buf := patch buf s (bodyDecoded its),
                s := s + (bodyText its).length + 1 + 1,
                pend := s + (bodyDecoded its).length } := by
      simp [unescape, r1]
    exact ⟨_, hu, by simp⟩
  | badHex pre x =>
    simp only [StrEnd.text, List.cons.injEq] at htx
    obtain ⟨rfl, rfl⟩ := htx
    simp only [StrEnd.Valid] at he
    have r1 : rd (patch buf s (bodyDecoded its)) (s + (bodyText its).length + 1) = .ok 117 :=
      rd_of_drop (by rw [hB]; rfl)
    have hB2 : (patch buf s (bodyDecoded its)).drop (s + (bodyText its).length + 1 + 1)
        = pre ++ x :: rest := by
      have := drop_succ_of_drop (by rw [hB]; simp :
        (patch buf s (bodyDecoded its)).drop (s + (bodyText its).length + 1)
          = 117 :: (pre ++ x :: rest))
      exact this
    have hx := parseHex4_bad pre 4 _ _ 0 x rest hB2 he.1 he.2.1 he.2.2
    have hu : unescape (j + 1) { buf := patch buf s (bodyDecoded its),
                                 pend := s + (bodyDecoded its).length,
                                 s := s + (bodyText its).length + 1, ch := 92 }
        = .ok { ok := false, buf := patch buf s (bodyDecoded its),
                s := s + (bodyText its).length + 1 + 1 + pre.length + 1,
                pend := s + (bodyDecoded its).length } := by
      simp [unescape, r1, hx]
    exact ⟨_, hu, by simp⟩

theorem hexDigit_ne_zero {h : Nat} (hh : (hexDigit h).isSome) : h ≠ 0 := by
  intro e
  subst e
  simp [hexDigit] at hh

/-- The bytes after `\u`: four hexadecimal digits, or fewer of them and a byte
that is none. -/
theorem hex_prefix : ∀ (n : Nat) (tl : List Nat), 0 ∈ tl →
    (∃ pre x rest, tl = pre ++ x :: rest ∧ pre.length < n ∧
      (∀ h ∈ pre, (hexDigit h).isSome) ∧ hexDigit x = none) ∨
    (∃ hs rest, tl = hs ++ rest ∧ hs.length = n ∧ (∀ h ∈ hs, (hexDigit h).isSome) ∧ 0 ∈ rest)
  | 0, tl, h0 => Or.inr ⟨[], tl, rfl, rfl, by simp, h0⟩
  | n + 1, [], h0 => by simp at h0
  | n + 1, c :: tl, h0 => by
    cases hc : hexDigit c with
    | none => exact Or.inl ⟨[], c, tl, rfl, by simp, by simp, hc⟩
    | some d =>
      have hcs : (hexDigit c).isSome := by rw [hc]; rfl
      have h0' : 0 ∈ tl := by
        rcases List.mem_cons.mp h0 with e | e
        · exact absurd e.symm (hexDigit_ne_zero hcs)
        · exact e
      rcases hex_prefix n tl h0' with ⟨pre, x, rest, e, hl, hp, hx⟩ | ⟨hs, rest, e, hl, hp, hr⟩
      · refine Or.inl ⟨c :: pre, x, rest, by rw [e]; rfl, by simp; omega, ?_, hx⟩
        intro h hh
        rcases List.mem_cons.mp hh with e1 | e1
        · rw [e1]; exact hcs
        · exact hp h e1
      · refine Or.inr ⟨c :: hs, rest, by rw [e]; rfl, by simp; omega, ?_, hr⟩
        intro h hh
        rcases List.mem_cons.mp hh with e1 | e1
        · rw [e1]; exact hcs
        · exact hp h e1

/-- Every text that holds a NUL is made of valid pieces followed by an end. -/
theorem string_body_cases : ∀ (n : Nat) (text : List Nat), text.length ≤ n → 0 ∈ text →
    ∃ its e rest, (∀ i ∈ its, i.Valid) ∧ StrEnd.Valid e ∧ text = bodyText its ++ (e.text ++ rest)
  | 0, text, hl, h0 => by
    have : text = [] := List.eq_nil_of_length_eq_zero (by omega)
    rw [this] at h0; simp at h0
  | n + 1, [], _, h0 => by simp at h0
  | n + 1, c :: tl, hl, h0 => by
    simp only [List.length_cons] at hl
    by_cases hq : c = 34
    · exact ⟨[], .quote, tl, by simp, trivial, by simp [bodyText, StrEnd.text, hq]⟩
    by_cases hb : c = 0 ∨ c = 10 ∨ c = 13
    · exact ⟨[], .bare c, tl, by simp, hb, by simp [bodyText, StrEnd.text]⟩
    have h0' : 0 ∈ tl := by
      rcases List.mem_cons.mp h0 with e | e
      · exact absurd e.symm (by omega)
      · exact e
    by_cases hs : c = 92
    · subst hs
      cases tl with
      | nil => simp at h0'
      | cons d tl2 =>
        simp only [List.length_cons] at hl
        by_cases hd0 : d = 0
        · exact ⟨[], .escNul, tl2, by simp, trivial, by simp [bodyText, StrEnd.text, hd0]⟩
        have h02 : 0 ∈ tl2 := by
          rcases List.mem_cons.mp h0' with e | e
          · exact absurd e.symm hd0
          · exact e
        by_cases hu : d = 117
        · subst hu
          rcases hex_prefix 4 tl2 h02 with ⟨pre, x, rest, e, hl4, hp, hx⟩ | ⟨hs, rest, e, hl4, hp, hr⟩
          · exact ⟨[], .badHex pre x, rest, by simp, ⟨hl4, hp, hx⟩,
              by simp [bodyText, StrEnd.text, e]⟩
          · obtain ⟨h1, h2, h3, h4, rfl⟩ : ∃ h1 h2 h3 h4, hs = [h1, h2, h3, h4] := by
              match hs, hl4 with
              | [a, b, c, d], _ => exact ⟨a, b, c, d, rfl⟩
            have hlr : rest.length ≤ n := by
              have := congrArg List.length e
              simp at this; omega
            obtain ⟨its, e2, rest2, hv, he2, ht⟩ := string_body_cases n rest hlr hr
            refine ⟨.uni h1 h2 h3 h4 :: its, e2, rest2, ?_, he2, ?_⟩
            · intro i hi
              rcases List.mem_cons.mp hi with e1 | e1
              · rw [e1]
                exact ⟨hp h1 (by simp), hp h2 (by simp), hp h3 (by simp), hp h4 (by simp)⟩
              · exact hv i e1
            · rw [bodyText_cons, e, ht]; simp [StrItem.text]
        · obtain ⟨its, e2, rest2, hv, he2, ht⟩ := string_body_cases n tl2 (by omega) h02
          refine ⟨.esc d :: its, e2, rest2, ?_, he2, ?_⟩
          · intro i hi
            rcases List.mem_cons.mp hi with e1 | e1
            · rw [e1]; exact ⟨hd0, hu⟩
            · exact hv i e1
          · rw [bodyText_cons, ht]; simp [StrItem.text]
    · obtain ⟨its, e2, rest2, hv, he2, ht⟩ := string_body_cases n tl (by omega) h0'
      refine ⟨.plain c :: its, e2, rest2, ?_, he2, ?_⟩
      · intro i hi
        rcases List.mem_cons.mp hi with e1 | e1
        · rw [e1]
          show Ordinary c
          unfold Ordinary; omega
        · exact hv i e1
      · rw [bodyText_cons, ht]; simp [StrItem.text]

theorem patch_get (buf : List Nat) (p : Nat) (xs : List Nat) (i : Nat) (hp : p ≤ buf.length)
    (hi : i < xs.length) : (patch buf p xs)[p + i]? = xs[i]? := by
  unfold patch
  have h1 : (buf.take p).length = p := by rw [List.length_take]; omega
  rw [List.getElem?_append_left (by simp only [List.length_append, h1]; omega),
    List.getElem?_append_right (by rw [h1]; omega), h1]
  congr 1
  omega

theorem hexDigit_hexChar (d : Nat) (hd : d < 16) (c : Bool) : hexDigit (hexChar d c) = some d := by
  interval_cases d <;> cases c <;> rfl

theorem uEscape_valid (u : Nat) (c1 c2 c3 c4 : Bool) : (uEscape u c1 c2 c3 c4).Valid := by
  have h := fun d (hd : d < 16) c => hexDigit_hexChar d hd c
  simp only [uEscape, StrItem.Valid, h _ (Nat.mod_lt _ (by norm_num : 16 > 0)), Option.isSome_some,
    and_self]

theorem uEscape_decoded (u : Nat) (hu : u < 65536) (c1 c2 c3 c4 : Bool) :
    (uEscape u c1 c2 c3 c4).decoded = utf8Amended u := by
  have h := fun d (hd : d < 16) c => hexDigit_hexChar d hd c
  have hx : hex4 (hexChar (u / 4096 % 16) c1) (hexChar (u / 256 % 16) c2)
      (hexChar (u / 16 % 16) c3) (hexChar (u % 16) c4) = u := by
    simp only [hex4, hexVal, h _ (Nat.mod_lt _ (by norm_num : 16 > 0)), Option.getD_some]
    omega
  simp only [uEscape, StrItem.decoded, hx, utf8, utf8Amended]
  by_cases h1 : u = 0
  · subst h1; rfl
  · by_cases h2 : u < 0x80
    · have a : u ≠ 0 ∧ u < 0x80 := ⟨h1, h2⟩
      have b : 0 < u ∧ u < 0x80 := ⟨by omega, h2⟩
      rw [if_pos a, if_pos b]
    · have a : ¬ (u ≠ 0 ∧ u < 0x80) := fun h => h2 h.2
      have b : ¬ (0 < u ∧ u < 0x80) := fun h => h2 h.2
      rw [if_neg a, if_neg b]
      by_cases h3 : u < 0x800
      · have c : u = 0 ∨ (0x80 ≤ u ∧ u < 0x800) := Or.inr ⟨by omega, h3⟩
        rw [if_pos h3, if_pos c]
      · have c : ¬ (u = 0 ∨ (0x80 ≤ u ∧ u < 0x800)) := by omega
        rw [if_neg h3, if_neg c]

theorem bodyText_append (a b : List StrItem) : bodyText (a ++ b) = bodyText a ++ bodyText b := by
  simp [bodyText]

theorem bodyDecoded_append (a b : List StrItem) :
    bodyDecoded (a ++ b) = bodyDecoded a ++ bodyDecoded b := by
  simp [bodyDecoded]

theorem plain_lengths : ∀ (its : List StrItem), (∀ i ∈ its, ∃ c, i = .plain c) →
    (bodyDecoded its).length = (bodyText its).length
  | [], _ => rfl
  | i :: its, h => by
    obtain ⟨c, rfl⟩ := h i (List.mem_cons_self _ _)
    have ih := plain_lengths its (fun j hj => h j (List.mem_cons_of_mem _ hj))
    simp only [bodyText_cons, bodyDecoded_cons, StrItem.text, StrItem.decoded, List.length_append,
      ih]

/-- C29, as the specification words it, fails: in the string body `h\n"` the
closing quote is at offset 3; after `parseStringInternal` the NUL stands at
offset 2, behind the two decoded bytes, and the byte at offset 3 is still the
quote. -/
theorem nul_before_quote_position :
    parseStringInternal [104, 92, 110, 34, 0] 0
      = .ok { ok := true, buf := [104, 10, 0, 34, 0], s := 4, pend := 3 } := by
  rfl

/-- C29, amended: for every string that `parseStringInternal` accepts, on
return the cursor is just past the closing quote and 0x00 stands just behind
the decoded content. That is the position where the closing quote was exactly
when the decoded content is as long as its text, as it is for a string without
escapes; when an escape has shortened the content the quote is still there. -/
theorem string_terminator (its : List StrItem) (hv : ∀ i ∈ its, i.Valid)
    (buf : List Nat) (s : Nat) (rest : List Nat)
    (hd : buf.drop s = bodyText its ++ 34 :: rest) :
    ∃ r, parseStringInternal buf s = .ok r ∧ r.ok = true ∧
      r.s = s + (bodyText its).length + 1 ∧
      r.buf[s + (bodyDecoded its).length]? = some 0 ∧
      r.buf[s + (bodyText its).length]?
        = some (if (bodyDecoded its).length = (bodyText its).length then 0 else 34) ∧
      ((∀ i ∈ its, ∃ c, i = .plain c) → (bodyDecoded its).length = (bodyText its).length) := by
  have hdl := bodyDecoded_length_le its
  have hlen : s + (bodyText its ++ 34 :: rest).length = buf.length :=
    length_of_drop hd (by simp)
  simp only [List.length_append, List.length_cons] at hlen
  have h0 : (patch buf s (bodyDecoded its ++ [0]))[s + (bodyDecoded its).length]? = some 0 := by
    rw [patch_get _ _ _ _ (by omega) (by simp)]
    simp
  refine ⟨_, parseStringInternal_spec its hv buf s rest hd, rfl, rfl, h0, ?_, plain_lengths its⟩
  by_cases he : (bodyDecoded its).length = (bodyText its).length
  · rw [if_pos he, ← he]; exact h0
  · rw [if_neg he]
    have hq : buf.drop (s + (bodyText its).length) = 34 :: rest := drop_add_of_drop _ hd
    have hr := rd_patch buf s (bodyDecoded its ++ [0]) (s + (bodyText its).length)
      (by simp only [List.length_append, List.length_singleton]; omega)
      (by simp only [List.length_append, List.length_singleton]; omega)
    rw [rd_of_drop hq] at hr
    show (patch buf s (bodyDecoded its ++ [0]))[s + (bodyText its).length]? = some 34
    unfold rd at hr
    split at hr
    · rename_i c hc
      simp only [Res.ok.injEq] at hr
      rw [hc, hr]
    · cases hr

theorem string_terminator_witness :
    ∃ r, parseStringInternal [104, 105, 34, 0] 0 = .ok r ∧ r.ok = true ∧
      r.s = 0 + (bodyText [.plain 104, .plain 105]).length + 1 ∧
      r.buf[0 + (bodyDecoded [.plain 104, .plain 105]).length]? = some 0 ∧
      r.buf[0 + (bodyText [.plain 104, .plain 105]).length]?
        = some (if (bodyDecoded [.plain 104, .plain 105]).length
                    = (bodyText [.plain 104, .plain 105]).length then 0 else 34) ∧
      ((∀ i ∈ [StrItem.plain 104, .plain 105], ∃ c, i = .plain c) →
        (bodyDecoded [.plain 104, .plain 105]).length
          = (bodyText [.plain 104, .plain 105]).length) :=
  string_terminator [.plain 104, .plain 105] (by decide) [104, 105, 34, 0] 0 [0] rfl

/-- C30, as the specification words it, fails: the escape `\u0000` is
replaced by the two bytes 0xC0 0x80, and the encoding of the specification for
`u = 0` is the single byte 0. -/
theorem unicode_zero_two_bytes :
    parseStringInternal [92, 117, 48, 48, 48, 48, 34, 0] 0
      = .ok { ok := true, buf := [192, 128, 0, 48, 48, 48, 34, 0], s := 7, pend := 3 } ∧
    utf8Claimed 0 = [0] ∧ utf8Amended 0 = [192, 128] := by
  exact ⟨rfl, rfl, rfl⟩

/-- C30, amended: for every 16-bit value `u` written as `\u` and four
hexadecimal digits, in upper or lower case, anywhere in a string that
`parseStringInternal` accepts, the escape is replaced by the single byte `u`
when `0 < u < 0x80`, by the two bytes `0xC0|(u>>6)`, `0x80|(u&0x3F)` when
`u = 0` or `0x80 <= u < 0x800`, and by the three bytes `0xE0|(u>>12)`,
`0x80|((u>>6)&0x3F)`, `0x80|(u&0x3F)` otherwise. -/
theorem unicode_escape_decoded (u : Nat) (hu : u < 65536) (c1 c2 c3 c4 : Bool)
    (its1 its2 : List StrItem) (hv1 : ∀ i ∈ its1, i.Valid) (hv2 : ∀ i ∈ its2, i.Valid)
    (buf : List Nat) (s : Nat) (rest : List Nat)
    (hd : buf.drop s
      = bodyText its1 ++ ([92, 117, hexChar (u / 4096 % 16) c1, hexChar (u / 256 % 16) c2,
          hexChar (u / 16 % 16) c3, hexChar (u % 16) c4] ++ (bodyText its2 ++ 34 :: rest))) :
    parseStringInternal buf s
      = .ok { ok := true,
              buf := patch buf s (bodyDecoded its1 ++ utf8Amended u ++ bodyDecoded its2 ++ [0]),
              s := s + ((bodyText its1).length + 6 + (bodyText its2).length) + 1,
              pend := s + ((bodyDecoded its1).length + (utf8Amended u).length
                + (bodyDecoded its2).length) + 1 } := by
  have hv : ∀ i ∈ its1 ++ uEscape u c1 c2 c3 c4 :: its2, i.Valid := by
    intro i hi
    rcases List.mem_append.mp hi with h | h
    · exact hv1 i h
    · rcases List.mem_cons.mp h with h | h
      · rw [h]; exact uEscape_valid u c1 c2 c3 c4
      · exact hv2 i h
  have ht : bodyText (its1 ++ uEscape u c1 c2 c3 c4 :: its2)
      = bodyText its1 ++ ([92, 117, hexChar (u / 4096 % 16) c1, hexChar (u / 256 % 16) c2,
          hexChar (u / 16 % 16) c3, hexChar (u % 16) c4] ++ bodyText its2) := by
    rw [bodyText_append, bodyText_cons]; rfl
  have hdc : bodyDecoded (its1 ++ uEscape u c1 c2 c3 c4 :: its2)
      = bodyDecoded its1 ++ utf8Amended u ++ bodyDecoded its2 := by
    rw [bodyDecoded_append, bodyDecoded_cons, uEscape_decoded u hu, List.append_assoc]
  have := parseStringInternal_spec _ hv buf s rest (by rw [ht, hd]; simp)
  rw [this, ht, hdc]
  simp only [List.length_append, List.length_cons, List.length_nil]
  congr 2
  omega

theorem unicode_escape_decoded_witness :
    parseStringInternal [97, 92, 117, 48, 48, 69, 57, 98, 34, 0] 0
      = .ok { ok := true,
              buf := patch [97, 92, 117, 48, 48, 69, 57, 98, 34, 0] 0
                (bodyDecoded [.plain 97] ++ utf8Amended 233 ++ bodyDecoded [.plain 98] ++ [0]),
              s := 0 + ((bodyText [.plain 97]).length + 6 + (bodyText [.plain 98]).length) + 1,
              pend := 0 + ((bodyDecoded [.plain 97]).length + (utf8Amended 233).length
                + (bodyDecoded [.plain 98]).length) + 1 } :=
  unicode_escape_decoded 233 (by decide) false false true false [.plain 97] [.plain 98]
    (by decide) (by decide) [97, 92, 117, 48, 48, 69, 57, 98, 34, 0] 0 [0] rfl

/-! ### The root of a parsed document -/

/-- The stretch `g` is skipped and the skip stops at the byte `c` behind it: `c`
is above 0x20, and where `c` is a slash behind a non-empty stretch the byte
after it is no slash. -/
theorem skipLoop_stop {g : List Nat} (hg : Gap g) : ∀ (fuel : Nat) (buf : List Nat) (s c : Nat)
    (rest : List Nat), buf.drop s = g ++ c :: rest → 32 < c →
    (c = 47 → g = [] ∨ ∃ d tl, rest = d :: tl ∧ d ≠ 47) → g.length < fuel →
    skipLoop fuel buf s = .ok (s + g.length) := by
  induction hg with
  | nil =>
    intro fuel buf s c rest hd hc _ hf
    cases fuel with
    | zero => simp at hf
    | succ fuel =>
      simp at hd
      simp [skipLoop, rd_of_drop hd, matchFlag_ws, hc]
  | ws a w ha hw =>
    intro fuel buf s c rest hd hc h47 hf
    cases fuel with
    | zero => simp at hf
    | succ fuel =>
      simp only [List.cons_append] at hd
      have hlen := length_of_drop hd (by simp)
      simp only [List.length_cons, List.length_append] at hlen hf
      have hrun := skipRun_spec buf.length buf s a w c rest hd hw hc (by omega)
      have dc := drop_add_of_drop (a :: w) (r := c :: rest) (by simpa using hd)
      simp only [List.length_cons] at dc
      have e : s + (w.length + 1) = s + 1 + w.length := by omega
      rw [e] at dc
      have na : ¬ 32 < a := by omega
      by_cases hs : c = 47
      · rcases h47 hs with h | ⟨d, tl, hr, hd47⟩
        · cases h
        · subst hr
          have dc1 := drop_succ_of_drop dc
          simp [skipLoop, rd_of_drop hd, matchFlag_ws, ha, hrun, rd_of_drop dc, rd_of_drop dc1,
            hs, hd47, na]
          omega
      · simp [skipLoop, rd_of_drop hd, matchFlag_ws, ha, hrun, rd_of_drop dc, hs, na]
        omega
  | comment a w body t g ha hw hb ht _ ih =>
    intro fuel buf s c rest hd hc h47 hf
    cases fuel with
    | zero => simp at hf
    | succ fuel =>
      simp only [List.cons_append, List.append_assoc] at hd
      have hlen := length_of_drop hd (by simp)
      simp only [List.length_cons, List.length_append] at hlen hf
      have hrun := skipRun_spec buf.length buf s a w 47 (47 :: (body ++ t :: (g ++ c :: rest)))
        hd hw (by omega) (by omega)
      have dc := drop_add_of_drop (a :: w) (r := 47 :: 47 :: (body ++ t :: (g ++ c :: rest)))
        (by simpa using hd)
      simp only [List.length_cons] at dc
      have e : s + (w.length + 1) = s + 1 + w.length := by omega
      rw [e] at dc
      have dc1 := drop_succ_of_drop dc
      have dc2 := drop_succ_of_drop dc1
      have hline := skipLine_spec buf.length buf (s + 1 + w.length + 1 + 1) body t
        (g ++ c :: rest) dc2 hb ht (by omega)
      have dt := drop_add_of_drop body (r := t :: (g ++ c :: rest)) dc2
      have := ih fuel buf (s + 1 + w.length + 1 + 1 + body.length) c rest (by simpa using dt) hc
        (fun h => by
          rcases h47 h with h1 | h1
          · cases h1
          · exact Or.inr h1)
        (by simp only [List.length_cons]; omega)
      have na : ¬ 32 < a := by omega
      simp [skipLoop, rd_of_drop hd, matchFlag_ws, ha, hrun, rd_of_drop dc, rd_of_drop dc1, hline, na]
      simp only [Nat.add_assoc] at this ⊢
      rw [this]; congr 1; simp; omega

theorem stepOk_fault (e : Fault) : StepOk (.fault e) := by
  intro r h; cases h

theorem stepOk_cont (st : PState) (ch : Nat) : StepOk (.ok (.cont st ch)) := by
  intro r h; cases h

theorem stepOk_fail (st : PState) (code : Error) (hc : code ≠ .ERROR_NO_ERROR) :
    StepOk (.ok (st.fail code)) := by
  intro r h
  simp only [PState.fail, Res.ok.injEq, Step.ret.injEq] at h
  subst h
  intro h2
  exact absurd h2 hc

theorem stepOk_bind {α : Type} (x : Res α) (f : α → Res Step) (h : ∀ a, StepOk (f a)) :
    StepOk (x >>= f) := by
  cases x with
  | fault e => exact stepOk_fault e
  | ok a => exact h a

theorem listToValue_type (t : JType) (tail : List PNode) :
    (listToValue t tail).getType = .JSON_ARRAY ∨ (listToValue t tail).getType = .JSON_OBJECT := by
  unfold listToValue
  split
  · exact Or.inr rfl
  · exact Or.inl rfl

theorem closeLoop_ok : ∀ (n : Nat) (st : PState), StepOk (closeLoop n st)
  | 0, _ => stepOk_fault _
  | n + 1, st => by
    unfold closeLoop
    split
    · exact stepOk_fail _ _ (by decide)
    · rename_i f rest _
      simp only
      split
      · intro r h
        simp only [Res.pure_eq, Res.ok.injEq, Step.ret.injEq] at h
        subst h
        intro _
        exact ⟨_, rfl, listToValue_type _ _⟩
      · rename_i p rest1
        apply stepOk_bind; intro p1
        apply stepOk_bind; intro s1
        apply stepOk_bind; intro c
        split
        · apply stepOk_bind; intro s2
          apply stepOk_bind; intro ch
          split
          · exact closeLoop_ok n _
          · exact stepOk_cont _ _
        · split
          · exact stepOk_fail _ _ (by decide)
          · exact closeLoop_ok n _

theorem separator_ok (st : PState) : StepOk (separator st) := by
  unfold separator
  split
  · exact stepOk_fault _
  · apply stepOk_bind; intro s1
    apply stepOk_bind; intro ch
    split
    · split
      · exact stepOk_fail _ _ (by decide)
      · apply stepOk_bind; intro s2
        apply stepOk_bind; intro ch2
        split
        · exact closeLoop_ok _ _
        · exact stepOk_cont _ _
    · split
      · exact stepOk_fail _ _ (by decide)
      · split
        · exact closeLoop_ok _ _
        · exact stepOk_cont _ _

theorem newNode_ok (avail : Nat) (st : PState) (ch : Nat) : StepOk (newNode avail st ch) := by
  unfold newNode
  split
  · exact stepOk_fault _
  · simp only
    split
    · exact stepOk_fail _ _ (by decide)
    · split
      · exact stepOk_cont _ _
      · split
        · exact stepOk_fail _ _ (by decide)
        · apply stepOk_bind; intro f2
          apply stepOk_bind; intro r
          split
          · exact stepOk_fail _ _ (by decide)
          · apply stepOk_bind; intro s3
            apply stepOk_bind; intro c
            split
            · exact stepOk_fail _ _ (by decide)
            · apply stepOk_bind; intro s4
              apply stepOk_bind; intro ch4
              exact stepOk_cont _ _

theorem parseValue_ok (F : FloatOps) (st : PState) (ch : Nat) : StepOk (parseValue F st ch) := by
  unfold parseValue
  split
  · exact stepOk_fault _
  · split
    · split
      · exact stepOk_fail _ _ (by decide)
      · exact stepOk_cont _ _
    · split
      · apply stepOk_bind; intro f1
        apply stepOk_bind; intro r
        split
        · exact stepOk_fail _ _ (by decide)
        · exact stepOk_cont _ _
      · split
        · apply stepOk_bind; intro b
          split
          · apply stepOk_bind; intro f1
            exact stepOk_cont _ _
          · exact stepOk_fail _ _ (by decide)
        · split
          · apply stepOk_bind; intro b
            split
            · apply stepOk_bind; intro f1
              exact stepOk_cont _ _
            · exact stepOk_fail _ _ (by decide)
          · split
            · apply stepOk_bind; intro b
              split
              · apply stepOk_bind; intro f1
                exact stepOk_cont _ _
              · exact stepOk_fail _ _ (by decide)
            · split
              · apply stepOk_bind; intro o
                split
                · exact stepOk_fail _ _ (by decide)
                · apply stepOk_bind; intro f1
                  exact stepOk_cont _ _
              · exact stepOk_fail _ _ (by decide)

theorem parseLoop_ok (F : FloatOps) (avail : Nat) : ∀ (fuel : Nat) (st : PState) (r : ParseResult),
    parseLoop F avail fuel st = .ok r → RootOk r
  | 0, _, _, h => by cases h
  | fuel + 1, st, r, h => by
    rw [parseLoop_succ] at h
    unfold roundRest at h
    cases hs : separator st with
    | fault e => rw [hs] at h; cases h
    | ok x =>
      rw [hs] at h
      cases x with
      | ret r1 =>
        simp only [Res.ok_bind, Res.pure_eq, Res.ok.injEq] at h
        subst h
        exact separator_ok st _ hs
      | cont st1 ch =>
        simp only [Res.ok_bind] at h
        unfold roundFrom memberSteps at h
        cases hn : newNode avail st1 ch with
        | fault e => rw [hn] at h; cases h
        | ok y =>
          rw [hn] at h
          cases y with
          | ret r1 =>
            simp only [Res.ok_bind, Res.pure_eq, Res.ok.injEq] at h
            subst h
            exact newNode_ok avail st1 ch _ hn
          | cont st2 ch2 =>
            simp only [Res.ok_bind] at h
            cases hv : parseValue F st2 ch2 with
            | fault e => rw [hv] at h; cases h
            | ok z =>
              rw [hv] at h
              cases z with
              | ret r1 =>
                simp only [Res.ok_bind, Res.pure_eq, Res.ok.injEq] at h
                subst h
                exact parseValue_ok F st2 ch2 _ hv
              | cont st3 ch3 =>
                simp only [Res.ok_bind] at h
                exact parseLoop_ok F avail fuel st3 r h

theorem jsonParse_ok (F : FloatOps) (avail : Nat) (buf : List Nat) (r : ParseResult)
    (h : jsonParse F avail buf = .ok r) : RootOk r := by
  unfold jsonParse at h
  cases hs : skipWhitespace buf 0 with
  | fault e => rw [hs] at h; cases h
  | ok s =>
    rw [hs] at h
    simp only [Res.ok_bind] at h
    cases hr : rd buf s with
    | fault e => rw [hr] at h; cases h
    | ok ch =>
      rw [hr] at h
      simp only [Res.ok_bind] at h
      split at h
      · exact parseLoop_ok F avail _ _ r h
      · simp only [Res.pure_eq, Res.ok.injEq] at h
        subst h
        intro h2
        cases h2

/-! ### Brackets that do not match -/

/-- A comma in a container that has no element yet. -/
theorem sep_comma_first (st : PState) (f : Frame) (rest : List Frame) (g after : List Nat)
    (hst : st.stack = f :: rest) (ht : f.tail = []) (hg : Gap g)
    (hd : st.buf.drop st.s = g ++ 44 :: after) :
    separator st = .ok (PState.fail { st with s := st.s + g.length } .ERROR_MISMATCH_BRACKET) := by
  have hs := skipWhitespace_spec hg st.buf st.s 44 after hd (by omega) (by omega)
  have hr : rd st.buf (st.s + g.length) = .ok 44 := rd_of_drop (drop_add_of_drop _ hd)
  unfold separator
  rw [hst]
  simp only [hs, Res.ok_bind, hr, ht, List.isEmpty_nil, if_true, Res.pure_eq]

/-- A byte that is neither a comma nor the closing bracket, behind an element. -/
theorem sep_wrong (st : PState) (f : Frame) (rest : List Frame) (g after : List Nat) (w : Nat)
    (hst : st.stack = f :: rest) (ht : f.tail ≠ []) (hg : Gap g)
    (hd : st.buf.drop st.s = g ++ w :: after) (h1 : 32 < w) (h2 : w ≠ 47) (h3 : w ≠ 44)
    (h4 : w ≠ f.endchar) :
    separator st = .ok (PState.fail { st with s := st.s + g.length } .ERROR_MISMATCH_BRACKET) := by
  have hs := skipWhitespace_spec hg st.buf st.s w after hd h1 h2
  have hr : rd st.buf (st.s + g.length) = .ok w := rd_of_drop (drop_add_of_drop _ hd)
  have he : f.tail.isEmpty = false := by
    cases hft : f.tail with
    | nil => exact absurd hft ht
    | cons a b => rfl
  unfold separator
  rw [hst]
  simp only [hs, Res.ok_bind, hr, h3, if_false, he, Bool.not_false, h4, ne_eq, not_false_eq_true,
    and_self, if_true, Res.pure_eq]

theorem closerOf_not (isObj : Bool) :
    (closerOf (!isObj) = 93 ∨ closerOf (!isObj) = 125) ∧ closerOf (!isObj) ≠ closerOf isObj := by
  cases isObj <;> simp [closerOf]

theorem mismatch_nil (F : FloatOps) (avail : Nat) (lead : Lead) :
    MismatchOk F avail (.nil lead) := by
  intro st f rest after isObj first hst he hv hft hnc hne hd _ _
  obtain ⟨hg, _⟩ := hv
  simp only [CNodes.NoTrailingComma] at hnc
  simp only [CNodes.text, Lead.text, hnc, commaText, List.append_nil] at hd
  have hf : first = false := by
    cases first with
    | false => rfl
    | true => have := hne rfl; simp [CNodes.size] at this
  have ht : f.tail ≠ [] := by
    intro h
    have := hft.mp h
    rw [hf] at this
    cases this
  obtain ⟨hw, hw2⟩ := closerOf_not isObj
  have hsep := sep_wrong st f rest lead.a after _ hst ht hg hd (by omega) (by omega) (by omega)
    (by rw [he]; exact hw2)
  refine ⟨st.buf, fun fuel => ?_⟩
  simp only [CNodes.size, Nat.add_zero]
  rw [parseLoop_succ, hsep]
  rfl

theorem mismatch_cons (F : FloatOps) (avail : Nat) (lead : Lead) (key : Option CKey)
    (v : CValue) (next : CNodes) (hv : ValueOk F avail v) (hn : MismatchOk F avail next) :
    MismatchOk F avail (.cons lead key v next) := by
  intro st f rest after isObj first hst he hvalid hft hnc _ hd hdp hal
  obtain ⟨hg, hcm, hkey, hvv, hnv⟩ := hvalid
  have hcl := closerOf_cases isObj
  obtain ⟨hw, hw2⟩ := closerOf_not isObj
  obtain ⟨k, hk⟩ := CValue.size_pos v
  obtain ⟨cv, tlv, hvt, hcv⟩ := CValue.text_start v hvv
  obtain ⟨ca, tla, hA, hdA⟩ := CNodes.members_text_head next isObj hnv (closerOf (!isObj)) after hw
  simp only [CNodes.text, CNodes.size, CNodes.depth, List.append_assoc] at hd hdp hal ⊢
  obtain ⟨c1, tl1, hk1, hc1⟩ :=
    keyText_start key cv (tlv ++ (next.text ++ closerOf (!isObj) :: after)) hcv
  -- the separator
  have hd0 : st.buf.drop st.s = lead.text ++ c1 :: tl1 := by
    rw [hd, ← hk1, hvt]; simp
  have hsep := sep_member st f rest lead c1 tl1 hst (by rw [he]; exact hcl) hd0 hc1 hg (by
    cases hl : lead.comma with
    | none =>
      rw [hl] at hcm; exact hft.mpr hcm
    | some b =>
      rw [hl] at hcm
      refine ⟨?_, hcm.2⟩
      intro h0
      have := hft.mp h0
      rw [hcm.1] at this
      cases this)
  -- the node
  have hd1 : st.buf.drop (st.s + lead.text.length)
      = keyText key ++ cv :: (tlv ++ (next.text ++ closerOf (!isObj) :: after)) := by
    rw [hk1]; exact drop_add_of_drop _ hd0
  obtain ⟨buf2, nm, hnew, hl2, hd2, hag2, hnm⟩ :=
    newNode_spec avail { st with s := st.s + lead.text.length } f rest key isObj cv
      (tlv ++ (next.text ++ closerOf (!isObj) :: after)) c1 hst he (by simp; omega) hkey hd1
      (by rw [hk1]; rfl) hcv
  simp only at hnew hl2 hd2 hag2 hnm
  -- the value
  obtain ⟨buf3, val, hl3, hd3, hag3, hres3, hrun3⟩ :=
    hv { buf := buf2, s := st.s + lead.text.length + (keyText key).length, stack := { f with tail := { value := Value.null, name := nm } :: f.tail } :: rest, allocs := st.allocs + 1 }
      { f with tail := { value := Value.null, name := nm } :: f.tail } rest
      { value := Value.null, name := nm } f.tail (next.text ++ closerOf (!isObj) :: after) cv k
      rfl rfl
      (by simp only; rw [hd2, hvt]; simp) ⟨ca, tla, hA, hdA⟩ (by rw [hvt]; rfl)
      (by have := Nat.le_max_left v.depth next.depth; omega) hk (by simp only; omega)
  simp only at hl3 hd3 hag3 hres3 hrun3
  -- the following members
  obtain ⟨buf4, hrun4⟩ :=
    hn { buf := buf3, s := st.s + lead.text.length + (keyText key).length + v.text.length, stack := { f with tail := { value := val, name := nm } :: f.tail } :: rest, allocs := st.allocs + 1 + k }
      { f with tail := { value := val, name := nm } :: f.tail } rest after isObj false rfl he hnv
      (by simp) hnc (by intro h; cases h) hd3
      (by have := Nat.le_max_right v.depth next.depth; omega)
      (by simp only; omega)
  simp only at hrun4
  refine ⟨buf4, fun fuel => ?_⟩
  rw [parseLoop_succ, hsep, roundRest_cont, memberSteps_of_newNode F avail _ _ c1 cv hnew]
  have e1 : fuel + (v.size + next.size) = (fuel + next.size) + k + 1 := by omega
  rw [e1, hrun3 (fuel + next.size), hrun4 fuel]
  have e2 : st.allocs + 1 + k + next.size = st.allocs + (v.size + next.size) := by omega
  rw [e2]

/-- Members followed by the closing bracket of the other kind end with
`ERROR_MISMATCH_BRACKET`. -/
theorem mismatch_ok (F : FloatOps) (avail : Nat) : ∀ ns : CNodes, MismatchOk F avail ns
  | .nil lead => mismatch_nil F avail lead
  | .cons lead key v next => by
    intro st f rest after isObj first hst he hvalid
    exact mismatch_cons F avail lead key v next (value_ok F avail v hvalid.2.2.2.1)
      (mismatch_ok F avail next) st f rest after isObj first hst he hvalid

/-- A document whose root container holds at least one element and is closed
by the bracket of the other kind. -/
theorem jsonParse_wrong_closer (F : FloatOps) (avail : Nat) (g : List Nat) (isObj : Bool)
    (ns : CNodes) (after : List Nat) (hg : Gap g) (hv : ns.Valid isObj true)
    (hne : 0 < ns.size) (hnc : ns.NoTrailingComma)
    (hdepth : ns.depth + 1 ≤ 32) (hal : ns.size ≤ avail) :
    ∃ buf', jsonParse F avail (g ++ openerOf isObj :: (ns.text ++ closerOf (!isObj) :: after))
      = .ok { code := .ERROR_MISMATCH_BRACKET, value := none, buf := buf', allocs := ns.size } := by
  have hop : openerOf isObj = 91 ∨ openerOf isObj = 123 := by
    cases isObj <;> simp [openerOf]
  have hcl : closerOf isObj = openerOf isObj + 2 := by
    cases isObj <;> simp [openerOf, closerOf]
  generalize hbuf : g ++ openerOf isObj :: (ns.text ++ closerOf (!isObj) :: after) = buf
  have hd0 : buf.drop 0 = g ++ openerOf isObj :: (ns.text ++ closerOf (!isObj) :: after) := by
    rw [← hbuf]; rfl
  have hskip := skipWhitespace_spec hg buf 0 (openerOf isObj) _ hd0
    (by rcases hop with h | h <;> omega) (by rcases hop with h | h <;> omega)
  have hd1 : buf.drop (0 + g.length)
      = openerOf isObj :: (ns.text ++ closerOf (!isObj) :: after) :=
    drop_add_of_drop _ hd0
  have hrd := rd_of_drop hd1
  have hd2 : buf.drop (0 + g.length + 1) = ns.text ++ closerOf (!isObj) :: after :=
    drop_succ_of_drop hd1
  have hsz := CNodes.members_size_le_text ns isObj true hv
  have hlen : buf.length
      = (g.length + after.length + (ns.text.length - ns.size) + 1) + ns.size + 1 := by
    rw [← hbuf]
    simp only [List.length_append, List.length_cons]
    omega
  obtain ⟨buf', h5⟩ :=
    mismatch_ok F avail ns
      { buf := buf, s := 0 + g.length + 1, stack := [{ tail := [], endchar := openerOf isObj + 2 }], allocs := 0 }
      { tail := [], endchar := openerOf isObj + 2 } [] after isObj true rfl hcl.symm hv (by simp)
      hnc (fun _ => hne) (by simp only; exact hd2) (by simp only [List.length_nil]; omega)
      (by simpa using hal)
  simp only at h5
  refine ⟨buf', ?_⟩
  simp only [jsonParse, hskip, Res.ok_bind, hrd, hop, or_comm, if_true]
  rw [hlen, h5 _]
  simp

/-- A document whose root container starts with a comma. -/
theorem jsonParse_comma_first (F : FloatOps) (avail : Nat) (g g2 : List Nat) (isObj : Bool)
    (after : List Nat) (hg : Gap g) (hg2 : Gap g2) :
    jsonParse F avail (g ++ openerOf isObj :: (g2 ++ 44 :: after))
      = .ok { code := .ERROR_MISMATCH_BRACKET, value := none,
              buf := g ++ openerOf isObj :: (g2 ++ 44 :: after), allocs := 0 } := by
  have hop : openerOf isObj = 91 ∨ openerOf isObj = 123 := by
    cases isObj <;> simp [openerOf]
  generalize hbuf : g ++ openerOf isObj :: (g2 ++ 44 :: after) = buf
  have hd0 : buf.drop 0 = g ++ openerOf isObj :: (g2 ++ 44 :: after) := by
    rw [← hbuf]; rfl
  have hskip := skipWhitespace_spec hg buf 0 (openerOf isObj) _ hd0
    (by rcases hop with h | h <;> omega) (by rcases hop with h | h <;> omega)
  have hd1 : buf.drop (0 + g.length) = openerOf isObj :: (g2 ++ 44 :: after) :=
    drop_add_of_drop _ hd0
  have hrd := rd_of_drop hd1
  have hd2 : buf.drop (0 + g.length + 1) = g2 ++ 44 :: after := drop_succ_of_drop hd1
  have hlen : buf.length = (g.length + g2.length + after.length + 1) + 1 := by
    rw [← hbuf]
    simp only [List.length_append, List.length_cons]
    omega
  have hsep := sep_comma_first
    { buf := buf, s := 0 + g.length + 1, stack := [{ tail := [], endchar := openerOf isObj + 2 }], allocs := 0 }
    { tail := [], endchar := openerOf isObj + 2 } [] g2 after rfl rfl hg2 hd2
  simp only [jsonParse, hskip, Res.ok_bind, hrd, hop, or_comm, if_true]
  rw [hlen, parseLoop_succ, hsep]
  rfl

/-! ### Strings that fail -/

/-- A string value whose body does not end with a closing quote. -/
theorem parseValue_bad_string (F : FloatOps) (st : PState) (f : Frame) (rest : List Frame)
    (n0 : PNode) (t : List PNode) (its : List StrItem) (e : StrEnd) (after : List Nat)
    (hst : st.stack = f :: rest) (hft : f.tail = n0 :: t)
    (hv : ∀ i ∈ its, i.Valid) (he : e.Valid) (hq : e ≠ .quote)
    (hd : st.buf.drop st.s = 34 :: (bodyText its ++ (e.text ++ after))) :
    ∃ r, parseValue F st 34 = .ok (.ret r) ∧ r.code = .ERROR_BAD_STRING ∧ r.value = none := by
  obtain ⟨r, hr, hok⟩ := parseStringInternal_end its hv e he st.buf (st.s + 1) after
    (drop_succ_of_drop hd)
  have hf : r.ok = false := by
    cases h : r.ok with
    | false => rfl
    | true => exact absurd (hok.mp h) hq
  refine ⟨{ code := .ERROR_BAD_STRING, value := none, buf := r.buf, allocs := st.allocs },
    ?_, rfl, rfl⟩
  simp [parseValue, hst, setTailValue, hft, hr, hf, PState.fail]

/-- A key whose body does not end with a closing quote. -/
theorem newNode_bad_key (avail : Nat) (st : PState) (f : Frame) (rest : List Frame)
    (its : List StrItem) (e : StrEnd) (after : List Nat)
    (hst : st.stack = f :: rest) (hfe : f.endchar = 125) (ha : st.allocs < avail)
    (hv : ∀ i ∈ its, i.Valid) (he : e.Valid) (hq : e ≠ .quote)
    (hd : st.buf.drop st.s = 34 :: (bodyText its ++ (e.text ++ after))) :
    ∃ r, newNode avail st 34 = .ok (.ret r) ∧ r.code = .ERROR_BAD_STRING ∧ r.value = none := by
  obtain ⟨r, hr, hok⟩ := parseStringInternal_end its hv e he st.buf (st.s + 1) after
    (drop_succ_of_drop hd)
  have hf : r.ok = false := by
    cases h : r.ok with
    | false => rfl
    | true => exact absurd (hok.mp h) hq
  have hna : ¬ avail ≤ st.allocs := by omega
  refine ⟨{ code := .ERROR_BAD_STRING, value := none, buf := r.buf, allocs := st.allocs + 1 },
    ?_, rfl, rfl⟩
  simp [newNode, hst, hna, hfe, insertAfter, setTailName, hr, hf, PState.fail]

/-- A document whose first element or first key is a string that fails. -/
theorem jsonParse_bad_string (F : FloatOps) (avail : Nat) (g g2 : List Nat) (isObj : Bool)
    (its : List StrItem) (e : StrEnd) (after : List Nat) (hg : Gap g) (hg2 : Gap g2)
    (hv : ∀ i ∈ its, i.Valid) (he : e.Valid) (hq : e ≠ .quote) (ha : 0 < avail) :
    ∃ r, jsonParse F avail
        (g ++ openerOf isObj :: (g2 ++ 34 :: (bodyText its ++ (e.text ++ after)))) = .ok r ∧
      r.code = .ERROR_BAD_STRING ∧ r.value = none := by
  have hop : openerOf isObj = 91 ∨ openerOf isObj = 123 := by
    cases isObj <;> simp [openerOf]
  generalize hbuf : g ++ openerOf isObj :: (g2 ++ 34 :: (bodyText its ++ (e.text ++ after))) = buf
  have hd0 : buf.drop 0
      = g ++ openerOf isObj :: (g2 ++ 34 :: (bodyText its ++ (e.text ++ after))) := by
    rw [← hbuf]; rfl
  have hskip := skipWhitespace_spec hg buf 0 (openerOf isObj) _ hd0
    (by rcases hop with h | h <;> omega) (by rcases hop with h | h <;> omega)
  have hd1 : buf.drop (0 + g.length)
      = openerOf isObj :: (g2 ++ 34 :: (bodyText its ++ (e.text ++ after))) :=
    drop_add_of_drop _ hd0
  have hrd := rd_of_drop hd1
  have hd2 : buf.drop (0 + g.length + 1) = g2 ++ 34 :: (bodyText its ++ (e.text ++ after)) :=
    drop_succ_of_drop hd1
  have hlen : buf.length
      = (g.length + g2.length + (bodyText its ++ (e.text ++ after)).length + 1) + 1 := by
    rw [← hbuf]
    simp only [List.length_append, List.length_cons]
    omega
  have hsep := sep_member
    { buf := buf, s := 0 + g.length + 1, stack := [{ tail := [], endchar := openerOf isObj + 2 }], allocs := 0 }
    { tail := [], endchar := openerOf isObj + 2 } [] { a := g2, comma := none } 34
    (bodyText its ++ (e.text ++ after)) rfl (by rcases hop with h | h <;> simp [h])
    (by simpa [Lead.text, commaText] using hd2) (by simp [StartByte]) hg2 rfl
  simp only [Lead.text, commaText, List.append_nil] at hsep
  have hd3 : buf.drop (0 + g.length + 1 + g2.length)
      = 34 :: (bodyText its ++ (e.text ++ after)) := drop_add_of_drop _ hd2
  cases isObj with
  | false =>
    have hnew := newNode_array avail
      { buf := buf, s := 0 + g.length + 1 + g2.length, stack := [{ tail := [], endchar := 91 + 2 }], allocs := 0 }
      { tail := [], endchar := 91 + 2 } [] 34 rfl rfl ha
    obtain ⟨r, hr, hc, hn⟩ := parseValue_bad_string F
      { buf := buf, s := 0 + g.length + 1 + g2.length, stack := [{ tail := [{ value := Value.null, name := none }], endchar := 91 + 2 }], allocs := 0 + 1 }
      { tail := [{ value := Value.null, name := none }], endchar := 91 + 2 } []
      { value := Value.null, name := none } [] its e after rfl rfl hv he hq hd3
    refine ⟨r, ?_, hc, hn⟩
    simp only [openerOf, Bool.false_eq_true, if_false] at hsep hrd ⊢
    simp only [jsonParse, hskip, Res.ok_bind, hrd, Nat.reduceEqDiff, or_true, if_true]
    rw [hlen, parseLoop_succ, hsep, roundRest_cont, memberSteps_of_newNode F avail _ _ 34 34 hnew,
      hr]
    rfl
  | true =>
    obtain ⟨r, hr, hc, hn⟩ := newNode_bad_key avail
      { buf := buf, s := 0 + g.length + 1 + g2.length, stack := [{ tail := [], endchar := 123 + 2 }], allocs := 0 }
      { tail := [], endchar := 123 + 2 } [] its e after rfl rfl ha hv he hq hd3
    refine ⟨r, ?_, hc, hn⟩
    simp only [openerOf, if_true] at hsep hrd ⊢
    simp only [jsonParse, hskip, Res.ok_bind, hrd, Nat.reduceEqDiff, true_or, if_true]
    rw [hlen, parseLoop_succ, hsep, roundRest_cont]
    simp only [memberSteps, hr, Res.ok_bind, roundFrom, Res.pure_eq]

/-! ### The claims on the root, the brackets and the strings -/

/-- C26: if the first byte that is not skipped as whitespace or comment is
neither `\x7b` nor `[`, `jsonParse` returns `ERROR_BAD_ROOT`, allocates no
node, leaves the buffer as it is and stores no value; and whenever `jsonParse`
returns `ERROR_NO_ERROR` the value it has stored is of type `JSON_ARRAY` or
`JSON_OBJECT`. The first byte not skipped is a byte above 0x20 behind a
skipped stretch; a slash behind a non-empty stretch counts when no second
slash follows it. -/
theorem root_must_be_container (F : FloatOps) (avail : Nat) :
    (∀ (g : List Nat) (c : Nat) (rest : List Nat), Gap g → 32 < c → c ≠ 123 → c ≠ 91 →
      (c = 47 → g = [] ∨ ∃ d tl, rest = d :: tl ∧ d ≠ 47) →
      jsonParse F avail (g ++ c :: rest)
        = .ok { code := .ERROR_BAD_ROOT, value := none, buf := g ++ c :: rest, allocs := 0 }) ∧
    (∀ (buf : List Nat) (r : ParseResult), jsonParse F avail buf = .ok r →
      r.code = .ERROR_NO_ERROR →
      ∃ v, r.value = some v ∧ (v.getType = .JSON_ARRAY ∨ v.getType = .JSON_OBJECT)) := by
  refine ⟨?_, fun buf r h => jsonParse_ok F avail buf r h⟩
  intro g c rest hg hc h1 h2 h47
  have hd0 : (g ++ c :: rest).drop 0 = g ++ c :: rest := rfl
  have hskip : skipWhitespace (g ++ c :: rest) 0 = .ok (0 + g.length) :=
    skipLoop_stop hg _ _ 0 c rest hd0 hc h47 (by simp)
  have hrd := rd_of_drop (drop_add_of_drop g hd0)
  simp only [jsonParse, hskip, Res.ok_bind, hrd, h1, h2, or_self, if_false, Res.pure_eq]

theorem root_must_be_container_witness :
    jsonParse ieee 4 ([32] ++ 34 :: [97, 34, 0])
      = .ok { code := .ERROR_BAD_ROOT, value := none, buf := [32] ++ 34 :: [97, 34, 0],
              allocs := 0 } :=
  (root_must_be_container ieee 4).1 [32] 34 [97, 34, 0] (Gap.ws 32 [] (by decide) (by intro c h; cases h))
    (by decide) (by decide) (by decide) (by intro h; cases h)

/-- C27, as the specification words it, fails where no member stands directly
before the wrong bracket. In an empty container the text `\x7b]` ends with
`ERROR_UNEXPECTED_CHARACTER`, because a key is expected, and the text `[\x7d`
ends with `ERROR_BREAKING_BAD`, because a value is expected; and behind a
comma the text `[1,\x7d` ends with `ERROR_BREAKING_BAD` and the text
`\x7b"a":1,]` with `ERROR_UNEXPECTED_CHARACTER`, for the same reasons. -/
theorem wrong_closer_in_empty_container :
    jsonParse ieee 1 [123, 93, 0]
      = .ok { code := .ERROR_UNEXPECTED_CHARACTER, value := none, buf := [123, 93, 0],
              allocs := 1 } ∧
    jsonParse ieee 1 [91, 125, 0]
      = .ok { code := .ERROR_BREAKING_BAD, value := none, buf := [91, 125, 0], allocs := 1 } ∧
    jsonParse ieee 2 [91, 49, 44, 125, 0]
      = .ok { code := .ERROR_BREAKING_BAD, value := none, buf := [91, 49, 44, 125, 0],
              allocs := 2 } ∧
    jsonParse ieee 2 [123, 34, 97, 34, 58, 49, 44, 93, 0]
      = .ok { code := .ERROR_UNEXPECTED_CHARACTER, value := none,
              buf := [123, 34, 97, 0, 58, 49, 44, 93, 0], allocs := 2 } :=
  ⟨rfl, rfl, rfl, rfl⟩

/-- C27, amended: whenever a `]` appears directly behind the last member of an
object that holds at least one member, or a `\x7d` directly behind the last
element of an array that holds at least one element (whitespace and comments
may stand in between, a comma may not), and whenever a `,` appears in a
container that has no element yet, the parse ends with
`ERROR_MISMATCH_BRACKET`: at any nesting depth, for the main loop entered at
the members of the open container, and for the document whose root container
it is. -/
theorem mismatch_bracket (F : FloatOps) (avail : Nat) :
    (∀ ns : CNodes, MismatchOk F avail ns) ∧
    (∀ (st : PState) (f : Frame) (rest : List Frame) (g after : List Nat) (fuel : Nat),
      st.stack = f :: rest → f.tail = [] → Gap g → st.buf.drop st.s = g ++ 44 :: after →
      parseLoop F avail (fuel + 1) st
        = .ok { code := .ERROR_MISMATCH_BRACKET, value := none, buf := st.buf,
                allocs := st.allocs }) ∧
    (∀ (g : List Nat) (isObj : Bool) (ns : CNodes) (after : List Nat), Gap g →
      ns.Valid isObj true → 0 < ns.size → ns.NoTrailingComma → ns.depth + 1 ≤ 32 →
      ns.size ≤ avail →
      ∃ buf', jsonParse F avail (g ++ openerOf isObj :: (ns.text ++ closerOf (!isObj) :: after))
        = .ok { code := .ERROR_MISMATCH_BRACKET, value := none, buf := buf',
                allocs := ns.size }) ∧
    (∀ (g g2 : List Nat) (isObj : Bool) (after : List Nat), Gap g → Gap g2 →
      jsonParse F avail (g ++ openerOf isObj :: (g2 ++ 44 :: after))
        = .ok { code := .ERROR_MISMATCH_BRACKET, value := none,
                buf := g ++ openerOf isObj :: (g2 ++ 44 :: after), allocs := 0 }) := by
  refine ⟨mismatch_ok F avail, ?_, ?_, ?_⟩
  · intro st f rest g after fuel hst ht hg hd
    rw [parseLoop_succ, sep_comma_first st f rest g after hst ht hg hd]
    rfl
  · intro g isObj ns after hg hv hne hnc hdp hal
    exact jsonParse_wrong_closer F avail g isObj ns after hg hv hne hnc hdp hal
  · intro g g2 isObj after hg hg2
    exact jsonParse_comma_first F avail g g2 isObj after hg hg2

theorem mismatch_bracket_witness :
    (∃ buf', jsonParse ieee 4
        ([] ++ openerOf false
          :: ((CNodes.cons { a := [], comma := none } none (.int false [49])
                (.nil { a := [], comma := none })).text ++ closerOf (!false) :: [0]))
      = .ok { code := .ERROR_MISMATCH_BRACKET, value := none, buf := buf',
              allocs := (CNodes.cons { a := [], comma := none } none (.int false [49])
                (.nil { a := [], comma := none })).size }) ∧
    jsonParse ieee 4 ([] ++ openerOf true :: ([32] ++ 44 :: [0]))
      = .ok { code := .ERROR_MISMATCH_BRACKET, value := none,
              buf := [] ++ openerOf true :: ([32] ++ 44 :: [0]), allocs := 0 } :=
  ⟨(mismatch_bracket ieee 4).2.2.1 [] false
      (.cons { a := [], comma := none } none (.int false [49]) (.nil { a := [], comma := none }))
      [0] Gap.nil
      (by
        simp only [CNodes.Valid, CValue.Valid]
        refine ⟨Gap.nil, trivial, trivial, ⟨by decide, by decide, ?_⟩, Gap.nil, trivial⟩
        intro d hd
        simp only [List.mem_singleton] at hd
        subst hd
        decide)
      (by decide) rfl (by decide) (by decide),
   (mismatch_bracket ieee 4).2.2.2 [] [32] true [0] Gap.nil
      (Gap.ws 32 [] (by decide) (by intro c h; cases h))⟩

/-- C28: `parseStringInternal` returns, and it returns true exactly when the
valid pieces of the body (ordinary bytes, a backslash with a byte other than
NUL and `u`, `\u` with four hexadecimal digits) are followed by the closing
quote; it returns false when they are followed by a bare 0x00, LF or CR, by a
backslash before 0x00, or by `\u` with fewer than four hexadecimal digits
before another byte. Every text that holds a NUL is of one of these forms. When
it returns false for a string value or for a key, the parse ends with
`ERROR_BAD_STRING`. -/
theorem bad_string_cases (F : FloatOps) (avail : Nat) :
    (∀ (its : List StrItem) (e : StrEnd) (buf : List Nat) (s : Nat) (after : List Nat),
      (∀ i ∈ its, i.Valid) → e.Valid → buf.drop s = bodyText its ++ (e.text ++ after) →
      ∃ r, parseStringInternal buf s = .ok r ∧ (r.ok = true ↔ e = .quote)) ∧
    (∀ text : List Nat, 0 ∈ text →
      ∃ its e after, (∀ i ∈ its, i.Valid) ∧ StrEnd.Valid e ∧
        text = bodyText its ++ (e.text ++ after)) ∧
    (∀ (st : PState) (f : Frame) (rest : List Frame) (n0 : PNode) (t : List PNode)
      (its : List StrItem) (e : StrEnd) (after : List Nat),
      st.stack = f :: rest → f.tail = n0 :: t → (∀ i ∈ its, i.Valid) → e.Valid → e ≠ .quote →
      st.buf.drop st.s = 34 :: (bodyText its ++ (e.text ++ after)) →
      ∃ r, parseValue F st 34 = .ok (.ret r) ∧ r.code = .ERROR_BAD_STRING ∧ r.value = none) ∧
    (∀ (st : PState) (f : Frame) (rest : List Frame) (its : List StrItem) (e : StrEnd)
      (after : List Nat),
      st.stack = f :: rest → f.endchar = 125 → st.allocs < avail → (∀ i ∈ its, i.Valid) →
      e.Valid → e ≠ .quote →
      st.buf.drop st.s = 34 :: (bodyText its ++ (e.text ++ after)) →
      ∃ r, newNode avail st 34 = .ok (.ret r) ∧ r.code = .ERROR_BAD_STRING ∧ r.value = none) ∧
    (∀ (g g2 : List Nat) (isObj : Bool) (its : List StrItem) (e : StrEnd) (after : List Nat),
      Gap g → Gap g2 → (∀ i ∈ its, i.Valid) → e.Valid → e ≠ .quote → 0 < avail →
      ∃ r, jsonParse F avail
          (g ++ openerOf isObj :: (g2 ++ 34 :: (bodyText its ++ (e.text ++ after)))) = .ok r ∧
        r.code = .ERROR_BAD_STRING ∧ r.value = none) := by
  refine ⟨?_, ?_, ?_, ?_, ?_⟩
  · intro its e buf s after hv he hd
    exact parseStringInternal_end its hv e he buf s after hd
  · intro text h0
    exact string_body_cases text.length text (Nat.le_refl _) h0
  · intro st f rest n0 t its e after hst hft hv he hq hd
    exact parseValue_bad_string F st f rest n0 t its e after hst hft hv he hq hd
  · intro st f rest its e after hst hfe ha hv he hq hd
    exact newNode_bad_key avail st f rest its e after hst hfe ha hv he hq hd
  · intro g g2 isObj its e after hg hg2 hv he hq ha
    exact jsonParse_bad_string F avail g g2 isObj its e after hg hg2 hv he hq ha

theorem bad_string_cases_witness :
    ∃ r, jsonParse ieee 4
        ([] ++ openerOf true
          :: ([] ++ 34 :: (bodyText [.plain 97] ++ ((StrEnd.bare 10).text ++ [34, 0])))) = .ok r ∧
      r.code = .ERROR_BAD_STRING ∧ r.value = none :=
  (bad_string_cases ieee 4).2.2.2.2 [] [] true [.plain 97] (.bare 10) [34, 0] Gap.nil Gap.nil
    (by decide) (Or.inr (Or.inl rfl)) (by decide) (by decide)

theorem stepSound_fault (e : Fault) : StepSound (.fault e) := by
  intro r h; cases h

theorem stepSound_cont (st : PState) (ch : Nat) : StepSound (.ok (.cont st ch)) := by
  intro r h; cases h

theorem stepSound_fail (st : PState) (code : Error) (hc : code ≠ .ERROR_STACK_UNDERFLOW) :
    StepSound (.ok (st.fail code)) := by
  intro r h
  simp only [PState.fail, Res.ok.injEq, Step.ret.injEq] at h
  subst h
  exact ⟨hc, fun _ => rfl⟩

theorem stepSound_bind {α : Type} (x : Res α) (f : α → Res Step) (h : ∀ a, StepSound (f a)) :
    StepSound (x >>= f) := by
  cases x with
  | fault e => exact stepSound_fault e
  | ok a => exact h a

/-- The close loop entered with a frame on the stack: the test `top == -1`
never holds. -/
theorem closeLoop_sound : ∀ (n : Nat) (st : PState), st.stack ≠ [] → StepSound (closeLoop n st)
  | 0, _, _ => stepSound_fault _
  | n + 1, st, hne => by
    unfold closeLoop
    split
    · rename_i h
      exact absurd h hne
    · rename_i f rest _
      simp only
      split
      · intro r h
        simp only [Res.pure_eq, Res.ok.injEq, Step.ret.injEq] at h
        subst h
        exact ⟨(by intro h; cases h), fun h => absurd rfl h⟩
      · rename_i p rest1
        apply stepSound_bind; intro p1
        apply stepSound_bind; intro s1
        apply stepSound_bind; intro c
        split
        · apply stepSound_bind; intro s2
          apply stepSound_bind; intro ch
          split
          · exact closeLoop_sound n _ (by simp)
          · exact stepSound_cont _ _
        · split
          · exact stepSound_fail _ _ (by decide)
          · exact closeLoop_sound n _ (by simp)

theorem separator_sound (st : PState) : StepSound (separator st) := by
  unfold separator
  split
  · exact stepSound_fault _
  · rename_i f rest hst
    have hne : st.stack.length ≠ 0 := by rw [hst]; simp
    apply stepSound_bind; intro s1
    apply stepSound_bind; intro ch
    split
    · split
      · exact stepSound_fail _ _ (by decide)
      · apply stepSound_bind; intro s2
        apply stepSound_bind; intro ch2
        split
        · exact closeLoop_sound _ _ (by simp only; rw [hst]; simp)
        · exact stepSound_cont _ _
    · split
      · exact stepSound_fail _ _ (by decide)
      · split
        · exact closeLoop_sound _ _ (by simp only; rw [hst]; simp)
        · exact stepSound_cont _ _

theorem newNode_sound (avail : Nat) (st : PState) (ch : Nat) : StepSound (newNode avail st ch) := by
  unfold newNode
  split
  · exact stepSound_fault _
  · simp only
    split
    · exact stepSound_fail _ _ (by decide)
    · split
      · exact stepSound_cont _ _
      · split
        · exact stepSound_fail _ _ (by decide)
        · apply stepSound_bind; intro f2
          apply stepSound_bind; intro r
          split
          · exact stepSound_fail _ _ (by decide)
          · apply stepSound_bind; intro s3
            apply stepSound_bind; intro c
            split
            · exact stepSound_fail _ _ (by decide)
            · apply stepSound_bind; intro s4
              apply stepSound_bind; intro ch4
              exact stepSound_cont _ _

theorem parseValue_sound (F : FloatOps) (st : PState) (ch : Nat) :
    StepSound (parseValue F st ch) := by
  unfold parseValue
  split
  · exact stepSound_fault _
  · split
    · split
      · exact stepSound_fail _ _ (by decide)
      · exact stepSound_cont _ _
    · split
      · apply stepSound_bind; intro f1
        apply stepSound_bind; intro r
        split
        · exact stepSound_fail _ _ (by decide)
        · exact stepSound_cont _ _
      · split
        · apply stepSound_bind; intro b
          split
          · apply stepSound_bind; intro f1
            exact stepSound_cont _ _
          · exact stepSound_fail _ _ (by decide)
        · split
          · apply stepSound_bind; intro b
            split
            · apply stepSound_bind; intro f1
              exact stepSound_cont _ _
            · exact stepSound_fail _ _ (by decide)
          · split
            · apply stepSound_bind; intro b
              split
              · apply stepSound_bind; intro f1
                exact stepSound_cont _ _
              · exact stepSound_fail _ _ (by decide)
            · split
              · apply stepSound_bind; intro o
                split
                · exact stepSound_fail _ _ (by decide)
                · apply stepSound_bind; intro f1
                  exact stepSound_cont _ _
              · exact stepSound_fail _ _ (by decide)

theorem parseLoop_sound (F : FloatOps) (avail : Nat) :
    ∀ (fuel : Nat) (st : PState) (r : ParseResult),
    parseLoop F avail fuel st = .ok r → Sound r
  | 0, _, _, h => by cases h
  | fuel + 1, st, r, h => by
    rw [parseLoop_succ] at h
    unfold roundRest at h
    cases hs : separator st with
    | fault e => rw [hs] at h; cases h
    | ok x =>
      rw [hs] at h
      cases x with
      | ret r1 =>
        simp only [Res.ok_bind, Res.pure_eq, Res.ok.injEq] at h
        subst h
        exact separator_sound st _ hs
      | cont st1 ch =>
        simp only [Res.ok_bind] at h
        unfold roundFrom memberSteps at h
        cases hn : newNode avail st1 ch with
        | fault e => rw [hn] at h; cases h
        | ok y =>
          rw [hn] at h
          cases y with
          | ret r1 =>
            simp only [Res.ok_bind, Res.pure_eq, Res.ok.injEq] at h
            subst h
            exact newNode_sound avail st1 ch _ hn
          | cont st2 ch2 =>
            simp only [Res.ok_bind] at h
            cases hv : parseValue F st2 ch2 with
            | fault e => rw [hv] at h; cases h
            | ok z =>
              rw [hv] at h
              cases z with
              | ret r1 =>
                simp only [Res.ok_bind, Res.pure_eq, Res.ok.injEq] at h
                subst h
                exact parseValue_sound F st2 ch2 _ hv
              | cont st3 ch3 =>
                simp only [Res.ok_bind] at h
                exact parseLoop_sound F avail fuel st3 r h

theorem jsonParse_sound (F : FloatOps) (avail : Nat) (buf : List Nat) (r : ParseResult)
    (h : jsonParse F avail buf = .ok r) : Sound r := by
  unfold jsonParse at h
  cases hs : skipWhitespace buf 0 with
  | fault e => rw [hs] at h; cases h
  | ok s =>
    rw [hs] at h
    simp only [Res.ok_bind] at h
    cases hr : rd buf s with
    | fault e => rw [hr] at h; cases h
    | ok ch =>
      rw [hr] at h
      simp only [Res.ok_bind] at h
      split at h
      · exact parseLoop_sound F avail _ _ r h
      · simp only [Res.pure_eq, Res.ok.injEq] at h
        subst h
        exact ⟨(by intro h; cases h), fun _ => rfl⟩

/-- C33: for every input buffer, `jsonParse` never returns
`ERROR_STACK_UNDERFLOW`: each time the close loop tests the stack there is a
frame on it, so the defensive branch is not taken. -/
theorem no_stack_underflow (F : FloatOps) (avail : Nat) (buf : List Nat) (r : ParseResult)
    (h : jsonParse F avail buf = .ok r) : r.code ≠ .ERROR_STACK_UNDERFLOW :=
  (jsonParse_sound F avail buf r h).1

theorem no_stack_underflow_witness :
    ({ code := .ERROR_MISMATCH_BRACKET, value := none, buf := [91, 49, 125, 0], allocs := 1 }
      : ParseResult).code ≠ .ERROR_STACK_UNDERFLOW :=
  no_stack_underflow ieee 4 [91, 49, 125, 0] _ rfl

/-- C34, as the specification words it, fails: the byte 0x01 has the flag
`FLAG_WHITESPACE`, and it is none of NUL, tab, LF, CR and space. -/
theorem control_byte_is_whitespace : matchFlag 1 FLAG_WHITESPACE = true := by
  decide

/-- C34, amended: for every byte `c`, `matchFlag(c, FLAG_WHITESPACE)` holds
exactly when `c <= 0x20`, `matchFlag(c, FLAG_TEXT_BREAK)` exactly when `c` is
0x00, LF, CR, the backslash or the quote, `matchFlag(c, FLAG_DIGIT)` exactly
when `c` is `0` to `9`, and `matchFlag(c, FLAG_NUMBER)` exactly when `c` is a
digit, `.`, `e` or `E`. -/
theorem matchFlag_classes (c : Nat) :
    (matchFlag c FLAG_WHITESPACE = true ↔ c ≤ 0x20) ∧
    (matchFlag c FLAG_TEXT_BREAK = true ↔ c = 0x00 ∨ c = 0x0A ∨ c = 0x0D ∨ c = 0x5C ∨ c = 0x22) ∧
    (matchFlag c FLAG_DIGIT = true ↔ 0x30 ≤ c ∧ c ≤ 0x39) ∧
    (matchFlag c FLAG_NUMBER = true ↔ (0x30 ≤ c ∧ c ≤ 0x39) ∨ c = 0x2E ∨ c = 0x65 ∨ c = 0x45) := by
  rw [matchFlag_ws, matchFlag_break, matchFlag_digit, matchFlag_number]
  refine ⟨?_, ?_, ?_, ?_⟩ <;> rw [decide_eq_true_eq] <;> constructor <;> intro h <;> omega

/-- C37: `writeEscaped` followed by `parseStringInternal` is the identity on
string contents: for every byte string `str` without a 0x00 byte, on the text
that `writeEscaped(str)` writes after its opening quote `parseStringInternal`
returns true and leaves the bytes of `str` followed by 0x00. -/
theorem escaped_parses_back (str : List Nat) (h : ∀ x ∈ str, x ≠ 0) (buf : List Nat) (s : Nat)
    (rest : List Nat) (hd : buf.drop s = (writeEscaped (str ++ [0])).tail ++ rest) :
    ∃ r, parseStringInternal buf s = .ok r ∧ r.ok = true ∧ r.buf = patch buf s (str ++ [0]) ∧
      r.s = s + (writeEscaped (str ++ [0])).tail.length := by
  obtain ⟨hv, ht, hdc⟩ := escapeLoop_items str h
  have he : escapeLoop (str ++ [0]) = escapeLoop str := by
    have := escapeLoop_terminated str [] h
    rw [this]
    clear this hd ht hdc hv
    induction str with
    | nil => rfl
    | cons c str ih =>
      have hc : c ≠ 0 := h c (List.mem_cons_self _ _)
      simp only [escapeLoop, hc, if_false, List.flatMap_cons]
      rw [ih (fun x hx => h x (List.mem_cons_of_mem _ hx))]
  have hw : (writeEscaped (str ++ [0])).tail = bodyText (str.map escItem) ++ [34] := by
    simp only [writeEscaped, List.cons_append, List.tail_cons, he, ht]
  rw [hw, List.append_assoc] at hd
  have := parseStringInternal_spec (str.map escItem) hv buf s rest (by simpa using hd)
  refine ⟨_, this, rfl, by rw [hdc], ?_⟩
  rw [hw]
  simp only [List.length_append, List.length_singleton]
  omega

theorem escaped_parses_back_witness :
    ∃ r, parseStringInternal [97, 92, 110, 92, 117, 48, 48, 48, 49, 200, 34, 0] 0 = .ok r ∧
      r.ok = true ∧
      r.buf = patch [97, 92, 110, 92, 117, 48, 48, 48, 49, 200, 34, 0] 0
        ([97, 10, 1, 200] ++ [0]) ∧
      r.s = 0 + (writeEscaped ([97, 10, 1, 200] ++ [0])).tail.length :=
  escaped_parses_back [97, 10, 1, 200] (by decide)
    [97, 92, 110, 92, 117, 48, 48, 48, 49, 200, 34, 0] 0 [0] rfl

/-- C38: whenever `jsonParse` returns a code other than `ERROR_NO_ERROR`, it
has stored nothing through its output parameter: the root is assigned on the
success path only. -/
theorem error_keeps_output (F : FloatOps) (avail : Nat) (buf : List Nat) (r : ParseResult)
    (h : jsonParse F avail buf = .ok r) (hc : r.code ≠ .ERROR_NO_ERROR) : r.value = none :=
  (jsonParse_sound F avail buf r h).2 hc

theorem error_keeps_output_witness :
    ({ code := .ERROR_MISMATCH_BRACKET, value := none, buf := [91, 49, 125, 0], allocs := 1 }
      : ParseResult).value = none :=
  error_keeps_output ieee 4 [91, 49, 125, 0] _ rfl (by decide)

/-- C39: `i32toa` writes 11 bytes for the 32-bit integers from -2147483648 to
-1000000000, a `-` and ten digits, and the buffer of `writeInt` has 10 bytes:
the store of the eleventh byte is outside it. -/
theorem i32toa_eleven_bytes :
    i32toa (-1000000000) = [45, 49, 48, 48, 48, 48, 48, 48, 48, 48, 48] ∧
    (i32toa (-2147483648)).length = 11 ∧
    i32toaAt (-1000000000) (List.replicate 10 0) 0 = .fault (.outOfBounds 10) := by
  decide

/-- C40: for the 17 digits `12345678901234567` and the exponent `k = -22`, so
that `L + k = -5`, `Prettify` leaves the 24 bytes `0.0000012345678901234567`;
behind the `-` of a negative double that is 25 bytes of text, and the
terminating 0x00 is the 26th byte, one more than the 25 bytes of the buffer of
`writeNumber`, which stores it past the end of that buffer. -/
theorem prettify_26_bytes :
    Prettify seventeenDigits (-22)
      = [48, 46, 48, 48, 48, 48, 48, 49, 50, 51, 52, 53, 54, 55, 56, 57, 48, 49, 50, 51, 52, 53,
         54, 55] ∧
    seventeenDigits.length = 17 ∧ -324 ≤ (17 : Int) + (-22) ∧ (17 : Int) + (-22) ≤ 309 ∧
    (45 :: Prettify seventeenDigits (-22) ++ [0]).length = 26 ∧
    (∀ F : FloatOps, ∀ v : Nat, v % 2 ^ 63 ≠ 0 → 2 ^ 63 ≤ v →
      F.grisuText (v - 2 ^ 63) = .ok (Prettify seventeenDigits (-22)) →
      ∃ text, dtoa_milo F v = .ok text ∧ (text ++ [0]).length = 26 ∧
        writeNumber F v = .fault (.outOfBounds 25)) := by
  refine ⟨by decide, by decide, by decide, by decide, by decide, ?_⟩
  intro F v h1 h2 h3
  have h2' : v ≥ 2 ^ 63 := h2
  have hd : dtoa_milo F v = .ok (45 :: Prettify seventeenDigits (-22)) := by
    simp only [dtoa_milo, h1, if_false, h2', if_true, h3, Res.ok_bind, Res.pure_eq]
  exact ⟨_, hd, by decide, writeNumber_overrun F v _ hd (by decide)⟩

/-- C35: when the in-use chain is not empty, `allocate(n)` cannot bump-allocate
from the head block, the request is oversize (`allocSize`, the header plus `n`
rounded up to a multiple of 8 as the code computes it, exceeds
`ZJSON_BLOCK_SIZE`) and a block is obtained, then the head of the in-use chain
and its `used` count are unchanged, the new block is linked directly behind
the head and in front of the former second block, and the returned region
starts right behind the header of the new block. The new block is the head of
the free chain or a fresh block of the system heap; the head of the in-use
chain is neither of them, a block being in one chain only. -/
theorem oversize_inserted_behind_head (a : Allocator) (n : Nat)
    (hh : a.blocksHead ≠ 0)
    (hb : ¬ ((a.mem a.blocksHead).used + alignUp n) % 2 ^ 64 ≤ ZJSON_BLOCK_SIZE)
    (hs : allocSizeOf n > ZJSON_BLOCK_SIZE)
    (hf : a.freeBlocksHead ≠ a.blocksHead) (hk : a.brk ≠ a.blocksHead)
    (hp : (a.allocate n).2 ≠ 0) :
    ∃ block, block ≠ 0 ∧ (block = a.freeBlocksHead ∨ block = a.brk) ∧
      (a.allocate n).2 = block + sizeofBlock ∧
      (a.allocate n).1.blocksHead = a.blocksHead ∧
      ((a.allocate n).1.mem a.blocksHead).used = (a.mem a.blocksHead).used ∧
      ((a.allocate n).1.mem a.blocksHead).next = block ∧
      ((a.allocate n).1.mem block).next = (a.mem a.blocksHead).next ∧
      ((a.allocate n).1.mem block).used = allocSizeOf n := by
  have hb2 : ¬ (a.blocksHead ≠ 0 ∧
      ((a.mem a.blocksHead).used + alignUp n) % 2 ^ 64 ≤ ZJSON_BLOCK_SIZE) := fun h => hb h.2
  have hs2 : ¬ (allocSizeOf n ≤ ZJSON_BLOCK_SIZE ∨ a.blocksHead = 0) := by
    intro h
    rcases h with h | h
    · omega
    · exact hh h
  have hgt : ¬ allocSizeOf n ≤ ZJSON_BLOCK_SIZE := by omega
  unfold Allocator.allocate at hp ⊢
  simp only [hb2, if_false] at hp ⊢
  by_cases hr : a.freeBlocksHead ≠ 0 ∧ (a.mem a.freeBlocksHead).size ≥ allocSizeOf n
  · simp only [hr, and_self, if_true, ne_eq, not_false_eq_true, if_false] at hp ⊢
    refine ⟨a.freeBlocksHead, hr.1, Or.inl rfl, ?_⟩
    simp [Allocator.setBlock, hs2, hf, Ne.symm hf, hh, hgt]
  · simp only [hr, if_false] at hp ⊢
    simp only [hgt, if_false] at hp ⊢
    unfold Allocator.malloc at hp ⊢
    by_cases hm : a.brk + allocSizeOf n ≤ a.limit
    · simp only [hm, if_true] at hp ⊢
      by_cases h0 : a.brk = 0
      · simp [h0] at hp
      · simp only [h0, if_false] at hp ⊢
        refine ⟨a.brk, h0, Or.inr rfl, ?_⟩
        simp [Allocator.setBlock, hs2, hk, Ne.symm hk, hh, hgt]
    · simp [hm] at hp

theorem oversize_inserted_behind_head_witness :
    ∃ block, block ≠ 0 ∧ (block = sampleArena.freeBlocksHead ∨ block = sampleArena.brk) ∧
      (sampleArena.allocate 10000).2 = block + sizeofBlock ∧
      (sampleArena.allocate 10000).1.blocksHead = sampleArena.blocksHead ∧
      ((sampleArena.allocate 10000).1.mem sampleArena.blocksHead).used
        = (sampleArena.mem sampleArena.blocksHead).used ∧
      ((sampleArena.allocate 10000).1.mem sampleArena.blocksHead).next = block ∧
      ((sampleArena.allocate 10000).1.mem block).next
        = (sampleArena.mem sampleArena.blocksHead).next ∧
      ((sampleArena.allocate 10000).1.mem block).used = allocSizeOf 10000 :=
  oversize_inserted_behind_head sampleArena 10000 (by decide) (by decide) (by decide)
    (by decide) (by decide) (by decide)

/-- C36, as the specification words it, fails: the sums of sizes wrap at
`2^64`. On a fresh arena `allocate(24)` returns the region from 4120 to 4144
of the block at 4096; `allocate(2^64 - 16)` bump-allocates, because the `used`
count 48 plus the size wraps to 32, and `allocate(24)` then returns the region
from 4128 to 4152, which overlaps the first one. -/
theorem huge_request_overlaps :
    ∃ a live, (Allocator.new 4096 1000000).run []
        [.allocate 24, .allocate (2 ^ 64 - 16), .allocate 24] = .ok (a, live) ∧
      live = [(4128, 24), (4144, 2 ^ 64 - 16), (4120, 24)] ∧
      a.mallocs = [(4096, 8192)] ∧ ¬ Apart (4128, 24) (4120, 24) ∧
      ¬ live.Pairwise Apart :=
  ⟨_, _, rfl, by decide, by decide, by decide, by decide⟩

theorem and_mask8 (x : Nat) (hx : x < 2 ^ 64) : x &&& 0xFFFFFFFFFFFFFFF8 = x / 8 * 8 := by
  apply Nat.eq_of_testBit_eq
  intro i
  have hm : (0xFFFFFFFFFFFFFFF8 : Nat) = (2 ^ 61 - 1) <<< 3 := by decide
  have hd : x / 8 * 8 = (x >>> 3) <<< 3 := by
    rw [Nat.shiftRight_eq_div_pow, Nat.shiftLeft_eq]
  rw [Nat.testBit_and, hm, hd, Nat.testBit_shiftLeft, Nat.testBit_shiftLeft,
    Nat.testBit_two_pow_sub_one, Nat.testBit_shiftRight]
  by_cases h3 : 3 ≤ i
  · have e : 3 + (i - 3) = i := by omega
    rw [e]
    by_cases h : i < 64
    · simp [h3, show i - 3 < 61 by omega]
    · have hb : x.testBit i = false :=
        Nat.testBit_lt_two_pow (lt_of_lt_of_le hx (Nat.pow_le_pow_right (by decide) (by omega)))
      simp [hb]
  · simp [h3]

theorem alignUp_eq (n : Nat) (hn : n + 7 < 2 ^ 64) : alignUp n = (n + 7) / 8 * 8 := by
  unfold alignUp
  rw [Nat.mod_eq_of_lt hn, and_mask8 _ hn]

theorem alignUp_bounds (n : Nat) (hn : n < 2 ^ 62) :
    alignUp n % 8 = 0 ∧ n ≤ alignUp n ∧ alignUp n < n + 8 := by
  rw [alignUp_eq n (by omega)]
  omega

theorem allocSizeOf_eq (n : Nat) (hn : n < 2 ^ 62) : allocSizeOf n = sizeofBlock + alignUp n := by
  have := alignUp_bounds n hn
  unfold allocSizeOf
  apply Nat.mod_eq_of_lt
  simp only [sizeofBlock]
  omega

theorem apart_symm (x y : Nat × Nat) (h : Apart x y) : Apart y x := Or.symm h

theorem ArenaInv.blocks_apart {a : Allocator} {live : List (Nat × Nat)} {l f : List Nat}
    (h : ArenaInv a live l f) (x y : Nat × Nat) (hx : x ∈ a.mallocs) (hy : y ∈ a.mallocs)
    (hne : x.1 ≠ y.1) : Apart x y :=
  h.stacked.forall (fun x y hxy => apart_symm x y hxy) hx hy (fun e => hne (by rw [e]))

theorem ArenaInv.block_nonzero {a : Allocator} {live : List (Nat × Nat)} {l f : List Nat}
    (h : ArenaInv a live l f) (b : Nat) (hb : b ∈ l ++ f) : b ≠ 0 := by
  obtain ⟨cap, hc, _⟩ := h.owned b hb
  have := (h.heap _ hc).1
  simp only at this
  omega

/-- A live region lies within the bytes obtained for its in-use block. -/
theorem ArenaInv.region_block {a : Allocator} {live : List (Nat × Nat)} {l f : List Nat}
    (h : ArenaInv a live l f) (y : Nat × Nat) (hy : y ∈ live) :
    ∃ b ∈ l, ∃ cap, (b, cap) ∈ a.mallocs ∧ b + sizeofBlock ≤ y.1 ∧ (y.1 - b) % 8 = 0 ∧
      y.1 + y.2 ≤ b + (a.mem b).used ∧ (a.mem b).used ≤ cap := by
  obtain ⟨b, hbl, r1, r2, r3⟩ := h.regions y hy
  obtain ⟨cap, hc, _, hu⟩ := h.owned b (List.mem_append_left _ hbl)
  exact ⟨b, hbl, cap, hc, r1, r2, r3, (hu hbl).2.2⟩

theorem arena_new_inv (brk limit : Nat) : ArenaInv (Allocator.new brk limit) [] [] [] where
  segL := trivial
  headL := rfl
  segF := trivial
  headF := rfl
  nodup := by simp
  owned := by simp
  heap := by simp [Allocator.new]
  stacked := by simp [Allocator.new]
  regions := by simp
  apart := by simp

theorem bump_inv (a : Allocator) (live : List (Nat × Nat)) (l f : List Nat) (n : Nat)
    (h : ArenaInv a live l f) (hn : n < 2 ^ 62)
    (hb : a.blocksHead ≠ 0 ∧
      ((a.mem a.blocksHead).used + alignUp n) % 2 ^ 64 ≤ ZJSON_BLOCK_SIZE) :
    (a.allocate n).2 ≠ 0 ∧
    ArenaInv (a.allocate n).1 (((a.allocate n).2, alignUp n) :: live) l f := by
  obtain ⟨ha8, hale, halt⟩ := alignUp_bounds n hn
  have hl : a.blocksHead ∈ l := by
    have := h.headL
    cases l with
    | nil => exact absurd this hb.1
    | cons x r =>
      simp only [List.headD_cons] at this
      simp [this]
  obtain ⟨cap, hc, hsz, hu⟩ := h.owned a.blocksHead (List.mem_append_left _ hl)
  obtain ⟨hu1, hu2, hu3⟩ := hu hl
  obtain ⟨hp0, hp1, hp2, hp3⟩ := h.heap _ hc
  simp only at hp0 hp1 hp2 hp3
  have hmod : ((a.mem a.blocksHead).used + alignUp n) % 2 ^ 64
      = (a.mem a.blocksHead).used + alignUp n := Nat.mod_eq_of_lt (by omega)
  have hle := hb.2
  rw [hmod] at hle
  have he : a.allocate n = (a.setBlock a.blocksHead
      (fun b => { b with used := (b.used + alignUp n) % 2 ^ 64 }),
      a.blocksHead + (a.mem a.blocksHead).used) := by
    unfold Allocator.allocate
    rw [if_pos hb]
  rw [he]
  refine ⟨by simp only [sizeofBlock] at hu1; simp only [ne_eq]; omega, ?_⟩
  have hnext : ∀ x, ((a.setBlock a.blocksHead
      (fun b => { b with used := (b.used + alignUp n) % 2 ^ 64 })).mem x).next = (a.mem x).next := by
    intro x
    simp only [Allocator.setBlock]
    split <;> rfl
  have hsize : ∀ x, ((a.setBlock a.blocksHead
      (fun b => { b with used := (b.used + alignUp n) % 2 ^ 64 })).mem x).size = (a.mem x).size := by
    intro x
    simp only [Allocator.setBlock]
    split <;> rfl
  have hused : ∀ x, ((a.setBlock a.blocksHead
      (fun b => { b with used := (b.used + alignUp n) % 2 ^ 64 })).mem x).used
      = if x = a.blocksHead then (a.mem x).used + alignUp n else (a.mem x).used := by
    intro x
    simp only [Allocator.setBlock]
    split
    · rename_i e
      subst e
      exact hmod
    · rfl
  refine { segL := ?_, headL := h.headL, segF := ?_, headF := h.headF, nodup := h.nodup,
           owned := ?_, heap := h.heap, stacked := h.stacked, regions := ?_, apart := ?_ }
  · exact Heap.seg_congr _ _ 0 l (fun x _ => hnext x) h.segL
  · exact Heap.seg_congr _ _ 0 f (fun x _ => hnext x) h.segF
  · intro b hbm
    obtain ⟨c, hc1, hs1, hu1⟩ := h.owned b hbm
    refine ⟨c, hc1, by rw [hsize]; exact hs1, ?_⟩
    intro hbl
    obtain ⟨q1, q2, q3⟩ := hu1 hbl
    have hq := (h.heap _ hc1).2.1
    simp only at hq
    rw [hused]
    split
    · rename_i e
      subst e
      simp only [ZJSON_BLOCK_SIZE] at hle hq
      omega
    · exact ⟨q1, q2, q3⟩
  · intro x hx
    rcases List.mem_cons.mp hx with e | e
    · subst e
      refine ⟨a.blocksHead, hl, ?_⟩
      rw [hused]
      simp only [if_true]
      omega
    · obtain ⟨b, hbl, r1, r2, r3⟩ := h.regions x e
      refine ⟨b, hbl, r1, r2, ?_⟩
      rw [hused]
      split <;> omega
  · refine List.pairwise_cons.mpr ⟨?_, h.apart⟩
    intro y hy
    obtain ⟨b, hbl, cb, hcb, r1, r2, r3, r4⟩ := h.region_block y hy
    by_cases e : b = a.blocksHead
    · subst e
      exact Or.inr r3
    · have hap := h.blocks_apart _ _ hcb hc e
      unfold Apart at hap ⊢
      simp only [sizeofBlock] at *
      omega

theorem link_frame (a1 a3 : Allocator) (live : List (Nat × Nat)) (l l2 f : List Nat)
    (blk S cap : Nat) (h : ArenaInv a1 live l f) (hfresh : blk ∉ l ++ f)
    (hc : (blk, cap) ∈ a1.mallocs) (hsz : (a1.mem blk).size ≤ cap)
    (hS : S ≤ (a1.mem blk).size) (h24 : sizeofBlock ≤ S) (h8 : S % 8 = 0)
    (hm : a3.mallocs = a1.mallocs) (hk : a3.brk = a1.brk)
    (hfh : a3.freeBlocksHead = a1.freeBlocksHead)
    (hsize : ∀ x, (a3.mem x).size = (a1.mem x).size)
    (hused : ∀ x, (a3.mem x).used = if x = blk then S else (a1.mem x).used)
    (hnextf : ∀ x ∈ f, (a3.mem x).next = (a1.mem x).next)
    (hseg : Heap.Seg (fun x => (a3.mem x).next) l2 0) (hhead : a3.blocksHead = l2.headD 0)
    (hmem : ∀ x, x ∈ l2 ↔ x = blk ∨ x ∈ l) (hnd : l2.Nodup) :
    ArenaInv a3 ((blk + sizeofBlock, S - sizeofBlock) :: live) l2 f := by
  have hnd0 := List.nodup_append.mp h.nodup
  refine { segL := hseg, headL := hhead, segF := ?_, headF := by rw [hfh]; exact h.headF,
           nodup := ?_, owned := ?_, heap := by rw [hm, hk]; exact h.heap,
           stacked := by rw [hm]; exact h.stacked, regions := ?_, apart := ?_ }
  · exact Heap.seg_congr _ _ 0 f hnextf h.segF
  · refine List.nodup_append.mpr ⟨hnd, hnd0.2.1, ?_⟩
    intro x hx hxf
    rcases (hmem x).mp hx with e | e
    · subst e
      exact hfresh (List.mem_append_right _ hxf)
    · exact hnd0.2.2 e hxf
  · intro b hbm
    have hcase : b = blk ∨ b ∈ l ++ f := by
      rcases List.mem_append.mp hbm with e | e
      · rcases (hmem b).mp e with e2 | e2
        · exact Or.inl e2
        · exact Or.inr (List.mem_append_left _ e2)
      · exact Or.inr (List.mem_append_right _ e)
    rcases hcase with e | e
    · subst e
      refine ⟨cap, by rw [hm]; exact hc, by rw [hsize]; exact hsz, ?_⟩
      intro _
      rw [hused]
      simp only [if_true]
      exact ⟨h24, h8, le_trans hS hsz⟩
    · have hne : b ≠ blk := fun e2 => hfresh (e2 ▸ e)
      obtain ⟨c, hc1, hs1, hu1⟩ := h.owned b e
      refine ⟨c, by rw [hm]; exact hc1, by rw [hsize]; exact hs1, ?_⟩
      intro hbl
      rw [hused]
      simp only [hne, if_false]
      rcases (hmem b).mp hbl with e2 | e2
      · exact absurd e2 hne
      · exact hu1 e2
  · intro x hx
    rcases List.mem_cons.mp hx with e | e
    · subst e
      refine ⟨blk, (hmem blk).mpr (Or.inl rfl), ?_⟩
      rw [hused]
      simp only [if_true, sizeofBlock] at h24 ⊢
      omega
    · obtain ⟨b, hbl, r1, r2, r3⟩ := h.regions x e
      have hne : b ≠ blk := fun e2 => hfresh (e2 ▸ List.mem_append_left _ hbl)
      refine ⟨b, (hmem b).mpr (Or.inr hbl), r1, r2, ?_⟩
      rw [hused]
      simp only [hne, if_false]
      exact r3
  · refine List.pairwise_cons.mpr ⟨?_, h.apart⟩
    intro y hy
    obtain ⟨b, hbl, cb, hcb, r1, r2, r3, r4⟩ := h.region_block y hy
    have hne : b ≠ blk := fun e2 => hfresh (e2 ▸ List.mem_append_left _ hbl)
    have hap := h.blocks_apart _ _ hcb hc hne
    unfold Apart at hap ⊢
    simp only [sizeofBlock] at *
    omega

theorem link_inv (a1 : Allocator) (live : List (Nat × Nat)) (l f : List Nat)
    (blk S cap : Nat) (h : ArenaInv a1 live l f) (hfresh : blk ∉ l ++ f)
    (hc : (blk, cap) ∈ a1.mallocs) (hsz : (a1.mem blk).size ≤ cap)
    (hS : S ≤ (a1.mem blk).size) (h24 : sizeofBlock ≤ S) (h8 : S % 8 = 0) :
    ∃ l2, ArenaInv (a1.link blk S) ((blk + sizeofBlock, S - sizeofBlock) :: live) l2 f := by
  have hnd0 := List.nodup_append.mp h.nodup
  have hbl : blk ∉ l := fun e => hfresh (List.mem_append_left _ e)
  have hbf : blk ∉ f := fun e => hfresh (List.mem_append_right _ e)
  by_cases hp : S ≤ ZJSON_BLOCK_SIZE ∨ a1.blocksHead = 0
  · have he : a1.link blk S =
        { (a1.setBlock blk (fun b => { b with used := S })).setBlock blk
            (fun b => { b with next := a1.blocksHead }) with blocksHead := blk } := by
      unfold Allocator.link
      exact if_pos hp
    rw [he]
    have hnext : ∀ x, x ≠ blk → (if x = blk then
        { (if x = blk then { a1.mem x with used := S } else a1.mem x) with
          next := a1.blocksHead }
        else (if x = blk then { a1.mem x with used := S } else a1.mem x) : Block).next
        = (a1.mem x).next := by
      intro x hx
      simp only [hx, if_false]
    refine ⟨blk :: l, link_frame a1 _ live l (blk :: l) f blk S cap h hfresh hc hsz hS h24 h8
      rfl rfl rfl ?_ ?_ ?_ ?_ rfl ?_ ?_⟩
    · intro x
      simp only [Allocator.setBlock]
      split <;> rfl
    · intro x
      simp only [Allocator.setBlock]
      split <;> rfl
    · intro x hx
      exact hnext x (fun e => hbf (e ▸ hx))
    · refine ⟨?_, Heap.seg_congr _ _ 0 l (fun x hx => hnext x (fun e => hbl (e ▸ hx))) h.segL⟩
      simp only [Allocator.setBlock, if_true]
      exact h.headL
    · intro x
      simp
    · exact List.nodup_cons.mpr ⟨hbl, hnd0.1⟩
  · have hh0 : a1.blocksHead ≠ 0 := fun e => hp (Or.inr e)
    obtain ⟨hd, t, rfl⟩ : ∃ hd t, l = hd :: t := by
      cases l with
      | nil => exact absurd h.headL hh0
      | cons x r => exact ⟨x, r, rfl⟩
    have hhd : a1.blocksHead = hd := h.headL
    have hne : blk ≠ hd := fun e => hbl (by simp [e])
    have hndl := List.nodup_cons.mp hnd0.1
    have he : a1.link blk S =
        ((a1.setBlock blk (fun b => { b with used := S })).setBlock blk
            (fun b => { b with next := (a1.mem hd).next })).setBlock hd
            (fun b => { b with next := blk }) := by
      unfold Allocator.link
      refine (if_neg hp).trans ?_
      simp only [Allocator.setBlock, hhd, Ne.symm hne, if_false]
    rw [he]
    have hnext : ∀ x, x ≠ blk → x ≠ hd →
        ((((a1.setBlock blk (fun b => { b with used := S })).setBlock blk
            (fun b => { b with next := (a1.mem hd).next })).setBlock hd
            (fun b => { b with next := blk })).mem x).next = (a1.mem x).next := by
      intro x hx1 hx2
      simp only [Allocator.setBlock, hx1, hx2, if_false]
    refine ⟨hd :: blk :: t, link_frame a1 _ live (hd :: t) (hd :: blk :: t) f blk S cap h hfresh
      hc hsz hS h24 h8 rfl rfl rfl ?_ ?_ ?_ ?_ ?_ ?_ ?_⟩
    · intro x
      simp only [Allocator.setBlock]
      split <;> split <;> rfl
    · intro x
      simp only [Allocator.setBlock]
      by_cases e1 : x = hd
      · have e2 : x ≠ blk := fun e => hne (e ▸ e1)
        simp only [e1, e2, if_true, if_false, Ne.symm hne]
      · by_cases e2 : x = blk
        · simp only [e1, e2, if_true, if_false, hne]
        · simp only [e1, e2, if_false]
    · intro x hx
      refine hnext x (fun e => hbf (e ▸ hx)) (fun e => ?_)
      exact hnd0.2.2 (by simp [e] : x ∈ hd :: t) hx
    · refine ⟨?_, ?_, ?_⟩
      · simp only [Allocator.setBlock, if_true, List.headD_cons]
      · simp only [Allocator.setBlock, if_true, hne, if_false]
        exact h.segL.1
      · refine Heap.seg_congr _ _ 0 t (fun x hx => hnext x (fun e => hbl ?_) (fun e => ?_)) h.segL.2
        · rw [← e]
          exact List.mem_cons_of_mem _ hx
        · exact hndl.1 (e ▸ hx)
    · exact hhd
    · intro x
      simp only [List.mem_cons]
      tauto
    · refine List.nodup_cons.mpr ⟨?_, List.nodup_cons.mpr ⟨fun e => hbl (List.mem_cons_of_mem _ e),
        hndl.2⟩⟩
      intro e
      rcases List.mem_cons.mp e with e | e
      · exact hne e.symm
      · exact hndl.1 e

theorem take_inv (a : Allocator) (live : List (Nat × Nat)) (l f : List Nat) (n : Nat)
    (h : ArenaInv a live l f) (hn : n < 2 ^ 62)
    (hb : ¬ (a.blocksHead ≠ 0 ∧
      ((a.mem a.blocksHead).used + alignUp n) % 2 ^ 64 ≤ ZJSON_BLOCK_SIZE)) :
    ∃ l2 f2, ArenaInv (a.allocate n).1
      (if (a.allocate n).2 = 0 then live else ((a.allocate n).2, alignUp n) :: live) l2 f2 := by
  obtain ⟨ha8, hale, halt⟩ := alignUp_bounds n hn
  have hS := allocSizeOf_eq n hn
  have h24 : sizeofBlock ≤ allocSizeOf n := by omega
  have h8 : allocSizeOf n % 8 = 0 := by
    rw [hS]
    simp only [sizeofBlock]
    omega
  have hlen : allocSizeOf n - sizeofBlock = alignUp n := by omega
  have hnd0 := List.nodup_append.mp h.nodup
  by_cases hr : a.freeBlocksHead ≠ 0 ∧ (a.mem a.freeBlocksHead).size ≥ allocSizeOf n
  · have he : a.allocate n =
        (Allocator.link { a with freeBlocksHead := (a.mem a.freeBlocksHead).next }
          a.freeBlocksHead (allocSizeOf n), a.freeBlocksHead + sizeofBlock) := by
      unfold Allocator.allocate
      rw [if_neg hb]
      simp only [hr, ne_eq, not_false_eq_true, and_self, if_true, if_false]
      rfl
    obtain ⟨fh, ft, rfl⟩ : ∃ fh ft, f = fh :: ft := by
      cases f with
      | nil => exact absurd h.headF hr.1
      | cons x r => exact ⟨x, r, rfl⟩
    have hfh : a.freeBlocksHead = fh := h.headF
    have hndf := List.nodup_cons.mp hnd0.2.1
    have hfresh : fh ∉ l ++ ft := by
      intro e
      rcases List.mem_append.mp e with e | e
      · exact hnd0.2.2 e (List.mem_cons_self _ _)
      · exact hndf.1 e
    have h1 : ArenaInv { a with freeBlocksHead := (a.mem a.freeBlocksHead).next } live l ft := by
      refine { segL := h.segL, headL := h.headL, segF := h.segF.2, headF := ?_, nodup := ?_,
               owned := ?_, heap := h.heap, stacked := h.stacked, regions := h.regions,
               apart := h.apart }
      · show (a.mem a.freeBlocksHead).next = ft.headD 0
        rw [hfh]
        exact h.segF.1
      · refine List.nodup_append.mpr ⟨hnd0.1, hndf.2, ?_⟩
        intro x hx hxf
        exact hnd0.2.2 hx (List.mem_cons_of_mem _ hxf)
      · intro b hbm
        apply h.owned b
        rcases List.mem_append.mp hbm with e | e
        · exact List.mem_append_left _ e
        · exact List.mem_append_right _ (List.mem_cons_of_mem _ e)
    obtain ⟨cap, hc, hsz, _⟩ := h.owned fh (List.mem_append_right _ (List.mem_cons_self _ _))
    have hsz2 := hr.2
    rw [hfh] at hsz2
    obtain ⟨l2, hl2⟩ := link_inv _ live l ft fh (allocSizeOf n) cap h1 hfresh hc hsz hsz2 h24 h8
    refine ⟨l2, ft, ?_⟩
    rw [he, hfh]
    have hnz : ¬ fh + sizeofBlock = 0 := by
      simp only [sizeofBlock]
      omega
    simp only [hnz, if_false]
    rw [hlen, hfh] at hl2
    exact hl2
  · obtain ⟨capq, hcq⟩ : ∃ capq, capq = (if allocSizeOf n ≤ ZJSON_BLOCK_SIZE then
        ZJSON_BLOCK_SIZE else allocSizeOf n) := ⟨_, rfl⟩
    have hcap : capq < 2 ^ 63 ∧ ZJSON_BLOCK_SIZE ≤ capq ∧ allocSizeOf n ≤ capq := by
      rw [hcq]
      simp only [ZJSON_BLOCK_SIZE, sizeofBlock] at *
      split <;> omega
    by_cases hm : a.brk + capq ≤ a.limit ∧ a.brk ≠ 0
    · have he : a.allocate n =
          (Allocator.link (Allocator.setBlock
            { a with brk := a.brk + capq, mallocs := (a.brk, capq) :: a.mallocs }
            a.brk (fun b => { b with size := allocSizeOf n }))
            a.brk (allocSizeOf n), a.brk + sizeofBlock) := by
        unfold Allocator.allocate
        rw [if_neg hb]
        simp only [hr, if_false, Allocator.malloc, ← hcq, hm.1, if_true, hm.2]
        rfl
      have hlt : ∀ b ∈ l ++ f, b < a.brk := by
        intro b hbm
        obtain ⟨c, hc1, _⟩ := h.owned b hbm
        have := h.heap _ hc1
        simp only [ZJSON_BLOCK_SIZE] at this
        omega
      have hfresh : a.brk ∉ l ++ f := fun e => Nat.lt_irrefl _ (hlt _ e)
      have h1 : ArenaInv (Allocator.setBlock
          { a with brk := a.brk + capq, mallocs := (a.brk, capq) :: a.mallocs }
          a.brk (fun b => { b with size := allocSizeOf n })) live l f := by
        have hnext : ∀ x, ((Allocator.setBlock
            { a with brk := a.brk + capq, mallocs := (a.brk, capq) :: a.mallocs }
            a.brk (fun b => { b with size := allocSizeOf n })).mem x).next = (a.mem x).next := by
          intro x
          simp only [Allocator.setBlock]
          split <;> rfl
        have hused : ∀ x, ((Allocator.setBlock
            { a with brk := a.brk + capq, mallocs := (a.brk, capq) :: a.mallocs }
            a.brk (fun b => { b with size := allocSizeOf n })).mem x).used = (a.mem x).used := by
          intro x
          simp only [Allocator.setBlock]
          split <;> rfl
        have hsize : ∀ x, x ≠ a.brk → ((Allocator.setBlock
            { a with brk := a.brk + capq, mallocs := (a.brk, capq) :: a.mallocs }
            a.brk (fun b => { b with size := allocSizeOf n })).mem x).size = (a.mem x).size := by
          intro x hx
          simp only [Allocator.setBlock, hx, if_false]
        refine { segL := ?_, headL := h.headL, segF := ?_, headF := h.headF, nodup := h.nodup,
                 owned := ?_, heap := ?_, stacked := ?_, regions := ?_, apart := h.apart }
        · exact Heap.seg_congr _ _ 0 l (fun x _ => hnext x) h.segL
        · exact Heap.seg_congr _ _ 0 f (fun x _ => hnext x) h.segF
        · intro b hbm
          obtain ⟨c, hc1, hs1, hu1⟩ := h.owned b hbm
          have hne : b ≠ a.brk := Nat.ne_of_lt (hlt b hbm)
          refine ⟨c, List.mem_cons_of_mem _ hc1, by rw [hsize b hne]; exact hs1, ?_⟩
          intro hbl
          rw [hused]
          exact hu1 hbl
        · intro x hx
          rcases List.mem_cons.mp hx with e | e
          · subst e
            have := hm.2
            simp only [Allocator.setBlock]
            omega
          · have := h.heap x e
            simp only [Allocator.setBlock]
            omega
        · refine List.pairwise_cons.mpr ⟨?_, h.stacked⟩
          intro y hy
          exact Or.inr (h.heap y hy).2.2.2
        · intro x hx
          obtain ⟨b, hbl, r1, r2, r3⟩ := h.regions x hx
          refine ⟨b, hbl, r1, r2, ?_⟩
          rw [hused]
          exact r3
      obtain ⟨l2, hl2⟩ := link_inv _ live l f a.brk (allocSizeOf n) capq h1 hfresh
        (List.mem_cons_self _ _) (by simp only [Allocator.setBlock, if_true]; exact hcap.2.2)
        (by simp only [Allocator.setBlock, if_true]; exact le_refl _) h24 h8
      refine ⟨l2, f, ?_⟩
      rw [he]
      have hnz : ¬ a.brk + sizeofBlock = 0 := by
        simp only [sizeofBlock]
        omega
      simp only [hnz, if_false]
      rw [hlen] at hl2
      exact hl2
    · have hm2 : (a.malloc capq).2 = 0 := by
        unfold Allocator.malloc
        by_cases h1 : a.brk + capq ≤ a.limit
        · have h2 : a.brk = 0 := by
            by_contra h2
            exact hm ⟨h1, h2⟩
          rw [if_pos h1]
          exact h2
        · rw [if_neg h1]
      have he : a.allocate n = (a, 0) := by
        unfold Allocator.allocate
        rw [if_neg hb]
        simp only [hr, if_false, ← hcq, hm2, if_true]
      refine ⟨l, f, ?_⟩
      rw [he]
      simp only [if_true]
      exact h

theorem allocate_inv (a : Allocator) (live : List (Nat × Nat)) (l f : List Nat) (n : Nat)
    (h : ArenaInv a live l f) (hn : n < 2 ^ 62) :
    ∃ l2 f2, ArenaInv (a.allocate n).1
      (if (a.allocate n).2 = 0 then live else ((a.allocate n).2, alignUp n) :: live) l2 f2 := by
  by_cases hb : a.blocksHead ≠ 0 ∧
      ((a.mem a.blocksHead).used + alignUp n) % 2 ^ 64 ≤ ZJSON_BLOCK_SIZE
  · obtain ⟨h1, h2⟩ := bump_inv a live l f n h hn hb
    refine ⟨l, f, ?_⟩
    rw [if_neg h1]
    exact h2
  · exact take_inv a live l f n h hn hb

theorem reset_inv (a : Allocator) (live : List (Nat × Nat)) (l f : List Nat)
    (h : ArenaInv a live l f) :
    ∃ a1, a.reset a.mallocs.length = .ok a1 ∧ ArenaInv a1 [] [] (l ++ f) := by
  have hnd0 := List.nodup_append.mp h.nodup
  by_cases hne : l = []
  · subst hne
    have hb : a.blocksHead = 0 := h.headL
    refine ⟨a, by simp [Allocator.reset, hb], ?_⟩
    exact { segL := trivial, headL := h.headL, segF := h.segF, headF := h.headF,
            nodup := h.nodup, owned := fun b hb => by
              obtain ⟨c, h1, h2, _⟩ := h.owned b hb
              exact ⟨c, h1, h2, fun e => by cases e⟩,
            heap := h.heap, stacked := h.stacked, regions := by simp, apart := by simp }
  · have zl : ∀ x ∈ l, x ≠ 0 := fun x hx => h.block_nonzero x (List.mem_append_left _ hx)
    have hb : a.blocksHead ≠ 0 := by
      rw [h.headL]
      obtain ⟨x, r, rfl⟩ := List.exists_cons_of_ne_nil hne
      exact zl x (List.mem_cons_self _ _)
    have hlen : l.length ≤ a.mallocs.length := by
      have hsub : l ⊆ a.mallocs.map Prod.fst := by
        intro x hx
        obtain ⟨c, hc, _⟩ := h.owned x (List.mem_append_left _ hx)
        exact List.mem_map.mpr ⟨(x, c), hc, rfl⟩
      have := (List.subperm_of_subset hnd0.1 hsub).length_le
      simpa using this
    have hlast := lastBlock_seg a.mem l hne a.mallocs.length hlen zl h.segL
    rw [← h.headL] at hlast
    have hlm : l.getLast hne ∈ l := List.getLast_mem hne
    have hnf : l.getLast hne ∉ f := fun hm => hnd0.2.2 hlm hm
    refine ⟨{ a.setBlock (l.getLast hne) (fun b => { b with next := a.freeBlocksHead }) with
        freeBlocksHead := a.blocksHead, blocksHead := 0 },
      by simp only [Allocator.reset, hb, ne_eq, not_false_eq_true, if_true, hlast,
        Res.ok_bind, Res.pure_eq], ?_⟩
    have hsize : ∀ x, ((a.setBlock (l.getLast hne)
        (fun b => { b with next := a.freeBlocksHead })).mem x).size = (a.mem x).size := by
      intro x
      simp only [Allocator.setBlock]
      split <;> rfl
    refine { segL := trivial, headL := rfl, segF := ?_, headF := ?_, nodup := h.nodup,
             owned := ?_, heap := h.heap, stacked := h.stacked, regions := by simp,
             apart := by simp }
    · rw [Heap.seg_append]
      refine ⟨?_, ?_⟩
      · refine Heap.seg_retarget _ _ 0 _ l hne hnd0.1 ?_ ?_ h.segL
        · intro x _ hx
          simp only [Allocator.setBlock, hx, if_false]
        · simp only [Allocator.setBlock, if_true, h.headF]
      · refine Heap.seg_congr _ _ 0 f ?_ h.segF
        intro x hx
        have : x ≠ l.getLast hne := fun e => hnf (e ▸ hx)
        simp only [Allocator.setBlock, this, if_false]
    · show a.blocksHead = (l ++ f).headD 0
      rw [h.headL]
      obtain ⟨x, r, rfl⟩ := List.exists_cons_of_ne_nil hne
      rfl
    · intro b hbm
      obtain ⟨c, h1, h2, _⟩ := h.owned b hbm
      exact ⟨c, h1, by rw [hsize]; exact h2, fun e => by cases e⟩

theorem run_inv : ∀ (cs : List ArenaCall) (a : Allocator) (live : List (Nat × Nat))
    (l f : List Nat), ArenaInv a live l f → (∀ n, ArenaCall.allocate n ∈ cs → n < 2 ^ 62) →
    ∃ a1 live1 l1 f1, a.run live cs = .ok (a1, live1) ∧ ArenaInv a1 live1 l1 f1
  | [], a, live, l, f, h, _ => ⟨a, live, l, f, rfl, h⟩
  | .allocate n :: cs, a, live, l, f, h, hcs => by
    obtain ⟨l2, f2, h2⟩ := allocate_inv a live l f n h (hcs n (List.mem_cons_self _ _))
    exact run_inv cs _ _ l2 f2 h2 (fun m hm => hcs m (List.mem_cons_of_mem _ hm))
  | .reset :: cs, a, live, l, f, h, hcs => by
    obtain ⟨a1, e1, h1⟩ := reset_inv a live l f h
    obtain ⟨a2, live2, l2, f2, e2, h2⟩ := run_inv cs a1 [] [] (l ++ f) h1
      (fun m hm => hcs m (List.mem_cons_of_mem _ hm))
    refine ⟨a2, live2, l2, f2, ?_, h2⟩
    simp only [Allocator.run, e1]
    exact e2

/-- C36, amended: on a fresh arena, for every sequence of `allocate` and
`reset` calls in which every requested size is below `2^62`, all calls return,
the regions from `p` to `p` plus `n` rounded up to a multiple of 8 returned by
`allocate` since the most recent `reset` are pairwise disjoint, and each of
them lies in a block obtained from the system: it starts at or behind the
header of the block, at an offset that is a multiple of 8, and ends within the
bytes obtained for that block. -/
theorem regions_apart_in_blocks (brk limit : Nat) (cs : List ArenaCall)
    (hcs : ∀ n, ArenaCall.allocate n ∈ cs → n < 2 ^ 62) :
    ∃ a live, (Allocator.new brk limit).run [] cs = .ok (a, live) ∧
      live.Pairwise Apart ∧ ∀ x ∈ live, InBlock a x := by
  obtain ⟨a, live, l, f, e, h⟩ := run_inv cs _ [] [] [] (arena_new_inv brk limit) hcs
  refine ⟨a, live, e, h.apart, ?_⟩
  intro x hx
  obtain ⟨b, _, cap, hc, r1, r2, r3, r4⟩ := h.region_block x hx
  exact ⟨(b, cap), hc, r1, r2, by simp only; omega⟩

theorem regions_apart_in_blocks_witness :
    ∃ a live, (Allocator.new 4096 1000000).run []
        [.allocate 8000, .allocate 200, .reset, .allocate 10000, .allocate 24, .allocate 8000]
        = .ok (a, live) ∧
      live.Pairwise Apart ∧ ∀ x ∈ live, InBlock a x :=
  regions_apart_in_blocks 4096 1000000
    [.allocate 8000, .allocate 200, .reset, .allocate 10000, .allocate 24, .allocate 8000]
    (by
      intro n hn
      simp at hn
      omega)

theorem digitByte_flag (c : Nat) : matchFlag c FLAG_DIGIT = digitByte c := by
  rw [matchFlag_digit]
  rfl

theorem digit_run : ∀ (t : List Nat), 0 ∈ t →
    ∃ ds c rest, t = ds ++ c :: rest ∧ IsDigits ds ∧ digitByte c = false ∧
      t.takeWhile digitByte = ds ∧ t.dropWhile digitByte = c :: rest ∧ 0 ∈ c :: rest
  | [], h => by cases h
  | a :: t, h => by
    by_cases ha : digitByte a = true
    · have h0 : 0 ∈ t := by
        rcases List.mem_cons.mp h with e | e
        · subst e
          simp [digitByte] at ha
        · exact e
      obtain ⟨ds, c, rest, e1, e2, e3, e4, e5, e6⟩ := digit_run t h0
      refine ⟨a :: ds, c, rest, by rw [e1]; rfl, ?_, e3, ?_, ?_, e6⟩
      · intro d hd
        rcases List.mem_cons.mp hd with e | e
        · subst e
          simpa [digitByte] using ha
        · exact e2 d e
      · rw [List.takeWhile_cons, if_pos ha, e4]
      · rw [List.dropWhile_cons, if_pos ha, e5]
    · have ha2 : digitByte a = false := by simpa using ha
      refine ⟨[], a, t, rfl, (fun d hd => by cases hd), ha2, ?_, ?_, h⟩
      · rw [List.takeWhile_cons, if_neg ha]
      · rw [List.dropWhile_cons, if_neg ha]

theorem digitsAcc_cons (n d : Nat) (ds : List Nat) :
    digitsAcc n (d :: ds) = digitsAcc (n * 10 + (d - 48)) ds := rfl

/-- The nine digit tests read a prefix of the run of digits. -/
theorem parseInt9_leading : ∀ (k : Nat) (ds : List Nat) (buf : List Nat) (s n c : Nat)
    (rest : List Nat), IsDigits ds → digitByte c = false → buf.drop s = ds ++ c :: rest →
    ∃ ds1 ds2 n1, ds = ds1 ++ ds2 ∧
      parseInt9 k buf s n ((ds ++ [c]).headD 0) = .ok (n1, s + ds1.length, (ds2 ++ [c]).headD 0)
  | 0, ds, buf, s, n, c, rest, _, _, _ => ⟨[], ds, n, rfl, by simp [parseInt9]⟩
  | k + 1, [], buf, s, n, c, rest, _, hc, _ => by
    refine ⟨[], [], n, rfl, ?_⟩
    simp [parseInt9, digitByte_flag, hc]
  | k + 1, d :: ds, buf, s, n, c, rest, hds, hc, hd => by
    have hd1 : digitByte d = true := by simpa [digitByte] using hds d (by simp)
    have d1 : buf.drop (s + 1) = ds ++ c :: rest := drop_succ_of_drop hd
    obtain ⟨ds1, ds2, n1, e1, e2⟩ := parseInt9_leading k ds buf (s + 1) (n * 10 + (d - 48)) c rest
      (fun x hx => hds x (List.mem_cons_of_mem _ hx)) hc d1
    have ry : rd buf (s + 1) = .ok ((ds ++ [c]).headD 0) := by
      cases ds with
      | nil => exact rd_of_drop d1
      | cons y ys => exact rd_of_drop d1
    refine ⟨d :: ds1, ds2, n1, by rw [e1]; rfl, ?_⟩
    simp only [List.cons_append, List.headD_cons, parseInt9, digitByte_flag, hd1, if_true, ry,
      Res.ok_bind, e2, List.length_cons]
    congr 3
    omega

/-- The two-digit loop of the double path reads to the end of the run of
digits. -/
theorem floatDigits_run (F : FloatOps) (dec : Int) : ∀ (fuel : Nat) (ds : List Nat)
    (buf : List Nat) (s d : Nat) (e : Int) (c : Nat) (rest : List Nat),
    IsDigits ds → digitByte c = false → buf.drop s = ds ++ c :: rest → ds.length < 2 * fuel →
    ∃ d1 e1, floatDigits F dec fuel buf s d e ((ds ++ [c]).headD 0)
      = .ok (d1, e1, s + ds.length, c)
  | 0, ds, _, _, _, _, _, _, _, _, _, hf => by omega
  | fuel + 1, [], buf, s, d, e, c, rest, _, hc, _, _ => by
    refine ⟨d, e, ?_⟩
    simp [floatDigits, digitByte_flag, hc]
  | fuel + 1, [a], buf, s, d, e, c, rest, hds, hc, hd, _ => by
    have ha : digitByte a = true := by simpa [digitByte] using hds a (by simp)
    have d1 : buf.drop (s + 1) = c :: rest := drop_succ_of_drop hd
    refine ⟨F.mulAdd10 d (a - 48), e - dec, ?_⟩
    simp only [List.cons_append, List.nil_append, List.headD_cons, floatDigits, digitByte_flag,
      ha, Bool.not_true, Bool.false_eq_true, if_false, rd_of_drop d1, Res.ok_bind, hc,
      Bool.not_false, if_true, Res.pure_eq, List.length_singleton]
  | fuel + 1, a :: b :: ds, buf, s, d, e, c, rest, hds, hc, hd, hf => by
    have ha : digitByte a = true := by simpa [digitByte] using hds a (by simp)
    have hb : digitByte b = true := by simpa [digitByte] using hds b (by simp)
    have d1 : buf.drop (s + 1) = b :: (ds ++ c :: rest) := drop_succ_of_drop hd
    have d2 : buf.drop (s + 2) = ds ++ c :: rest := drop_succ_of_drop d1
    have ry : rd buf (s + 2) = .ok ((ds ++ [c]).headD 0) := by
      cases ds with
      | nil => exact rd_of_drop d2
      | cons y ys => exact rd_of_drop d2
    obtain ⟨d3, e3, h3⟩ := floatDigits_run F dec fuel ds buf (s + 2)
      (F.mulAdd10 (F.mulAdd10 d (a - 48)) (b - 48)) (e - dec - dec) c rest
      (fun x hx => hds x (List.mem_cons_of_mem _ (List.mem_cons_of_mem _ hx))) hc d2
      (by simp only [List.length_cons] at hf; omega)
    refine ⟨d3, e3, ?_⟩
    simp only [List.cons_append, List.headD_cons, floatDigits, digitByte_flag, ha, hb,
      Bool.not_true, Bool.false_eq_true, if_false, rd_of_drop d1, Res.ok_bind, ry, h3,
      List.length_cons]
    congr 4
    omega

/-- The loop over the digits of the exponent: it returns `ERROR_BAD_NUMBER`
exactly when a digit arrives while the accumulator is at least 214748364, and
otherwise reads to the end of the run of digits. -/
theorem expDigits_run : ∀ (ds : List Nat) (fuel : Nat) (buf : List Nat) (s exp c : Nat)
    (rest : List Nat), IsDigits ds → digitByte c = false → buf.drop s = ds ++ c :: rest →
    ds.length < fuel →
    ((∃ k, k < ds.length ∧ 214748364 ≤ digitsAcc exp (ds.take k)) →
      expDigits fuel buf s exp ((ds ++ [c]).headD 0) = .ok none) ∧
    ((¬ ∃ k, k < ds.length ∧ 214748364 ≤ digitsAcc exp (ds.take k)) →
      expDigits fuel buf s exp ((ds ++ [c]).headD 0)
        = .ok (some (digitsAcc exp ds, s + ds.length, c)))
  | _, 0, _, _, _, _, _, _, _, _, hf => by omega
  | [], fuel + 1, buf, s, exp, c, rest, _, hc, _, _ => by
    refine ⟨?_, ?_⟩
    · rintro ⟨k, hk, _⟩
      simp at hk
    · intro _
      simp [expDigits, digitByte_flag, hc, digitsAcc]
  | a :: ds, fuel + 1, buf, s, exp, c, rest, hds, hc, hd, hf => by
    have ha : digitByte a = true := by simpa [digitByte] using hds a (by simp)
    have d1 : buf.drop (s + 1) = ds ++ c :: rest := drop_succ_of_drop hd
    have ry : rd buf (s + 1) = .ok ((ds ++ [c]).headD 0) := by
      cases ds with
      | nil => exact rd_of_drop d1
      | cons y ys => exact rd_of_drop d1
    obtain ⟨i1, i2⟩ := expDigits_run ds fuel buf (s + 1) (exp * 10 + (a - 48)) c rest
      (fun x hx => hds x (List.mem_cons_of_mem _ hx)) hc d1
      (by simp only [List.length_cons] at hf; omega)
    by_cases hx : exp ≥ 214748364
    · refine ⟨fun _ => ?_, fun hn => ?_⟩
      · simp only [List.cons_append, List.headD_cons, expDigits, digitByte_flag, ha,
          Bool.not_true, Bool.false_eq_true, if_false, hx, if_true, Res.pure_eq]
      · exact absurd ⟨0, by simp, by simpa [digitsAcc] using hx⟩ hn
    · have hiff : (∃ k, k < (a :: ds).length ∧ 214748364 ≤ digitsAcc exp ((a :: ds).take k)) ↔
          (∃ k, k < ds.length ∧ 214748364 ≤ digitsAcc (exp * 10 + (a - 48)) (ds.take k)) := by
        constructor
        · rintro ⟨k, hk, hv⟩
          cases k with
          | zero => exact absurd (by simpa [digitsAcc] using hv) hx
          | succ k =>
            exact ⟨k, by simp only [List.length_cons] at hk; omega,
              by simpa [digitsAcc_cons] using hv⟩
        · rintro ⟨k, hk, hv⟩
          exact ⟨k + 1, by simp only [List.length_cons]; omega, by simpa [digitsAcc_cons] using hv⟩
      refine ⟨fun h => ?_, fun hn => ?_⟩
      · have := i1 (hiff.mp h)
        simp only [List.cons_append, List.headD_cons, expDigits, digitByte_flag, ha,
          Bool.not_true, Bool.false_eq_true, if_false, hx, ry, Res.ok_bind, this]
      · have := i2 (fun h => hn (hiff.mpr h))
        simp only [List.cons_append, List.headD_cons, expDigits, digitByte_flag, ha,
          Bool.not_true, Bool.false_eq_true, if_false, hx, ry, Res.ok_bind, this,
          digitsAcc_cons, List.length_cons]
        congr 4
        omega

/-- The number case is its parts in sequence. -/
theorem parseNumber_parts (F : FloatOps) (buf : List Nat) (s0 ch0 : Nat) :
    parseNumber F buf s0 ch0 = (do
      let ch ← rd buf (if decide (ch0 = 45) then s0 + 1 else s0)
      let (n32, s, ch) ← parseInt9 9 buf (if decide (ch0 = 45) then s0 + 1 else s0) 0 ch
      if !matchFlag ch FLAG_NUMBER then
        pure (some (Value.int (if decide (ch0 = 45) then -(n32 : Int) else (n32 : Int)), s))
      else do
        let (d, e, s, ch) ← floatDigits F 0 buf.length buf s (F.ofInt n32) 0 ch
        let (d, e, s, ch) ← fractionPart F buf d e s ch
        let r ← exponentPart buf s ch
        match r with
        | none => pure none
        | some (x, s) =>
          pure (some (Value.number (if decide (ch0 = 45) then
            F.neg (if e + x ≠ 0 then F.scale d (e + x) else d)
            else (if e + x ≠ 0 then F.scale d (e + x) else d)), s))) := rfl

theorem head_of_run (ds : List Nat) (c : Nat) (rest : List Nat) :
    (ds ++ c :: rest).headD 0 = (ds ++ [c]).headD 0 := by
  cases ds <;> rfl

theorem length_lt_of_drop {buf : List Nat} {s : Nat} {ds : List Nat} {c : Nat} {rest : List Nat}
    (h : buf.drop s = ds ++ c :: rest) : ds.length < buf.length := by
  have := congrArg List.length h
  simp only [List.length_drop, List.length_append, List.length_cons] at this
  omega

theorem expDigits_text (buf : List Nat) (s : Nat) (t : List Nat) (hd : buf.drop s = t)
    (hz : 0 ∈ t) :
    ∃ r, expDigits buf.length buf s 0 (t.headD 0) = .ok r ∧
      (r = none ↔ ExponentOverflow (t.takeWhile digitByte)) := by
  obtain ⟨ds, c, rest, e1, e2, e3, e4, _, _⟩ := digit_run t hz
  rw [e1] at hd
  obtain ⟨i1, i2⟩ := expDigits_run ds buf.length buf s 0 c rest e2 e3 hd (length_lt_of_drop hd)
  rw [e4]
  conv => enter [1, r, 1, 1]; rw [e1, head_of_run]
  by_cases h : ExponentOverflow ds
  · exact ⟨none, i1 h, ⟨fun _ => h, fun _ => rfl⟩⟩
  · exact ⟨_, i2 h, ⟨(fun e => by cases e), fun e => absurd e h⟩⟩

theorem floatDigits_text (F : FloatOps) (dec : Int) (buf : List Nat) (s d : Nat) (e : Int)
    (t : List Nat) (hd : buf.drop s = t) (hz : 0 ∈ t) :
    ∃ d1 e1 s1 c rest, floatDigits F dec buf.length buf s d e (t.headD 0) = .ok (d1, e1, s1, c) ∧
      buf.drop s1 = c :: rest ∧ 0 ∈ c :: rest ∧ digitByte c = false ∧
      t.dropWhile digitByte = c :: rest := by
  obtain ⟨ds, c, rest, e1, e2, e3, _, e5, e6⟩ := digit_run t hz
  rw [e1] at hd
  obtain ⟨d1, x1, h1⟩ := floatDigits_run F dec buf.length ds buf s d e c rest e2 e3 hd
    (by have := length_lt_of_drop hd; omega)
  refine ⟨d1, x1, s + ds.length, c, rest, ?_, drop_add_of_drop ds hd, e6, e3, e5⟩
  rw [e1, head_of_run]
  exact h1

theorem mem_tail_of_ne {c : Nat} {rest : List Nat} (hz : 0 ∈ c :: rest) (hc : c ≠ 0) :
    0 ∈ rest := by
  rcases List.mem_cons.mp hz with e | e
  · exact absurd e.symm hc
  · exact e

theorem rd_head {buf : List Nat} {s : Nat} {t : List Nat} (hd : buf.drop s = t) (hz : 0 ∈ t) :
    rd buf s = .ok (t.headD 0) := by
  cases t with
  | nil => cases hz
  | cons a r => exact rd_of_drop hd

theorem fractionPart_spec (F : FloatOps) (buf : List Nat) (d : Nat) (e : Int) (s c : Nat)
    (rest : List Nat) (hd : buf.drop s = c :: rest) (hz : 0 ∈ c :: rest) :
    ∃ d1 e1 s1 c1 rest1, fractionPart F buf d e s c = .ok (d1, e1, s1, c1) ∧
      buf.drop s1 = c1 :: rest1 ∧ 0 ∈ c1 :: rest1 ∧
      (if (c :: rest).head? = some 46 then (c :: rest).tail.dropWhile digitByte else c :: rest)
        = c1 :: rest1 := by
  by_cases h : c = 46
  · have h0 : 0 ∈ rest := mem_tail_of_ne hz (by omega)
    have d1 : buf.drop (s + 1) = rest := drop_succ_of_drop hd
    obtain ⟨d2, e2, s2, c2, rest2, h1, h2, h3, _, h5⟩ :=
      floatDigits_text F 1 buf (s + 1) d e rest d1 h0
    refine ⟨d2, e2, s2, c2, rest2, ?_, h2, h3, ?_⟩
    · simp only [fractionPart, h, if_true, rd_head d1 h0, Res.ok_bind, h1]
    · simp only [h, List.head?_cons, if_true, List.tail_cons, h5]
  · refine ⟨d, e, s, c, rest, ?_, hd, hz, ?_⟩
    · simp only [fractionPart, h, if_false, Res.pure_eq]
    · simp [h]

theorem exponentPart_spec (buf : List Nat) (s c : Nat) (rest : List Nat)
    (hd : buf.drop s = c :: rest) (hz : 0 ∈ c :: rest) :
    ∃ r, exponentPart buf s c = .ok r ∧
      (r = none ↔ ∃ ds, exponentTail (c :: rest) = some ds ∧ ExponentOverflow ds) := by
  by_cases h : c = 101 ∨ c = 69
  · have h0 : 0 ∈ rest := mem_tail_of_ne hz (by omega)
    have d1 : buf.drop (s + 1) = rest := drop_succ_of_drop hd
    obtain ⟨c4, rest4, rfl⟩ : ∃ c4 rest4, rest = c4 :: rest4 := by
      cases rest with
      | nil => cases h0
      | cons a r => exact ⟨a, r, rfl⟩
    have r1 : rd buf (s + 1) = .ok c4 := rd_of_drop d1
    have d2 : buf.drop (s + 2) = rest4 := drop_succ_of_drop d1
    by_cases hs : c4 = 45 ∨ c4 = 43
    · have h4 : 0 ∈ rest4 := mem_tail_of_ne h0 (by omega)
      obtain ⟨r, hr, hiff⟩ := expDigits_text buf (s + 2) rest4 d2 h4
      rw [List.headD_eq_head?_getD] at hr
      have ht : exponentTail (c :: c4 :: rest4) = some (rest4.takeWhile digitByte) := by
        simp only [exponentTail, h, if_true, List.head?_cons, Option.some.injEq, hs,
          List.tail_cons]
      rw [ht]
      cases r with
      | none =>
        refine ⟨none, ?_, ⟨fun _ => ⟨_, rfl, hiff.mp rfl⟩, fun _ => rfl⟩⟩
        rcases hs with e | e
        · subst e
          simp [exponentPart, h, r1, rd_head d2 h4, hr]
        · subst e
          simp [exponentPart, h, r1, rd_head d2 h4, hr]
      | some v =>
        obtain ⟨v1, v2, v3⟩ := v
        have hno : ¬ ∃ ds, some (rest4.takeWhile digitByte) = some ds ∧ ExponentOverflow ds := by
          rintro ⟨ds, e, ho⟩
          simp only [Option.some.injEq] at e
          subst e
          have := hiff.mpr ho
          cases this
        rcases hs with e | e
        · subst e
          exact ⟨some (-(v1 : Int), v2), by simp [exponentPart, h, r1, rd_head d2 h4, hr],
            ⟨(fun e => by cases e), fun e => absurd e hno⟩⟩
        · subst e
          exact ⟨some ((v1 : Int), v2), by simp [exponentPart, h, r1, rd_head d2 h4, hr],
            ⟨(fun e => by cases e), fun e => absurd e hno⟩⟩
    · have hs1 : ¬ c4 = 45 := fun e => hs (Or.inl e)
      have hs2 : ¬ c4 = 43 := fun e => hs (Or.inr e)
      obtain ⟨r, hr, hiff⟩ := expDigits_text buf (s + 1) (c4 :: rest4) d1 h0
      simp only [List.headD_cons] at hr
      have ht : exponentTail (c :: c4 :: rest4) = some ((c4 :: rest4).takeWhile digitByte) := by
        simp only [exponentTail, h, if_true, List.head?_cons, Option.some.injEq, hs, if_false]
      rw [ht]
      cases r with
      | none =>
        refine ⟨none, ?_, ⟨fun _ => ⟨_, rfl, hiff.mp rfl⟩, fun _ => rfl⟩⟩
        simp [exponentPart, h, r1, hs1, hs2, hr]
      | some v =>
        obtain ⟨v1, v2, v3⟩ := v
        have hno : ¬ ∃ ds, some ((c4 :: rest4).takeWhile digitByte) = some ds ∧
            ExponentOverflow ds := by
          rintro ⟨ds, e, ho⟩
          simp only [Option.some.injEq] at e
          subst e
          have := hiff.mpr ho
          cases this
        exact ⟨some ((v1 : Int), v2), by simp [exponentPart, h, r1, hs1, hs2, hr],
          ⟨(fun e => by cases e), fun e => absurd e hno⟩⟩
  · refine ⟨some (0, s), by simp only [exponentPart, h, if_false, Res.pure_eq], ?_⟩
    simp only [exponentTail, h, if_false]
    constructor
    · intro e; cases e
    · rintro ⟨ds, e, _⟩; cases e

theorem drop_of_rd {buf : List Nat} {s a : Nat} (h : rd buf s = .ok a) :
    buf.drop s = a :: buf.drop (s + 1) := by
  unfold rd at h
  split at h
  · rename_i c hc
    simp only [Res.ok.injEq] at h
    subst h
    have hlt : s < buf.length := by
      by_contra hge
      rw [List.getElem?_eq_none (by omega)] at hc
      cases hc
    rw [List.drop_eq_getElem_cons hlt]
    congr 1
    rw [List.getElem?_eq_getElem hlt] at hc
    exact Option.some.inj hc
  · cases h

/-- The number case returns `ERROR_BAD_NUMBER` exactly when the token has an
exponent whose digits overflow. -/
theorem parseNumber_bad_iff (F : FloatOps) (buf : List Nat) (s0 ch0 : Nat)
    (hch : rd buf s0 = .ok ch0) (hz : 0 ∈ buf.drop s0) :
    ∃ r, parseNumber F buf s0 ch0 = .ok r ∧
      (r = none ↔ ∃ ds, exponentDigits (buf.drop s0) = some ds ∧ ExponentOverflow ds) := by
  have hd0 := drop_of_rd hch
  obtain ⟨s, t1, hs, ht1, hd1, hz1⟩ : ∃ s t1, s = (if decide (ch0 = 45) then s0 + 1 else s0) ∧
      t1 = (if (buf.drop s0).head? = some 45 then (buf.drop s0).tail else buf.drop s0) ∧
      buf.drop s = t1 ∧ 0 ∈ t1 := by
    refine ⟨_, _, rfl, rfl, ?_, ?_⟩
    · by_cases e : ch0 = 45
      · simp only [e, decide_True, if_true]
        rw [hd0]
        simp [e]
      · simp only [e, decide_False, Bool.false_eq_true, if_false]
        rw [hd0]
        simp [e]
    · by_cases e : ch0 = 45
      · rw [hd0] at hz ⊢
        simp only [List.head?_cons, e, if_true, List.tail_cons]
        exact mem_tail_of_ne hz (by omega)
      · rw [hd0] at hz ⊢
        simp only [List.head?_cons, Option.some.injEq, e, if_false]
        exact hz
  obtain ⟨ds, c, rest, e1, e2, e3, _, e5, e6⟩ := digit_run t1 hz1
  have hdd : buf.drop s = ds ++ c :: rest := by rw [hd1, e1]
  obtain ⟨ds1, ds2, n1, hsplit, hp9⟩ := parseInt9_leading 9 ds buf s 0 c rest e2 e3 hdd
  have hrd : rd buf s = .ok ((ds ++ [c]).headD 0) := by
    rw [← head_of_run ds c rest, ← e1]
    exact rd_head hd1 hz1
  have hexp : exponentDigits (buf.drop s0)
      = exponentTail (if (c :: rest).head? = some 46 then (c :: rest).tail.dropWhile digitByte
          else c :: rest) := by
    simp only [exponentDigits]
    rw [← ht1, e5]
  rw [hexp, parseNumber_parts, ← hs]
  simp only [hrd, Res.ok_bind, hp9]
  have hd2 : buf.drop (s + ds1.length) = ds2 ++ c :: rest := by
    apply drop_add_of_drop ds1
    rw [hdd, hsplit, List.append_assoc]
  by_cases hnum : matchFlag ((ds2 ++ [c]).headD 0) FLAG_NUMBER = true
  · have e2b : IsDigits ds2 := fun x hx => e2 x (by rw [hsplit]; exact List.mem_append_right _ hx)
    obtain ⟨d1, x1, hf⟩ := floatDigits_run F 0 buf.length ds2 buf (s + ds1.length) (F.ofInt n1) 0
      c rest e2b e3 hd2 (by have := length_lt_of_drop hd2; omega)
    have hd3 : buf.drop (s + ds1.length + ds2.length) = c :: rest := drop_add_of_drop ds2 hd2
    obtain ⟨d2, x2, s2, c2, rest2, hfr, hd4, hz4, hsel⟩ :=
      fractionPart_spec F buf d1 x1 (s + ds1.length + ds2.length) c rest hd3 e6
    obtain ⟨r, hr, hiff⟩ := exponentPart_spec buf s2 c2 rest2 hd4 hz4
    rw [hsel]
    simp only [hnum, Bool.not_true, Bool.false_eq_true, if_false, hf, Res.ok_bind, hfr, hr]
    cases r with
    | none => exact ⟨none, rfl, ⟨fun _ => hiff.mp rfl, fun _ => rfl⟩⟩
    | some v =>
      obtain ⟨v1, v2⟩ := v
      exact ⟨_, rfl, ⟨(fun e => by cases e), fun e => by have := hiff.mpr e; cases this⟩⟩
  · have hnum2 : matchFlag ((ds2 ++ [c]).headD 0) FLAG_NUMBER = false := by
      simpa using hnum
    simp only [hnum2, Bool.not_false, if_true, Res.pure_eq]
    refine ⟨_, rfl, ⟨(fun e => by cases e), ?_⟩⟩
    rintro ⟨eds, he, _⟩
    exfalso
    have hds2 : ds2 = [] := by
      cases ds2 with
      | nil => rfl
      | cons a r =>
        exfalso
        have ha := e2 a (by rw [hsplit]; simp)
        rw [matchFlag_number] at hnum2
        simp only [List.cons_append, List.headD_cons, decide_eq_false_iff_not] at hnum2
        exact hnum2 (Or.inl ha)
    subst hds2
    rw [matchFlag_number] at hnum2
    simp only [List.nil_append, List.headD_cons, decide_eq_false_iff_not] at hnum2
    have h46 : ¬ c = 46 := fun e => hnum2 (Or.inr (Or.inl e))
    have h101 : ¬ (c = 101 ∨ c = 69) := by
      intro e
      rcases e with e | e
      · exact hnum2 (Or.inr (Or.inr (Or.inr e)))
      · exact hnum2 (Or.inr (Or.inr (Or.inl e)))
    simp only [List.head?_cons, Option.some.injEq, h46, if_false, exponentTail, h101] at he
    cases he

theorem expStores_bound : ∀ (fuel : Nat) (buf : List Nat) (s exp ch : Nat),
    ∀ x ∈ expStores fuel buf s exp ch, x ≤ 2147483639
  | 0, _, _, _, _, x, hx => by cases hx
  | fuel + 1, buf, s, exp, ch, x, hx => by
    unfold expStores at hx
    split at hx
    · cases hx
    · rename_i hdg
      split at hx
      · cases hx
      · rename_i hlt
        rcases List.mem_cons.mp hx with e | e
        · rw [digitByte_flag] at hdg
          simp only [digitByte, Bool.not_eq_true', decide_eq_false_iff_not, not_not] at hdg
          omega
        · split at e
          · exact expStores_bound fuel buf (s + 1) _ _ x e
          · cases e

theorem expDigits_value : ∀ (fuel : Nat) (buf : List Nat) (s exp ch e s1 c1 : Nat),
    expDigits fuel buf s exp ch = .ok (some (e, s1, c1)) →
    e = exp ∨ e ∈ expStores fuel buf s exp ch
  | 0, _, _, _, _, _, _, _, h => by cases h
  | fuel + 1, buf, s, exp, ch, e, s1, c1, h => by
    unfold expDigits at h
    unfold expStores
    split at h
    · simp only [Res.pure_eq, Res.ok.injEq, Option.some.injEq, Prod.mk.injEq] at h
      exact Or.inl h.1.symm
    · rename_i hdg
      rw [if_neg hdg]
      split at h
      · cases h
      · rename_i hlt
        rw [if_neg hlt]
        cases hr : rd buf (s + 1) with
        | fault x => rw [hr] at h; cases h
        | ok c =>
          rw [hr] at h
          simp only [Res.ok_bind] at h
          rcases expDigits_value fuel buf (s + 1) _ c e s1 c1 h with i | i
          · exact Or.inr (by rw [i]; exact List.mem_cons_self _ _)
          · exact Or.inr (List.mem_cons_of_mem _ i)

theorem stepNum_fault (F : FloatOps) (e : Fault) : StepNum F (.fault e) := by
  intro r h; cases h

theorem stepNum_cont (F : FloatOps) (st : PState) (ch : Nat) : StepNum F (.ok (.cont st ch)) := by
  intro r h; cases h

theorem stepNum_fail (F : FloatOps) (st : PState) (code : Error) (hc : code ≠ .ERROR_BAD_NUMBER) :
    StepNum F (.ok (st.fail code)) := by
  intro r h
  simp only [PState.fail, Res.ok.injEq, Step.ret.injEq] at h
  subst h
  exact fun e => absurd e hc

theorem stepNum_bind (F : FloatOps) {α : Type} (x : Res α) (f : α → Res Step)
    (h : ∀ a, StepNum F (f a)) : StepNum F (x >>= f) := by
  cases x with
  | fault e => exact stepNum_fault F e
  | ok a => exact h a

theorem closeLoop_num (F : FloatOps) : ∀ (n : Nat) (st : PState), StepNum F (closeLoop n st)
  | 0, _ => stepNum_fault F _
  | n + 1, st => by
    unfold closeLoop
    split
    · exact stepNum_fail F _ _ (by decide)
    · rename_i f rest _
      simp only
      split
      · intro r h
        simp only [Res.pure_eq, Res.ok.injEq, Step.ret.injEq] at h
        subst h
        intro e
        cases e
      · rename_i p rest1
        apply stepNum_bind; intro p1
        apply stepNum_bind; intro s1
        apply stepNum_bind; intro c
        split
        · apply stepNum_bind; intro s2
          apply stepNum_bind; intro ch
          split
          · exact closeLoop_num F n _
          · exact stepNum_cont F _ _
        · split
          · exact stepNum_fail F _ _ (by decide)
          · exact closeLoop_num F n _

theorem separator_num (F : FloatOps) (st : PState) : StepNum F (separator st) := by
  unfold separator
  split
  · exact stepNum_fault F _
  · apply stepNum_bind; intro s1
    apply stepNum_bind; intro ch
    split
    · split
      · exact stepNum_fail F _ _ (by decide)
      · apply stepNum_bind; intro s2
        apply stepNum_bind; intro ch2
        split
        · exact closeLoop_num F _ _
        · exact stepNum_cont F _ _
    · split
      · exact stepNum_fail F _ _ (by decide)
      · split
        · exact closeLoop_num F _ _
        · exact stepNum_cont F _ _

theorem newNode_num (F : FloatOps) (avail : Nat) (st : PState) (ch : Nat) :
    StepNum F (newNode avail st ch) := by
  unfold newNode
  split
  · exact stepNum_fault F _
  · simp only
    split
    · exact stepNum_fail F _ _ (by decide)
    · split
      · exact stepNum_cont F _ _
      · split
        · exact stepNum_fail F _ _ (by decide)
        · apply stepNum_bind; intro f2
          apply stepNum_bind; intro r
          split
          · exact stepNum_fail F _ _ (by decide)
          · apply stepNum_bind; intro s3
            apply stepNum_bind; intro c
            split
            · exact stepNum_fail F _ _ (by decide)
            · apply stepNum_bind; intro s4
              apply stepNum_bind; intro ch4
              exact stepNum_cont F _ _

theorem parseValue_num (F : FloatOps) (st : PState) (ch : Nat) :
    StepNum F (parseValue F st ch) := by
  unfold parseValue
  split
  · exact stepNum_fault F _
  · split
    · split
      · exact stepNum_fail F _ _ (by decide)
      · exact stepNum_cont F _ _
    · split
      · apply stepNum_bind; intro f1
        apply stepNum_bind; intro r
        split
        · exact stepNum_fail F _ _ (by decide)
        · exact stepNum_cont F _ _
      · split
        · apply stepNum_bind; intro b
          split
          · apply stepNum_bind; intro f1
            exact stepNum_cont F _ _
          · exact stepNum_fail F _ _ (by decide)
        · split
          · apply stepNum_bind; intro b
            split
            · apply stepNum_bind; intro f1
              exact stepNum_cont F _ _
            · exact stepNum_fail F _ _ (by decide)
          · split
            · apply stepNum_bind; intro b
              split
              · apply stepNum_bind; intro f1
                exact stepNum_cont F _ _
              · exact stepNum_fail F _ _ (by decide)
            · split
              · cases hn : parseNumber F st.buf st.s ch with
                | fault e => exact stepNum_fault F e
                | ok o =>
                  cases o with
                  | none =>
                    intro r h
                    simp only [Res.ok_bind, Res.pure_eq, PState.fail, Res.ok.injEq,
                      Step.ret.injEq] at h
                    subst h
                    exact fun _ => ⟨st.s, ch, hn⟩
                  | some v =>
                    obtain ⟨v1, v2⟩ := v
                    simp only [Res.ok_bind]
                    apply stepNum_bind; intro f1
                    exact stepNum_cont F _ _
              · exact stepNum_fail F _ _ (by decide)

theorem parseLoop_num (F : FloatOps) (avail : Nat) :
    ∀ (fuel : Nat) (st : PState) (r : ParseResult),
    parseLoop F avail fuel st = .ok r → NumberFault F r
  | 0, _, _, h => by cases h
  | fuel + 1, st, r, h => by
    rw [parseLoop_succ] at h
    unfold roundRest at h
    cases hs : separator st with
    | fault e => rw [hs] at h; cases h
    | ok x =>
      rw [hs] at h
      cases x with
      | ret r1 =>
        simp only [Res.ok_bind, Res.pure_eq, Res.ok.injEq] at h
        subst h
        exact separator_num F st _ hs
      | cont st1 ch =>
        simp only [Res.ok_bind] at h
        unfold roundFrom memberSteps at h
        cases hn : newNode avail st1 ch with
        | fault e => rw [hn] at h; cases h
        | ok y =>
          rw [hn] at h
          cases y with
          | ret r1 =>
            simp only [Res.ok_bind, Res.pure_eq, Res.ok.injEq] at h
            subst h
            exact newNode_num F avail st1 ch _ hn
          | cont st2 ch2 =>
            simp only [Res.ok_bind] at h
            cases hv : parseValue F st2 ch2 with
            | fault e => rw [hv] at h; cases h
            | ok z =>
              rw [hv] at h
              cases z with
              | ret r1 =>
                simp only [Res.ok_bind, Res.pure_eq, Res.ok.injEq] at h
                subst h
                exact parseValue_num F st2 ch2 _ hv
              | cont st3 ch3 =>
                simp only [Res.ok_bind] at h
                exact parseLoop_num F avail fuel st3 r h

theorem jsonParse_num (F : FloatOps) (avail : Nat) (buf : List Nat) (r : ParseResult)
    (h : jsonParse F avail buf = .ok r) : NumberFault F r := by
  unfold jsonParse at h
  cases hs : skipWhitespace buf 0 with
  | fault e => rw [hs] at h; cases h
  | ok s =>
    rw [hs] at h
    simp only [Res.ok_bind] at h
    cases hr : rd buf s with
    | fault e => rw [hr] at h; cases h
    | ok ch =>
      rw [hr] at h
      simp only [Res.ok_bind] at h
      split at h
      · exact parseLoop_num F avail _ _ r h
      · simp only [Res.pure_eq, Res.ok.injEq] at h
        subst h
        intro e
        cases e

/-- A document whose first array element is a number with an overflowing
exponent. -/
theorem jsonParse_bad_number (F : FloatOps) (avail : Nat) (g g2 : List Nat) (c : Nat)
    (tl : List Nat) (hg : Gap g) (hg2 : Gap g2) (ha : 0 < avail)
    (hc : (48 ≤ c ∧ c ≤ 57) ∨ c = 45) (hz : 0 ∈ c :: tl)
    (hov : ∃ ds, exponentDigits (c :: tl) = some ds ∧ ExponentOverflow ds) :
    ∃ r, jsonParse F avail (g ++ 91 :: (g2 ++ c :: tl)) = .ok r ∧
      r.code = .ERROR_BAD_NUMBER ∧ r.value = none := by
  generalize hbuf : g ++ 91 :: (g2 ++ c :: tl) = buf
  have hd0 : buf.drop 0 = g ++ 91 :: (g2 ++ c :: tl) := by
    rw [← hbuf]; rfl
  have hskip := skipWhitespace_spec hg buf 0 91 _ hd0 (by omega) (by omega)
  have hd1 : buf.drop (0 + g.length) = 91 :: (g2 ++ c :: tl) := drop_add_of_drop _ hd0
  have hrd := rd_of_drop hd1
  have hd2 : buf.drop (0 + g.length + 1) = g2 ++ c :: tl := drop_succ_of_drop hd1
  have hlen : buf.length = (g.length + g2.length + tl.length + 1) + 1 := by
    rw [← hbuf]
    simp only [List.length_append, List.length_cons]
    omega
  have hsb : StartByte c := by
    unfold StartByte
    omega
  have hsep := sep_member
    { buf := buf, s := 0 + g.length + 1, stack := [{ tail := [], endchar := 91 + 2 }], allocs := 0 }
    { tail := [], endchar := 91 + 2 } [] { a := g2, comma := none } c tl rfl (by simp)
    (by simpa [Lead.text, commaText] using hd2) hsb hg2 rfl
  simp only [Lead.text, commaText, List.append_nil] at hsep
  have hd3 : buf.drop (0 + g.length + 1 + g2.length) = c :: tl := drop_add_of_drop _ hd2
  have hnew := newNode_array avail
    { buf := buf, s := 0 + g.length + 1 + g2.length, stack := [{ tail := [], endchar := 91 + 2 }], allocs := 0 }
    { tail := [], endchar := 91 + 2 } [] c rfl rfl ha
  obtain ⟨r, hr, hiff⟩ := parseNumber_bad_iff F buf (0 + g.length + 1 + g2.length) c
    (rd_of_drop hd3) (by rw [hd3]; exact hz)
  rw [hd3] at hiff
  have hnone : r = none := hiff.mpr hov
  subst hnone
  have hval : parseValue F
      { buf := buf, s := 0 + g.length + 1 + g2.length, stack := [{ tail := [{ value := Value.null, name := none }], endchar := 91 + 2 }], allocs := 0 + 1 } c
      = .ok (PState.fail { buf := buf, s := 0 + g.length + 1 + g2.length, stack := [{ tail := [{ value := Value.null, name := none }], endchar := 91 + 2 }], allocs := 0 + 1 } .ERROR_BAD_NUMBER) := by
    have h1 : ¬ (c = 123 ∨ c = 91) := by omega
    have h2 : ¬ c = 34 := by omega
    have h3 : ¬ c = 110 := by omega
    have h4 : ¬ c = 116 := by omega
    have h5 : ¬ c = 102 := by omega
    have h6 : (48 ≤ c ∧ c ≤ 57) ∨ c = 45 ∨ c = 46 := by omega
    simp only [parseValue, h1, h2, h3, h4, h5, h6, if_false, if_true, hr, Res.ok_bind, Res.pure_eq]
  refine ⟨{ code := .ERROR_BAD_NUMBER, value := none, buf := buf, allocs := 0 + 1 }, ?_, rfl, rfl⟩
  simp only [jsonParse, hskip, Res.ok_bind, hrd, Nat.reduceEqDiff, or_true, if_true]
  rw [hlen, parseLoop_succ, hsep, roundRest_cont, memberSteps_of_newNode F avail _ _ c c hnew,
    hval]
  rfl

/-- C31: the number case fails exactly on an overflowing exponent. For every
byte `ch0` read at `s0` in a buffer with a 0x00 byte at or behind `s0`, the
number case returns, and it returns `ERROR_BAD_NUMBER` exactly when the token
has an `e` or `E` behind its mantissa and, in the digits that follow it, a
further digit arrives while the value of the digits read so far is at least
214748364. Every value stored into the exponent accumulator, and the value the
loop ends with, is at most 2147483639, which is below `2^31`. `jsonParse`
returns `ERROR_BAD_NUMBER` only from the number case, and it does return it on
a document whose first array element is a number with such an exponent. -/
theorem bad_number_is_exponent_overflow (F : FloatOps) (buf : List Nat) (s0 ch0 : Nat)
    (hch : rd buf s0 = .ok ch0) (hz : 0 ∈ buf.drop s0) :
    (∃ r, parseNumber F buf s0 ch0 = .ok r ∧
      (r = none ↔ ∃ ds, exponentDigits (buf.drop s0) = some ds ∧ ExponentOverflow ds)) ∧
    (∀ fuel b s ch, (∀ x ∈ expStores fuel b s 0 ch, x ≤ 2147483639 ∧ x < 2 ^ 31) ∧
      ∀ e s1 c1, expDigits fuel b s 0 ch = .ok (some (e, s1, c1)) → e ≤ 2147483639) ∧
    (∀ avail b r, jsonParse F avail b = .ok r → r.code = .ERROR_BAD_NUMBER →
      ∃ s ch, parseNumber F r.buf s ch = .ok none) ∧
    (∀ avail g g2 c tl, Gap g → Gap g2 → 0 < avail → (48 ≤ c ∧ c ≤ 57) ∨ c = 45 → 0 ∈ c :: tl →
      (∃ ds, exponentDigits (c :: tl) = some ds ∧ ExponentOverflow ds) →
      ∃ r, jsonParse F avail (g ++ 91 :: (g2 ++ c :: tl)) = .ok r ∧
        r.code = .ERROR_BAD_NUMBER ∧ r.value = none) := by
  refine ⟨parseNumber_bad_iff F buf s0 ch0 hch hz, ?_, ?_, ?_⟩
  · intro fuel b s ch
    refine ⟨fun x hx => ?_, fun e s1 c1 h => ?_⟩
    · have := expStores_bound fuel b s 0 ch x hx
      exact ⟨this, by omega⟩
    · rcases expDigits_value fuel b s 0 ch e s1 c1 h with i | i
      · omega
      · exact expStores_bound fuel b s 0 ch e i
  · intro avail b r h hc
    exact jsonParse_num F avail b r h hc
  · intro avail g g2 c tl hg hg2 ha hc hz hov
    exact jsonParse_bad_number F avail g g2 c tl hg hg2 ha hc hz hov

theorem bad_number_is_exponent_overflow_witness :
    ∃ r, parseNumber ieee [49, 101, 50, 49, 52, 55, 52, 56, 51, 54, 52, 56, 93, 0] 0 49 = .ok r ∧
      (r = none ↔ ∃ ds, exponentDigits
          (List.drop 0 [49, 101, 50, 49, 52, 55, 52, 56, 51, 54, 52, 56, 93, 0]) = some ds ∧
        ExponentOverflow ds) :=
  (bad_number_is_exponent_overflow ieee [49, 101, 50, 49, 52, 55, 52, 56, 51, 54, 52, 56, 93, 0]
    0 49 rfl (by decide)).1

theorem res_bind_congr {α β : Type} (x : Res α) (f g : α → Res β) (h : ∀ a, f a = g a) :
    (x >>= f) = (x >>= g) := by
  cases x with
  | fault e => rfl
  | ok a => exact h a

theorem wrBelow_eq (buf : List Nat) (pend v s : Nat) (h : pend < s) :
    wrBelow buf pend v s = wr buf pend v := by
  unfold wrBelow
  rw [if_pos h]

/-- A copy loop entered with the write cursor below the read cursor: no store
reaches the read cursor. -/
theorem copyText_checked : ∀ (fuel : Nat) (st : StrState), st.pend < st.s →
    copyTextChecked fuel st = copyText fuel st
  | 0, _, _ => rfl
  | fuel + 1, st, h => by
    have ih := copyText_checked fuel
    unfold copyTextChecked copyText
    by_cases h0 : matchFlag st.ch FLAG_TEXT_BREAK = true
    · rw [if_pos h0, if_pos h0]
    rw [if_neg h0, if_neg h0, wrBelow_eq _ _ _ _ h]
    apply res_bind_congr; intro b1
    apply res_bind_congr; intro c1
    by_cases h1 : matchFlag c1 FLAG_TEXT_BREAK = true
    · rw [if_pos h1, if_pos h1]
    rw [if_neg h1, if_neg h1, wrBelow_eq _ _ _ _ (by omega)]
    apply res_bind_congr; intro b2
    apply res_bind_congr; intro c2
    by_cases h2 : matchFlag c2 FLAG_TEXT_BREAK = true
    · rw [if_pos h2, if_pos h2]
    rw [if_neg h2, if_neg h2, wrBelow_eq _ _ _ _ (by omega)]
    apply res_bind_congr; intro b3
    apply res_bind_congr; intro c3
    by_cases h3 : matchFlag c3 FLAG_TEXT_BREAK = true
    · rw [if_pos h3, if_pos h3]
    rw [if_neg h3, if_neg h3, wrBelow_eq _ _ _ _ (by omega)]
    apply res_bind_congr; intro b4
    apply res_bind_congr; intro c4
    exact ih _ (by simp only; omega)

/-- The write cursor is still below the read cursor at the end of a copy
loop. -/
theorem copyText_gap : ∀ (fuel : Nat) (st r : StrState), st.pend < st.s →
    copyText fuel st = .ok r → r.pend < r.s
  | 0, _, _, _, hr => by cases hr
  | fuel + 1, st, r, h, hr => by
    unfold copyText at hr
    by_cases h0 : matchFlag st.ch FLAG_TEXT_BREAK = true
    · rw [if_pos h0] at hr
      cases hr
      exact h
    rw [if_neg h0] at hr
    cases hw1 : wr st.buf st.pend st.ch with
    | fault e => rw [hw1] at hr; cases hr
    | ok b1 =>
      rw [hw1, Res.ok_bind] at hr
      cases hr1 : rd b1 st.s with
      | fault e => rw [hr1] at hr; cases hr
      | ok c1 =>
        rw [hr1, Res.ok_bind] at hr
        by_cases h1 : matchFlag c1 FLAG_TEXT_BREAK = true
        · rw [if_pos h1] at hr
          cases hr
          simp only
          omega
        rw [if_neg h1] at hr
        cases hw2 : wr b1 (st.pend + 1) c1 with
        | fault e => rw [hw2] at hr; cases hr
        | ok b2 =>
          rw [hw2, Res.ok_bind] at hr
          cases hr2 : rd b2 (st.s + 1) with
          | fault e => rw [hr2] at hr; cases hr
          | ok c2 =>
            rw [hr2, Res.ok_bind] at hr
            by_cases h2 : matchFlag c2 FLAG_TEXT_BREAK = true
            · rw [if_pos h2] at hr
              cases hr
              simp only
              omega
            rw [if_neg h2] at hr
            cases hw3 : wr b2 (st.pend + 2) c2 with
            | fault e => rw [hw3] at hr; cases hr
            | ok b3 =>
              rw [hw3, Res.ok_bind] at hr
              cases hr3 : rd b3 (st.s + 2) with
              | fault e => rw [hr3] at hr; cases hr
              | ok c3 =>
                rw [hr3, Res.ok_bind] at hr
                by_cases h3 : matchFlag c3 FLAG_TEXT_BREAK = true
                · rw [if_pos h3] at hr
                  cases hr
                  simp only
                  omega
                rw [if_neg h3] at hr
                cases hw4 : wr b3 (st.pend + 3) c3 with
                | fault e => rw [hw4] at hr; cases hr
                | ok b4 =>
                  rw [hw4, Res.ok_bind] at hr
                  cases hr4 : rd b4 (st.s + 3) with
                  | fault e => rw [hr4] at hr; cases hr
                  | ok c4 =>
                    rw [hr4, Res.ok_bind] at hr
                    exact copyText_gap fuel _ r (by simp only; omega) hr

theorem parseHex4_cursor : ∀ (n : Nat) (buf : List Nat) (s u v s1 : Nat),
    parseHex4 n buf s u = .ok (some v, s1) → s1 = s + n
  | 0, _, _, _, _, _, h => by
    simp only [parseHex4, Res.pure_eq, Res.ok.injEq, Prod.mk.injEq] at h
    omega
  | n + 1, buf, s, u, v, s1, h => by
    unfold parseHex4 at h
    cases hr : rd buf s with
    | fault e => rw [hr] at h; cases h
    | ok c =>
      rw [hr] at h
      simp only [Res.ok_bind] at h
      cases hx : hexDigit c with
      | none => rw [hx] at h; simp at h
      | some d =>
        rw [hx] at h
        have := parseHex4_cursor n buf (s + 1) _ v s1 h
        omega

theorem writeUtf8_checked (buf : List Nat) (pend u s : Nat) (h : pend + 2 < s) :
    writeUtf8Checked buf pend u s = writeUtf8 buf pend u ∧
    ∀ b p, writeUtf8 buf pend u = .ok (b, p) → p ≤ pend + 3 := by
  unfold writeUtf8Checked writeUtf8
  rw [wrBelow_eq _ _ _ _ (by omega), wrBelow_eq _ _ _ _ (by omega), wrBelow_eq _ _ _ _ (by omega)]
  refine ⟨?_, ?_⟩
  · split
    · rfl
    · split
      · apply res_bind_congr; intro b1
        rw [wrBelow_eq _ _ _ _ (by omega)]
      · apply res_bind_congr; intro b1
        rw [wrBelow_eq _ _ _ _ (by omega)]
        apply res_bind_congr; intro b2
        rw [wrBelow_eq _ _ _ _ (by omega)]
  · intro b p hr
    split at hr
    · cases hw : wr buf pend u with
      | fault e => rw [hw] at hr; cases hr
      | ok b1 =>
        rw [hw] at hr
        simp only [Res.ok_bind, Res.pure_eq, Res.ok.injEq, Prod.mk.injEq] at hr
        omega
    · split at hr
      · cases hw : wr buf pend (0xC0 ||| (u >>> 6)) with
        | fault e => rw [hw] at hr; cases hr
        | ok b1 =>
          rw [hw] at hr
          simp only [Res.ok_bind] at hr
          cases hw2 : wr b1 (pend + 1) (0x80 ||| (u &&& 0x3F)) with
          | fault e => rw [hw2] at hr; cases hr
          | ok b2 =>
            rw [hw2] at hr
            simp only [Res.ok_bind, Res.pure_eq, Res.ok.injEq, Prod.mk.injEq] at hr
            omega
      · cases hw : wr buf pend (0xE0 ||| (u >>> 12)) with
        | fault e => rw [hw] at hr; cases hr
        | ok b1 =>
          rw [hw] at hr
          simp only [Res.ok_bind] at hr
          cases hw2 : wr b1 (pend + 1) (0x80 ||| ((u >>> 6) &&& 0x3F)) with
          | fault e => rw [hw2] at hr; cases hr
          | ok b2 =>
            rw [hw2] at hr
            simp only [Res.ok_bind] at hr
            cases hw3 : wr b2 (pend + 2) (0x80 ||| (u &&& 0x3F)) with
            | fault e => rw [hw3] at hr; cases hr
            | ok b3 =>
              rw [hw3] at hr
              simp only [Res.ok_bind, Res.pure_eq, Res.ok.injEq, Prod.mk.injEq] at hr
              omega

theorem unescape_checked : ∀ (fuel : Nat) (st : StrState), st.pend < st.s →
    unescapeChecked fuel st = unescape fuel st
  | 0, _, _ => rfl
  | fuel + 1, st, h => by
    have ih := unescape_checked fuel
    unfold unescapeChecked unescape
    by_cases hq : st.ch = 34
    · rw [if_pos hq, if_pos hq, wrBelow_eq _ _ _ _ h]
    rw [if_neg hq, if_neg hq]
    by_cases hb : st.ch ≠ 92
    · rw [if_pos hb, if_pos hb]
    rw [if_neg hb, if_neg hb]
    apply res_bind_congr; intro ch
    dsimp only
    by_cases hu : ch = 117
    · rw [if_pos hu, if_pos hu]
      cases hp : parseHex4 4 st.buf (st.s + 1) 0 with
      | fault e => rw [Res.fault_bind, Res.fault_bind]
      | ok x =>
        obtain ⟨o, s1⟩ := x
        rw [Res.ok_bind, Res.ok_bind]
        cases o with
        | none => simp only
        | some u =>
          have hs1 := parseHex4_cursor 4 st.buf (st.s + 1) 0 u s1 hp
          simp only
          obtain ⟨hw, hwp⟩ := writeUtf8_checked st.buf st.pend u s1 (by omega)
          rw [hw]
          cases hx : writeUtf8 st.buf st.pend u with
          | fault e => rw [Res.fault_bind, Res.fault_bind]
          | ok y =>
            obtain ⟨b, p⟩ := y
            have hp3 := hwp b p hx
            rw [Res.ok_bind, Res.ok_bind]
            simp only
            apply res_bind_congr; intro ch1
            rw [copyText_checked _ _ (by simp only; omega)]
            cases hc : copyText b.length { buf := b, pend := p, s := s1 + 1, ch := ch1 } with
            | fault e => rw [Res.fault_bind, Res.fault_bind]
            | ok st1 =>
              rw [Res.ok_bind, Res.ok_bind]
              exact ih st1 (copyText_gap _ _ st1 (by simp only; omega) hc)
    · rw [if_neg hu, if_neg hu]
      by_cases h0 : ch = 0
      · rw [if_pos h0, if_pos h0]
      rw [if_neg h0, if_neg h0, wrBelow_eq st.buf st.pend 92 (st.s + 1) (by omega)]
      cases hx : (if decide (ch = 98 ∨ ch = 102 ∨ ch = 110 ∨ ch = 114 ∨ ch = 116 ∨ ch = 92 ∨ ch = 34)
          = true then (pure (st.buf, st.pend) : Res (List Nat × Nat))
          else (wr st.buf st.pend 92 >>= fun b => pure (b, st.pend + 1))) with
      | fault e => rw [Res.fault_bind, Res.fault_bind]
      | ok y =>
        obtain ⟨b0, p0⟩ := y
        have hp0 : p0 ≤ st.pend + 1 := by
          split at hx
          · simp only [Res.pure_eq, Res.ok.injEq, Prod.mk.injEq] at hx
            omega
          · cases hw : wr st.buf st.pend 92 with
            | fault e => rw [hw] at hx; cases hx
            | ok b1 =>
              rw [hw] at hx
              simp only [Res.ok_bind, Res.pure_eq, Res.ok.injEq, Prod.mk.injEq] at hx
              omega
        rw [Res.ok_bind, Res.ok_bind]
        simp only
        rw [wrBelow_eq _ _ _ _ (by omega)]
        apply res_bind_congr; intro b
        apply res_bind_congr; intro ch1
        rw [copyText_checked _ _ (by simp only; omega)]
        cases hc : copyText b.length { buf := b, pend := p0 + 1, s := st.s + 1 + 1, ch := ch1 } with
        | fault e => rw [Res.fault_bind, Res.fault_bind]
        | ok st1 =>
          rw [Res.ok_bind, Res.ok_bind]
          exact ih st1 (copyText_gap _ _ st1 (by simp only; omega) hc)

theorem parseStringInternal_checked (buf : List Nat) (s : Nat) :
    parseStringInternalChecked buf s = parseStringInternal buf s := by
  unfold parseStringInternalChecked parseStringInternal
  apply res_bind_congr; intro c0
  apply res_bind_congr; intro s1
  apply res_bind_congr; intro ch
  exact unescape_checked _ _ (by simp only; omega)

/-- C32: in `parseStringInternal` the write cursor never reaches the read
cursor. For every buffer and every start, the function with each store (the
decoded bytes and the final 0x00) checked to lie strictly below the index of
the next byte still to be read behaves as the function itself, so no store
touches unread input. On every string body that ends with its quote, the
buffer it leaves is the original buffer with the decoding of the original
bytes and a 0x00 stored from the start of the body: the write cursor ends at
or below the read cursor, and the bytes before the body and from the read
cursor on are unchanged. -/
theorem write_cursor_below_read_cursor (buf : List Nat) (s : Nat) :
    parseStringInternalChecked buf s = parseStringInternal buf s ∧
    ∀ its rest, (∀ i ∈ its, i.Valid) → buf.drop s = bodyText its ++ 34 :: rest →
      ∃ r, parseStringInternal buf s = .ok r ∧ r.ok = true ∧
        r.buf = patch buf s (bodyDecoded its ++ [0]) ∧ r.pend ≤ r.s ∧
        r.buf.drop r.s = buf.drop r.s ∧ r.buf.take s = buf.take s := by
  refine ⟨parseStringInternal_checked buf s, ?_⟩
  intro its rest hv hd
  have hl := bodyDecoded_length_le its
  have hlen : s + (bodyText its ++ 34 :: rest).length = buf.length :=
    length_of_drop hd (by simp)
  simp only [List.length_append, List.length_cons] at hlen
  refine ⟨_, parseStringInternal_spec its hv buf s rest hd, rfl, rfl, ?_, ?_, ?_⟩
  · simp only
    omega
  · simp only
    apply drop_patch
    · simp only [List.length_append, List.length_singleton]
      omega
    · simp only [List.length_append, List.length_singleton]
      omega
  · simp only
    exact take_patch buf s _ (by omega)

/-! ## Grisu2: the boundaries and the product -/

theorem and_two_pow_zero (x i : Nat) (hx : x < 2 ^ (i + 1)) :
    (x &&& 2 ^ i = 0) ↔ x < 2 ^ i := by
  rw [Nat.and_two_pow, Nat.testBit_to_div_mod]
  have hp : 0 < 2 ^ i := Nat.two_pow_pos i
  constructor
  · intro h
    by_contra hge
    have hge : 2 ^ i ≤ x := by omega
    have h1 : x / 2 ^ i = 1 :=
      Nat.div_eq_of_lt_le (by omega) (by rw [Nat.pow_succ] at hx; omega)
    rw [h1] at h
    simp at h
  · intro h
    rw [Nat.div_eq_of_lt h]
    simp

/-- The product of `DiyFp` is the 128-bit product divided by `2^64`,
rounded half up. -/
theorem DiyFp.mul_f (x c : DiyFp) (hx : x.f < 2 ^ 64) (hc : c.f < 2 ^ 64) :
    (x.mul c).f = (x.f * c.f + 2 ^ 63) / 2 ^ 64 ∧ (x.mul c).e = x.e + c.e + 64 := by
  have hp : x.f * c.f ≤ (2 ^ 64 - 1) * (2 ^ 64 - 1) :=
    Nat.mul_le_mul (by omega) (by omega)
  have hl : x.f * c.f % 2 ^ 64 < 2 ^ (63 + 1) := Nat.mod_lt _ (by decide)
  have hz := and_two_pow_zero (x.f * c.f % 2 ^ 64) 63 hl
  refine ⟨?_, rfl⟩
  simp only [DiyFp.mul, Nat.shiftRight_eq_div_pow]
  by_cases h : x.f * c.f % 2 ^ 64 &&& 2 ^ 63 = 0
  · have := hz.1 h
    simp only [h, ne_eq, not_true_eq_false, if_false]
    omega
  · have : ¬ x.f * c.f % 2 ^ 64 < 2 ^ 63 := fun hh => h (hz.2 hh)
    simp only [h, ne_eq, not_false_eq_true, if_true]
    norm_num at hp
    omega

theorem normalizeLoop_spec : ∀ (n : Nat) (x : DiyFp), 0 < x.f → x.f < 2 ^ 54 →
    2 ^ 53 ≤ x.f * 2 ^ n →
    ∃ j : Nat, normalizeLoop (n + 1) x = .ok { f := x.f * 2 ^ j, e := x.e - (j : Int) } ∧
      2 ^ 53 ≤ x.f * 2 ^ j ∧ x.f * 2 ^ j < 2 ^ 54
  | n, x, h0, h1, h2 => by
    have hz := and_two_pow_zero x.f 53 h1
    have hk : kDpHiddenBit <<< 1 = 2 ^ 53 := by decide
    by_cases hb : x.f &&& 2 ^ 53 = 0
    · have hlt := hz.1 hb
      cases n with
      | zero => simp only [pow_zero, mul_one] at h2; omega
      | succ m =>
        have hs : (x.f <<< 1) % 2 ^ 64 = x.f * 2 := by
          rw [Nat.shiftLeft_eq, pow_one]; omega
        obtain ⟨j, e, a, b⟩ := normalizeLoop_spec m { f := x.f * 2, e := x.e - 1 }
          (by show 0 < x.f * 2; omega) (by show x.f * 2 < 2 ^ 54; omega)
          (by
            show 2 ^ 53 ≤ x.f * 2 * 2 ^ m
            have : x.f * 2 ^ (m + 1) = x.f * 2 * 2 ^ m := by rw [Nat.pow_succ]; ring
            rw [this] at h2; exact h2)
        refine ⟨j + 1, ?_, ?_, ?_⟩
        · rw [normalizeLoop, hk, if_pos hb, hs, e]
          simp only [Res.ok.injEq, DiyFp.mk.injEq]
          constructor
          · rw [Nat.pow_succ]; ring
          · push_cast; ring
        · have : x.f * 2 ^ (j + 1) = x.f * 2 * 2 ^ j := by rw [Nat.pow_succ]; ring
          rw [this]; exact a
        · have : x.f * 2 ^ (j + 1) = x.f * 2 * 2 ^ j := by rw [Nat.pow_succ]; ring
          rw [this]; exact b
    · have hge : 2 ^ 53 ≤ x.f := by
        by_contra hh
        exact hb (hz.2 (by omega))
      refine ⟨0, ?_, by simpa using hge, by simpa using h1⟩
      rw [normalizeLoop, hk, if_neg hb]
      simp

/-- The boundaries of `v = f * 2^e` with `0 < f < 2^53`: with the shift `S`,
`plus` is `(2f + 1) * 2^S` and `minus` is `(2f - 1) * 2^S`, or
`(4f - 1) * 2^(S - 1)` when `f` is the hidden bit, both with the exponent
`e - 1 - S`. -/
theorem NormalizedBoundaries_spec (f : Nat) (e : Int) (h0 : 0 < f) (h1 : f < 2 ^ 53) :
    ∃ S : Nat, 10 ≤ S ∧
      DiyFp.NormalizedBoundaries { f := f, e := e }
        = .ok ({ f := if f = 2 ^ 52 then (4 * f - 1) * 2 ^ (S - 1) else (2 * f - 1) * 2 ^ S,
                 e := e - 1 - S },
               { f := (2 * f + 1) * 2 ^ S, e := e - 1 - S }) ∧
      2 ^ 63 ≤ (2 * f + 1) * 2 ^ S ∧ (2 * f + 1) * 2 ^ S < 2 ^ 64 ∧
      (f = 2 ^ 52 → S = 10) := by
  obtain ⟨j, ej, a, b⟩ := normalizeLoop_spec 64 { f := (f <<< 1) + 1, e := e - 1 }
    (by show 0 < (f <<< 1) + 1; omega)
    (by show (f <<< 1) + 1 < 2 ^ 54; rw [Nat.shiftLeft_eq, pow_one]; omega)
    (by show 2 ^ 53 ≤ ((f <<< 1) + 1) * 2 ^ 64; rw [Nat.shiftLeft_eq, pow_one]; omega)
  have hf1 : (f <<< 1) + 1 = 2 * f + 1 := by rw [Nat.shiftLeft_eq, pow_one]; omega
  simp only [hf1] at ej a b
  have hP : (2 * f + 1) * 2 ^ (j + 10) = (2 * f + 1) * 2 ^ j * 2 ^ 10 := by
    rw [Nat.pow_add]; ring
  have hj0 : f = 2 ^ 52 → j = 0 := by
    intro hf
    subst hf
    by_contra hj
    have : 2 ^ 1 ≤ 2 ^ j := Nat.pow_le_pow_right (by decide) (by omega)
    have : (2 * 2 ^ 52 + 1) * 2 ^ 1 ≤ (2 * 2 ^ 52 + 1) * 2 ^ j := Nat.mul_le_mul_left _ this
    omega
  refine ⟨j + 10, by omega, ?_, by rw [hP]; omega, by rw [hP]; omega,
    fun hf => by rw [hj0 hf]⟩
  have hpl : DiyFp.NormalizeBoundary { f := (f <<< 1) + 1, e := e - 1 }
      = .ok { f := (2 * f + 1) * 2 ^ (j + 10), e := e - 1 - ((j + 10 : Nat) : Int) } := by
    unfold DiyFp.NormalizeBoundary
    rw [hf1, ej]
    simp only [Res.ok_bind, Res.pure_eq, Res.ok.injEq, DiyFp.mk.injEq]
    constructor
    · rw [Nat.shiftLeft_eq, hP]
      apply Nat.mod_eq_of_lt
      omega
    · push_cast; ring
  unfold DiyFp.NormalizedBoundaries
  simp only [hpl, Res.ok_bind, Res.pure_eq, Res.ok.injEq, Prod.mk.injEq, DiyFp.mk.injEq,
    and_true, true_and]
  by_cases hf : f = 2 ^ 52
  · have hj := hj0 hf
    subst hj
    subst hf
    have hs : (e - 2 - (e - 1 - ((0 + 10 : Nat) : Int))).toNat = 9 := by omega
    simp only [kDpHiddenBit, show (2 : Nat) ^ 52 = 4503599627370496 from by decide, if_true, hs]
    decide
  · have hk : f ≠ kDpHiddenBit := by simpa [kDpHiddenBit] using hf
    simp only [if_neg hf, if_neg hk]
    have hs : ((e - 1 - (e - 1 - ((j + 10 : Nat) : Int))).toNat) = j + 10 := by omega
    rw [hs, Nat.shiftLeft_eq, Nat.shiftLeft_eq, pow_one]
    have e1 : f * 2 - 1 = 2 * f - 1 := by omega
    rw [e1]
    apply Nat.mod_eq_of_lt
    have : (2 * f - 1) * 2 ^ (j + 10) ≤ (2 * f + 1) * 2 ^ (j + 10) :=
      Nat.mul_le_mul_right _ (by omega)
    rw [hP] at this
    omega

/-! ## Grisu2: the digit generation -/

theorem digitsValue_snoc (b : List Nat) (d : Nat) :
    digitsValue (b ++ [48 + d]) = digitsValue b * 10 + d := by
  rw [digitsValue_append]
  simp [digitsValue]

theorem allDigits_snoc (b : List Nat) (d : Nat) (hb : allDigits b = true) (hd : d ≤ 9) :
    allDigits (b ++ [48 + d]) = true := by
  rw [allDigits_append, hb]
  simp only [allDigits, List.all_cons, List.all_nil, Bool.and_true, Bool.true_and,
    Bool.and_eq_true, decide_eq_true_eq]
  omega

theorem head_snoc (b : List Nat) (d : Nat) (h : b ≠ [] → b.head? ≠ some 48)
    (hd : b = [] → d ≠ 0) : (b ++ [48 + d]).head? ≠ some 48 := by
  cases b with
  | nil =>
    have := hd rfl
    simp only [List.nil_append, List.head?_cons, ne_eq, Option.some.injEq]
    omega
  | cons x xs => simpa using h (by simp)

/-- The loop of `GrisuRound` on a buffer that ends with the digit `d`: it
leaves a digit `d'` there, having added `(d - d') * ten_kappa` to `rest`,
which stays at most `delta`. -/
theorem GrisuRound_spec : ∀ (fuel : Nat) (front : List Nat) (d delta rest ten wp_w : Nat),
    d < fuel → d ≤ 9 → rest ≤ delta → delta < 2 ^ 64 → 0 < ten → delta ≤ d * ten + rest →
    ∃ d' rest', GrisuRound fuel (front ++ [48 + d]) delta rest ten wp_w
        = .ok (front ++ [48 + d']) ∧
      d' ≤ d ∧ rest' ≤ delta ∧ d' * ten + rest' = d * ten + rest
  | 0, _, _, _, _, _, _, h, _, _, _, _, _ => by omega
  | fuel + 1, front, d, delta, rest, ten, wp_w, hf, h9, hr, hd, ht, hH => by
    rw [GrisuRound]
    split
    · rename_i hc
      obtain ⟨_, h2, _⟩ := hc
      have e1 : (delta + 2 ^ 64 - rest) % 2 ^ 64 = delta - rest := by omega
      rw [e1] at h2
      have hd1 : 1 ≤ d := by
        by_contra h0
        have : d = 0 := by omega
        subst this
        simp only [zero_mul, zero_add] at hH
        omega
      have hrev : (front ++ [48 + d]).reverse = (48 + d) :: front.reverse := by simp
      have hlast : (48 + d + 255) % 256 = 48 + (d - 1) := by omega
      have hnew : (((48 + d + 255) % 256) :: front.reverse).reverse = front ++ [48 + (d - 1)] := by
        rw [hlast]; simp
      have hrest : (rest + ten) % 2 ^ 64 = rest + ten := by omega
      have hmul : (d - 1) * ten + ten = d * ten := by
        have : d = (d - 1) + 1 := by omega
        conv_rhs => rw [this, Nat.add_mul, one_mul]
      obtain ⟨d', rest', e, a, b, c⟩ := GrisuRound_spec fuel front (d - 1) delta (rest + ten) ten
        wp_w (by omega) (by omega) (by omega) hd ht (by omega)
      refine ⟨d', rest', ?_, by omega, b, by omega⟩
      rw [hrev]
      simp only [hnew, hrest]
      exact e
    · exact ⟨d, rest, rfl, le_refl _, hr, rfl⟩

theorem kPow10At_eq (k : Nat) (hk : k ≤ 9) : kPow10At k = .ok (10 ^ k) := by
  interval_cases k <;> rfl

/-- The first loop of `DigitGen`: either it returns digits, or it ends with
`kappa = 0`, all the digits of the integral part written. -/
theorem digitLoop1_spec (sh delta wp_w Wp p2 : Nat) (K : Int) (hW : Wp < 2 ^ 64)
    (hp2 : p2 < 2 ^ sh) (hdW : delta < Wp) :
    ∀ (kappa p1 : Nat) (buffer : List Nat), buffer.length + kappa ≤ 9 → p1 < 10 ^ kappa →
      Wp = (digitsValue buffer * 10 ^ kappa + p1) * 2 ^ sh + p2 →
      allDigits buffer = true →
      (buffer = [] → 1 ≤ kappa ∧ 10 ^ (kappa - 1) ≤ p1) →
      (buffer ≠ [] → buffer.head? ≠ some 48) →
      delta < p1 * 2 ^ sh + p2 →
      10 ^ (buffer.length + kappa - 1) * 2 ^ sh ≤ Wp →
      ∃ r p1' b, digitLoop1 sh delta wp_w K kappa p1 p2 buffer = .ok (r, p1', b) ∧
        match r with
        | some ds => DigitsOk sh Wp delta K ds
        | none => b ≠ [] ∧ b.head? ≠ some 48 ∧ allDigits b = true ∧
            Wp = digitsValue b * 2 ^ sh + p2 ∧ delta < p2 ∧ b.length ≤ 9 ∧
            10 ^ (b.length - 1) * 2 ^ sh ≤ Wp
  | 0, p1, buffer, hk, hp1, hWp, hdig, hfirst, hhead, hrest, hlen => by
    have hp0 : p1 = 0 := by simpa using hp1
    subst hp0
    have hne : buffer ≠ [] := by
      intro e
      have := (hfirst e).1
      omega
    refine ⟨none, 0, buffer, rfl, hne, hhead hne, hdig, ?_, ?_, by omega, by simpa using hlen⟩
    · simpa using hWp
    · simpa using hrest
  | kappa + 1, p1, buffer, hk, hp1, hWp, hdig, hfirst, hhead, hrest, hlen => by
    have hpw : kPow10At kappa = .ok (10 ^ kappa) := kPow10At_eq kappa (by omega)
    have hpos : 0 < 10 ^ kappa := by positivity
    have h2pos : 0 < 2 ^ sh := Nat.two_pow_pos sh
    have hd9 : p1 / 10 ^ kappa ≤ 9 := by
      have : p1 / 10 ^ kappa < 10 := by
        rw [Nat.div_lt_iff_lt_mul hpos]
        rw [Nat.pow_succ] at hp1
        omega
      omega
    have hsplit : p1 = p1 / 10 ^ kappa * 10 ^ kappa + p1 % 10 ^ kappa := by
      have := Nat.div_add_mod p1 (10 ^ kappa)
      rw [Nat.mul_comm] at this
      omega
    have hd1 : buffer = [] → p1 / 10 ^ kappa ≠ 0 := by
      intro e
      have := (hfirst e).2
      simp only [Nat.add_sub_cancel] at this
      have : 0 < p1 / 10 ^ kappa := Nat.div_pos this hpos
      omega
    have hbyte : (48 + p1 / 10 ^ kappa % 256) % 256 = 48 + p1 / 10 ^ kappa := by
      generalize p1 / 10 ^ kappa = d at hd9
      omega
    have hbuf : (if p1 / 10 ^ kappa ≠ 0 ∨ buffer.length ≠ 0
          then buffer ++ [(48 + p1 / 10 ^ kappa % 256) % 256] else buffer)
        = buffer ++ [48 + p1 / 10 ^ kappa] := by
      rw [hbyte]
      by_cases hb : buffer = []
      · rw [if_pos (Or.inl (hd1 hb))]
      · rw [if_pos (Or.inr (by simpa using hb))]
    -- the magnitudes
    have hten : 10 ^ kappa * 2 ^ sh ≤ Wp := by
      refine le_trans ?_ hlen
      apply Nat.mul_le_mul_right
      apply Nat.pow_le_pow_right (by decide)
      omega
    have hp1W : p1 * 2 ^ sh + p2 ≤ Wp := by
      rw [hWp, Nat.add_mul]
      omega
    have hmodle : p1 % 10 ^ kappa * 2 ^ sh + p2 ≤ p1 * 2 ^ sh + p2 := by
      have : p1 % 10 ^ kappa * 2 ^ sh ≤ p1 * 2 ^ sh :=
        Nat.mul_le_mul_right _ (Nat.mod_le _ _)
      omega
    have htmp : ((p1 % 10 ^ kappa) <<< sh + p2) % 2 ^ 64 = p1 % 10 ^ kappa * 2 ^ sh + p2 := by
      rw [Nat.shiftLeft_eq]
      apply Nat.mod_eq_of_lt
      omega
    have htk : (10 ^ kappa <<< sh) % 2 ^ 64 = 10 ^ kappa * 2 ^ sh := by
      rw [Nat.shiftLeft_eq]
      apply Nat.mod_eq_of_lt
      omega
    -- the value of the digits written so far
    have hval : Wp = (digitsValue (buffer ++ [48 + p1 / 10 ^ kappa]) * 10 ^ kappa
        + p1 % 10 ^ kappa) * 2 ^ sh + p2 := by
      rw [digitsValue_snoc, hWp]
      congr 2
      rw [Nat.pow_succ]
      conv_lhs => rw [hsplit]
      ring
    rw [digitLoop1]
    simp only [hpw, Res.ok_bind, hbuf, htmp, htk]
    by_cases hstop : p1 % 10 ^ kappa * 2 ^ sh + p2 ≤ delta
    · rw [if_pos hstop]
      have hH : delta < p1 / 10 ^ kappa * (10 ^ kappa * 2 ^ sh)
          + (p1 % 10 ^ kappa * 2 ^ sh + p2) := by
        have : p1 / 10 ^ kappa * (10 ^ kappa * 2 ^ sh) + p1 % 10 ^ kappa * 2 ^ sh
            = p1 * 2 ^ sh := by
          conv_rhs => rw [hsplit]
          ring
        omega
      obtain ⟨d', rest', e, a, b, c⟩ := GrisuRound_spec 64 buffer (p1 / 10 ^ kappa) delta
        (p1 % 10 ^ kappa * 2 ^ sh + p2) (10 ^ kappa * 2 ^ sh) wp_w (by omega) hd9 hstop
        (by omega) (Nat.mul_pos hpos h2pos) (by omega)
      have hd'1 : d' ≠ 0 := by
        intro e0
        subst e0
        simp only [zero_mul, zero_add] at c
        omega
      refine ⟨_, _, _, by rw [e]; rfl, ?_⟩
      show DigitsOk sh Wp delta K _
      refine ⟨by simp, by simp only [List.length_append, List.length_singleton]; omega,
        allDigits_snoc buffer d' hdig (by omega), head_snoc buffer d' hhead (fun _ => hd'1),
        Or.inl ⟨kappa, rfl, ?_, ?_⟩⟩
      · show Wp ≤ digitsValue (buffer ++ [48 + d']) * 10 ^ kappa * 2 ^ sh + delta
        rw [digitsValue_snoc]
        have : (digitsValue buffer * 10 + d') * 10 ^ kappa * 2 ^ sh + rest' = Wp := by
          rw [hval, digitsValue_snoc]
          have e3 : (digitsValue buffer * 10 + d') * 10 ^ kappa * 2 ^ sh
              = digitsValue buffer * 10 * 10 ^ kappa * 2 ^ sh + d' * (10 ^ kappa * 2 ^ sh) := by
            ring
          have e4 : ((digitsValue buffer * 10 + p1 / 10 ^ kappa) * 10 ^ kappa + p1 % 10 ^ kappa)
                * 2 ^ sh + p2
              = digitsValue buffer * 10 * 10 ^ kappa * 2 ^ sh
                + (p1 / 10 ^ kappa * (10 ^ kappa * 2 ^ sh)
                    + (p1 % 10 ^ kappa * 2 ^ sh + p2)) := by
            ring
          rw [e3, e4]
          omega
        omega
      · show digitsValue (buffer ++ [48 + d']) * 10 ^ kappa * 2 ^ sh ≤ Wp
        rw [digitsValue_snoc]
        have : (digitsValue buffer * 10 + d') * 10 ^ kappa * 2 ^ sh + rest' = Wp := by
          rw [hval, digitsValue_snoc]
          have e3 : (digitsValue buffer * 10 + d') * 10 ^ kappa * 2 ^ sh
              = digitsValue buffer * 10 * 10 ^ kappa * 2 ^ sh + d' * (10 ^ kappa * 2 ^ sh) := by
            ring
          have e4 : ((digitsValue buffer * 10 + p1 / 10 ^ kappa) * 10 ^ kappa + p1 % 10 ^ kappa)
                * 2 ^ sh + p2
              = digitsValue buffer * 10 * 10 ^ kappa * 2 ^ sh
                + (p1 / 10 ^ kappa * (10 ^ kappa * 2 ^ sh)
                    + (p1 % 10 ^ kappa * 2 ^ sh + p2)) := by
            ring
          rw [e3, e4]
          omega
        omega
    · rw [if_neg hstop]
      have hmod : p1 % 10 ^ kappa < 10 ^ kappa := Nat.mod_lt _ hpos
      exact digitLoop1_spec sh delta wp_w Wp p2 K hW hp2 hdW kappa (p1 % 10 ^ kappa)
        (buffer ++ [48 + p1 / 10 ^ kappa])
        (by simp only [List.length_append, List.length_singleton]; omega) hmod hval
        (allDigits_snoc buffer _ hdig hd9) (by simp)
        (fun _ => head_snoc buffer _ hhead hd1) (by omega)
        (by
          simp only [List.length_append, List.length_singleton]
          have : buffer.length + 1 + kappa - 1 = buffer.length + (kappa + 1) - 1 := by omega
          rw [this]
          exact hlen)

/-- The second loop of `DigitGen`, entered with `m` digits of the fraction
written: it returns digits, at most 17 in all, whatever the read of `kPow10`
yields. -/
theorem digitLoop2_spec (pow : Nat → Res Nat) (hpow : ∀ m, ∃ x, pow m = .ok x)
    (sh wp_w Wp delta0 L0 : Nat) (K : Int) (hsh : sh ≤ 60) (hL0 : 1 ≤ L0)
    (hL9 : L0 ≤ 9) (hL : 2 ^ sh ≤ 10 ^ (17 - L0) * delta0) :
    ∀ (fuel m p2 : Nat) (buffer : List Nat),
      17 ≤ fuel + buffer.length → buffer.length = L0 + m → p2 < 2 ^ sh →
      delta0 * 10 ^ m ≤ p2 → Wp * 10 ^ m = digitsValue buffer * 2 ^ sh + p2 →
      allDigits buffer = true → buffer.head? ≠ some 48 →
      ∃ ds, digitLoop2With pow sh wp_w K fuel m p2 (delta0 * 10 ^ m) buffer = .ok ds ∧
        DigitsOk sh Wp delta0 K ds := by
  have h2pos : 0 < 2 ^ sh := Nat.two_pow_pos sh
  have h260 : 2 ^ sh ≤ 2 ^ 60 := Nat.pow_le_pow_right (by decide) hsh
  -- the number of digits of the fraction stays below `17 - L0`
  have hm : ∀ m p2 : Nat, p2 < 2 ^ sh → delta0 * 10 ^ m ≤ p2 → m < 17 - L0 := by
    intro m p2 hp2 hle
    by_contra hge
    have hge : 17 - L0 ≤ m := by omega
    have h1 : 10 ^ (17 - L0) ≤ 10 ^ m := Nat.pow_le_pow_right (by decide) hge
    have h2 : 10 ^ (17 - L0) * delta0 ≤ 10 ^ m * delta0 := Nat.mul_le_mul_right _ h1
    have h3 : 10 ^ m * delta0 = delta0 * 10 ^ m := Nat.mul_comm _ _
    omega
  intro fuel
  induction fuel with
  | zero =>
    intro m p2 buffer hf hlen hp2 hle _ _ _
    have := hm m p2 hp2 hle
    omega
  | succ fuel ih =>
    intro m p2 buffer hf hlen hp2 hle hval hdig hhead
    have hmlt := hm m p2 hp2 hle
    have hp2a : (p2 * 10) % 2 ^ 64 = p2 * 10 := Nat.mod_eq_of_lt (by omega)
    have hps : delta0 * 10 ^ (m + 1) = delta0 * 10 ^ m * 10 := by
      rw [Nat.pow_succ, Nat.mul_assoc]
    have hda : (delta0 * 10 ^ m * 10) % 2 ^ 64 = delta0 * 10 ^ (m + 1) := by
      rw [hps]
      apply Nat.mod_eq_of_lt
      omega
    have hd9 : p2 * 10 / 2 ^ sh ≤ 9 := by
      have : p2 * 10 / 2 ^ sh < 10 := by
        rw [Nat.div_lt_iff_lt_mul h2pos]
        omega
      omega
    have hd : ((p2 * 10) >>> sh) % 256 = p2 * 10 / 2 ^ sh := by
      rw [Nat.shiftRight_eq_div_pow]
      generalize p2 * 10 / 2 ^ sh = d at hd9
      omega
    have hbyte : (48 + p2 * 10 / 2 ^ sh) % 256 = 48 + p2 * 10 / 2 ^ sh := by
      generalize p2 * 10 / 2 ^ sh = d at hd9
      omega
    have hne : buffer.length ≠ 0 := by omega
    have hbuf : (if p2 * 10 / 2 ^ sh ≠ 0 ∨ buffer.length ≠ 0
          then buffer ++ [(48 + p2 * 10 / 2 ^ sh) % 256] else buffer)
        = buffer ++ [48 + p2 * 10 / 2 ^ sh] := by
      rw [hbyte, if_pos (Or.inr hne)]
    have hmask : p2 * 10 &&& (2 ^ sh - 1) = p2 * 10 % 2 ^ sh :=
      Nat.and_pow_two_sub_one_eq_mod _ _
    have hsplit : p2 * 10 / 2 ^ sh * 2 ^ sh + p2 * 10 % 2 ^ sh = p2 * 10 := by
      have := Nat.div_add_mod (p2 * 10) (2 ^ sh)
      rw [Nat.mul_comm] at this
      exact this
    have hmod : p2 * 10 % 2 ^ sh < 2 ^ sh := Nat.mod_lt _ h2pos
    have hval' : Wp * 10 ^ (m + 1)
        = digitsValue (buffer ++ [48 + p2 * 10 / 2 ^ sh]) * 2 ^ sh + p2 * 10 % 2 ^ sh := by
      have e1 : Wp * 10 ^ (m + 1) = Wp * 10 ^ m * 10 := by rw [Nat.pow_succ, Nat.mul_assoc]
      rw [digitsValue_snoc, e1, hval, Nat.add_mul, Nat.add_mul, Nat.add_assoc, hsplit]
      ring
    rw [digitLoop2With]
    simp only [hp2a, hda, hd, hbuf, hmask]
    by_cases hstop : p2 * 10 % 2 ^ sh < delta0 * 10 ^ (m + 1)
    · rw [if_pos hstop]
      obtain ⟨pw, hpw⟩ := hpow (m + 1)
      have hdlt : delta0 * 10 ^ (m + 1) < 2 ^ 64 := by
        rw [hps]
        omega
      have hH : delta0 * 10 ^ (m + 1) ≤ p2 * 10 / 2 ^ sh * 2 ^ sh + p2 * 10 % 2 ^ sh := by
        rw [hsplit, hps]
        omega
      obtain ⟨d', rest', e, a, b, c⟩ := GrisuRound_spec 64 buffer (p2 * 10 / 2 ^ sh)
        (delta0 * 10 ^ (m + 1)) (p2 * 10 % 2 ^ sh) (2 ^ sh) ((wp_w * pw) % 2 ^ 64) (by omega) hd9
        (by omega) hdlt h2pos hH
      refine ⟨_, by rw [hpw, Res.ok_bind, e]; rfl, ?_⟩
      have hsum : digitsValue (buffer ++ [48 + d']) * 2 ^ sh + rest' = Wp * 10 ^ (m + 1) := by
        rw [hval', digitsValue_snoc, digitsValue_snoc, Nat.add_mul, Nat.add_mul]
        omega
      refine ⟨by simp, by simp only [List.length_append, List.length_singleton]; omega,
        allDigits_snoc buffer d' hdig (by omega),
        head_snoc buffer d' (fun _ => hhead) (fun e0 => by rw [e0] at hne; simp at hne),
        Or.inr ⟨m + 1, rfl, ?_, ?_⟩⟩
      · show Wp * 10 ^ (m + 1) ≤ digitsValue (buffer ++ [48 + d']) * 2 ^ sh
            + delta0 * 10 ^ (m + 1)
        omega
      · show digitsValue (buffer ++ [48 + d']) * 2 ^ sh ≤ Wp * 10 ^ (m + 1)
        omega
    · rw [if_neg hstop]
      exact ih (m + 1) (p2 * 10 % 2 ^ sh) (buffer ++ [48 + p2 * 10 / 2 ^ sh])
        (by simp only [List.length_append, List.length_singleton]; omega)
        (by simp only [List.length_append, List.length_singleton]; omega) hmod (by rw [hps]; omega) hval'
        (allDigits_snoc buffer _ hdig hd9)
        (head_snoc buffer _ (fun _ => hhead) (fun e0 => by rw [e0] at hne; simp at hne))

theorem CountDecimalDigit32_spec (n : Nat) (h1 : 1 ≤ n) (h9 : n < 10 ^ 9) :
    1 ≤ CountDecimalDigit32 n ∧ CountDecimalDigit32 n ≤ 9 ∧
    10 ^ (CountDecimalDigit32 n - 1) ≤ n ∧ n < 10 ^ CountDecimalDigit32 n := by
  unfold CountDecimalDigit32
  split_ifs <;> norm_num <;> omega

/-- The function `DigitGen` on a scaled upper boundary `Mp` with the exponent
`-sh`, an integral part from 1 to `10^9 - 1` and a width `delta` of at least
`Mp.f / 10^16`: it returns 1 to 17 digits of a number from `Mp.f - delta` to
`Mp.f`, whatever `W` is and whatever the read of `kPow10` yields. -/
theorem DigitGen_spec (pow : Nat → Res Nat) (hpow : ∀ m, ∃ x, pow m = .ok x) (W Mp : DiyFp)
    (delta : Nat) (K : Int) (sh : Nat) (he : Mp.e = -(sh : Int)) (hsh : sh ≤ 60)
    (hW : Mp.f < 2 ^ 64) (h1 : 2 ^ sh ≤ Mp.f) (h9 : Mp.f / 2 ^ sh < 10 ^ 9)
    (hd : delta < Mp.f) (hR : Mp.f ≤ 10 ^ 16 * delta) :
    ∃ ds, DigitGenWith pow W Mp delta K = .ok ds ∧ DigitsOk sh Mp.f delta K ds := by
  have h2pos : 0 < 2 ^ sh := Nat.two_pow_pos sh
  have hsh' : (-Mp.e).toNat = sh := by rw [he]; omega
  have hp1 : 1 ≤ Mp.f / 2 ^ sh := (Nat.one_le_div_iff h2pos).2 h1
  have hp1e : (Mp.f >>> sh) % 2 ^ 32 = Mp.f / 2 ^ sh := by
    rw [Nat.shiftRight_eq_div_pow]
    apply Nat.mod_eq_of_lt
    omega
  have hp2e : Mp.f &&& (2 ^ sh - 1) = Mp.f % 2 ^ sh := Nat.and_pow_two_sub_one_eq_mod _ _
  have hp2 : Mp.f % 2 ^ sh < 2 ^ sh := Nat.mod_lt _ h2pos
  have hsplit : Mp.f / 2 ^ sh * 2 ^ sh + Mp.f % 2 ^ sh = Mp.f := by
    have := Nat.div_add_mod Mp.f (2 ^ sh)
    rw [Nat.mul_comm] at this
    exact this
  obtain ⟨k1, k9, klo, khi⟩ := CountDecimalDigit32_spec (Mp.f / 2 ^ sh) hp1 h9
  have hlen : 10 ^ (CountDecimalDigit32 (Mp.f / 2 ^ sh) - 1) * 2 ^ sh ≤ Mp.f := by
    have := Nat.mul_le_mul_right (2 ^ sh) klo
    omega
  obtain ⟨r, p1', b, e, hr⟩ := digitLoop1_spec sh delta (DiyFp.sub Mp W).f Mp.f
    (Mp.f % 2 ^ sh) K hW hp2 hd (CountDecimalDigit32 (Mp.f / 2 ^ sh)) (Mp.f / 2 ^ sh) []
    (by simpa using k9) khi (by simp [digitsValue, hsplit]) rfl (fun _ => ⟨k1, klo⟩)
    (fun h => absurd rfl h) (by omega) (by simpa using hlen)
  unfold DigitGenWith
  simp only [hsh', hp1e, hp2e, e, Res.ok_bind]
  cases r with
  | some ds => exact ⟨ds, rfl, hr⟩
  | none =>
    obtain ⟨hne, hhead, hdig, hval, hdp, hb9, hblen⟩ := hr
    have hb1 : 1 ≤ b.length := by
      cases b with
      | nil => exact absurd rfl hne
      | cons _ _ => simp
    have hL : 2 ^ sh ≤ 10 ^ (17 - b.length) * delta := by
      have hpow : (10 : Nat) ^ 16 = 10 ^ (b.length - 1) * 10 ^ (17 - b.length) := by
        rw [← Nat.pow_add]
        congr 1
        omega
      have h3 : 10 ^ (b.length - 1) * 2 ^ sh ≤ 10 ^ (b.length - 1) * (10 ^ (17 - b.length) * delta) := by
        rw [← Nat.mul_assoc, ← hpow]
        omega
      exact Nat.le_of_mul_le_mul_left h3 (by positivity)
    obtain ⟨ds, e2, h2⟩ := digitLoop2_spec pow hpow sh (DiyFp.sub Mp W).f Mp.f delta b.length K
      hsh hb1 hb9 hL 64 0 (Mp.f % 2 ^ sh) b (by omega) rfl hp2 (by simpa using hdp.le)
      (by simpa using hval) hdig hhead
    simp only [pow_zero, mul_one] at e2
    exact ⟨ds, e2, h2⟩

/-! ## Grisu2: the cached powers and the scaled boundaries -/

theorem and_exponent_mask (x : Nat) (hx : x < 2 ^ 63) :
    (x &&& 0x7FF0000000000000) >>> 52 = x / 2 ^ 52 := by
  rw [← Nat.shiftRight_eq_div_pow]
  apply Nat.eq_of_testBit_eq
  intro i
  have hm : (0x7FF0000000000000 : Nat) = (2 ^ 11 - 1) <<< 52 := by decide
  rw [Nat.testBit_shiftRight, Nat.testBit_and, hm, Nat.testBit_shiftLeft,
    Nat.testBit_two_pow_sub_one, Nat.testBit_shiftRight]
  by_cases h : i < 11
  · simp [h]
  · have hb : x.testBit (52 + i) = false :=
      Nat.testBit_lt_two_pow (lt_of_lt_of_le hx (Nat.pow_le_pow_right (by decide) (by omega)))
    simp [hb]

/-- The significand and the exponent that `DiyFp(double d)` takes from the
pattern of a positive finite double. -/
theorem ofDouble_spec (value : Nat) (h0 : 0 < value) (hfin : value < 0x7FF0000000000000) :
    ∃ (f : Nat) (e : Int), DiyFp.ofDouble value = { f := f, e := e } ∧ 0 < f ∧ f < 2 ^ 53 ∧
      -1074 ≤ e ∧ e ≤ 971 ∧ (e = -1074 ∨ 2 ^ 52 ≤ f) ∧
      f = (if value / 2 ^ 52 ≠ 0 then value % 2 ^ 52 + 2 ^ 52 else value % 2 ^ 52) ∧
      e = (if value / 2 ^ 52 ≠ 0 then ((value / 2 ^ 52 : Nat) : Int) - 1075 else (-1074 : Int)) := by
  have h1 := and_exponent_mask value (by omega)
  have h2 : value &&& 0x000FFFFFFFFFFFFF = value % 2 ^ 52 := by
    have : (0x000FFFFFFFFFFFFF : Nat) = 2 ^ 52 - 1 := by decide
    rw [this, Nat.and_pow_two_sub_one_eq_mod]
  unfold DiyFp.ofDouble
  simp only [h1, h2, kDpHiddenBit]
  by_cases hb : value / 2 ^ 52 = 0
  · simp only [hb, ne_eq, not_true_eq_false, if_false]
    refine ⟨_, _, rfl, ?_, ?_, by omega, by omega, Or.inl (by omega), rfl, rfl⟩
    · omega
    · omega
  · simp only [hb, ne_eq, not_false_eq_true, if_true]
    refine ⟨_, _, rfl, ?_, ?_, ?_, ?_, Or.inr ?_, rfl, rfl⟩
    · omega
    · omega
    · omega
    · omega
    · omega

theorem zpow_toNat_split (a : ℚ) (ha : a ≠ 0) (n : Int) :
    a ^ (-n) * a ^ n.toNat = a ^ (-n).toNat := by
  rw [← zpow_natCast, ← zpow_natCast, ← zpow_add₀ ha]
  congr 1
  omega

/-- An accurate cached power is within half a unit of `10^(-K) / 2^c.e`. -/
theorem powerOk_spec (c : DiyFp) (K : Int) (h : powerOk c K = true) :
    |(c.f : ℚ) - (10 : ℚ) ^ (-K) * (2 : ℚ) ^ (-c.e)| ≤ 1 / 2 := by
  simp only [powerOk, Bool.and_eq_true, decide_eq_true_eq] at h
  obtain ⟨h1, h2⟩ := h
  have q1 : (2 : ℚ) * (c.f * 2 ^ c.e.toNat * 10 ^ K.toNat)
      ≤ 2 * (10 ^ (-K).toNat * 2 ^ (-c.e).toNat) + 2 ^ c.e.toNat * 10 ^ K.toNat := by
    exact_mod_cast h1
  have q2 : (2 : ℚ) * (10 ^ (-K).toNat * 2 ^ (-c.e).toNat)
      ≤ 2 * (c.f * 2 ^ c.e.toNat * 10 ^ K.toNat) + 2 ^ c.e.toNat * 10 ^ K.toNat := by
    exact_mod_cast h2
  have e10 := zpow_toNat_split 10 (by norm_num) K
  have e2 := zpow_toNat_split 2 (by norm_num) c.e
  set u : ℚ := 2 ^ c.e.toNat * 10 ^ K.toNat with hu
  have hupos : 0 < u := by positivity
  set cx : ℚ := (10 : ℚ) ^ (-K) * (2 : ℚ) ^ (-c.e) with hcx
  have et2 : (10 : ℚ) ^ (-K).toNat * 2 ^ (-c.e).toNat = cx * u := by
    rw [← e10, ← e2, hcx, hu]
    ring
  have et1 : (c.f : ℚ) * 2 ^ c.e.toNat * 10 ^ K.toNat = c.f * u := by
    rw [hu]; ring
  rw [et2, et1] at q1 q2
  rw [abs_le]
  constructor
  · have : 2 * (cx * u) - 2 * (c.f * u) ≤ u := by linarith
    have h3 : (2 * (cx - c.f) - 1) * u ≤ 0 := by nlinarith
    have h4 : 2 * (cx - c.f) - 1 ≤ 0 := by
      by_contra hh
      push_neg at hh
      have := mul_pos hh hupos
      linarith
    linarith
  · have h3 : (2 * (c.f - cx) - 1) * u ≤ 0 := by nlinarith
    have h4 : 2 * (c.f - cx) - 1 ≤ 0 := by
      by_contra hh
      push_neg at hh
      have := mul_pos hh hupos
      linarith
    linarith

/-- The rounded product with an accurate cached power, less one unit, lies
below the exact product, and the rounded product plus one unit above it. -/
theorem product_bounds (P cf : Nat) (cx : ℚ) (hP : P < 2 ^ 64)
    (hacc : |(cf : ℚ) - cx| ≤ 1 / 2) :
    (((P * cf + 2 ^ 63) / 2 ^ 64 : Nat) : ℚ) - 1 < P * cx / 2 ^ 64 ∧
    (P : ℚ) * cx / 2 ^ 64 < (((P * cf + 2 ^ 63) / 2 ^ 64 : Nat) : ℚ) + 1 := by
  have n1 : (P * cf + 2 ^ 63) / 2 ^ 64 * 2 ^ 64 ≤ P * cf + 2 ^ 63 := Nat.div_mul_le_self _ _
  have n2 : P * cf + 2 ^ 63 < ((P * cf + 2 ^ 63) / 2 ^ 64 + 1) * 2 ^ 64 := by
    have := Nat.div_add_mod (P * cf + 2 ^ 63) (2 ^ 64)
    have := Nat.mod_lt (P * cf + 2 ^ 63) (show 0 < 2 ^ 64 by decide)
    omega
  have q1 : ((((P * cf + 2 ^ 63) / 2 ^ 64 : Nat) : ℚ)) * 2 ^ 64 ≤ P * cf + 2 ^ 63 := by
    exact_mod_cast n1
  have q2 : (P : ℚ) * cf + 2 ^ 63 < ((((P * cf + 2 ^ 63) / 2 ^ 64 : Nat) : ℚ) + 1) * 2 ^ 64 := by
    exact_mod_cast n2
  have hPq : (P : ℚ) < 2 ^ 64 := by exact_mod_cast hP
  have hP0 : (0 : ℚ) ≤ P := Nat.cast_nonneg P
  obtain ⟨a1, a2⟩ := abs_le.1 hacc
  have m1 : (P : ℚ) * (cf - cx) ≤ P * (1 / 2) := mul_le_mul_of_nonneg_left a2 hP0
  have m2 : (P : ℚ) * (-(1 / 2)) ≤ P * (cf - cx) := mul_le_mul_of_nonneg_left a1 hP0
  have m1' : (P : ℚ) * cf - P * cx ≤ P * (1 / 2) := by
    have : (P : ℚ) * (cf - cx) = P * cf - P * cx := by ring
    rw [← this]; exact m1
  have m2' : (P : ℚ) * (-(1 / 2)) ≤ P * cf - P * cx := by
    have : (P : ℚ) * (cf - cx) = P * cf - P * cx := by ring
    rw [← this]; exact m2
  have h64 : (2 : ℚ) ^ 64 = 2 * 2 ^ 63 := by norm_num
  have hT : (0 : ℚ) < 2 ^ 63 := by positivity
  rw [h64] at q1 q2 hPq ⊢
  generalize (2 : ℚ) ^ 63 = T at q1 q2 hPq hT ⊢
  generalize (((P * cf + 2 ^ 63) / 2 ^ 64 : Nat) : ℚ) = q at q1 q2 ⊢
  constructor
  · rw [lt_div_iff₀ (by linarith)]
    linarith
  · rw [div_lt_iff₀ (by linarith)]
    linarith

/-- The magnitudes of the scaled boundaries `Wp - 1` and `Wm + 1` that
`Grisu2` hands to `DigitGen`. -/
theorem scaled_facts (P M cf sh : Nat) (hP0 : 2 ^ 63 ≤ P) (hP : P < 2 ^ 64) (hM : M < P)
    (hD : P ≤ 2 ^ 53 * (P - M)) (hc0 : 2 ^ 63 ≤ cf) (hc : cf < 2 ^ 64) (hsh : sh ≤ 60)
    (hc9 : cf ≤ 10 ^ 9 * 2 ^ sh) :
    1 ≤ (P * cf + 2 ^ 63) / 2 ^ 64 ∧ (P * cf + 2 ^ 63) / 2 ^ 64 - 1 < 2 ^ 64 ∧
    2 ^ sh ≤ (P * cf + 2 ^ 63) / 2 ^ 64 - 1 ∧
    ((P * cf + 2 ^ 63) / 2 ^ 64 - 1) / 2 ^ sh < 10 ^ 9 ∧
    (M * cf + 2 ^ 63) / 2 ^ 64 + 1 < (P * cf + 2 ^ 63) / 2 ^ 64 - 1 ∧
    (P * cf + 2 ^ 63) / 2 ^ 64 - 1
      ≤ 10 ^ 16 * ((P * cf + 2 ^ 63) / 2 ^ 64 - 1 - ((M * cf + 2 ^ 63) / 2 ^ 64 + 1)) := by
  have hA1 : 2 ^ 63 * 2 ^ 63 ≤ P * cf := Nat.mul_le_mul hP0 hc0
  have hA2 : P * cf ≤ (2 ^ 64 - 1) * cf := Nat.mul_le_mul_right _ (by omega)
  have hBA : M * cf ≤ P * cf := Nat.mul_le_mul_right _ (by omega)
  have hAB : P * cf ≤ 2 ^ 53 * (P * cf - M * cf) := by
    rw [← Nat.sub_mul, ← Nat.mul_assoc]
    exact Nat.mul_le_mul_right _ hD
  have hX : 2 ^ sh ≤ 2 ^ 60 := Nat.pow_le_pow_right (by decide) hsh
  have hXpos : 0 < 2 ^ sh := Nat.two_pow_pos sh
  rw [Nat.div_lt_iff_lt_mul hXpos]
  generalize P * cf = A at hA1 hA2 hBA hAB ⊢
  generalize M * cf = B at hBA hAB ⊢
  generalize 2 ^ sh = X at hc9 hX hXpos ⊢
  norm_num at hA1 hA2 hAB hX ⊢
  omega

theorem logStep_eq (n step lo : Nat) :
    (if 2 ^ (lo + step) ≤ n then lo + step else lo) = logStep n step lo := by
  have hp : 0 < 2 ^ (lo + step) := Nat.two_pow_pos _
  show _ = lo + step * (1 - (1 - n >>> (lo + step)))
  rw [Nat.shiftRight_eq_div_pow]
  by_cases h : 2 ^ (lo + step) ≤ n
  · have : 1 ≤ n / 2 ^ (lo + step) := (Nat.le_div_iff_mul_le hp).2 (by omega)
    have h1 : 1 - (1 - n / 2 ^ (lo + step)) = 1 := by omega
    rw [if_pos h, h1, Nat.mul_one]
  · have : n / 2 ^ (lo + step) = 0 := Nat.div_eq_of_lt (by omega)
    rw [if_neg h, this]
    rfl

theorem ilog2Loop_succ (n fuel lo step : Nat) :
    ilog2Loop n (fuel + 1) lo step = ilog2Loop n fuel (logStep n step lo) (step / 2) := by
  rw [ilog2Loop, logStep_eq]

theorem ilog2_eq_steps : ilog2 = ilog2Steps := by
  funext n
  show ilog2Loop n (13 + 1) 0 8192 = _
  rw [ilog2Loop_succ]
  show ilog2Loop n (12 + 1) _ 4096 = _
  rw [ilog2Loop_succ]
  show ilog2Loop n (11 + 1) _ 2048 = _
  rw [ilog2Loop_succ]
  show ilog2Loop n (10 + 1) _ 1024 = _
  rw [ilog2Loop_succ]
  show ilog2Loop n (9 + 1) _ 512 = _
  rw [ilog2Loop_succ]
  show ilog2Loop n (8 + 1) _ 256 = _
  rw [ilog2Loop_succ]
  show ilog2Loop n (7 + 1) _ 128 = _
  rw [ilog2Loop_succ]
  show ilog2Loop n (6 + 1) _ 64 = _
  rw [ilog2Loop_succ]
  show ilog2Loop n (5 + 1) _ 32 = _
  rw [ilog2Loop_succ]
  show ilog2Loop n (4 + 1) _ 16 = _
  rw [ilog2Loop_succ]
  show ilog2Loop n (3 + 1) _ 8 = _
  rw [ilog2Loop_succ]
  show ilog2Loop n (2 + 1) _ 4 = _
  rw [ilog2Loop_succ]
  show ilog2Loop n (1 + 1) _ 2 = _
  rw [ilog2Loop_succ]
  show ilog2Loop n (0 + 1) _ 1 = _
  rw [ilog2Loop_succ]
  rfl

/-- The function `GetCachedPower` is `GetCachedPowerWith` over the bisection
written out. -/
theorem GetCachedPower_eq (e : Int) : GetCachedPower e = GetCachedPowerWith ilog2Steps e := by
  have h1 : roundPosWith ilog2 = roundPos := by
    funext n d
    unfold roundPosWith roundPos
    rfl
  have h2 : dRoundWith ilog2 = dRound := by
    funext s n d
    unfold dRoundWith dRound
    rw [h1]
  have h3 : dMulWith ilog2 = dMul := by
    funext x y
    unfold dMulWith dMul
    rw [h2]
  have h4 : dAddWith ilog2 = dAdd := by
    funext x y
    unfold dAddWith dAdd
    rw [h2]
  have h5 : dOfIntWith ilog2 = dOfInt := by
    funext n
    unfold dOfIntWith dOfInt
    rw [h2]
  rw [← ilog2_eq_steps]
  unfold GetCachedPowerWith GetCachedPower
  rw [h1, h3, h4, h5] <;> rfl

theorem cachedPowerOkFrom_spec (lo : Int) (n : Nat) (h : cachedPowerOkFrom lo n = true)
    (e : Int) (h1 : lo ≤ e) (h2 : e < lo + n) : cachedPowerOk e = true := by
  unfold cachedPowerOkFrom at h
  rw [List.all_eq_true] at h
  have hi := h (e - lo).toNat (List.mem_range.2 (by omega))
  have he : lo + (((e - lo).toNat : Nat) : Int) = e := by omega
  rw [he] at hi
  exact hi

theorem cachedPowerOk_range_a : cachedPowerOkFrom (-1137) 256 = true := by decide!

theorem cachedPowerOk_range_b : cachedPowerOkFrom (-881) 256 = true := by decide!

theorem cachedPowerOk_range_c : cachedPowerOkFrom (-625) 256 = true := by decide!

theorem cachedPowerOk_range_d : cachedPowerOkFrom (-369) 256 = true := by decide!

theorem cachedPowerOk_range_e : cachedPowerOkFrom (-113) 256 = true := by decide!

theorem cachedPowerOk_range_f : cachedPowerOkFrom 143 256 = true := by decide!

theorem cachedPowerOk_range_g : cachedPowerOkFrom 399 256 = true := by decide!

theorem cachedPowerOk_range_h : cachedPowerOkFrom 655 256 = true := by decide!

theorem cachedPowerOk_range_i : cachedPowerOkFrom 911 50 = true := by decide!

theorem cachedPowerOk_range (e : Int) (h1 : -1137 ≤ e) (h2 : e ≤ 960) :
    cachedPowerOk e = true := by
  by_cases ha : e < -881
  · exact cachedPowerOkFrom_spec _ _ cachedPowerOk_range_a e h1 (by omega)
  by_cases hb : e < -625
  · exact cachedPowerOkFrom_spec _ _ cachedPowerOk_range_b e (by omega) (by omega)
  by_cases hc : e < -369
  · exact cachedPowerOkFrom_spec _ _ cachedPowerOk_range_c e (by omega) (by omega)
  by_cases hd : e < -113
  · exact cachedPowerOkFrom_spec _ _ cachedPowerOk_range_d e (by omega) (by omega)
  by_cases he : e < 143
  · exact cachedPowerOkFrom_spec _ _ cachedPowerOk_range_e e (by omega) (by omega)
  by_cases hf : e < 399
  · exact cachedPowerOkFrom_spec _ _ cachedPowerOk_range_f e (by omega) (by omega)
  by_cases hg : e < 655
  · exact cachedPowerOkFrom_spec _ _ cachedPowerOk_range_g e (by omega) (by omega)
  by_cases hh : e < 911
  · exact cachedPowerOkFrom_spec _ _ cachedPowerOk_range_h e (by omega) (by omega)
  · exact cachedPowerOkFrom_spec _ _ cachedPowerOk_range_i e (by omega) (by omega)

/-- For every exponent that the upper boundary of a finite positive double
can have, `GetCachedPower` returns an accurate power of ten that brings the
product into the range of `DigitGen`. -/
theorem cachedPower_spec (e : Int) (h1 : -1137 ≤ e) (h2 : e ≤ 960) :
    ∃ (c : DiyFp) (K : Int), GetCachedPower e = .ok (c, K) ∧
      34 ≤ -(e + c.e + 64) ∧ -(e + c.e + 64) ≤ 60 ∧ 2 ^ 63 ≤ c.f ∧ c.f < 2 ^ 64 ∧
      c.f ≤ 10 ^ 9 * 2 ^ (-(e + c.e + 64)).toNat ∧ powerOk c K = true := by
  have hi := cachedPowerOk_range e h1 h2
  unfold cachedPowerOk at hi
  rw [GetCachedPower_eq]
  cases hg : GetCachedPowerWith ilog2Steps e with
  | fault _ => rw [hg] at hi; simp at hi
  | ok r =>
    obtain ⟨c, K⟩ := r
    rw [hg] at hi
    simp only [Bool.and_eq_true, decide_eq_true_eq] at hi
    obtain ⟨⟨⟨⟨⟨a1, a2⟩, a3⟩, a4⟩, a5⟩, a6⟩ := hi
    exact ⟨c, K, rfl, a1, a2, a3, a4, a5, a6⟩

theorem two_zpow_succ (e : Int) : (2 : ℚ) ^ (e + 1) = 2 * 2 ^ e := by
  rw [zpow_add₀ (by norm_num), zpow_one]; ring

theorem dValue_succ (value : Nat) :
    dValue (value + 1) = ((dSig value : ℚ) + 1) * (2 : ℚ) ^ dExp value := by
  unfold dValue dSig dExp
  by_cases hb : value / 2 ^ 52 = 0
  · by_cases hs : value % 2 ^ 52 + 1 < 2 ^ 52
    · have h1 : (value + 1) / 2 ^ 52 = 0 := by omega
      have h2 : (value + 1) % 2 ^ 52 = value % 2 ^ 52 + 1 := by omega
      simp only [hb, h1, h2, if_true]
      push_cast
      ring
    · have h1 : (value + 1) / 2 ^ 52 = 1 := by omega
      have h2 : (value + 1) % 2 ^ 52 = 0 := by omega
      have h3 : value % 2 ^ 52 = 2 ^ 52 - 1 := by omega
      simp only [hb, h1, h2, h3, if_true, one_ne_zero, if_false]
      norm_num
  · by_cases hs : value % 2 ^ 52 + 1 < 2 ^ 52
    · have h1 : (value + 1) / 2 ^ 52 = value / 2 ^ 52 := by omega
      have h2 : (value + 1) % 2 ^ 52 = value % 2 ^ 52 + 1 := by omega
      simp only [hb, h1, h2, if_false]
      push_cast
      ring
    · have h1 : (value + 1) / 2 ^ 52 = value / 2 ^ 52 + 1 := by omega
      have h2 : (value + 1) % 2 ^ 52 = 0 := by omega
      have h3 : value % 2 ^ 52 = 2 ^ 52 - 1 := by omega
      have h4 : value / 2 ^ 52 + 1 ≠ 0 := by omega
      simp only [hb, h1, h2, h3, h4, if_false]
      have e1 : (((value / 2 ^ 52 + 1 : Nat) : Int) - 1075)
          = (((value / 2 ^ 52 : Nat) : Int) - 1075) + 1 := by push_cast; ring
      rw [e1, two_zpow_succ]
      norm_num
      ring

theorem dValue_pred (value : Nat) (h0 : 0 < value) :
    dValue (value - 1)
      = if value % 2 ^ 52 = 0 ∧ 2 ≤ value / 2 ^ 52
        then (2 * (dSig value : ℚ) - 1) * (2 : ℚ) ^ (dExp value - 1)
        else ((dSig value : ℚ) - 1) * (2 : ℚ) ^ dExp value := by
  unfold dValue dSig dExp
  by_cases hs : value % 2 ^ 52 = 0
  · have hb1 : 1 ≤ value / 2 ^ 52 := by omega
    have hb : value / 2 ^ 52 ≠ 0 := by omega
    have h2 : (value - 1) % 2 ^ 52 = 2 ^ 52 - 1 := by omega
    by_cases hb2 : 2 ≤ value / 2 ^ 52
    · have h1 : (value - 1) / 2 ^ 52 = value / 2 ^ 52 - 1 := by omega
      have h3 : value / 2 ^ 52 - 1 ≠ 0 := by omega
      simp only [hs, hb, h1, h2, h3, hb2, if_false, and_self, if_true]
      have e1 : (((value / 2 ^ 52 - 1 : Nat) : Int) - 1075)
          = (((value / 2 ^ 52 : Nat) : Int) - 1075) - 1 := by omega
      rw [e1]
      norm_num
    · have h1 : (value - 1) / 2 ^ 52 = 0 := by omega
      have h3 : value / 2 ^ 52 = 1 := by omega
      simp only [hs, h1, h2, h3, hb2, if_true, one_ne_zero, if_false, and_false]
      norm_num
  · have h1 : (value - 1) / 2 ^ 52 = value / 2 ^ 52 := by omega
    have h2 : (value - 1) % 2 ^ 52 = value % 2 ^ 52 - 1 := by omega
    have h3 : 1 ≤ value % 2 ^ 52 := by omega
    have hc : ((value % 2 ^ 52 - 1 : Nat) : ℚ) = ((value % 2 ^ 52 : Nat) : ℚ) - 1 := by
      rw [Nat.cast_sub h3]; simp
    have hc2 : ((value % 2 ^ 52 - 1 + 2 ^ 52 : Nat) : ℚ)
        = ((value % 2 ^ 52 + 2 ^ 52 : Nat) : ℚ) - 1 := by
      rw [Nat.cast_add, hc, Nat.cast_add]; ring
    simp only [hs, h1, h2, false_and, if_false]
    by_cases hb : value / 2 ^ 52 = 0
    · simp only [hb, if_true]
      rw [hc]
    · simp only [hb, if_false]
      rw [hc2]

theorem boundaries_gap (f S : Nat) (hf0 : 0 < f) (hf53 : f < 2 ^ 53) (hS : f = 2 ^ 52 → S = 10)
    (hS1 : 1 ≤ S) :
    (if f = 2 ^ 52 then (4 * f - 1) * 2 ^ (S - 1) else (2 * f - 1) * 2 ^ S) < (2 * f + 1) * 2 ^ S ∧
    (2 * f + 1) * 2 ^ S ≤ 2 ^ 53 * ((2 * f + 1) * 2 ^ S
      - (if f = 2 ^ 52 then (4 * f - 1) * 2 ^ (S - 1) else (2 * f - 1) * 2 ^ S)) := by
  by_cases hf : f = 2 ^ 52
  · have := hS hf
    subst this
    subst hf
    simp only [if_true]
    decide
  · simp only [if_neg hf]
    have hpos : 0 < 2 ^ S := Nat.two_pow_pos S
    have e1 : (2 * f + 1) * 2 ^ S - (2 * f - 1) * 2 ^ S = 2 * 2 ^ S := by
      rw [← Nat.sub_mul]
      congr 1
      omega
    have e2 : (2 * f + 1) * 2 ^ S = 2 * f * 2 ^ S + 2 ^ S := by ring
    have e3 : (2 * f - 1) * 2 ^ S + 2 ^ S = 2 * f * 2 ^ S := by
      have : 2 * f = (2 * f - 1) + 1 := by omega
      conv_rhs => rw [this, Nat.add_mul, one_mul]
    have e4 : 2 * f * 2 ^ S ≤ (2 ^ 53 * 2 - 2) * 2 ^ S := Nat.mul_le_mul_right _ (by omega)
    constructor
    · omega
    · rw [e1, e2]
      have : (2 ^ 53 * 2 - 2) * 2 ^ S + 2 ^ S ≤ 2 ^ 53 * (2 * 2 ^ S) := by
        have : (2 ^ 53 * 2 - 2) * 2 ^ S + 2 * 2 ^ S = 2 ^ 53 * (2 * 2 ^ S) := by
          rw [← Nat.add_mul]; ring
        omega
      omega

/-- The function `Grisu2` on the pattern of a positive finite double, whatever
the read of `kPow10` in the second loop of `DigitGen` yields: it returns
digits that `DigitGen` generated between the scaled boundaries. -/
theorem Grisu2With_core (pow : Nat → Res Nat) (hpow : ∀ m, ∃ x, pow m = .ok x) (value : Nat)
    (h0 : 0 < value) (hfin : value < 0x7FF0000000000000) :
    ∃ (ds : Digits) (f S sh : Nat) (e : Int) (c : DiyFp) (K : Int),
      Grisu2With pow value = .ok ds ∧
      f = (if value / 2 ^ 52 ≠ 0 then value % 2 ^ 52 + 2 ^ 52 else value % 2 ^ 52) ∧
      e = (if value / 2 ^ 52 ≠ 0 then ((value / 2 ^ 52 : Nat) : Int) - 1075 else (-1074 : Int)) ∧
      (f = 2 ^ 52 → S = 10) ∧ 10 ≤ S ∧
      (sh : Int) = -(e - 1 - S + c.e + 64) ∧ powerOk c K = true ∧
      (2 * f + 1) * 2 ^ S < 2 ^ 64 ∧
      (if f = 2 ^ 52 then (4 * f - 1) * 2 ^ (S - 1) else (2 * f - 1) * 2 ^ S)
        < (2 * f + 1) * 2 ^ S ∧
      1 ≤ (((2 * f + 1) * 2 ^ S) * c.f + 2 ^ 63) / 2 ^ 64 ∧
      ((if f = 2 ^ 52 then (4 * f - 1) * 2 ^ (S - 1) else (2 * f - 1) * 2 ^ S) * c.f
          + 2 ^ 63) / 2 ^ 64 + 1
        < (((2 * f + 1) * 2 ^ S) * c.f + 2 ^ 63) / 2 ^ 64 - 1 ∧
      0 < f ∧
      DigitsOk sh ((((2 * f + 1) * 2 ^ S) * c.f + 2 ^ 63) / 2 ^ 64 - 1)
        ((((2 * f + 1) * 2 ^ S) * c.f + 2 ^ 63) / 2 ^ 64 - 1
          - (((if f = 2 ^ 52 then (4 * f - 1) * 2 ^ (S - 1) else (2 * f - 1) * 2 ^ S) * c.f
              + 2 ^ 63) / 2 ^ 64 + 1)) K ds := by
  obtain ⟨f, e, hof, hf0, hf53, he1, he2, hcase, hfe, hee⟩ := ofDouble_spec value h0 hfin
  obtain ⟨S, hS10, hNB, hP63, hP64, hS52⟩ := NormalizedBoundaries_spec f e hf0 hf53
  have hpos : 0 < 2 ^ S := Nat.two_pow_pos S
  have hS62 : S ≤ 62 := by
    by_contra hh
    have h1 : 2 ^ 63 ≤ 2 ^ S := Nat.pow_le_pow_right (by decide) (by omega)
    have h2 : 3 * 2 ^ 63 ≤ (2 * f + 1) * 2 ^ S := Nat.mul_le_mul (by omega) h1
    omega
  have hSn : 2 ^ 52 ≤ f → S = 10 := by
    intro hf
    by_contra hh
    have h1 : 2 ^ 11 ≤ 2 ^ S := Nat.pow_le_pow_right (by decide) (by omega)
    have h2 : (2 ^ 53 + 1) * 2 ^ 11 ≤ (2 * f + 1) * 2 ^ S := Nat.mul_le_mul (by omega) h1
    omega
  have hr1 : -1137 ≤ e - 1 - (S : Int) := by
    rcases hcase with h | h
    · omega
    · have := hSn h; omega
  have hr2 : e - 1 - (S : Int) ≤ 960 := by omega
  obtain ⟨c, K, hG, a1, a2, a3, a4, a5, a6⟩ := cachedPower_spec (e - 1 - S) hr1 hr2
  obtain ⟨g1, g2⟩ := boundaries_gap f S hf0 hf53 hS52 (by omega)
  generalize hM : (if f = 2 ^ 52 then (4 * f - 1) * 2 ^ (S - 1) else (2 * f - 1) * 2 ^ S) = M
    at hNB g1 g2 ⊢
  generalize hPd : (2 * f + 1) * 2 ^ S = P at hNB g1 g2 hP63 hP64 ⊢
  have hsh : ((-(e - 1 - (S : Int) + c.e + 64)).toNat : Int) = -(e - 1 - S + c.e + 64) := by omega
  generalize hshd : (-(e - 1 - (S : Int) + c.e + 64)).toNat = sh at hsh a5
  obtain ⟨s1, s2, s3, s4, s5, s6⟩ := scaled_facts P M c.f sh hP63 hP64 g1 g2 a3 a4 (by omega) a5
  have mp := DiyFp.mul_f { f := P, e := e - 1 - S } c (show P < 2 ^ 64 from hP64) a4
  have mm := DiyFp.mul_f { f := M, e := e - 1 - S } c (show M < 2 ^ 64 by omega) a4
  simp only at mp mm
  have e1 : ((P * c.f + 2 ^ 63) / 2 ^ 64 + 2 ^ 64 - 1) % 2 ^ 64
      = (P * c.f + 2 ^ 63) / 2 ^ 64 - 1 := by omega
  have e2 : ((M * c.f + 2 ^ 63) / 2 ^ 64 + 1) % 2 ^ 64 = (M * c.f + 2 ^ 63) / 2 ^ 64 + 1 := by
    omega
  have e3 : ((P * c.f + 2 ^ 63) / 2 ^ 64 - 1 + 2 ^ 64 - ((M * c.f + 2 ^ 63) / 2 ^ 64 + 1)) % 2 ^ 64
      = (P * c.f + 2 ^ 63) / 2 ^ 64 - 1 - ((M * c.f + 2 ^ 63) / 2 ^ 64 + 1) := by omega
  obtain ⟨ds, hds, hok⟩ := DigitGen_spec pow hpow (DiyFp.mul (DiyFp.Normalize { f := f, e := e }) c)
    { f := (P * c.f + 2 ^ 63) / 2 ^ 64 - 1, e := e - 1 - S + c.e + 64 }
    ((P * c.f + 2 ^ 63) / 2 ^ 64 - 1 - ((M * c.f + 2 ^ 63) / 2 ^ 64 + 1)) K sh
    (by show e - 1 - (S : Int) + c.e + 64 = -(sh : Int); omega) (by omega) s2 s3 s4
    (by show _ < (P * c.f + 2 ^ 63) / 2 ^ 64 - 1; omega) s6
  subst hPd
  subst hM
  refine ⟨ds, f, S, sh, e, c, K, ?_, hfe, hee, hS52, hS10, hsh, a6, hP64, g1, s1, s5, hf0, hok⟩
  unfold Grisu2With
  simp only [hof, hNB, Res.ok_bind, hG, mp.1, mp.2, mm.1, e1, e2, e3]
  exact hds

/-! ## Grisu2: the digits lie inside the rounding interval -/

theorem scale_back (A : ℚ) (n sh : Nat) (ce K g : Int) (hg : (n : Int) - ce - 64 - sh = g) :
    A * 2 ^ n * ((10 : ℚ) ^ (-K) * 2 ^ (-ce)) / 2 ^ 64 * (10 ^ K * 2 ^ (-(sh : Int)))
      = A * 2 ^ g := by
  have h10 : (10 : ℚ) ^ (-K) * 10 ^ K = 1 := by
    rw [← zpow_add₀ (by norm_num)]
    simp
  have h2 : (2 : ℚ) ^ (n : Int) * 2 ^ (-ce) * 2 ^ (-(64 : Int)) * 2 ^ (-(sh : Int)) = 2 ^ g := by
    rw [← zpow_add₀ (by norm_num), ← zpow_add₀ (by norm_num), ← zpow_add₀ (by norm_num)]
    have : (n : Int) + -ce + -64 + -(sh : Int) = g := by omega
    rw [this]
  have h64 : (2 : ℚ) ^ (-(64 : Int)) = 1 / 2 ^ 64 := by
    rw [zpow_neg, one_div]
    norm_cast
  rw [zpow_natCast, h64] at h2
  have : A * 2 ^ n * ((10 : ℚ) ^ (-K) * 2 ^ (-ce)) / 2 ^ 64 * (10 ^ K * 2 ^ (-(sh : Int)))
      = A * ((2 : ℚ) ^ n * 2 ^ (-ce) * (1 / 2 ^ 64) * 2 ^ (-(sh : Int)))
        * ((10 : ℚ) ^ (-K) * 10 ^ K) := by
    ring
  rw [this, h2, h10, mul_one]

theorem two_pow_cancel (n : Nat) : (2 : ℚ) ^ n * (2 : ℚ) ^ (-(n : Int)) = 1 := by
  rw [zpow_neg, zpow_natCast]
  exact mul_inv_cancel₀ (by positivity)

/-- The number that the digits and the exponent of `DigitGen` denote, in the
units of `DigitGen`, lies between the boundaries `Wm` and `Wp`. -/
theorem digitsOk_rat (sh Wp Wm : Nat) (K : Int) (ds : Digits) (h : Wm ≤ Wp)
    (hok : DigitsOk sh Wp (Wp - Wm) K ds) :
    (Wm : ℚ) ≤ (digitsValue ds.buffer : ℚ) * 10 ^ ds.K * 2 ^ sh * 10 ^ (-K) ∧
    (digitsValue ds.buffer : ℚ) * 10 ^ ds.K * 2 ^ sh * 10 ^ (-K) ≤ Wp := by
  obtain ⟨_, _, _, _, hc⟩ := hok
  rcases hc with ⟨kappa, hK, h1, h2⟩ | ⟨m, hK, h1, h2⟩
  · have e : (10 : ℚ) ^ ds.K * 10 ^ (-K) = 10 ^ kappa := by
      rw [hK, ← zpow_add₀ (by norm_num)]
      have : K + (kappa : Int) + -K = kappa := by ring
      rw [this, zpow_natCast]
    have hx : (digitsValue ds.buffer : ℚ) * 10 ^ ds.K * 2 ^ sh * 10 ^ (-K)
        = ((digitsValue ds.buffer * 10 ^ kappa * 2 ^ sh : Nat) : ℚ) := by
      push_cast
      rw [← e]
      ring
    rw [hx]
    constructor
    · have : Wm ≤ digitsValue ds.buffer * 10 ^ kappa * 2 ^ sh := by omega
      exact_mod_cast this
    · exact_mod_cast h2
  · have e : (10 : ℚ) ^ ds.K * 10 ^ (-K) = ((10 : ℚ) ^ m)⁻¹ := by
      rw [hK, ← zpow_add₀ (by norm_num)]
      have : K - (m : Int) + -K = -(m : Int) := by ring
      rw [this, zpow_neg, zpow_natCast]
    have hx : (digitsValue ds.buffer : ℚ) * 10 ^ ds.K * 2 ^ sh * 10 ^ (-K)
        = ((digitsValue ds.buffer * 2 ^ sh : Nat) : ℚ) / 10 ^ m := by
      push_cast
      rw [div_eq_mul_inv, ← e]
      ring
    have hsplit : Wp * 10 ^ m = Wm * 10 ^ m + (Wp - Wm) * 10 ^ m := by
      rw [← Nat.add_mul]
      congr 1
      omega
    rw [hx]
    constructor
    · rw [le_div_iff₀ (by positivity)]
      have : Wm * 10 ^ m ≤ digitsValue ds.buffer * 2 ^ sh := by omega
      exact_mod_cast this
    · rw [div_le_iff₀ (by positivity)]
      exact_mod_cast h2

theorem dSig_dExp (value : Nat) :
    dSig value = (if value / 2 ^ 52 ≠ 0 then value % 2 ^ 52 + 2 ^ 52 else value % 2 ^ 52) ∧
    dExp value = (if value / 2 ^ 52 ≠ 0 then ((value / 2 ^ 52 : Nat) : Int) - 1075
      else (-1074 : Int)) := by
  unfold dSig dExp
  by_cases h : value / 2 ^ 52 = 0 <;> simp [h]

/-- The digits of `Grisu2` denote a number strictly between the boundaries
`m-` and `m+` that `Grisu2` computes for the double `f * 2^e`. -/
theorem Grisu2With_between (pow : Nat → Res Nat) (hpow : ∀ m, ∃ x, pow m = .ok x) (value : Nat)
    (h0 : 0 < value) (hfin : value < 0x7FF0000000000000) :
    ∃ ds : Digits, Grisu2With pow value = .ok ds ∧
      1 ≤ ds.buffer.length ∧ ds.buffer.length ≤ 17 ∧ allDigits ds.buffer = true ∧
      ds.buffer.head? ≠ some 48 ∧
      (if dSig value = 2 ^ 52 then (4 * (dSig value : ℚ) - 1) * 2 ^ (dExp value - 2)
        else (2 * (dSig value : ℚ) - 1) * 2 ^ (dExp value - 1))
        < (digitsValue ds.buffer : ℚ) * 10 ^ ds.K ∧
      (digitsValue ds.buffer : ℚ) * 10 ^ ds.K
        < (2 * (dSig value : ℚ) + 1) * 2 ^ (dExp value - 1) := by
  obtain ⟨ds, f, S, sh, e, c, K, hG, hfe, hee, hS52, hS10, hsh, a6, hP64, g1, s1, s5, hf0, hok⟩ :=
    Grisu2With_core pow hpow value h0 hfin
  obtain ⟨sg, se⟩ := dSig_dExp value
  rw [← hfe] at sg
  rw [← hee] at se
  rw [sg, se]
  have hacc := powerOk_spec c K a6
  have pb := (product_bounds ((2 * f + 1) * 2 ^ S) c.f _ hP64 hacc).1
  have pm := (product_bounds
    (if f = 2 ^ 52 then (4 * f - 1) * 2 ^ (S - 1) else (2 * f - 1) * 2 ^ S) c.f _
    (by omega) hacc).2
  have dr := digitsOk_rat sh _ _ K ds (by omega) hok
  obtain ⟨l1, l2, l3, l4, _⟩ := hok
  refine ⟨ds, hG, l1, l2, l3, l4, ?_, ?_⟩
  all_goals
    have ht : (0 : ℚ) < 10 ^ K * 2 ^ (-(sh : Int)) := by positivity
    have h10 : (10 : ℚ) ^ (-K) * 10 ^ K = 1 := by
      rw [← zpow_add₀ (by norm_num)]
      simp
    have hxy : (digitsValue ds.buffer : ℚ) * 10 ^ ds.K * 2 ^ sh * 10 ^ (-K)
          * (10 ^ K * 2 ^ (-(sh : Int)))
        = (digitsValue ds.buffer : ℚ) * 10 ^ ds.K := by
      have : (digitsValue ds.buffer : ℚ) * 10 ^ ds.K * 2 ^ sh * 10 ^ (-K)
            * (10 ^ K * 2 ^ (-(sh : Int)))
          = (digitsValue ds.buffer : ℚ) * 10 ^ ds.K * ((2 : ℚ) ^ sh * 2 ^ (-(sh : Int)))
            * ((10 : ℚ) ^ (-K) * 10 ^ K) := by
        ring
      rw [this, two_pow_cancel, h10]
      ring
  · -- the lower boundary
    have hy := lt_of_lt_of_le (by push_cast; exact pm) dr.1
    have hm := mul_lt_mul_of_pos_right hy ht
    rw [hxy] at hm
    by_cases hf : f = 2 ^ 52
    · have hS := hS52 hf
      have cM : (((4 * f - 1) * 2 ^ (S - 1) : Nat) : ℚ) = (4 * (f : ℚ) - 1) * 2 ^ (S - 1) := by
        rw [Nat.cast_mul, Nat.cast_sub (by omega)]
        push_cast
        ring
      rw [if_pos hf] at hm ⊢
      rw [cM, scale_back _ (S - 1) sh c.e K (e - 2) (by omega)] at hm
      exact hm
    · have cM : (((2 * f - 1) * 2 ^ S : Nat) : ℚ) = (2 * (f : ℚ) - 1) * 2 ^ S := by
        rw [Nat.cast_mul, Nat.cast_sub (by omega)]
        push_cast
        ring
      rw [if_neg hf] at hm ⊢
      rw [cM, scale_back _ S sh c.e K (e - 1) (by omega)] at hm
      exact hm
  · -- the upper boundary
    have cP : (((2 * f + 1) * 2 ^ S : Nat) : ℚ) = (2 * (f : ℚ) + 1) * 2 ^ S := by
      push_cast
      ring
    have hy := lt_of_le_of_lt dr.2 (by rw [Nat.cast_sub s1]; push_cast; exact pb)
    have hm := mul_lt_mul_of_pos_right hy ht
    rw [hxy, cP, scale_back _ S sh c.e K (e - 1) (by omega)] at hm
    exact hm

theorem kPow10Word_ok (w : Nat → Nat) (m : Nat) : ∃ x, kPow10Word w m = .ok x := by
  unfold kPow10Word
  cases kPow10.get? m <;> exact ⟨_, rfl⟩

theorem kPow10Word_of_checked (w : Nat → Nat) (m x : Nat) (h : kPow10At m = .ok x) :
    kPow10Word w m = .ok x := by
  unfold kPow10At at h
  unfold kPow10Word
  cases hg : kPow10.get? m with
  | none => rw [hg] at h; cases h
  | some y => rw [hg] at h; exact h

theorem digitLoop2With_mono (pow1 pow2 : Nat → Res Nat)
    (h : ∀ m x, pow1 m = .ok x → pow2 m = .ok x) (sh wp_w : Nat) (K : Int) :
    ∀ (fuel m p2 delta : Nat) (buffer : List Nat) (ds : Digits),
      digitLoop2With pow1 sh wp_w K fuel m p2 delta buffer = .ok ds →
      digitLoop2With pow2 sh wp_w K fuel m p2 delta buffer = .ok ds
  | 0, _, _, _, _, _, hd => by
    rw [digitLoop2With] at hd
    cases hd
  | fuel + 1, m, p2, delta, buffer, ds, hd => by
    rw [digitLoop2With] at hd ⊢
    split_ifs at hd ⊢
    all_goals first
      | exact digitLoop2With_mono pow1 pow2 h sh wp_w K fuel _ _ _ _ ds hd
      | (cases hp : pow1 (m + 1) with
         | fault e => rw [hp] at hd; cases hd
         | ok x => rw [h _ _ hp]; rw [hp] at hd; exact hd)

theorem DigitGenWith_mono (pow1 pow2 : Nat → Res Nat)
    (h : ∀ m x, pow1 m = .ok x → pow2 m = .ok x) (W Mp : DiyFp) (delta : Nat) (K : Int)
    (ds : Digits) (hd : DigitGenWith pow1 W Mp delta K = .ok ds) :
    DigitGenWith pow2 W Mp delta K = .ok ds := by
  unfold DigitGenWith at hd ⊢
  simp only at hd ⊢
  cases hl : digitLoop1 (-Mp.e).toNat delta (DiyFp.sub Mp W).f K
      (CountDecimalDigit32 ((Mp.f >>> (-Mp.e).toNat) % 2 ^ 32))
      ((Mp.f >>> (-Mp.e).toNat) % 2 ^ 32) (Mp.f &&& (2 ^ (-Mp.e).toNat - 1)) [] with
  | fault e => rw [hl] at hd; simp at hd
  | ok r =>
    obtain ⟨r, p1, b⟩ := r
    rw [hl] at hd
    simp only [Res.ok_bind] at hd ⊢
    cases r with
    | some x => exact hd
    | none => exact digitLoop2With_mono pow1 pow2 h _ _ _ _ _ _ _ _ ds hd

theorem Grisu2With_mono (pow1 pow2 : Nat → Res Nat)
    (h : ∀ m x, pow1 m = .ok x → pow2 m = .ok x) (value : Nat) (ds : Digits)
    (hd : Grisu2With pow1 value = .ok ds) : Grisu2With pow2 value = .ok ds := by
  unfold Grisu2With at hd ⊢
  simp only at hd ⊢
  cases hb : (DiyFp.ofDouble value).NormalizedBoundaries with
  | fault e => rw [hb] at hd; simp at hd
  | ok r =>
    obtain ⟨w_m, w_p⟩ := r
    rw [hb] at hd
    simp only [Res.ok_bind] at hd ⊢
    cases hg : GetCachedPower w_p.e with
    | fault e => rw [hg] at hd; simp at hd
    | ok r2 =>
      obtain ⟨c, K⟩ := r2
      rw [hg] at hd
      simp only [Res.ok_bind] at hd ⊢
      exact DigitGenWith_mono pow1 pow2 h _ _ _ _ ds hd

/-- The midpoint between a positive finite double and its successor is the
upper boundary `m+` of `Grisu2`. -/
theorem upper_midpoint (value : Nat) :
    (dValue value + dValue (value + 1)) / 2
      = (2 * (dSig value : ℚ) + 1) * 2 ^ (dExp value - 1) := by
  rw [dValue_succ]
  unfold dValue
  have : (2 : ℚ) ^ dExp value = 2 * 2 ^ (dExp value - 1) := by
    have := two_zpow_succ (dExp value - 1)
    rwa [sub_add_cancel] at this
  rw [this]
  ring

/-- The midpoint between a positive finite double and its predecessor is at
most the lower boundary `m-` of `Grisu2`. -/
theorem lower_midpoint (value : Nat) (h0 : 0 < value) :
    (dValue (value - 1) + dValue value) / 2
      ≤ (if dSig value = 2 ^ 52 then (4 * (dSig value : ℚ) - 1) * 2 ^ (dExp value - 2)
          else (2 * (dSig value : ℚ) - 1) * 2 ^ (dExp value - 1)) := by
  have e1 : (2 : ℚ) ^ (dExp value - 1) = 2 * 2 ^ (dExp value - 2) := by
    have := two_zpow_succ (dExp value - 2)
    have e : dExp value - 2 + 1 = dExp value - 1 := by ring
    rwa [e] at this
  have e2 : (2 : ℚ) ^ dExp value = 4 * 2 ^ (dExp value - 2) := by
    have := two_zpow_succ (dExp value - 1)
    rw [sub_add_cancel] at this
    rw [this, e1]
    ring
  have hu : (0 : ℚ) < 2 ^ (dExp value - 2) := by positivity
  rw [dValue_pred value h0]
  unfold dValue
  rw [e1, e2]
  generalize (2 : ℚ) ^ (dExp value - 2) = u at hu
  by_cases hc : value % 2 ^ 52 = 0 ∧ 2 ≤ value / 2 ^ 52
  · have hs : dSig value = 2 ^ 52 := by
      unfold dSig
      have : value / 2 ^ 52 ≠ 0 := by omega
      rw [if_neg this, hc.1]
      norm_num
    rw [if_pos hc, if_pos hs]
    apply le_of_eq
    ring
  · rw [if_neg hc]
    by_cases hs : dSig value = 2 ^ 52
    · rw [if_pos hs]
      have : ((dSig value : ℚ) - 1) * (4 * u) + (dSig value : ℚ) * (4 * u)
          = (4 * (dSig value : ℚ) - 2) * (2 * u) := by ring
      have h2 : (4 * (dSig value : ℚ) - 1) * u - ((dSig value : ℚ) - 1 + dSig value) * (4 * u) / 2
          = u := by ring
      linarith
    · rw [if_neg hs]
      apply le_of_eq
      ring

theorem dValue_lt_succ (a : Nat) : dValue a < dValue (a + 1) := by
  rw [dValue_succ]
  unfold dValue
  have hu : (0 : ℚ) < 2 ^ dExp a := by positivity
  nlinarith

theorem dValue_mono (a b : Nat) (h : a ≤ b) : dValue a ≤ dValue b := by
  induction b, h using Nat.le_induction with
  | base => exact le_refl _
  | succ n _ ih => exact le_trans ih (le_of_lt (dValue_lt_succ n))

/-- A number strictly between the midpoints of a double and its two neighbours
is strictly nearer to that double than to any other double that is not
negative. -/
theorem nearest_of_between (value : Nat) (h0 : 0 < value) (x : ℚ)
    (lo : (dValue (value - 1) + dValue value) / 2 < x)
    (hi : x < (dValue value + dValue (value + 1)) / 2) (u : Nat) (hu : u ≠ value) :
    |x - dValue value| < |x - dValue u| := by
  have hp : dValue (value - 1) < dValue value := by
    have := dValue_lt_succ (value - 1)
    have e : value - 1 + 1 = value := by omega
    rwa [e] at this
  have hs := dValue_lt_succ value
  by_cases hlt : u < value
  · have hm := dValue_mono u (value - 1) (by omega)
    have h1 : |x - dValue value| < x - dValue (value - 1) := by
      rw [abs_lt]
      constructor <;> linarith
    have h2 : x - dValue (value - 1) ≤ |x - dValue u| :=
      le_trans (by linarith) (le_abs_self _)
    linarith
  · have hm := dValue_mono (value + 1) u (by omega)
    have h1 : |x - dValue value| < dValue (value + 1) - x := by
      rw [abs_lt]
      constructor <;> linarith
    have h2 : dValue (value + 1) - x ≤ |x - dValue u| :=
      le_trans (by linarith) (neg_le_abs _)
    linarith

/-- C11: for every finite positive double `v` (pattern `value`), `Grisu2`
returns between 1 and 17 decimal digits, the first of them not `0`, and an
exponent `K` such that the number `digits * 10^K` lies strictly inside the
rounding interval of `v`, between the midpoint of `v` and its predecessor and
the midpoint of `v` and its successor; so `v` is strictly nearer to that
number than any other double that is not negative, and reading the number back
with correct rounding gives `v`. This holds whatever 32-bit word `w` the read
`kPow10[-kappa]` of the second loop of `DigitGen` finds behind the 10 entries
of its table; and wherever that read stays inside the table, so that `Grisu2`
with the read checked returns, the digits are those. -/
theorem grisu2_digits_in_interval (w : Nat → Nat) (value : Nat) (h0 : 0 < value)
    (hfin : value < 0x7FF0000000000000) :
    ∃ ds : Digits, Grisu2With (kPow10Word w) value = .ok ds ∧
      (∀ ds', Grisu2 value = .ok ds' → ds' = ds) ∧
      1 ≤ ds.buffer.length ∧ ds.buffer.length ≤ 17 ∧ allDigits ds.buffer = true ∧
      ds.buffer.head? ≠ some 48 ∧
      (dValue (value - 1) + dValue value) / 2 < (digitsValue ds.buffer : ℚ) * 10 ^ ds.K ∧
      (digitsValue ds.buffer : ℚ) * 10 ^ ds.K < (dValue value + dValue (value + 1)) / 2 ∧
      ∀ u : Nat, u ≠ value →
        |(digitsValue ds.buffer : ℚ) * 10 ^ ds.K - dValue value|
          < |(digitsValue ds.buffer : ℚ) * 10 ^ ds.K - dValue u| := by
  obtain ⟨ds, hG, l1, l2, l3, l4, lo, hi⟩ :=
    Grisu2With_between (kPow10Word w) (kPow10Word_ok w) value h0 hfin
  have lo' := lt_of_le_of_lt (lower_midpoint value h0) lo
  rw [← upper_midpoint] at hi
  refine ⟨ds, hG, ?_, l1, l2, l3, l4, lo', hi, nearest_of_between value h0 _ lo' hi⟩
  intro ds' hd
  have := Grisu2With_mono kPow10At (kPow10Word w) (kPow10Word_of_checked w) value ds' hd
  rw [hG] at this
  cases this
  rfl

/-- The double 0.30000000000000004, for which the checked `Grisu2` reads
outside the table: with the word 0 behind the table `Grisu2` returns the 17
digits `30000000000000007` and `K = -17`, and 0.30000000000000007 lies inside
the rounding interval. -/
theorem grisu2_digits_in_interval_witness :
    Grisu2With (kPow10Word (fun _ => 0)) dThreeTenths
      = .ok { buffer := [51, 48, 48, 48, 48, 48, 48, 48, 48, 48, 48, 48, 48, 48, 48, 48, 55],
              K := -17 } ∧
    (dValue (dThreeTenths - 1) + dValue dThreeTenths) / 2
      < (30000000000000007 : ℚ) * 10 ^ (-17 : Int) ∧
    (30000000000000007 : ℚ) * 10 ^ (-17 : Int)
      < (dValue dThreeTenths + dValue (dThreeTenths + 1)) / 2 ∧
    ∀ u : Nat, u ≠ dThreeTenths →
      |(30000000000000007 : ℚ) * 10 ^ (-17 : Int) - dValue dThreeTenths|
        < |(30000000000000007 : ℚ) * 10 ^ (-17 : Int) - dValue u| := by
  obtain ⟨ds, hG, _, _, _, _, _, lo, hi, hn⟩ :=
    grisu2_digits_in_interval (fun _ => 0) dThreeTenths (by decide) (by decide)
  have hd : Grisu2With (kPow10Word (fun _ => 0)) dThreeTenths
      = .ok { buffer := [51, 48, 48, 48, 48, 48, 48, 48, 48, 48, 48, 48, 48, 48, 48, 48, 55],
              K := -17 } := by
    decide!
  rw [hd] at hG
  cases hG
  have hv : ((digitsValue [51, 48, 48, 48, 48, 48, 48, 48, 48, 48, 48, 48, 48, 48, 48, 48, 55]
      : Nat) : ℚ) = 30000000000000007 := by
    have : digitsValue [51, 48, 48, 48, 48, 48, 48, 48, 48, 48, 48, 48, 48, 48, 48, 48, 55]
        = 30000000000000007 := by decide
    rw [this]
    norm_num
  rw [hv] at lo hi hn
  exact ⟨hd, lo, hi, hn⟩

end zjson
